import Mathlib

/-! Qbit-Remote-GUI: bencode decoding, info-hash and torrent metadata.

A shallow embedding of `src/bencode.js` (`decode`) and of the torrent helpers of
`src/main.js` (`parseTorrentFile`, `getInfoHash` with its local `skipValue`,
`checkTorrentExists`).

Modelling conventions.

* A Node.js `Buffer` is a list of bytes (`Nat`, each below 256).
* A JavaScript number is a `JSNum`: `NaN`, the two infinities, or an integer-valued
  double.  Every number these functions compute is integer valued.  Sums and
  `parseInt` round to the nearest double (`toDouble`), so values above `2^53` lose
  precision exactly as they do in JavaScript.  Negative zero is identified with zero
  (the two are `===`-equal and coerce identically in this code).
* A JavaScript exception is the `throw` outcome.  The call stack is finite: the
  recursive functions take the number of stack frames still available and throw a
  `RangeError` when none is left, as the engine does.
* The recursive functions also take a step budget (`fuel`); `timeout` means that the
  run did not finish within it.
* Two pieces of JavaScript behaviour are left out, and a run that reaches one ends as
  `unsupported`: the assignment of a property named `__proto__` (it changes the prototype
  of the object) and `Number(v)` of a byte string, a list or a string (the result need
  not be integer valued).  The theorems say where they leave such runs out.
-/

namespace QbitRemote

/-! ## JavaScript numbers -/

/-- A JavaScript number, restricted to the values this code can produce. -/
inductive JSNum where
  | nan
  | pinf
  | ninf
  | fin (i : Int)
  deriving DecidableEq, Repr

/-- Number of low bits that do not fit in a 53-bit significand (first argument: fuel). -/
def roundShift : Nat → Nat → Nat
  | 0, _ => 0
  | f + 1, n => if n < 2 ^ 53 then 0 else roundShift f (n / 2) + 1

/-- Round a natural number to 53 significant bits, ties to even. -/
def roundNat (n : Nat) : Nat :=
  let s := roundShift n n
  let q := n / 2 ^ s
  let r := n % 2 ^ s
  let half := 2 ^ s / 2
  let q1 := if half < r ∨ (r = half ∧ 0 < s ∧ q % 2 = 1) then q + 1 else q
  q1 * 2 ^ s

/-- Magnitudes that round to this bound or beyond are infinite as doubles. -/
@[irreducible] def doubleLimit : Nat := 2 ^ 1024

/-- The double nearest to an integer (IEEE 754 round-to-nearest-even, overflow to infinity). -/
def toDouble (i : Int) : JSNum :=
  if i.natAbs ≤ 2 ^ 53 then .fin i
  else
    let m := roundNat i.natAbs
    if doubleLimit ≤ m then (if i < 0 then .ninf else .pinf)
    else .fin (if i < 0 then -(m : Int) else (m : Int))

namespace JSNum

/-- JavaScript `a + b` on numbers. -/
def add : JSNum → JSNum → JSNum
  | fin a, fin b => toDouble (a + b)
  | nan, _ => nan
  | _, nan => nan
  | pinf, ninf => nan
  | ninf, pinf => nan
  | pinf, _ => pinf
  | _, pinf => pinf
  | ninf, _ => ninf
  | _, ninf => ninf

/-- JavaScript `a < b` on numbers (false when either side is `NaN`). -/
def lt : JSNum → JSNum → Bool
  | fin a, fin b => decide (a < b)
  | nan, _ => false
  | _, nan => false
  | ninf, ninf => false
  | ninf, _ => true
  | _, ninf => false
  | pinf, _ => false
  | fin _, pinf => true

/-- The array index a number denotes as a property key, if any. -/
def toIndex? : JSNum → Option Nat
  | fin (Int.ofNat n) => some n
  | _ => none

/-- JavaScript truthiness of a number: false for `0` and `NaN`. -/
def truthy : JSNum → Bool
  | nan => false
  | fin 0 => false
  | _ => true

/-- The number `n` as a JavaScript number. -/
def ofNat (n : Nat) : JSNum := fin (n : Int)

end JSNum

/-! ## Buffers -/

/-- A Node.js `Buffer`: its bytes in order. -/
abbrev Buffer := List Nat

/-- The element read `buffer[pos]`: a byte, or `undefined` (`none`) when `pos` is not an
index inside the buffer. -/
def bufAt (buffer : Buffer) (pos : JSNum) : Option Nat :=
  match pos.toIndex? with
  | some i => buffer[i]?
  | none => none

/-- Index of the first occurrence of `x` in `bs`, the list starting at index `k`. -/
def findFrom (x : Nat) : List Nat → Nat → Option Nat
  | [], _ => none
  | y :: ys, k => if y = x then some k else findFrom x ys (k + 1)

/-- Node's `buffer.indexOf(x, byteOffset)` for a byte `x`: `NaN` searches from 0, the
offset is clamped to 32 bits, a negative offset counts from the end, an offset at or
past the end finds nothing (`-1`). -/
def indexOf (buffer : Buffer) (x : Nat) (byteOffset : JSNum) : JSNum :=
  let off : Int :=
    match byteOffset with
    | .nan => 0
    | .pinf => 2147483647
    | .ninf => -2147483648
    | .fin i => if 2147483647 < i then 2147483647 else if i < -2147483648 then -2147483648 else i
  let len : Int := buffer.length
  let from? : Option Nat :=
    if off < 0 then (if 0 ≤ off + len then some (off + len).toNat else some 0)
    else if off + 1 ≤ len then some off.toNat
    else none
  match from? with
  | none => .fin (-1)
  | some k =>
    match findFrom x (buffer.drop k) k with
    | some j => .ofNat j
    | none => .fin (-1)

/-- The bytes selected by Node's `buffer.toString(enc, start, end)`: `start <= 0` is 0, a
start at or past the length selects nothing, `end` past the length (or absent) is the
length, `NaN` is 0, and `end <= start` selects nothing. -/
def toStringRange (buffer : Buffer) (start stop : JSNum) : List Nat :=
  let len : Int := buffer.length
  let s? : Option Int :=
    match start with
    | .nan => some 0
    | .ninf => some 0
    | .pinf => none
    | .fin i => if i ≤ 0 then some 0 else if len ≤ i then none else some i
  let e : Int :=
    match stop with
    | .nan => 0
    | .pinf => len
    | .ninf => -1
    | .fin i => if len < i then len else i
  match s? with
  | none => []
  | some s => if e ≤ s then [] else (buffer.drop s.toNat).take (e - s).toNat

/-- Node's `adjustOffset(offset, length)` used by `buffer.slice`. -/
def adjustOffset (offset : JSNum) (length : Nat) : Nat :=
  match offset with
  | .nan => 0
  | .pinf => length
  | .ninf => 0
  | .fin i => if i < 0 then (i + length).toNat else if i < length then i.toNat else length

/-- Node's `buffer.slice(start, end)`. -/
def slice (buffer : Buffer) (start stop : JSNum) : Buffer :=
  let s := adjustOffset start buffer.length
  let e := adjustOffset stop buffer.length
  (buffer.drop s).take (e - s)

/-! ## Strings: `'ascii'` and `'utf8'` decoding, `parseInt` -/

/-- Code units of `toString('ascii', ..)`: Node clears the high bit of every byte. -/
def asciiDecode (bytes : List Nat) : List Nat := bytes.map (· % 128)

/-- White space that `parseInt` skips, among the characters below 128. -/
def isWhite (c : Nat) : Bool := c = 9 || c = 10 || c = 11 || c = 12 || c = 13 || c = 32

/-- A decimal digit character. -/
def isDigit (c : Nat) : Bool := decide (48 ≤ c) && decide (c ≤ 57)

/-- The value of a run of decimal digit characters, most significant first. -/
def digitsValue (ds : List Nat) : Nat := ds.foldl (fun acc d => acc * 10 + (d - 48)) 0

/-- JavaScript `parseInt(s, 10)` on a string given by its character codes: skip leading
white space, read an optional sign, then the longest run of digits; `NaN` without one. -/
def parseInt (s : List Nat) : JSNum :=
  let t := s.dropWhile isWhite
  let neg : Bool := t.head? = some 45
  let u := if t.head? = some 45 ∨ t.head? = some 43 then t.tail else t
  let ds := u.takeWhile isDigit
  if ds = [] then .nan
  else toDouble (if neg then -(digitsValue ds : Int) else (digitsValue ds : Int))

/-- State of the UTF-8 decoder between bytes: continuation bytes still needed, the code
point so far, and the range allowed for the next byte. -/
structure Utf8State where
  needed : Nat
  cp : Nat
  lower : Nat
  upper : Nat

/-- What a byte does at a code-point boundary: emit a code point, or open a sequence. -/
def utf8Lead (b : Nat) : Nat ⊕ Utf8State :=
  if b < 0x80 then .inl b
  else if 0xC2 ≤ b ∧ b ≤ 0xDF then .inr ⟨1, b - 0xC0, 0x80, 0xBF⟩
  else if 0xE0 ≤ b ∧ b ≤ 0xEF then
    .inr ⟨2, b - 0xE0, if b = 0xE0 then 0xA0 else 0x80, if b = 0xED then 0x9F else 0xBF⟩
  else if 0xF0 ≤ b ∧ b ≤ 0xF4 then
    .inr ⟨3, b - 0xF0, if b = 0xF0 then 0x90 else 0x80, if b = 0xF4 then 0x8F else 0xBF⟩
  else .inl 0xFFFD

/-- The UTF-8 decoder of `toString('utf8')`: malformed input is replaced by U+FFFD, one
per maximal invalid prefix, and decoding resumes at the offending byte. -/
def utf8Go : List Nat → Option Utf8State → List Nat
  | [], none => []
  | [], some _ => [0xFFFD]
  | b :: rest, none =>
    match utf8Lead b with
    | .inl c => c :: utf8Go rest none
    | .inr st => utf8Go rest (some st)
  | b :: rest, some st =>
    if st.lower ≤ b ∧ b ≤ st.upper then
      if st.needed = 1 then (st.cp * 64 + (b - 0x80)) :: utf8Go rest none
      else utf8Go rest (some ⟨st.needed - 1, st.cp * 64 + (b - 0x80), 0x80, 0xBF⟩)
    else
      0xFFFD ::
        (match utf8Lead b with
         | .inl c => c :: utf8Go rest none
         | .inr st1 => utf8Go rest (some st1))

/-- The string `Buffer.toString('utf8')` yields for these bytes. -/
def utf8Decode (bytes : List Nat) : String :=
  String.mk ((utf8Go bytes none).map Char.ofNat)

/-! ## Outcomes -/

/-- A JavaScript exception raised by this code. -/
inductive JSErr where
  /-- The error of `throw new Error('Invalid bencode ...')`, with the offset `decode`
  reports (`skipValue` reports none). -/
  | invalidBencode (offset : Option JSNum)
  /-- The engine's `RangeError: Maximum call stack size exceeded`. -/
  | rangeError
  /-- The engine's `TypeError` (a value that cannot be converted to a primitive). -/
  | typeError
  deriving DecidableEq, Repr

/-- How a call ends: it returns, it throws, the step budget ran out first, or it reached
JavaScript behaviour that this embedding does not describe (`unsupported`: assigning the
property `__proto__`, converting a byte string or list to a number). -/
inductive Outcome (α : Type) where
  | ok (a : α)
  | throw (e : JSErr)
  | timeout
  | unsupported
  deriving DecidableEq, Repr

/-! ## `getInfoHash` and its `skipValue` (src/main.js) -/

mutual
/-- The local function `skipValue(buffer, start)` of `getInfoHash`, with `fuel` steps and
`stack` frames available. -/
def skipValue : Nat → Nat → Buffer → JSNum → Outcome JSNum
  | 0, _, _, _ => .timeout
  | _ + 1, 0, _, _ => .throw .rangeError
  | fuel + 1, stack + 1, buffer, start =>
    match bufAt buffer start with
    | none => .throw (.invalidBencode none)
    | some c =>
      if c = 0x69 then .ok ((indexOf buffer 0x65 start).add (.fin 1))
      else if 0x30 ≤ c ∧ c ≤ 0x39 then
        let colon := indexOf buffer 0x3a start
        let len := parseInt (asciiDecode (toStringRange buffer start colon))
        .ok ((colon.add (.fin 1)).add len)
      else if c = 0x6c then skipListLoop fuel stack buffer (start.add (.fin 1))
      else if c = 0x64 then skipDictLoop fuel stack buffer (start.add (.fin 1))
      else .throw (.invalidBencode none)
/-- The loop `while (buffer[p] !== 0x65) p = skipValue(buffer, p); return p + 1`. -/
def skipListLoop : Nat → Nat → Buffer → JSNum → Outcome JSNum
  | 0, _, _, _ => .timeout
  | fuel + 1, stack, buffer, p =>
    if bufAt buffer p = some 0x65 then .ok (p.add (.fin 1))
    else
      match skipValue fuel stack buffer p with
      | .ok p1 => skipListLoop fuel stack buffer p1
      | .throw e => .throw e
      | .timeout => .timeout
      | .unsupported => .unsupported
/-- The loop of the dictionary case: two `skipValue` calls per round. -/
def skipDictLoop : Nat → Nat → Buffer → JSNum → Outcome JSNum
  | 0, _, _, _ => .timeout
  | fuel + 1, stack, buffer, p =>
    if bufAt buffer p = some 0x65 then .ok (p.add (.fin 1))
    else
      match skipValue fuel stack buffer p with
      | .ok p1 =>
        match skipValue fuel stack buffer p1 with
        | .ok p2 => skipDictLoop fuel stack buffer p2
        | .throw e => .throw e
        | .timeout => .timeout
        | .unsupported => .unsupported
      | .throw e => .throw e
      | .timeout => .timeout
      | .unsupported => .unsupported
end

/-- The result of `getInfoHash`: `null`, or the hex digest. -/
inductive InfoHash where
  | unavailable
  | hash (hex : String)
  deriving DecidableEq, Repr

/-- One hexadecimal digit, as Node's `digest('hex')` writes it. -/
def hexDigit (n : Nat) : Char := Char.ofNat (if n < 10 then 48 + n else 87 + n)

/-- Node's hex encoding of bytes: two lowercase digits per byte. -/
def hexEncode (bytes : List Nat) : String :=
  String.mk (bytes.flatMap (fun x => [hexDigit (x / 16 % 16), hexDigit (x % 16)]))

/-- JavaScript `s.toLowerCase()`, on strings of characters below 128. -/
def toLowerCase (s : String) : String := String.mk (s.data.map Char.toLower)

/-- The main loop of `getInfoHash`, from `pos`.  `sha1` is the digest computed by
`crypto.createHash('sha1').update(b).digest()`. -/
def infoLoop (sha1 : Buffer → List Nat) : Nat → Nat → Buffer → JSNum → Outcome InfoHash
  | 0, _, _, _ => .timeout
  | fuel + 1, stack, buf, pos =>
    if pos.lt (.ofNat buf.length) && decide (bufAt buf pos ≠ some 0x65) then
      match skipValue fuel stack buf pos with
      | .ok keyEnd =>
        let colon := indexOf buf 0x3a pos
        let keyLen := parseInt (asciiDecode (toStringRange buf pos colon))
        let key := utf8Decode (toStringRange buf (colon.add (.fin 1)) ((colon.add (.fin 1)).add keyLen))
        let valStart := keyEnd
        match skipValue fuel stack buf valStart with
        | .ok valEnd =>
          if key = "info" then .ok (.hash (toLowerCase (hexEncode (sha1 (slice buf valStart valEnd)))))
          else infoLoop sha1 fuel stack buf valEnd
        | .throw e => .throw e
        | .timeout => .timeout
        | .unsupported => .unsupported
      | .throw e => .throw e
      | .timeout => .timeout
      | .unsupported => .unsupported
    else .ok .unavailable

/-- The function `getInfoHash` on the bytes `readFileSync` returned.  Every exception is
caught and turned into `null`; `none` means the step budget ran out. -/
def getInfoHash (sha1 : Buffer → List Nat) (fuel stack : Nat) (buf : Buffer) : Option InfoHash :=
  if bufAt buf (.fin 0) ≠ some 0x64 then some .unavailable
  else
    match infoLoop sha1 fuel stack buf (.fin 1) with
    | .ok r => some r
    | .throw _ => some .unavailable
    | .timeout => none
    | .unsupported => none

/-! ## JavaScript values and `decode` (src/bencode.js) -/

/-- The JavaScript values this code handles: `undefined`, numbers, strings, `Buffer`s,
arrays, and plain objects given by their own properties. -/
inductive JSVal where
  | undefined
  | num (n : JSNum)
  | str (s : String)
  | buf (b : Buffer)
  | arr (xs : List JSVal)
  | obj (props : List (String × JSVal))

/-- Decimal digits of `n`, most significant first, onto `acc` (first argument: fuel). -/
def decimalAux : Nat → Nat → List Nat → List Nat
  | 0, _, acc => acc
  | f + 1, n, acc =>
    if n < 10 then (48 + n) :: acc else decimalAux f (n / 10) ((48 + n % 10) :: acc)

/-- The decimal numeral of `n` as character codes. -/
def decimal (n : Nat) : List Nat := decimalAux (n + 1) n []

/-- The search of `Number::toString` for the shortest decimal that reads back as the double
`m`: with `k` significant digits (of the `D` digits of `m`) the multiples of `10^(D-k)` just
below and just above `m` are tried, and the one that rounds to `m` is taken (the closer of
the two, the even one on a tie); otherwise one more digit is used.  First argument: fuel. -/
def shortestFrom (m D : Nat) : Nat → Nat → Nat
  | 0, _ => m
  | f + 1, k =>
    let p := 10 ^ (D - k)
    let lo := m / p * p
    let hi := lo + p
    let okLo := decide (toDouble (Int.ofNat lo) = .fin (Int.ofNat m))
    let okHi := decide (toDouble (Int.ofNat hi) = .fin (Int.ofNat m))
    if okLo && okHi then
      (if m - lo < hi - m then lo else if hi - m < m - lo then hi
        else if m / p % 2 = 0 then lo else hi)
    else if okLo then lo
    else if okHi then hi
    else shortestFrom m D f (k + 1)

/-- The number whose decimal numeral `String(m)` shows for a double `m` above `2^53`. -/
def shortest (m : Nat) : Nat := shortestFrom m (decimal m).length (decimal m).length 1

/-- A numeral without its trailing zeros. -/
def stripTrailingZeros (ds : List Nat) : List Nat := (ds.reverse.dropWhile (· = 48)).reverse

/-- Exponent notation of `v`: first digit, the other significant digits after a point, `e+`
and the decimal exponent. -/
def exponentText (v : Nat) : List Nat :=
  match stripTrailingZeros (decimal v) with
  | [] => []
  | d :: rest =>
    (if rest = [] then [d] else d :: 46 :: rest) ++ [101, 43] ++ decimal ((decimal v).length - 1)

/-- The characters of `String(m)` for a double `m` above `2^53`: the shortest numeral,
written out below `1e21` and in exponent notation from there on. -/
def shortestText (m : Nat) : List Nat :=
  if shortest m < 10 ^ 21 then decimal (shortest m) else exponentText (shortest m)

/-- JavaScript `String(n)` for a number.  Up to `2^53` in magnitude the text is the decimal
numeral; above, it is the shortest numeral that reads back as the same double; `none` for an
integer that is not a double (no JavaScript number). -/
def numToString : JSNum → Option String
  | .nan => some "NaN"
  | .pinf => some "Infinity"
  | .ninf => some "-Infinity"
  | .fin i =>
    if i.natAbs ≤ 2 ^ 53 then
      some (String.mk (((if i < 0 then [45] else []) ++ decimal i.natAbs).map Char.ofNat))
    else if toDouble i = .fin i then
      some (String.mk (((if i < 0 then [45] else []) ++ shortestText i.natAbs).map Char.ofNat))
    else none

/-- Strings joined with a separator, as `Array.prototype.join` does. -/
def joinWith (sep : String) : List String → String
  | [] => ""
  | [s] => s
  | s :: t :: rest => s ++ sep ++ joinWith sep (t :: rest)

/-- Collect the results of a list of calls, stopping at the first that does not return. -/
def collect {α : Type} : List (Outcome α) → Outcome (List α)
  | [] => .ok []
  | .ok a :: rest =>
    match collect rest with
    | .ok as => .ok (a :: as)
    | .throw e => .throw e
    | .timeout => .timeout
    | .unsupported => .unsupported
  | .throw e :: _ => .throw e
  | .timeout :: _ => .timeout
  | .unsupported :: _ => .unsupported

mutual
/-- JavaScript `String(v)`.  A `Buffer` prints its UTF-8 text, an array its elements joined
by commas, a plain object `[object Object]`; a plain object with an own property
`toString` has no callable conversion method left, which is a `TypeError`. -/
def jsString : JSVal → Outcome String
  | .undefined => .ok "undefined"
  | .num n =>
    match numToString n with
    | some s => .ok s
    | none => .unsupported
  | .str s => .ok s
  | .buf b => .ok (utf8Decode b)
  | .arr xs =>
    match collect (jsStringList xs) with
    | .ok ss => .ok (joinWith "," ss)
    | .throw e => .throw e
    | .timeout => .timeout
    | .unsupported => .unsupported
  | .obj props => if props.any (fun p => p.1 = "toString") then .throw .typeError else .ok "[object Object]"
/-- The conversion `String(x)` of every element of an array. -/
def jsStringList : List JSVal → List (Outcome String)
  | [] => []
  | x :: xs => jsString x :: jsStringList xs
end

/-- The assignment `dict[key] = v` on the own properties of a plain object (the last write
to a key wins). -/
def setProp : List (String × JSVal) → String → JSVal → List (String × JSVal)
  | [], key, v => [(key, v)]
  | (k, w) :: rest, key, v => if k = key then (k, v) :: rest else (k, w) :: setProp rest key v

/-- The property name of a decoded key:
`Buffer.isBuffer(k.v) ? k.v.toString('utf8') : String(k.v)`. -/
def keyOf (k : JSVal) : Outcome String :=
  match k with
  | .buf b => .ok (utf8Decode b)
  | w => jsString w

mutual
/-- The function `decode(buffer, start)` of bencode.js, with `fuel` steps and `stack`
frames available; it returns the pair `{ v, end }`. -/
def decode : Nat → Nat → Buffer → JSNum → Outcome (JSVal × JSNum)
  | 0, _, _, _ => .timeout
  | _ + 1, 0, _, _ => .throw .rangeError
  | fuel + 1, stack + 1, buffer, start0 =>
    let start := if start0.truthy then start0 else .fin 0
    match bufAt buffer start with
    | none => .throw (.invalidBencode (some start))
    | some c =>
      if c = 0x69 then
        let stop := indexOf buffer 0x65 start
        let str := asciiDecode (toStringRange buffer (start.add (.fin 1)) stop)
        .ok (.num (parseInt str), stop.add (.fin 1))
      else if 0x30 ≤ c ∧ c ≤ 0x39 then
        let colon := indexOf buffer 0x3a start
        let len := parseInt (asciiDecode (toStringRange buffer start colon))
        let stop := (colon.add (.fin 1)).add len
        .ok (.buf (slice buffer (colon.add (.fin 1)) stop), stop)
      else if c = 0x6c then decodeListLoop fuel stack buffer (start.add (.fin 1)) []
      else if c = 0x64 then decodeDictLoop fuel stack buffer (start.add (.fin 1)) []
      else .throw (.invalidBencode (some start))
/-- The list loop of `decode`: `list` holds the elements pushed so far. -/
def decodeListLoop : Nat → Nat → Buffer → JSNum → List JSVal → Outcome (JSVal × JSNum)
  | 0, _, _, _, _ => .timeout
  | fuel + 1, stack, buffer, pos, list =>
    if bufAt buffer pos = some 0x65 then .ok (.arr list, pos.add (.fin 1))
    else
      match decode fuel stack buffer pos with
      | .ok r => decodeListLoop fuel stack buffer r.2 (list ++ [r.1])
      | .throw e => .throw e
      | .timeout => .timeout
      | .unsupported => .unsupported
/-- The dictionary loop of `decode`: `dict` holds the properties assigned so far.  The
assignment `dict['__proto__'] = v`, which changes the prototype of the object instead of
adding a property, is not described: the run ends as `unsupported` there. -/
def decodeDictLoop : Nat → Nat → Buffer → JSNum → List (String × JSVal) → Outcome (JSVal × JSNum)
  | 0, _, _, _, _ => .timeout
  | fuel + 1, stack, buffer, pos, dict =>
    if bufAt buffer pos = some 0x65 then .ok (.obj dict, pos.add (.fin 1))
    else
      match decode fuel stack buffer pos with
      | .ok k =>
        match decode fuel stack buffer k.2 with
        | .ok val =>
          match keyOf k.1 with
          | .ok key =>
            if key = "__proto__" then .unsupported
            else decodeDictLoop fuel stack buffer val.2 (setProp dict key val.1)
          | .throw e => .throw e
          | .timeout => .timeout
          | .unsupported => .unsupported
        | .throw e => .throw e
        | .timeout => .timeout
        | .unsupported => .unsupported
      | .throw e => .throw e
      | .timeout => .timeout
      | .unsupported => .unsupported
end

/-- The export `decode: (buffer) => decode(buffer, 0).v` of bencode.js. -/
def bencodeDecode (fuel stack : Nat) (buffer : Buffer) : Outcome JSVal :=
  match decode fuel stack buffer (.fin 0) with
  | .ok r => .ok r.1
  | .throw e => .throw e
  | .timeout => .timeout
  | .unsupported => .unsupported

/-! ## `parseTorrentFile` (src/main.js) -/

namespace Outcome

/-- Sequencing: continue with the returned value, propagate anything else. -/
def bind {α β : Type} (x : Outcome α) (f : α → Outcome β) : Outcome β :=
  match x with
  | .ok a => f a
  | .throw e => .throw e
  | .timeout => .timeout
  | .unsupported => .unsupported

end Outcome

/-- One entry of the `files` array of the result. -/
structure FileEntry where
  index : Nat
  path : String
  length : JSNum
  deriving DecidableEq, Repr

/-- The object `{ name, files, totalSize }` that `parseTorrentFile` returns. -/
structure TorrentMetadata where
  name : String
  files : List FileEntry
  totalSize : JSNum
  deriving DecidableEq, Repr

/-- JavaScript truthiness. -/
def JSVal.truthy : JSVal → Bool
  | .undefined => false
  | .num n => n.truthy
  | .str s => decide (s ≠ "")
  | .buf _ => true
  | .arr _ => true
  | .obj _ => true

/-- JavaScript `a || b`. -/
def JSVal.orElse (a b : JSVal) : JSVal := if a.truthy then a else b

/-- The helper `get(obj, key)`: `obj[key]` for an array or plain object, `undefined` for
everything else.  It is only called with the names `info`, `files`, `path`, `length` and
`name`, none of which an array or plain object inherits; an array owns `length` (a
JavaScript array has fewer than `2^32` elements, so the conversion is exact). -/
def get (obj : JSVal) (key : String) : JSVal :=
  match obj with
  | .arr xs => if key = "length" then .num (toDouble xs.length) else .undefined
  | .obj props =>
    match props.lookup key with
    | some v => v
    | none => .undefined
  | _ => .undefined

mutual
/-- The helper `toStr(v)`: UTF-8 text of a `Buffer`, the parts of an array joined by `/`,
`String(v)` otherwise. -/
def toStr : JSVal → Outcome String
  | .buf b => .ok (utf8Decode b)
  | .arr xs =>
    match collect (toStrList xs) with
    | .ok ss => .ok (joinWith "/" ss)
    | .throw e => .throw e
    | .timeout => .timeout
    | .unsupported => .unsupported
  | .undefined => jsString .undefined
  | .num n => jsString (.num n)
  | .str s => jsString (.str s)
  | .obj props => jsString (.obj props)
/-- The call `v.map(toStr)`. -/
def toStrList : List JSVal → List (Outcome String)
  | [] => []
  | x :: xs => toStr x :: toStrList xs
end

/-- JavaScript `Number(v)`.  A plain object converts through `String(v)` to `NaN`; the
string-to-number grammar needed for a `Buffer`, array or string is not described here. -/
def toNumber : JSVal → Outcome JSNum
  | .undefined => .ok .nan
  | .num n => .ok n
  | .str _ => .unsupported
  | .buf _ => .unsupported
  | .arr _ => .unsupported
  | .obj props => if props.any (fun p => p.1 = "toString") then .throw .typeError else .ok .nan

/-- The callback of `infoFiles.map((f, i) => ...)`, without the update of `totalSize`. -/
def fileEntry (f : JSVal) (i : Nat) : Outcome FileEntry :=
  let pathParts := get f "path"
  let pathStr : Outcome String :=
    match pathParts with
    | .arr xs => (collect (toStrList xs)).bind (fun ss => .ok (joinWith "/" ss))
    | _ => toStr ((get f "path").orElse (.str ""))
  pathStr.bind fun p =>
    (toNumber ((get f "length").orElse (.num (.fin 0)))).bind fun len =>
      .ok ⟨i, p, len⟩

/-- The call `infoFiles.map(...)` from index `i` on, with the running `totalSize`. -/
def mapFiles : List JSVal → Nat → JSNum → Outcome (List FileEntry × JSNum)
  | [], _, total => .ok ([], total)
  | f :: rest, i, total =>
    (fileEntry f i).bind fun e =>
      (mapFiles rest (i + 1) (total.add e.length)).bind fun r =>
        .ok (e :: r.1, r.2)

/-- The body of `parseTorrentFile` after decoding. -/
def extractMetadata (decoded : JSVal) : Outcome TorrentMetadata :=
  let info := (get decoded "info").orElse decoded
  let infoFiles := get info "files"
  let filesAndSize : Outcome (List FileEntry × JSNum) :=
    match infoFiles with
    | .arr fs => mapFiles fs 0 (.fin 0)
    | _ =>
      (toNumber ((get info "length").orElse (.num (.fin 0)))).bind fun len =>
        (toStr ((get info "name").orElse (.str "file"))).bind fun name =>
          .ok ([⟨0, name, len⟩], len)
  filesAndSize.bind fun r =>
    (toStr ((get info "name").orElse (.str "torrent"))).bind fun name =>
      .ok ⟨name, r.1, r.2⟩

/-- The function `parseTorrentFile` on the bytes `readFileSync` returned. -/
def parseTorrentFile (fuel stack : Nat) (buf : Buffer) : Outcome TorrentMetadata :=
  (bencodeDecode fuel stack buf).bind extractMetadata

/-! ## `checkTorrentExists` (src/main.js) -/

/-- How `await doLogin(...)` ends: it resolves to a boolean, or it rejects (network error,
timeout, invalid URL). -/
inductive LoginOutcome where
  | resolved (loggedIn : Bool)
  | rejected
  deriving DecidableEq, Repr

/-- How the in-page request ends: `fetch` answered with a status, `fetch` raised inside
the page (caught there, the script returns `false`), or `executeJavaScript` itself
rejected. -/
inductive PageOutcome where
  | answered (status : Nat)
  | fetchRaised
  | scriptRejected
  deriving DecidableEq, Repr

/-- How the direct `http.request` ends: a response with a status, an `error` event, or
the 8 second timeout. -/
inductive DirectOutcome where
  | response (statusCode : Nat)
  | error
  | timedOut
  deriving DecidableEq, Repr

/-- Everything `checkTorrentExists` reads from its surroundings. -/
structure CheckEnv where
  /-- Result of `getInfoHash(torrentPath)`. -/
  infoHash : InfoHash
  /-- The stored URL is a non-empty string. -/
  hasBaseUrl : Bool
  /-- The value of `getUserDisconnected()`. -/
  userDisconnected : Bool
  /-- A user name is stored and is not blank: `user && user.trim()`. -/
  hasUser : Bool
  login : LoginOutcome
  /-- The main window and its web contents exist and are not destroyed. -/
  windowAlive : Bool
  /-- The page URL is non-empty, starts with the origin and does not contain `login`. -/
  pageOnOrigin : Bool
  page : PageOutcome
  direct : DirectOutcome
  deriving DecidableEq, Repr

/-- The property `resp.ok` of a fetch response: the status is in the range 200 to 299. -/
def respOk (status : Nat) : Bool := decide (200 ≤ status) && decide (status ≤ 299)

/-- The value `checkTorrentExists` resolves to, with a valid stored URL and a readable
cookie store. -/
def checkTorrentExists (env : CheckEnv) : Bool :=
  match env.infoHash with
  | .unavailable => false
  | .hash hex =>
    if hex = "" then false
    else if !env.hasBaseUrl then false
    else if env.userDisconnected then false
    else if env.hasUser && env.login != .resolved true then false
    else
      let directResult : Bool :=
        match env.direct with
        | .response statusCode => decide (statusCode = 200)
        | .error => false
        | .timedOut => false
      if env.windowAlive && env.pageOnOrigin then
        match env.page with
        | .answered status => respOk status
        | .fetchRaised => false
        | .scriptRejected => directResult
      else directResult

/-! ## Bencoded values and their canonical encoding

The values of the specification's data model and the encoding its grammar describes
(`i<digits>e`, `<len>:<bytes>`, `l...e`, `d...e`).  Dictionaries are kept as the sequence of
their key/value pairs, keys being byte strings. -/

/-- A bencoded value. -/
inductive BVal where
  | int (i : Int)
  | bytes (b : List Nat)
  | list (xs : List BVal)
  | dict (kvs : List (List Nat × BVal))

/-- Encoding of an integer: `i`, an optional `-`, the decimal digits, `e`. -/
def encInt (i : Int) : List Nat :=
  105 :: ((if i < 0 then [45] else []) ++ decimal i.natAbs) ++ [101]

/-- Encoding of a byte string: the decimal length, `:`, the bytes. -/
def encBytes (b : List Nat) : List Nat := decimal b.length ++ 58 :: b

mutual
/-- The canonical encoding of a value. -/
def BVal.encode : BVal → List Nat
  | .int i => encInt i
  | .bytes b => encBytes b
  | .list xs => 108 :: encodeList xs ++ [101]
  | .dict kvs => 100 :: encodePairs kvs ++ [101]
/-- The concatenated encodings of the elements of a list. -/
def encodeList : List BVal → List Nat
  | [] => []
  | x :: xs => x.encode ++ encodeList xs
/-- The concatenated encodings of the key/value pairs of a dictionary. -/
def encodePairs : List (List Nat × BVal) → List Nat
  | [] => []
  | kv :: rest => encBytes kv.1 ++ kv.2.encode ++ encodePairs rest
end

mutual
/-- Nesting depth: the number of stack frames a recursive walk of the value needs. -/
def BVal.depth : BVal → Nat
  | .int _ => 1
  | .bytes _ => 1
  | .list xs => depthList xs + 1
  | .dict kvs => depthPairs kvs + 1
/-- The largest depth among the elements of a list. -/
def depthList : List BVal → Nat
  | [] => 0
  | x :: xs => max x.depth (depthList xs)
/-- The largest depth among the keys (depth 1) and values of a dictionary. -/
def depthPairs : List (List Nat × BVal) → Nat
  | [] => 0
  | kv :: rest => max (max 1 kv.2.depth) (depthPairs rest)
end

mutual
/-- The JavaScript value a bencoded value stands for: a number, a `Buffer`, an array, or a
plain object whose property names are the UTF-8 texts of the keys. -/
def BVal.toJS : BVal → JSVal
  | .int i => .num (.fin i)
  | .bytes b => .buf b
  | .list xs => .arr (toJSList xs)
  | .dict kvs => .obj (toJSPairs kvs)
/-- The JavaScript values of the elements of a list. -/
def toJSList : List BVal → List JSVal
  | [] => []
  | x :: xs => x.toJS :: toJSList xs
/-- The properties a sequence of key/value pairs stands for. -/
def toJSPairs : List (List Nat × BVal) → List (String × JSVal)
  | [] => []
  | kv :: rest => (utf8Decode kv.1, kv.2.toJS) :: toJSPairs rest
end

/-- The texts of the keys of a sequence of key/value pairs. -/
def keyTexts (kvs : List (List Nat × BVal)) : List String := kvs.map (fun kv => utf8Decode kv.1)

mutual
/-- The values `decode` can give back unchanged: integers of magnitude at most `2^53`, byte
strings, lists of such values, and dictionaries of such values whose key texts are
pairwise different and none of which is `__proto__`. -/
def BVal.Representable : BVal → Prop
  | .int i => i.natAbs ≤ 2 ^ 53
  | .bytes _ => True
  | .list xs => RepresentableList xs
  | .dict kvs => RepresentablePairs kvs ∧ (keyTexts kvs).Nodup ∧ "__proto__" ∉ keyTexts kvs
/-- Every element of the list is representable. -/
def RepresentableList : List BVal → Prop
  | [] => True
  | x :: xs => x.Representable ∧ RepresentableList xs
/-- Every value of the pairs is representable. -/
def RepresentablePairs : List (List Nat × BVal) → Prop
  | [] => True
  | kv :: rest => kv.2.Representable ∧ RepresentablePairs rest
end

/-- The entries `parseTorrentFile` lists for files given by their path components and
length, numbered from `i`: the components are decoded as UTF-8 and joined with `/`. -/
def expectedFiles : List (List (List Nat) × Int) → Nat → List FileEntry
  | [], _ => []
  | e :: es, i => ⟨i, joinWith "/" (e.1.map utf8Decode), .fin e.2⟩ :: expectedFiles es (i + 1)

/-- The JavaScript sum `files.reduce((a, f) => a + f.length, 0)`. -/
def sumLengths (files : List FileEntry) : JSNum :=
  files.foldl (fun a f => a.add f.length) (.fin 0)

/-- The number is the value of a double: rounding it again changes nothing. -/
def JSNum.IsDouble : JSNum → Prop
  | .fin i => toDouble i = .fin i
  | _ => True

mutual
/-- Every number inside the value is the value of a double. -/
def JSVal.NumsOK : JSVal → Prop
  | .undefined => True
  | .num n => n.IsDouble
  | .str _ => True
  | .buf _ => True
  | .arr xs => NumsOKList xs
  | .obj props => NumsOKProps props
/-- Every element of the array satisfies `NumsOK`. -/
def NumsOKList : List JSVal → Prop
  | [] => True
  | x :: xs => x.NumsOK ∧ NumsOKList xs
/-- Every property value satisfies `NumsOK`. -/
def NumsOKProps : List (String × JSVal) → Prop
  | [] => True
  | p :: ps => p.2.NumsOK ∧ NumsOKProps ps
end

/-- The first file of the specification's example: `{path: ["a.txt"], length: 10}`. -/
def packFileA : BVal :=
  .dict [([112, 97, 116, 104], .list [.bytes [97, 46, 116, 120, 116]]),
         ([108, 101, 110, 103, 116, 104], .int 10)]

/-- The second file of the specification's example: `{path: ["b", "c.txt"], length: 20}`. -/
def packFileB : BVal :=
  .dict [([112, 97, 116, 104], .list [.bytes [98], .bytes [99, 46, 116, 120, 116]]),
         ([108, 101, 110, 103, 116, 104], .int 20)]

/-- The specification's two-file info structure `{name: "pack", files: [...]}`. -/
def packExample : BVal :=
  .dict [([110, 97, 109, 101], .bytes [112, 97, 99, 107]),
         ([102, 105, 108, 101, 115], .list [packFileA, packFileB])]

/-! ## Auxiliary notions used in the proofs -/

/-- Every element is a decimal digit character. -/
def AllDigits (ds : List Nat) : Prop := ∀ d ∈ ds, 48 ≤ d ∧ d ≤ 57

/-- The part of an integer encoding between `i` and `e`. -/
def intBody (i : Int) : List Nat := (if i < 0 then [45] else []) ++ decimal i.natAbs

/-- The decoder is inside a multi-byte sequence whose code point will be 128 or more. -/
def Utf8State.High (st : Utf8State) : Prop :=
  1 ≤ st.needed ∧ 128 ≤ st.lower ∧ (st.needed = 1 → 2 ≤ st.cp) ∧
    (2 ≤ st.needed → 1 ≤ st.cp ∨ 144 ≤ st.lower)

/-- The bytes of the key `info`. -/
def infoKey : List Nat := [105, 110, 102, 111]

/-- The offset `r` is not behind a walk that was at index `p`: it is the offset 0, or no
byte of the buffer, or an index greater than `p`. -/
def Progress (buffer : Buffer) (p : Nat) (r : JSNum) : Prop :=
  r = .fin 0 ∨ bufAt buffer r = none ∨ ∃ i, r = JSNum.ofNat i ∧ p < i

/-- A buffer in which no call of the walk at offset 0 ever returns, and whose first byte
is not `e`. -/
structure NoReturnAtZero (buffer : Buffer) : Prop where
  short : buffer.length < 2 ^ 31
  first : bufAt buffer (.fin 0) ≠ some 0x65
  never : ∀ n k r, skipValue n k buffer (.fin 0) ≠ .ok r

/-- Every call with stack budget `k` ends. -/
def CallsEnd (buffer : Buffer) (k : Nat) : Prop :=
  ∀ p, ∃ n, skipValue n k buffer p ≠ .timeout

/-- A buffer in which no call of `decode` at offset 0 ever returns, and whose first byte
is not `e`. -/
structure NoDecodeAtZero (buffer : Buffer) : Prop where
  short : buffer.length < 2 ^ 31
  first : bufAt buffer (.fin 0) ≠ some 0x65
  never : ∀ n k r, decode n k buffer (.fin 0) ≠ .ok r

/-- Every call of `decode` with stack budget `k` ends. -/
def DecodeCallsEnd (buffer : Buffer) (k : Nat) : Prop :=
  ∀ p, ∃ n, decode n k buffer p ≠ .timeout

/-- The bytes `ie1:li`, on which the list loop entered at offset 4 cycles through the
offsets 5, 0 and 2. -/
def cyclingBuffer : Buffer := [105, 101, 49, 58, 108, 105]

/-! ## JavaScript strings -/

/-- The characters `String.prototype.trim` removes: white space and line terminators. -/
def isJsSpace (c : Char) : Bool :=
  c.toNat = 0x9 || c.toNat = 0xA || c.toNat = 0xB || c.toNat = 0xC || c.toNat = 0xD ||
    c.toNat = 0x20 || c.toNat = 0xA0 || c.toNat = 0x1680 ||
    (decide (0x2000 ≤ c.toNat) && decide (c.toNat ≤ 0x200A)) ||
    c.toNat = 0x2028 || c.toNat = 0x2029 || c.toNat = 0x202F || c.toNat = 0x205F ||
    c.toNat = 0x3000 || c.toNat = 0xFEFF

/-- Trimming on the characters of a string. -/
def trimChars (cs : List Char) : List Char :=
  ((cs.dropWhile isJsSpace).reverse.dropWhile isJsSpace).reverse

/-- JavaScript `s.trim()`. -/
def jsTrim (s : String) : String := String.mk (trimChars s.data)

/-- JavaScript `String(n)` for a natural number up to `2^53`, such as an HTTP status. -/
def natText (n : Nat) : String := String.mk ((decimal n).map Char.ofNat)

/-- JavaScript `String(n)` for an integer-valued number (`unsupported` for an integer that
is not a double). -/
def numberText (i : Int) : Outcome String :=
  match numToString (.fin i) with
  | some s => .ok s
  | none => .unsupported

/-! ## Recent save paths (src/main.js) -/

/-- The two keys of the persistent store this code uses for save paths, with the types the
application writes: `addTorrentSavePaths` is absent or an array of strings, the legacy key
`addTorrentSavePath` is absent or a string.  Store reads and writes succeed. -/
structure Store where
  savePaths : Option (List String)
  legacyPath : Option String
  deriving DecidableEq, Repr

/-- The constant `MAX_SAVE_PATHS`. -/
def MAX_SAVE_PATHS : Nat := 30

/-- The function `getRecentSavePaths()`: the list it returns and the store it leaves (the
legacy key is migrated on first use). -/
def getRecentSavePaths (store : Store) : List String × Store :=
  match store.savePaths with
  | none =>
    match store.legacyPath with
    | some legacy =>
      if legacy ≠ "" then
        ([legacy].filter (fun x => decide (x ≠ "")), { savePaths := some [legacy], legacyPath := none })
      else ([], store)
    | none => ([], store)
  | some paths => (paths.filter (fun x => decide (x ≠ "")), store)

/-- The function `addSavePathToRecent(p)`. -/
def addSavePathToRecent (p : String) (store : Store) : Store :=
  if p = "" then store
  else
    let trimmed := jsTrim p
    if trimmed = "" then store
    else
      let r := getRecentSavePaths store
      let paths := trimmed :: r.1.filter (fun x => decide (x ≠ trimmed))
      { r.2 with savePaths := some (paths.take MAX_SAVE_PATHS) }

/-- The statement `if (savepath && savepath.trim()) addSavePathToRecent(savepath.trim())` of
the add-torrent handler. -/
def recordSavePath (savepath : Option String) (store : Store) : Store :=
  match savepath with
  | none => store
  | some s => if s ≠ "" ∧ jsTrim s ≠ "" then addSavePathToRecent (jsTrim s) store else store

/-! ## `doLogin` (src/main.js) -/

/-- The part of the login response `doLogin` reads: the status and the `set-cookie` header
lines (`res.headers['set-cookie']`, absent or an array). -/
structure LoginResponse where
  statusCode : Nat
  setCookie : Option (List String)
  deriving DecidableEq, Repr

/-- How the login request ends: a response, an `error` event, or the 10 second timeout. -/
inductive LoginExchange where
  | response (res : LoginResponse)
  | error
  | timedOut
  deriving DecidableEq, Repr

/-- Position of the first occurrence of a character, as `indexOf` gives it (`none` for -1). -/
def charIndex (c : Char) : List Char → Option Nat
  | [] => none
  | d :: ds => if d = c then some 0 else (charIndex c ds).map (· + 1)

/-- The name and value `doLogin` takes from one header line: the text before the first `;`,
trimmed, split at its first `=`; `none` when there is no `=` (the line is skipped). -/
def cookiePair (raw : String) : Option (String × String) :=
  let part := trimChars (raw.data.takeWhile (fun c => decide (c ≠ ';')))
  match charIndex '=' part with
  | none => none
  | some eq => some (String.mk (part.take eq), String.mk (part.drop (eq + 1)))

/-- The function `doLogin` from the point where the request ends.  `accepts name value` tells
whether `ses.cookies.set` resolves for that cookie; `jar` lists the cookies written to the
session's store.  The result is what the promise settles to and the store afterwards. -/
def doLogin (accepts : String → String → Bool) (exchange : LoginExchange)
    (jar : List (String × String)) : LoginOutcome × List (String × String) :=
  match exchange with
  | .response res =>
    match res.setCookie with
    | some (c :: cs) =>
      if res.statusCode = 200 then
        let pairs := (c :: cs).filterMap cookiePair
        let written := pairs.filter (fun nv => accepts nv.1 nv.2)
        if pairs.all (fun nv => accepts nv.1 nv.2) then (.resolved true, jar ++ written)
        else (.rejected, jar ++ written)
      else (.resolved false, jar)
    | _ => (.resolved false, jar)
  | .error => (.rejected, jar)
  | .timedOut => (.rejected, jar)

/-! ## The add-torrent request (src/main.js) -/

/-- The fields of `options` that the handler of `addtorrent-add` reads, with the types of the
specification's `SubmissionRequest`: optional texts, an optional integer peer limit, an
optional sequence of integer priorities. -/
structure AddOptions where
  torrentPath : String
  savepath : Option String
  rename : Option String
  startPaused : Bool
  peerLimit : Option Int
  filePriorities : Option (List Int)
  category : Option String
  deriving DecidableEq, Repr

/-- The value of one multipart field: a text, or a file part. -/
inductive FormValue where
  | text (s : String)
  | file (bytes : Buffer) (filename : String) (contentType : String)
  deriving DecidableEq, Repr

/-- The part `connection` / `max-connections` of a form: present when
`peerLimit != null && peerLimit > 0`. -/
def connectionFields (peerLimit : Option Int) : Outcome (List (String × FormValue)) :=
  match peerLimit with
  | none => .ok []
  | some n =>
    if n > 0 then
      (numberText n).bind (fun s =>
        .ok [("connection", FormValue.text "manual"), ("max-connections", FormValue.text s)])
    else .ok []

/-- The text `filePriorities.join('|')`. -/
def prioritiesText (ps : List Int) : Outcome String :=
  (collect (ps.map numberText)).bind (fun ss => .ok (joinWith "|" ss))

/-- A text field that is appended when its value is truthy:
`if (v) form.append(name, v)`. -/
def optionalField (name : String) (v : Option String) : List (String × FormValue) :=
  match v with
  | none => []
  | some s => if s ≠ "" then [(name, FormValue.text s)] else []

/-- The fields `paused` and `root_folder`, appended always. -/
def pausedFields (startPaused : Bool) : List (String × FormValue) :=
  [("paused", FormValue.text (if startPaused then "true" else "false")),
    ("root_folder", FormValue.text "false")]

/-- The file part `torrents`. -/
def torrentField (torrentBuffer : Buffer) (filename : String) : List (String × FormValue) :=
  [("torrents", FormValue.file torrentBuffer filename "application/x-bittorrent")]

/-- The text `fpStr` of the page script:
`filePriorities && filePriorities.length ? filePriorities.join('|') : ''`. -/
def prioritiesOrEmpty (filePriorities : Option (List Int)) : Outcome String :=
  match filePriorities with
  | some (p :: ps) => prioritiesText (p :: ps)
  | _ => .ok ""

/-- The fields appended by the page script of `addTorrentViaWebUI` (strategy A), in order. -/
def webUIForm (torrentBuffer : Buffer) (filename : String) (o : AddOptions) :
    Outcome (List (String × FormValue)) :=
  (connectionFields o.peerLimit).bind (fun conn =>
    (prioritiesOrEmpty o.filePriorities).bind (fun fpStr =>
      .ok (torrentField torrentBuffer filename
        ++ optionalField "savepath" o.savepath
        ++ optionalField "rename" o.rename
        ++ pausedFields o.startPaused
        ++ optionalField "category" o.category
        ++ conn
        ++ (if fpStr ≠ "" then [("filePriorities", FormValue.text fpStr)] else []))))

/-- The category field of the direct form:
`if (category && category.trim()) form.append('category', category.trim())`. -/
def trimmedCategory (category : Option String) : List (String × FormValue) :=
  match category with
  | none => []
  | some c => if c ≠ "" ∧ jsTrim c ≠ "" then [("category", FormValue.text (jsTrim c))] else []

/-- The field `filePriorities` of the direct form:
`if (filePriorities && filePriorities.length) form.append(..., filePriorities.join('|'))`. -/
def prioritiesField (filePriorities : Option (List Int)) :
    Outcome (List (String × FormValue)) :=
  match filePriorities with
  | some (p :: ps) =>
    (prioritiesText (p :: ps)).bind (fun s => .ok [("filePriorities", FormValue.text s)])
  | _ => .ok []

/-- The fields appended to the `form-data` form of the direct request (strategy B), in
order. -/
def directForm (torrentBuffer : Buffer) (filename : String) (o : AddOptions) :
    Outcome (List (String × FormValue)) :=
  (connectionFields o.peerLimit).bind (fun conn =>
    (prioritiesField o.filePriorities).bind (fun fp =>
      .ok (torrentField torrentBuffer filename
        ++ optionalField "savepath" o.savepath
        ++ optionalField "rename" o.rename
        ++ trimmedCategory o.category
        ++ pausedFields o.startPaused
        ++ conn
        ++ fp)))

/-- The object the handler returns: `{ ok: true }` or `{ ok: false, error }`. -/
inductive AddResult where
  | ok
  | error (message : String)
  deriving DecidableEq, Repr

/-- The message for status 403. -/
def accessDeniedMessage : String :=
  "Доступ запрещён. Проверьте логин и пароль в Файл → Подключение..."

/-- The message for status 415. -/
def badFormatMessage : String := "Неверный формат торрент-файла"

/-- The message strategy A gives for the body `Fails.`. -/
def rejectedMessagePage : String := "Сервер отклонил торрент."

/-- The message strategy B gives for the body `Fails.`. -/
def rejectedMessageDirect : String :=
  "Сервер отклонил торрент. Попробуйте переподключиться (Файл → Подключение...) и добавить снова."

/-- How strategy A reads a completed response `{ status, body }` (lines 852 to 860, without
the recording of the save path). -/
def classifyPage (status : Nat) (body : String) : AddResult :=
  if status = 200 ∧ (body = "Ok." ∨ (body ≠ "" ∧ jsTrim body = "Ok.")) then .ok
  else if status = 403 then .error accessDeniedMessage
  else if status = 415 then .error badFormatMessage
  else if body ≠ "" ∧ jsTrim body = "Fails." then .error rejectedMessagePage
  else .error (if body ≠ "" then body else "HTTP " ++ natText status)

/-- How strategy B reads a completed response (lines 898 to 907, without the recording of
the save path); `statusMessage` is the reason phrase `res.statusMessage`. -/
def classifyDirect (statusCode : Nat) (statusMessage body : String) : AddResult :=
  if statusCode = 200 ∧ (body = "Ok." ∨ jsTrim body = "Ok.") then .ok
  else if statusCode = 403 then .error accessDeniedMessage
  else if statusCode = 415 then .error badFormatMessage
  else if body ≠ "" ∧ jsTrim body = "Fails." then .error rejectedMessageDirect
  else .error (if body ≠ "" then body else statusMessage)

/-- The two transport strategies of the add request. -/
inductive Strategy where
  /-- Strategy A: `fetch` inside the page of the main window (`addTorrentViaWebUI`). -/
  | page
  /-- Strategy B: `http.request` with the cookies of the session attached. -/
  | direct
  deriving DecidableEq, Repr

/-- How `await addTorrentViaWebUI(...)` ends: the page script returned `{ status, body }`, or
`executeJavaScript` rejected (`fetch` raised, the page went away). -/
inductive PageAddOutcome where
  | completed (status : Nat) (body : String)
  | raised
  deriving DecidableEq, Repr

/-- How the direct add request ends: a response read to its end, an `error` event with its
message, or the 60 second timeout. -/
inductive DirectAddOutcome where
  | response (statusCode : Nat) (statusMessage body : String)
  | error (message : String)
  | timedOut
  deriving DecidableEq, Repr

/-- Everything the handler of `addtorrent-add` reads from its surroundings.  The stored URL
parses, the torrent file can be read and the cookie store can be read. -/
structure AddEnv where
  /-- The value of `fs.existsSync(torrentPath)`. -/
  fileExists : Bool
  /-- The stored URL is a non-empty string. -/
  hasBaseUrl : Bool
  /-- The value of `getUserDisconnected()`. -/
  userDisconnected : Bool
  /-- A user name is stored and is not blank. -/
  hasUser : Bool
  login : LoginOutcome
  /-- The text `e.message` of a rejected login. -/
  loginMessage : String
  /-- The main window and its web contents exist and are not destroyed. -/
  windowAlive : Bool
  /-- The call `mainWindow.webContents.getURL()` raises. -/
  getUrlRaises : Bool
  /-- The page URL is non-empty, starts with the origin and does not contain `login`. -/
  pageOnOrigin : Bool
  page : PageAddOutcome
  direct : DirectAddOutcome
  deriving DecidableEq, Repr

/-- What one run of the handler did: the object it resolved to, the add requests it issued
in order, and the store it left. -/
structure AddRun where
  result : AddResult
  attempts : List Strategy
  store : Store
  deriving DecidableEq, Repr

/-- The direct request of the handler (strategy B) and the reading of its outcome. -/
def submitDirect (o : AddOptions) (env : AddEnv) (store : Store) (before : List Strategy) :
    AddRun :=
  match env.direct with
  | .response statusCode statusMessage body =>
    match classifyDirect statusCode statusMessage body with
    | .ok => ⟨.ok, before ++ [.direct], recordSavePath o.savepath store⟩
    | .error m => ⟨.error m, before ++ [.direct], store⟩
  | .error message => ⟨.error message, before ++ [.direct], store⟩
  | .timedOut => ⟨.error "Таймаут загрузки торрента (60 сек)", before ++ [.direct], store⟩

/-- The handler of `addtorrent-add`. -/
def addTorrentHandler (o : AddOptions) (env : AddEnv) (store : Store) : AddRun :=
  if o.torrentPath = "" ∨ env.fileExists = false then ⟨.error "Файл не найден", [], store⟩
  else if env.hasBaseUrl = false then ⟨.error "Не задан адрес qBittorrent", [], store⟩
  else if env.userDisconnected = true then
    ⟨.error "Сначала подключитесь к qBittorrent (Файл → Подключение...)", [], store⟩
  else if env.hasUser = true ∧ env.login = .resolved false then
    ⟨.error "Не удалось войти. Проверьте логин и пароль в Файл → Подключение...", [], store⟩
  else if env.hasUser = true ∧ env.login = .rejected then
    ⟨.error ("Не удалось подключиться к qBittorrent: " ++
      (if env.loginMessage ≠ "" then env.loginMessage else "проверьте, что программа запущена")),
      [], store⟩
  else if env.windowAlive = true ∧ env.getUrlRaises = false ∧ env.pageOnOrigin = true then
    match env.page with
    | .completed status body =>
      match classifyPage status body with
      | .ok => ⟨.ok, [.page], recordSavePath o.savepath store⟩
      | .error m => ⟨.error m, [.page], store⟩
    | .raised => submitDirect o env store [.page]
  else submitDirect o env store []

/-! ## The flow that opens the add-torrent window (src/main.js) -/

/-- The part of the application state the add-torrent flow touches: the add-torrent window
(with the path it was opened for), the error boxes shown, the add requests issued, and the
store. -/
structure AppState where
  addTorrentWindow : Option String
  errorBoxes : List String
  addRequests : List Strategy
  store : Store
  deriving DecidableEq, Repr

/-- The function `createAddTorrentWindow(torrentPath)`: any open add-torrent window is
replaced by one for this file. -/
def createAddTorrentWindow (st : AppState) (torrentPath : String) (fileExists : Bool) :
    AppState :=
  if torrentPath = "" ∨ fileExists = false then st
  else { st with addTorrentWindow := some torrentPath }

/-- The function `openAddTorrentFlow(torrentPath)`, with the duplicate check it awaits. -/
def openAddTorrentFlow (st : AppState) (torrentPath : String) (fileExists : Bool)
    (check : CheckEnv) : AppState :=
  if torrentPath = "" ∨ fileExists = false then st
  else if checkTorrentExists check = true then
    { st with errorBoxes := st.errorBoxes ++ ["Такой торрент уже есть в списке загрузок."] }
  else createAddTorrentWindow st torrentPath fileExists

/-- The request `addtorrent-add` sent by the add-torrent window: it reaches the handler only
from such a window, and its run is recorded in the state. -/
def handleAdd (st : AppState) (o : AddOptions) (env : AddEnv) : AppState × Option AddResult :=
  match st.addTorrentWindow with
  | none => (st, none)
  | some _ =>
    let run := addTorrentHandler o env st.store
    ({ st with addRequests := st.addRequests ++ run.attempts, store := run.store },
      some run.result)

/-- The handler passes its checks and the login, and goes on to submit. -/
def reachesSubmit (o : AddOptions) (env : AddEnv) : Prop :=
  o.torrentPath ≠ "" ∧ env.fileExists = true ∧ env.hasBaseUrl = true ∧
    env.userDisconnected = false ∧ (env.hasUser = true → env.login = .resolved true)

/-- Strategy A is available: the main window is alive and shows a page of the server. -/
def pageAvailable (env : AddEnv) : Prop :=
  env.windowAlive = true ∧ env.getUrlRaises = false ∧ env.pageOnOrigin = true

/-- The decimal numeral of an integer, as `String(n)` prints it up to `2^53`. -/
def intText (i : Int) : String := String.mk ((intBody i).map Char.ofNat)

/-- The connection-limit fields with the decimal numeral of the limit. -/
def manualConnection (peerLimit : Option Int) : List (String × FormValue) :=
  match peerLimit with
  | none => []
  | some n =>
    if n > 0 then
      [("connection", FormValue.text "manual"), ("max-connections", FormValue.text (intText n))]
    else []

/-- The field `filePriorities` with the decimal numerals of the priorities. -/
def prioritiesList (filePriorities : Option (List Int)) : List (String × FormValue) :=
  match filePriorities with
  | some (p :: ps) => [("filePriorities", FormValue.text (joinWith "|" ((p :: ps).map intText)))]
  | _ => []

/-- What the claim on the form says of a field list `f` built for the options `o`: the
fields `paused`, `root_folder`, `connection`, `max-connections` and `filePriorities` occur
exactly with these values. -/
def HasRequestFields (o : AddOptions) (f : List (String × FormValue)) : Prop :=
  (∀ v, ("paused", v) ∈ f ↔ v = .text (if o.startPaused then "true" else "false")) ∧
  (∀ v, ("root_folder", v) ∈ f ↔ v = .text "false") ∧
  (∀ v, ("connection", v) ∈ f ↔ v = .text "manual" ∧ ∃ n, o.peerLimit = some n ∧ n > 0) ∧
  (∀ v, ("max-connections", v) ∈ f ↔
    ∃ n, o.peerLimit = some n ∧ n > 0 ∧ v = .text (intText n)) ∧
  (∀ v, ("filePriorities", v) ∈ f ↔
    ∃ p ps, o.filePriorities = some (p :: ps) ∧
      v = .text (joinWith "|" ((p :: ps).map intText)))

mutual
/-- The JavaScript value `decode` builds for a bencoded value: integers become doubles,
byte strings `Buffer`s, lists arrays, and dictionaries plain objects whose properties are
assigned in order (the last write to a key wins). -/
def BVal.decoded : BVal → JSVal
  | .int i => .num (toDouble i)
  | .bytes b => .buf b
  | .list xs => .arr (decodedList xs)
  | .dict kvs => .obj (decodedPairs kvs [])
/-- The decoded elements of a list. -/
def decodedList : List BVal → List JSVal
  | [] => []
  | x :: xs => x.decoded :: decodedList xs
/-- The properties after assigning the decoded pairs in order, starting from `acc`. -/
def decodedPairs : List (List Nat × BVal) → List (String × JSVal) → List (String × JSVal)
  | [], acc => acc
  | kv :: rest, acc => decodedPairs rest (setProp acc (utf8Decode kv.1) kv.2.decoded)
end

mutual
/-- No dictionary inside the value has a key whose text is `__proto__`. -/
def BVal.NoProto : BVal → Prop
  | .int _ => True
  | .bytes _ => True
  | .list xs => NoProtoList xs
  | .dict kvs => NoProtoPairs kvs
/-- No element of the list has such a key. -/
def NoProtoList : List BVal → Prop
  | [] => True
  | x :: xs => x.NoProto ∧ NoProtoList xs
/-- No pair has such a key, at any depth. -/
def NoProtoPairs : List (List Nat × BVal) → Prop
  | [] => True
  | kv :: rest => utf8Decode kv.1 ≠ "__proto__" ∧ kv.2.NoProto ∧ NoProtoPairs rest
end

/-- The `length` the fallback entry of `parseTorrentFile` gets for a root that is not a
dictionary: the number of elements of a list, 0 otherwise. -/
def fallbackLength : JSVal → JSNum
  | .arr xs => toDouble xs.length
  | _ => .fin 0

/-- The stores this code leaves behind: a store without the list of save paths (a new one,
or one holding only the legacy key), and what `getRecentSavePaths` and
`addSavePathToRecent` make of such a store. -/
inductive Written : Store → Prop where
  | fresh (legacy : Option String) : Written ⟨none, legacy⟩
  | read (store : Store) : Written store → Written (getRecentSavePaths store).2
  | add (p : String) (store : Store) : Written store → Written (addSavePathToRecent p store)

/-! ## Basic facts about numbers and buffers -/

theorem toDouble_small (i : Int) (h : i.natAbs ≤ 2 ^ 53) : toDouble i = .fin i := by
  unfold toDouble
  rw [if_pos h]

theorem fin_add_fin (a b : Int) (h : (a + b).natAbs ≤ 2 ^ 53) :
    (JSNum.fin a).add (.fin b) = .fin (a + b) := by
  simp only [JSNum.add]
  exact toDouble_small _ h

theorem ofNat_add_one (a : Nat) (h : a < 2 ^ 53) :
    (JSNum.ofNat a).add (.fin 1) = JSNum.ofNat (a + 1) := by
  simp only [JSNum.ofNat]
  rw [fin_add_fin]
  · rfl
  · omega

theorem ofNat_add_ofNat (a b : Nat) (h : a + b ≤ 2 ^ 53) :
    (JSNum.ofNat a).add (JSNum.ofNat b) = JSNum.ofNat (a + b) := by
  simp only [JSNum.ofNat]
  rw [fin_add_fin]
  · simp
  · omega

theorem toIndex_ofNat (a : Nat) : (JSNum.ofNat a).toIndex? = some a := rfl

theorem bufAt_ofNat (buffer : Buffer) (a : Nat) : bufAt buffer (JSNum.ofNat a) = buffer[a]? := rfl

theorem bufAt_append (pre : List Nat) (c : Nat) (rest : List Nat) :
    bufAt (pre ++ c :: rest) (JSNum.ofNat pre.length) = some c := by
  rw [bufAt_ofNat, List.getElem?_append_right (Nat.le_refl _)]
  simp

theorem bufAt_end (pre : List Nat) : bufAt pre (JSNum.ofNat pre.length) = none := by
  rw [bufAt_ofNat]
  simp

theorem findFrom_append (x : Nat) (ds rest : List Nat) (k : Nat) (h : x ∉ ds) :
    findFrom x (ds ++ x :: rest) k = some (k + ds.length) := by
  induction ds generalizing k with
  | nil => simp [findFrom]
  | cons d ds ih =>
    simp only [List.mem_cons, not_or] at h
    show findFrom x (d :: (ds ++ x :: rest)) k = _
    rw [findFrom, if_neg (fun e => h.1 e.symm), ih _ h.2, List.length_cons]
    congr 1
    omega

theorem findFrom_none (x : Nat) (ds : List Nat) (k : Nat) (h : x ∉ ds) :
    findFrom x ds k = none := by
  induction ds generalizing k with
  | nil => simp [findFrom]
  | cons d ds ih =>
    simp only [List.mem_cons, not_or] at h
    rw [findFrom, if_neg (fun e => h.1 e.symm), ih _ h.2]

theorem indexOf_ofNat (buffer : Buffer) (x a : Nat) (h : a < buffer.length)
    (hlen : a < 2 ^ 31) :
    indexOf buffer x (JSNum.ofNat a) =
      match findFrom x (buffer.drop a) a with
      | some j => JSNum.ofNat j
      | none => .fin (-1) := by
  have h1 : ¬ (2147483647 : Int) < (a : Int) := by omega
  have h2 : ¬ ((a : Int) < -2147483648) := by omega
  have h3 : ¬ ((a : Int) < 0) := by omega
  have h4 : (a : Int) + 1 ≤ (buffer.length : Int) := by omega
  simp only [indexOf, JSNum.ofNat, h1, h2, h3, h4, if_false, if_true, Int.toNat_ofNat]

theorem indexOf_found (pre ds rest : List Nat) (x : Nat) (h : x ∉ ds)
    (hlen : pre.length < 2 ^ 31) :
    indexOf (pre ++ ds ++ x :: rest) x (JSNum.ofNat pre.length)
      = JSNum.ofNat (pre.length + ds.length) := by
  rw [indexOf_ofNat _ _ _ (by simp) hlen, List.append_assoc, List.drop_left,
    findFrom_append _ _ _ _ h]

theorem indexOf_missing (pre ds : List Nat) (x : Nat) (h : x ∉ ds) (hne : ds ≠ [])
    (hlen : pre.length < 2 ^ 31) :
    indexOf (pre ++ ds) x (JSNum.ofNat pre.length) = .fin (-1) := by
  have : 0 < ds.length := List.length_pos.mpr hne
  rw [indexOf_ofNat _ _ _ (by simp; omega) hlen, List.drop_left, findFrom_none _ _ _ h]

theorem toStringRange_ofNat (buffer : Buffer) (a b : Nat) (h : b ≤ buffer.length) :
    toStringRange buffer (JSNum.ofNat a) (JSNum.ofNat b) = (buffer.drop a).take (b - a) := by
  have e1 : ¬ ((buffer.length : Int) < (b : Int)) := by omega
  simp only [toStringRange, JSNum.ofNat, e1, if_false]
  by_cases h0 : (a : Int) ≤ 0
  · have : a = 0 := by omega
    subst this
    simp only [h0, if_true]
    by_cases hb : (b : Int) ≤ 0
    · have : b = 0 := by omega
      subst this
      simp
    · rw [if_neg hb]
      simp
  · rw [if_neg h0]
    by_cases h1 : (buffer.length : Int) ≤ (a : Int)
    · rw [if_pos h1]
      have : buffer.length ≤ a := by omega
      simp [List.drop_eq_nil_of_le this]
    · rw [if_neg h1]
      simp only [Int.toNat_ofNat]
      by_cases h2 : (b : Int) ≤ (a : Int)
      · rw [if_pos h2]
        have : b - a = 0 := by omega
        simp [this]
      · rw [if_neg h2]
        congr 1
        omega

theorem toStringRange_mid (pre ds rest : List Nat) :
    toStringRange (pre ++ ds ++ rest) (JSNum.ofNat pre.length)
      (JSNum.ofNat (pre.length + ds.length)) = ds := by
  rw [toStringRange_ofNat _ _ _ (by simp), List.append_assoc, List.drop_left]
  simp

theorem slice_ofNat (buffer : Buffer) (a b : Nat) :
    slice buffer (JSNum.ofNat a) (JSNum.ofNat b)
      = (buffer.drop a).take (min b buffer.length - a) := by
  have b1 : ¬ ((a : Int) < 0) := by omega
  have b2 : ¬ ((b : Int) < 0) := by omega
  simp only [slice, adjustOffset, JSNum.ofNat, b1, b2, if_false, Nat.cast_lt, Int.toNat_ofNat]
  by_cases ha : a < buffer.length
  · rw [if_pos ha]
    by_cases hb : b < buffer.length
    · rw [if_pos hb, Nat.min_eq_left (Nat.le_of_lt hb)]
    · rw [if_neg hb, Nat.min_eq_right (Nat.le_of_not_lt hb)]
  · rw [if_neg ha]
    have : buffer.length ≤ a := Nat.le_of_not_lt ha
    rw [List.drop_eq_nil_of_le this, List.drop_eq_nil_of_le (Nat.le_refl _)]
    simp

theorem slice_mid (pre mid rest : List Nat) :
    slice (pre ++ mid ++ rest) (JSNum.ofNat pre.length) (JSNum.ofNat (pre.length + mid.length))
      = mid := by
  rw [slice_ofNat, List.append_assoc, List.drop_left]
  have : min (pre.length + mid.length) (pre ++ (mid ++ rest)).length - pre.length = mid.length := by
    simp only [List.length_append]
    omega
  rw [this]
  simp

/-! ## Decimal numerals and `parseInt` -/

theorem decimalAux_allDigits (f n : Nat) (acc : List Nat) (h : AllDigits acc) :
    AllDigits (decimalAux f n acc) := by
  induction f generalizing n acc with
  | zero => simpa [decimalAux] using h
  | succ f ih =>
    rw [decimalAux]
    split
    · intro d hd
      rcases List.mem_cons.mp hd with rfl | hd
      · omega
      · exact h d hd
    · apply ih
      intro d hd
      rcases List.mem_cons.mp hd with rfl | hd
      · omega
      · exact h d hd

theorem decimalAux_ne_nil (f n : Nat) (acc : List Nat) (h : acc ≠ [] ∨ 0 < f) :
    decimalAux f n acc ≠ [] := by
  induction f generalizing n acc with
  | zero =>
    rcases h with h | h
    · simpa [decimalAux] using h
    · omega
  | succ f ih =>
    rw [decimalAux]
    split
    · simp
    · exact ih _ _ (Or.inl (by simp))

theorem decimalAux_value (f n : Nat) (acc : List Nat) (h : n < f) :
    digitsValue (decimalAux f n acc)
      = acc.foldl (fun a d => a * 10 + (d - 48)) n := by
  induction f generalizing n acc with
  | zero => omega
  | succ f ih =>
    rw [decimalAux]
    split
    · simp [digitsValue]
    · rw [ih _ _ (by omega)]
      simp only [List.foldl_cons]
      congr 1
      omega

theorem decimal_allDigits (n : Nat) : AllDigits (decimal n) :=
  decimalAux_allDigits _ _ _ (by intro d hd; simp at hd)

theorem decimal_ne_nil (n : Nat) : decimal n ≠ [] :=
  decimalAux_ne_nil _ _ _ (Or.inr (Nat.succ_pos _))

theorem decimal_value (n : Nat) : digitsValue (decimal n) = n := by
  unfold decimal
  rw [decimalAux_value _ _ _ (Nat.lt_succ_self _)]
  rfl

theorem AllDigits.not_mem {ds : List Nat} (h : AllDigits ds) (x : Nat) (hx : x < 48 ∨ 57 < x) :
    x ∉ ds := by
  intro hm
  have := h x hm
  omega

theorem asciiDecode_allDigits {ds : List Nat} (h : AllDigits ds) : asciiDecode ds = ds := by
  unfold asciiDecode
  induction ds with
  | nil => rfl
  | cons d ds ih =>
    have hd := h d (List.mem_cons_self _ _)
    rw [List.map_cons, ih (fun x hx => h x (List.mem_cons_of_mem _ hx))]
    congr 1
    omega

theorem takeWhile_allDigits {ds : List Nat} (h : AllDigits ds) : ds.takeWhile isDigit = ds := by
  rw [List.takeWhile_eq_self_iff]
  intro d hd
  have := h d hd
  simp [isDigit, this.1, this.2]

theorem parseInt_digits {ds : List Nat} (h : AllDigits ds) (hne : ds ≠ []) :
    parseInt ds = toDouble (digitsValue ds) := by
  obtain ⟨d, ds', rfl⟩ := List.exists_cons_of_ne_nil hne
  have hd := h d (List.mem_cons_self _ _)
  have hw : isWhite d = false := by
    simp only [isWhite, Bool.or_eq_false_iff, decide_eq_false_iff_not]
    omega
  have h45 : d ≠ 45 := by omega
  have h43 : d ≠ 43 := by omega
  unfold parseInt
  simp only [List.dropWhile_cons, hw, List.head?_cons, Option.some.injEq, h45, h43, or_self,
    if_false, decide_False, Bool.false_eq_true]
  rw [takeWhile_allDigits h, if_neg (by simp)]

theorem parseInt_neg_digits {ds : List Nat} (h : AllDigits ds) (hne : ds ≠ []) :
    parseInt (45 :: ds) = toDouble (-(digitsValue ds : Int)) := by
  unfold parseInt
  have hw : isWhite 45 = false := by decide
  simp only [List.dropWhile_cons, hw, List.head?_cons, List.tail_cons, true_or, if_true,
    decide_True, Bool.false_eq_true, if_false]
  rw [takeWhile_allDigits h, if_neg hne]

theorem parseInt_decimal (n : Nat) : parseInt (asciiDecode (decimal n)) = toDouble n := by
  rw [asciiDecode_allDigits (decimal_allDigits n), parseInt_digits (decimal_allDigits n)
    (decimal_ne_nil n), decimal_value]

theorem parseInt_decimal_small (n : Nat) (h : n ≤ 2 ^ 53) :
    parseInt (asciiDecode (decimal n)) = JSNum.ofNat n := by
  rw [parseInt_decimal, toDouble_small _ (by omega)]
  rfl

theorem decimal_head (n : Nat) : ∃ d rest, decimal n = d :: rest ∧ 48 ≤ d ∧ d ≤ 57 := by
  obtain ⟨d, rest, h⟩ := List.exists_cons_of_ne_nil (decimal_ne_nil n)
  exact ⟨d, rest, h, decimal_allDigits n d (h ▸ List.mem_cons_self _ _)⟩

/-! ## Shape of encodings -/

theorem encode_int (i : Int) : (BVal.int i).encode = encInt i := by simp only [BVal.encode]
theorem encode_bytes (b : List Nat) : (BVal.bytes b).encode = encBytes b := by
  simp only [BVal.encode]
theorem encode_list (xs : List BVal) : (BVal.list xs).encode = 108 :: encodeList xs ++ [101] := by
  simp only [BVal.encode]
theorem encode_dict (kvs : List (List Nat × BVal)) :
    (BVal.dict kvs).encode = 100 :: encodePairs kvs ++ [101] := by
  simp only [BVal.encode]
theorem encodeList_nil : encodeList [] = [] := by simp only [encodeList]
theorem encodeList_cons (x : BVal) (xs : List BVal) :
    encodeList (x :: xs) = x.encode ++ encodeList xs := by simp only [encodeList]
theorem encodePairs_nil : encodePairs [] = [] := by simp only [encodePairs]
theorem encodePairs_cons (kv : List Nat × BVal) (rest : List (List Nat × BVal)) :
    encodePairs (kv :: rest) = encBytes kv.1 ++ kv.2.encode ++ encodePairs rest := by
  simp only [encodePairs]

theorem depth_int (i : Int) : (BVal.int i).depth = 1 := by simp only [BVal.depth]
theorem depth_bytes (b : List Nat) : (BVal.bytes b).depth = 1 := by simp only [BVal.depth]
theorem depth_list (xs : List BVal) : (BVal.list xs).depth = depthList xs + 1 := by
  simp only [BVal.depth]
theorem depth_dict (kvs : List (List Nat × BVal)) :
    (BVal.dict kvs).depth = depthPairs kvs + 1 := by simp only [BVal.depth]
theorem depthList_nil : depthList [] = 0 := by simp only [depthList]
theorem depthList_cons (x : BVal) (xs : List BVal) :
    depthList (x :: xs) = max x.depth (depthList xs) := by simp only [depthList]
theorem depthPairs_nil : depthPairs [] = 0 := by simp only [depthPairs]
theorem depthPairs_cons (kv : List Nat × BVal) (rest : List (List Nat × BVal)) :
    depthPairs (kv :: rest) = max (max 1 kv.2.depth) (depthPairs rest) := by
  simp only [depthPairs]

theorem depth_pos (v : BVal) : 1 ≤ v.depth := by
  cases v
  · rw [depth_int]
  · rw [depth_bytes]
  · rw [depth_list]; omega
  · rw [depth_dict]; omega

theorem encInt_eq (i : Int) : encInt i = 105 :: intBody i ++ [101] := rfl

theorem intBody_no_e (i : Int) : 101 ∉ intBody i := by
  unfold intBody
  intro h
  rcases List.mem_append.mp h with h | h
  · split at h <;> simp at h
  · exact (decimal_allDigits _).not_mem 101 (by omega) h

theorem encBytes_head (b : List Nat) :
    ∃ d rest, encBytes b = d :: rest ∧ 48 ≤ d ∧ d ≤ 57 := by
  obtain ⟨d, rest, h, hd⟩ := decimal_head b.length
  exact ⟨d, rest ++ 58 :: b, by simp [encBytes, h], hd⟩

/-- The first byte of an encoding is one of the four value markers, never `e`. -/
theorem encode_head (v : BVal) :
    ∃ c rest, v.encode = c :: rest ∧ c ≠ 101 ∧
      (c = 105 ∨ (48 ≤ c ∧ c ≤ 57) ∨ c = 108 ∨ c = 100) := by
  cases v with
  | int i => exact ⟨105, _, by rw [encode_int, encInt_eq]; rfl, by decide, Or.inl rfl⟩
  | bytes b =>
    obtain ⟨d, rest, h, hd⟩ := encBytes_head b
    exact ⟨d, rest, by rw [encode_bytes, h], by omega, Or.inr (Or.inl hd)⟩
  | list xs => exact ⟨108, _, by rw [encode_list]; rfl, by decide, Or.inr (Or.inr (Or.inl rfl))⟩
  | dict kvs => exact ⟨100, _, by rw [encode_dict]; rfl, by decide, Or.inr (Or.inr (Or.inr rfl))⟩

theorem encode_length_pos (v : BVal) : 2 ≤ v.encode.length := by
  cases v with
  | int i => rw [encode_int, encInt_eq]; simp
  | bytes b =>
    obtain ⟨d, rest, h, _⟩ := decimal_head b.length
    rw [encode_bytes]; simp [encBytes, h]; omega
  | list xs => rw [encode_list]; simp
  | dict kvs => rw [encode_dict]; simp

theorem encBytes_length_pos (b : List Nat) : 2 ≤ (encBytes b).length := by
  have := encode_length_pos (.bytes b)
  rwa [encode_bytes] at this

/-! ## `skipValue` on encodings -/

theorem skipValue_succ (fuel stack : Nat) (buffer : Buffer) (start : JSNum) :
    skipValue (fuel + 1) (stack + 1) buffer start =
      match bufAt buffer start with
      | none => .throw (.invalidBencode none)
      | some c =>
        if c = 0x69 then .ok ((indexOf buffer 0x65 start).add (.fin 1))
        else if 0x30 ≤ c ∧ c ≤ 0x39 then
          .ok (((indexOf buffer 0x3a start).add (.fin 1)).add
            (parseInt (asciiDecode (toStringRange buffer start (indexOf buffer 0x3a start)))))
        else if c = 0x6c then skipListLoop fuel stack buffer (start.add (.fin 1))
        else if c = 0x64 then skipDictLoop fuel stack buffer (start.add (.fin 1))
        else .throw (.invalidBencode none) := by
  rw [skipValue]

theorem skipValue_no_stack (fuel : Nat) (buffer : Buffer) (start : JSNum) :
    skipValue (fuel + 1) 0 buffer start = .throw .rangeError := by
  rw [skipValue]

theorem skipListLoop_succ (fuel stack : Nat) (buffer : Buffer) (p : JSNum) :
    skipListLoop (fuel + 1) stack buffer p =
      if bufAt buffer p = some 0x65 then .ok (p.add (.fin 1))
      else
        match skipValue fuel stack buffer p with
        | .ok p1 => skipListLoop fuel stack buffer p1
        | .throw e => .throw e
        | .timeout => .timeout
        | .unsupported => .unsupported := by
  rw [skipListLoop]

theorem skipDictLoop_succ (fuel stack : Nat) (buffer : Buffer) (p : JSNum) :
    skipDictLoop (fuel + 1) stack buffer p =
      if bufAt buffer p = some 0x65 then .ok (p.add (.fin 1))
      else
        match skipValue fuel stack buffer p with
        | .ok p1 =>
          match skipValue fuel stack buffer p1 with
          | .ok p2 => skipDictLoop fuel stack buffer p2
          | .throw e => .throw e
          | .timeout => .timeout
          | .unsupported => .unsupported
        | .throw e => .throw e
        | .timeout => .timeout
        | .unsupported => .unsupported := by
  rw [skipDictLoop]

/-- Skipping an encoded integer that sits at offset `pre.length`. -/
theorem skipValue_int (fuel stack : Nat) (pre post : List Nat) (i : Int)
    (hlen : (pre ++ encInt i ++ post).length < 2 ^ 31) :
    skipValue (fuel + 1) (stack + 1) (pre ++ encInt i ++ post) (JSNum.ofNat pre.length)
      = .ok (JSNum.ofNat (pre.length + (encInt i).length)) := by
  have hb : bufAt (pre ++ encInt i ++ post) (JSNum.ofNat pre.length) = some 105 := by
    rw [encInt_eq, List.append_assoc]
    exact bufAt_append _ _ _
  have hpre : pre.length < 2 ^ 31 := by
    simp only [List.length_append] at hlen; omega
  have hi : indexOf (pre ++ encInt i ++ post) 101 (JSNum.ofNat pre.length)
      = JSNum.ofNat (pre.length + (105 :: intBody i).length) := by
    have : pre ++ encInt i ++ post = pre ++ (105 :: intBody i) ++ 101 :: post := by
      rw [encInt_eq]; simp
    rw [this]
    apply indexOf_found _ _ _ _ _ hpre
    intro h
    rcases List.mem_cons.mp h with h | h
    · exact absurd h (by decide)
    · exact intBody_no_e i h
  rw [skipValue_succ, hb]
  simp only [if_true]
  rw [hi, ofNat_add_one]
  · congr 2
    rw [encInt_eq]; simp; omega
  · simp only [List.length_append, encInt_eq, List.length_cons] at hlen ⊢
    omega

/-- Skipping an encoded byte string that sits at offset `pre.length`. -/
theorem skipValue_bytes (fuel stack : Nat) (pre post b : List Nat)
    (hlen : (pre ++ encBytes b ++ post).length < 2 ^ 31) :
    skipValue (fuel + 1) (stack + 1) (pre ++ encBytes b ++ post) (JSNum.ofNat pre.length)
      = .ok (JSNum.ofNat (pre.length + (encBytes b).length)) := by
  obtain ⟨d, rest, hd, hd1, hd2⟩ := encBytes_head b
  have hb : bufAt (pre ++ encBytes b ++ post) (JSNum.ofNat pre.length) = some d := by
    rw [hd, List.append_assoc]
    exact bufAt_append _ _ _
  have hl : pre.length + (decimal b.length).length + 1 + b.length + post.length < 2 ^ 31 := by
    simp only [List.length_append, encBytes, List.length_cons] at hlen; omega
  have hform : pre ++ encBytes b ++ post = pre ++ decimal b.length ++ 58 :: (b ++ post) := by
    simp [encBytes]
  have hi : indexOf (pre ++ encBytes b ++ post) 58 (JSNum.ofNat pre.length)
      = JSNum.ofNat (pre.length + (decimal b.length).length) := by
    rw [hform]
    exact indexOf_found _ _ _ _ ((decimal_allDigits _).not_mem 58 (by omega)) (by omega)
  have hr : toStringRange (pre ++ encBytes b ++ post) (JSNum.ofNat pre.length)
      (JSNum.ofNat (pre.length + (decimal b.length).length)) = decimal b.length := by
    rw [hform]
    exact toStringRange_mid _ _ _
  rw [skipValue_succ, hb]
  have h69 : d ≠ 0x69 := by omega
  simp only [h69, if_false, hd1, hd2, and_self, if_true]
  rw [hi, hr, parseInt_decimal_small _ (by omega), ofNat_add_one _ (by omega),
    ofNat_add_ofNat _ _ (by omega)]
  congr 2
  simp only [encBytes, List.length_append, List.length_cons]
  omega

/-- Skipping encoded values, lists of values and key/value pairs that sit at offset
`pre.length`: the walk ends right behind the encoding when the stack is deep enough, and
with a `RangeError` otherwise. -/
theorem skip_encode_aux (fuel : Nat) :
    (∀ (v : BVal) (pre post : List Nat) (stack : Nat),
      (pre ++ v.encode ++ post).length < 2 ^ 31 → v.encode.length ≤ fuel →
      skipValue fuel stack (pre ++ v.encode ++ post) (JSNum.ofNat pre.length)
        = if v.depth ≤ stack then .ok (JSNum.ofNat (pre.length + v.encode.length))
          else .throw .rangeError) ∧
    (∀ (xs : List BVal) (pre post : List Nat) (stack : Nat),
      (pre ++ encodeList xs ++ 101 :: post).length < 2 ^ 31 → (encodeList xs).length + 1 ≤ fuel →
      skipListLoop fuel stack (pre ++ encodeList xs ++ 101 :: post) (JSNum.ofNat pre.length)
        = if depthList xs ≤ stack then .ok (JSNum.ofNat (pre.length + (encodeList xs).length + 1))
          else .throw .rangeError) ∧
    (∀ (kvs : List (List Nat × BVal)) (pre post : List Nat) (stack : Nat),
      (pre ++ encodePairs kvs ++ 101 :: post).length < 2 ^ 31 →
      (encodePairs kvs).length + 1 ≤ fuel →
      skipDictLoop fuel stack (pre ++ encodePairs kvs ++ 101 :: post) (JSNum.ofNat pre.length)
        = if depthPairs kvs ≤ stack
          then .ok (JSNum.ofNat (pre.length + (encodePairs kvs).length + 1))
          else .throw .rangeError) := by
  induction fuel with
  | zero =>
    refine ⟨?_, ?_, ?_⟩
    · intro v pre post stack _ h
      have := encode_length_pos v
      omega
    · intro xs pre post stack _ h
      omega
    · intro kvs pre post stack _ h
      omega
  | succ fuel ih =>
    obtain ⟨ihv, ihl, ihd⟩ := ih
    refine ⟨?_, ?_, ?_⟩
    · intro v pre post stack hlen hfuel
      cases stack with
      | zero =>
        rw [skipValue_no_stack, if_neg]
        have := depth_pos v
        omega
      | succ stack =>
        cases v with
        | int i =>
          rw [encode_int] at hlen ⊢
          rw [skipValue_int _ _ _ _ _ hlen, depth_int, if_pos (by omega)]
        | bytes b =>
          rw [encode_bytes] at hlen ⊢
          rw [skipValue_bytes _ _ _ _ _ hlen, depth_bytes, if_pos (by omega)]
        | list xs =>
          rw [encode_list] at hlen hfuel ⊢
          have hform : pre ++ (108 :: encodeList xs ++ [101]) ++ post
              = (pre ++ [108]) ++ encodeList xs ++ 101 :: post := by simp
          have hb : bufAt (pre ++ (108 :: encodeList xs ++ [101]) ++ post)
              (JSNum.ofNat pre.length) = some 108 := by
            have : pre ++ (108 :: encodeList xs ++ [101]) ++ post
              = pre ++ 108 :: (encodeList xs ++ [101] ++ post) := by simp
            rw [this]; exact bufAt_append _ _ _
          have hl : pre.length + (encodeList xs).length + 2 + post.length < 2 ^ 31 := by
            simp only [List.length_append, List.length_cons, List.length_nil] at hlen; omega
          rw [skipValue_succ, hb]
          simp only [show ¬ (108 = 0x69) by decide, if_false,
            show ¬ (0x30 ≤ 108 ∧ 108 ≤ 0x39) by decide, if_true]
          rw [ofNat_add_one _ (by omega), hform]
          have := ihl xs (pre ++ [108]) post stack (by rw [← hform]; exact hlen)
            (by simp only [List.length_append, List.length_cons, List.length_nil] at hfuel; omega)
          simp only [List.length_append, List.length_cons, List.length_nil] at this
          rw [this, depth_list]
          simp only [Nat.add_le_add_iff_right, List.length_append, List.length_cons,
            List.length_nil]
          congr 3
          omega
        | dict kvs =>
          rw [encode_dict] at hlen hfuel ⊢
          have hform : pre ++ (100 :: encodePairs kvs ++ [101]) ++ post
              = (pre ++ [100]) ++ encodePairs kvs ++ 101 :: post := by simp
          have hb : bufAt (pre ++ (100 :: encodePairs kvs ++ [101]) ++ post)
              (JSNum.ofNat pre.length) = some 100 := by
            have : pre ++ (100 :: encodePairs kvs ++ [101]) ++ post
              = pre ++ 100 :: (encodePairs kvs ++ [101] ++ post) := by simp
            rw [this]; exact bufAt_append _ _ _
          have hl : pre.length + (encodePairs kvs).length + 2 + post.length < 2 ^ 31 := by
            simp only [List.length_append, List.length_cons, List.length_nil] at hlen; omega
          rw [skipValue_succ, hb]
          simp only [show ¬ (100 = 0x69) by decide, if_false,
            show ¬ (0x30 ≤ 100 ∧ 100 ≤ 0x39) by decide, show ¬ (100 = 0x6c) by decide, if_true]
          rw [ofNat_add_one _ (by omega), hform]
          have := ihd kvs (pre ++ [100]) post stack (by rw [← hform]; exact hlen)
            (by simp only [List.length_append, List.length_cons, List.length_nil] at hfuel; omega)
          simp only [List.length_append, List.length_cons, List.length_nil] at this
          rw [this, depth_dict]
          simp only [Nat.add_le_add_iff_right, List.length_append, List.length_cons,
            List.length_nil]
          congr 3
          omega
    · intro xs pre post stack hlen hfuel
      cases xs with
      | nil =>
        rw [encodeList_nil] at hlen ⊢
        have hl : pre.length + 1 + post.length < 2 ^ 31 := by
          simp only [List.length_append, List.length_cons, List.length_nil] at hlen; omega
        rw [skipListLoop_succ, List.append_nil, bufAt_append]
        simp only [if_true, depthList_nil, Nat.zero_le, List.length_nil, Nat.add_zero]
        rw [ofNat_add_one _ (by omega)]
      | cons x xs =>
        rw [encodeList_cons] at hlen hfuel ⊢
        obtain ⟨c, rest, hc, hne, _⟩ := encode_head x
        have hx := encode_length_pos x
        have hl : pre.length + x.encode.length + (encodeList xs).length + 1 + post.length
            < 2 ^ 31 := by
          simp only [List.length_append, List.length_cons] at hlen; omega
        have hf : x.encode.length + (encodeList xs).length + 1 ≤ fuel + 1 := by
          simp only [List.length_append] at hfuel; omega
        have hb : bufAt (pre ++ (x.encode ++ encodeList xs) ++ 101 :: post)
            (JSNum.ofNat pre.length) = some c := by
          have : pre ++ (x.encode ++ encodeList xs) ++ 101 :: post
              = pre ++ c :: (rest ++ encodeList xs ++ 101 :: post) := by simp [hc]
          rw [this]; exact bufAt_append _ _ _
        have hform : pre ++ (x.encode ++ encodeList xs) ++ 101 :: post
            = pre ++ x.encode ++ (encodeList xs ++ 101 :: post) := by simp
        have hform2 : pre ++ (x.encode ++ encodeList xs) ++ 101 :: post
            = (pre ++ x.encode) ++ encodeList xs ++ 101 :: post := by simp
        rw [skipListLoop_succ, hb, if_neg (by simpa using hne)]
        have hv := ihv x pre (encodeList xs ++ 101 :: post) stack
          (by rw [← hform]; exact hlen) (by omega)
        rw [hform, hv, depthList_cons]
        by_cases hdx : x.depth ≤ stack
        · rw [if_pos hdx]
          simp only []
          have hrest := ihl xs (pre ++ x.encode) post stack
            (by rw [← hform2]; exact hlen) (by omega)
          rw [← hform, hform2, List.length_append] at *
          rw [hrest]
          simp only [max_le_iff, hdx, true_and, List.length_append]
          congr 3
          omega
        · rw [if_neg hdx, if_neg]
          simp only [max_le_iff, hdx, false_and, not_false_eq_true]
    · intro kvs pre post stack hlen hfuel
      cases kvs with
      | nil =>
        rw [encodePairs_nil] at hlen ⊢
        have hl : pre.length + 1 + post.length < 2 ^ 31 := by
          simp only [List.length_append, List.length_cons, List.length_nil] at hlen; omega
        rw [skipDictLoop_succ, List.append_nil, bufAt_append]
        simp only [if_true, depthPairs_nil, Nat.zero_le, List.length_nil, Nat.add_zero]
        rw [ofNat_add_one _ (by omega)]
      | cons kv kvs =>
        rw [encodePairs_cons] at hlen hfuel ⊢
        obtain ⟨c, rest, hc, hc1, hc2⟩ := encBytes_head kv.1
        have hk := encBytes_length_pos kv.1
        have hx := encode_length_pos kv.2
        have hl : pre.length + (encBytes kv.1).length + kv.2.encode.length
            + (encodePairs kvs).length + 1 + post.length < 2 ^ 31 := by
          simp only [List.length_append, List.length_cons] at hlen; omega
        have hf : (encBytes kv.1).length + kv.2.encode.length + (encodePairs kvs).length + 1
            ≤ fuel + 1 := by
          simp only [List.length_append] at hfuel; omega
        have hb : bufAt (pre ++ (encBytes kv.1 ++ kv.2.encode ++ encodePairs kvs) ++ 101 :: post)
            (JSNum.ofNat pre.length) = some c := by
          have : pre ++ (encBytes kv.1 ++ kv.2.encode ++ encodePairs kvs) ++ 101 :: post
              = pre ++ c :: (rest ++ kv.2.encode ++ encodePairs kvs ++ 101 :: post) := by
            simp [hc]
          rw [this]; exact bufAt_append _ _ _
        have hform : pre ++ (encBytes kv.1 ++ kv.2.encode ++ encodePairs kvs) ++ 101 :: post
            = pre ++ (BVal.bytes kv.1).encode ++ (kv.2.encode ++ encodePairs kvs ++ 101 :: post) := by
          rw [encode_bytes]; simp
        have hform1 : pre ++ (encBytes kv.1 ++ kv.2.encode ++ encodePairs kvs) ++ 101 :: post
            = (pre ++ encBytes kv.1) ++ kv.2.encode ++ (encodePairs kvs ++ 101 :: post) := by simp
        have hform2 : pre ++ (encBytes kv.1 ++ kv.2.encode ++ encodePairs kvs) ++ 101 :: post
            = (pre ++ encBytes kv.1 ++ kv.2.encode) ++ encodePairs kvs ++ 101 :: post := by simp
        rw [skipDictLoop_succ, hb, if_neg (by simp; omega)]
        have hkey := ihv (.bytes kv.1) pre (kv.2.encode ++ encodePairs kvs ++ 101 :: post) stack
          (by rw [← hform]; exact hlen) (by rw [encode_bytes]; omega)
        have hval := ihv kv.2 (pre ++ encBytes kv.1) (encodePairs kvs ++ 101 :: post) stack
          (by rw [← hform1]; exact hlen) (by omega)
        have hrest := ihd kvs (pre ++ encBytes kv.1 ++ kv.2.encode) post stack
          (by rw [← hform2]; exact hlen) (by omega)
        rw [← hform, depth_bytes, encode_bytes] at hkey
        rw [← hform1, List.length_append] at hval
        rw [← hform2, List.length_append, List.length_append] at hrest
        rw [hkey, depthPairs_cons]
        have hd1 := depth_pos kv.2
        by_cases hs : 1 ≤ stack
        · rw [if_pos hs]
          simp only []
          rw [hval]
          by_cases hdx : kv.2.depth ≤ stack
          · rw [if_pos hdx]
            simp only []
            rw [hrest]
            simp only [max_le_iff, hdx, hs, true_and, List.length_append]
            congr 3
            omega
          · rw [if_neg hdx, if_neg]
            simp only [max_le_iff, hdx, and_false, false_and, not_false_eq_true]
        · rw [if_neg hs, if_neg]
          simp only [max_le_iff, hs, false_and, not_false_eq_true]

/-! ## UTF-8 decoding of keys -/

theorem utf8Lead_high (b : Nat) (h : 128 ≤ b) :
    utf8Lead b = .inl 0xFFFD ∨ ∃ st, utf8Lead b = .inr st ∧ st.High := by
  unfold utf8Lead
  rw [if_neg (by omega)]
  split
  · right
    refine ⟨_, rfl, ?_⟩
    unfold Utf8State.High
    simp only
    omega
  · split
    · right
      refine ⟨_, rfl, ?_⟩
      unfold Utf8State.High
      simp only
      refine ⟨by omega, by split <;> omega, by omega, ?_⟩
      intro _
      by_cases hb : b = 0xE0
      · right; rw [if_pos hb]; omega
      · left; omega
    · split
      · right
        refine ⟨_, rfl, ?_⟩
        unfold Utf8State.High
        simp only
        refine ⟨by omega, by split <;> omega, by omega, ?_⟩
        intro _
        by_cases hb : b = 0xF0
        · right; rw [if_pos hb]
        · left; omega
      · left; rfl

theorem utf8Go_high (bs : List Nat) (st : Utf8State) (h : st.High) :
    ∃ x tl, utf8Go bs (some st) = x :: tl ∧ 128 ≤ x := by
  induction bs generalizing st with
  | nil => exact ⟨0xFFFD, [], by rw [utf8Go], by omega⟩
  | cons b rest ih =>
    rw [utf8Go]
    obtain ⟨h1, h2, h3, h4⟩ := h
    split
    · rename_i hin
      split
      · rename_i hn
        exact ⟨_, _, rfl, by have := h3 hn; omega⟩
      · rename_i hn
        apply ih
        unfold Utf8State.High
        simp only
        refine ⟨by omega, by omega, ?_, ?_⟩
        · intro _
          rcases h4 (by omega) with h | h <;> omega
        · intro _
          rcases h4 (by omega) with h | h
          · left; omega
          · left; omega
    · exact ⟨0xFFFD, _, rfl, by omega⟩

theorem utf8Go_head_high (b : Nat) (rest : List Nat) (h : 128 ≤ b) :
    ∃ x tl, utf8Go (b :: rest) none = x :: tl ∧ 128 ≤ x := by
  rw [utf8Go]
  rcases utf8Lead_high b h with h | ⟨st, h, hst⟩
  · rw [h]; exact ⟨0xFFFD, _, rfl, by omega⟩
  · rw [h]; exact utf8Go_high rest st hst

theorem utf8Go_head_low (b : Nat) (rest : List Nat) (h : b < 128) :
    utf8Go (b :: rest) none = b :: utf8Go rest none := by
  rw [utf8Go]
  have : utf8Lead b = .inl b := by unfold utf8Lead; rw [if_pos h]
  rw [this]

theorem charOfNat_toNat (n : Nat) : (Char.ofNat n).toNat = if n.isValidChar then n else 0 := by
  unfold Char.ofNat
  split
  · rfl
  · rfl

theorem charOfNat_eq_low (x c : Nat) (hc0 : 0 < c) (hc : c < 128)
    (h : Char.ofNat x = Char.ofNat c) : x = c := by
  have hcv : c.isValidChar := Or.inl (by omega)
  have := congrArg Char.toNat h
  rw [charOfNat_toNat, charOfNat_toNat, if_pos hcv] at this
  split at this
  · exact this
  · omega

/-- A text of non-zero characters below 128 is the UTF-8 decoding of exactly one byte
sequence: the one with the same codes. -/
theorem utf8Go_eq_low (cs : List Nat) (hcs : ∀ c ∈ cs, 0 < c ∧ c < 128) (bs : List Nat)
    (h : (utf8Go bs none).map Char.ofNat = cs.map Char.ofNat) : bs = cs := by
  induction bs generalizing cs with
  | nil =>
    rw [utf8Go] at h
    cases cs with
    | nil => rfl
    | cons c cs => simp at h
  | cons b rest ih =>
    by_cases hb : b < 128
    · rw [utf8Go_head_low _ _ hb] at h
      cases cs with
      | nil => simp at h
      | cons c cs =>
        simp only [List.map_cons, List.cons.injEq] at h
        have hc := hcs c (List.mem_cons_self _ _)
        have e1 : b = c := charOfNat_eq_low b c hc.1 hc.2 h.1
        rw [e1, ih cs (fun c hc => hcs c (List.mem_cons_of_mem _ hc)) h.2]
    · obtain ⟨x, tl, hx, hx128⟩ := utf8Go_head_high b rest (by omega)
      rw [hx] at h
      cases cs with
      | nil => simp at h
      | cons c cs =>
        simp only [List.map_cons, List.cons.injEq] at h
        have hc := hcs c (List.mem_cons_self _ _)
        have e1 : x = c := charOfNat_eq_low x c hc.1 hc.2 h.1
        omega

theorem utf8Decode_infoKey : utf8Decode infoKey = "info" := by decide

theorem utf8Decode_eq_info (bs : List Nat) (h : utf8Decode bs = "info") : bs = infoKey := by
  unfold utf8Decode at h
  have h1 := congrArg String.data h
  apply utf8Go_eq_low infoKey _ bs
  · exact h1
  · intro c hc
    simp only [infoKey, List.mem_cons, List.mem_singleton, List.not_mem_nil, or_false] at hc
    omega

theorem toLowerCase_hexEncode (bytes : List Nat) :
    toLowerCase (hexEncode bytes) = hexEncode bytes := by
  have key : ∀ n, n < 16 → Char.toLower (hexDigit n) = hexDigit n := by
    intro n hn
    interval_cases n <;> decide
  unfold toLowerCase hexEncode
  congr 1
  simp only
  induction bytes with
  | nil => rfl
  | cons x xs ih =>
    simp only [List.flatMap_cons, List.map_append, List.map_cons, List.map_nil, List.cons_append,
      List.nil_append] at ih ⊢
    rw [ih, key _ (Nat.mod_lt _ (by decide)), key _ (Nat.mod_lt _ (by decide))]

/-! ## `getInfoHash` on encoded dictionaries -/

theorem skipValue_encode (v : BVal) (pre post : List Nat) (fuel stack : Nat)
    (hlen : (pre ++ v.encode ++ post).length < 2 ^ 31) (hfuel : v.encode.length ≤ fuel) :
    skipValue fuel stack (pre ++ v.encode ++ post) (JSNum.ofNat pre.length)
      = if v.depth ≤ stack then .ok (JSNum.ofNat (pre.length + v.encode.length))
        else .throw .rangeError :=
  (skip_encode_aux fuel).1 v pre post stack hlen hfuel

theorem infoLoop_succ (sha1 : Buffer → List Nat) (fuel stack : Nat) (buf : Buffer) (pos : JSNum) :
    infoLoop sha1 (fuel + 1) stack buf pos =
      if pos.lt (.ofNat buf.length) && decide (bufAt buf pos ≠ some 0x65) then
        match skipValue fuel stack buf pos with
        | .ok keyEnd =>
          match skipValue fuel stack buf keyEnd with
          | .ok valEnd =>
            if utf8Decode (toStringRange buf ((indexOf buf 0x3a pos).add (.fin 1))
                (((indexOf buf 0x3a pos).add (.fin 1)).add
                  (parseInt (asciiDecode (toStringRange buf pos (indexOf buf 0x3a pos)))))) = "info"
            then .ok (.hash (toLowerCase (hexEncode (sha1 (slice buf keyEnd valEnd)))))
            else infoLoop sha1 fuel stack buf valEnd
          | .throw e => .throw e
          | .timeout => .timeout
          | .unsupported => .unsupported
        | .throw e => .throw e
        | .timeout => .timeout
        | .unsupported => .unsupported
      else .ok .unavailable := by
  rw [infoLoop]

/-- One round of the main loop on an encoded key/value pair at offset `pre.length`. -/
theorem infoLoop_pair (sha1 : Buffer → List Nat) (fuel stack : Nat) (pre post k : List Nat)
    (v : BVal) (hlen : (pre ++ encBytes k ++ v.encode ++ post).length < 2 ^ 31)
    (hfk : (encBytes k).length ≤ fuel) (hfv : v.encode.length ≤ fuel) :
    infoLoop sha1 (fuel + 1) stack (pre ++ encBytes k ++ v.encode ++ post) (JSNum.ofNat pre.length)
      = if v.depth ≤ stack then
          (if k = infoKey then .ok (.hash (hexEncode (sha1 v.encode)))
           else infoLoop sha1 fuel stack (pre ++ encBytes k ++ v.encode ++ post)
              (JSNum.ofNat (pre.length + (encBytes k).length + v.encode.length)))
        else .throw .rangeError := by
  obtain ⟨d, rest, hd, hd1, hd2⟩ := encBytes_head k
  have hl : pre.length + (decimal k.length).length + 1 + k.length + v.encode.length + post.length
      < 2 ^ 31 := by
    simp only [List.length_append, encBytes, List.length_cons] at hlen; omega
  have hkl : (encBytes k).length = (decimal k.length).length + 1 + k.length := by
    simp only [encBytes, List.length_append, List.length_cons]; omega
  have hb : bufAt (pre ++ encBytes k ++ v.encode ++ post) (JSNum.ofNat pre.length) = some d := by
    have : pre ++ encBytes k ++ v.encode ++ post = pre ++ d :: (rest ++ v.encode ++ post) := by
      rw [hd]; simp
    rw [this]; exact bufAt_append _ _ _
  have hlt : (JSNum.ofNat pre.length).lt (.ofNat (pre ++ encBytes k ++ v.encode ++ post).length)
      = true := by
    simp only [JSNum.ofNat, JSNum.lt, List.length_append, decide_eq_true_eq]
    push_cast
    omega
  have hf1 : pre ++ encBytes k ++ v.encode ++ post
      = pre ++ (BVal.bytes k).encode ++ (v.encode ++ post) := by
    rw [encode_bytes]; simp
  have hf2 : pre ++ encBytes k ++ v.encode ++ post
      = pre ++ decimal k.length ++ 58 :: (k ++ v.encode ++ post) := by
    simp [encBytes]
  have hf3 : pre ++ encBytes k ++ v.encode ++ post
      = (pre ++ decimal k.length ++ [58]) ++ k ++ (v.encode ++ post) := by
    simp [encBytes]
  have hkey := skipValue_encode (.bytes k) pre (v.encode ++ post) fuel stack
    (by rw [← hf1]; exact hlen) (by rw [encode_bytes]; exact hfk)
  rw [← hf1, depth_bytes, encode_bytes] at hkey
  have hval := skipValue_encode v (pre ++ encBytes k) post fuel stack hlen hfv
  rw [List.length_append] at hval
  have hcolon : indexOf (pre ++ encBytes k ++ v.encode ++ post) 58 (JSNum.ofNat pre.length)
      = JSNum.ofNat (pre.length + (decimal k.length).length) := by
    rw [hf2]
    exact indexOf_found _ _ _ _ ((decimal_allDigits _).not_mem 58 (by omega)) (by omega)
  have hrange : toStringRange (pre ++ encBytes k ++ v.encode ++ post) (JSNum.ofNat pre.length)
      (JSNum.ofNat (pre.length + (decimal k.length).length)) = decimal k.length := by
    rw [hf2]; exact toStringRange_mid _ _ _
  have hkeyrange : toStringRange (pre ++ encBytes k ++ v.encode ++ post)
      (JSNum.ofNat (pre.length + (decimal k.length).length + 1))
      (JSNum.ofNat (pre.length + (decimal k.length).length + 1 + k.length)) = k := by
    have := toStringRange_mid (pre ++ decimal k.length ++ [58]) k (v.encode ++ post)
    simp only [List.length_append, List.length_cons, List.length_nil] at this
    rw [hf3]
    exact this
  have hslice : slice (pre ++ encBytes k ++ v.encode ++ post)
      (JSNum.ofNat (pre.length + (encBytes k).length))
      (JSNum.ofNat (pre.length + (encBytes k).length + v.encode.length)) = v.encode := by
    have := slice_mid (pre ++ encBytes k) v.encode post
    rw [List.length_append] at this
    exact this
  have hdp := depth_pos v
  rw [infoLoop_succ, hlt, hb]
  have hne : decide (some d ≠ some 101) = true := by
    simp only [ne_eq, Option.some.injEq, decide_eq_true_eq]; omega
  simp only [hne, Bool.and_self, if_true]
  rw [hkey]
  by_cases hs : v.depth ≤ stack
  · rw [if_pos (by omega), if_pos hs]
    simp only []
    rw [hval, if_pos hs]
    simp only []
    rw [hcolon, hrange, parseInt_decimal_small _ (by omega), ofNat_add_one _ (by omega),
      ofNat_add_ofNat _ _ (by omega), hkeyrange, hslice, toLowerCase_hexEncode]
    by_cases hk : k = infoKey
    · rw [if_pos hk, if_pos (by rw [hk]; exact utf8Decode_infoKey)]
    · rw [if_neg hk, if_neg (fun h => hk (utf8Decode_eq_info _ h))]
  · rw [if_neg hs]
    by_cases h1 : 1 ≤ stack
    · rw [if_pos h1]
      simp only []
      rw [hval, if_neg hs]
    · rw [if_neg h1]

theorem encodePairs_append (xs ys : List (List Nat × BVal)) :
    encodePairs (xs ++ ys) = encodePairs xs ++ encodePairs ys := by
  induction xs with
  | nil => rw [encodePairs_nil]; rfl
  | cons kv xs ih =>
    rw [List.cons_append, encodePairs_cons, encodePairs_cons, ih]
    simp

/-- The main loop walks over encoded pairs none of which has the key `info`: it reaches
the offset behind them, unless one of them is nested deeper than the stack allows. -/
theorem infoLoop_skip_pairs (sha1 : Buffer → List Nat) (stack : Nat)
    (before : List (List Nat × BVal)) :
    ∀ (pre post : List Nat) (fuel m : Nat), (∀ kv ∈ before, kv.1 ≠ infoKey) →
      (pre ++ encodePairs before ++ post).length < 2 ^ 31 →
      (encodePairs before).length + m ≤ fuel →
      ∃ fuel', m ≤ fuel' ∧
        infoLoop sha1 fuel stack (pre ++ encodePairs before ++ post) (JSNum.ofNat pre.length)
          = if depthPairs before ≤ stack then
              infoLoop sha1 fuel' stack (pre ++ encodePairs before ++ post)
                (JSNum.ofNat (pre.length + (encodePairs before).length))
            else .throw .rangeError := by
  induction before with
  | nil =>
    intro pre post fuel m _ _ hf
    refine ⟨fuel, ?_, ?_⟩
    · rw [encodePairs_nil] at hf; simpa using hf
    · rw [depthPairs_nil, if_pos (Nat.zero_le _), encodePairs_nil]
      simp
  | cons kv rest ih =>
    intro pre post fuel m hk hlen hf
    rw [encodePairs_cons] at hlen hf ⊢
    have h1 := encBytes_length_pos kv.1
    have h2 := encode_length_pos kv.2
    have hform : pre ++ (encBytes kv.1 ++ kv.2.encode ++ encodePairs rest) ++ post
        = pre ++ encBytes kv.1 ++ kv.2.encode ++ (encodePairs rest ++ post) := by simp
    have hform2 : pre ++ (encBytes kv.1 ++ kv.2.encode ++ encodePairs rest) ++ post
        = (pre ++ encBytes kv.1 ++ kv.2.encode) ++ encodePairs rest ++ post := by simp
    simp only [List.length_append] at hf
    obtain ⟨f, rfl⟩ : ∃ f, fuel = f + 1 := ⟨fuel - 1, by omega⟩
    have hp := infoLoop_pair sha1 f stack pre (encodePairs rest ++ post) kv.1 kv.2
      (by rw [← hform]; exact hlen) (by omega) (by omega)
    rw [if_neg (hk kv (List.mem_cons_self _ _))] at hp
    obtain ⟨fuel', hm, hrest⟩ := ih (pre ++ encBytes kv.1 ++ kv.2.encode) post f m
      (fun kv' h => hk kv' (List.mem_cons_of_mem _ h)) (by rw [← hform2]; exact hlen) (by omega)
    refine ⟨fuel', hm, ?_⟩
    rw [hform, hp, depthPairs_cons]
    have hd := depth_pos kv.2
    by_cases hs : kv.2.depth ≤ stack
    · rw [if_pos hs]
      rw [← hform, hform2]
      simp only [List.length_append] at hrest ⊢
      rw [hrest]
      by_cases hr : depthPairs rest ≤ stack
      · rw [if_pos hr, if_pos (by simp only [max_le_iff]; omega)]
        congr 2
        omega
      · rw [if_neg hr, if_neg (by simp only [max_le_iff]; omega)]
    · rw [if_neg hs, if_neg (by simp only [max_le_iff]; omega)]

theorem getInfoHash_of_dict (sha1 : Buffer → List Nat) (fuel stack : Nat) (body : List Nat) :
    getInfoHash sha1 fuel stack (100 :: body) =
      match infoLoop sha1 fuel stack (100 :: body) (.fin 1) with
      | .ok r => some r
      | .throw _ => some .unavailable
      | .timeout => none
      | .unsupported => none := by
  unfold getInfoHash
  rw [if_neg]
  simp [bufAt, JSNum.toIndex?]

/-! ## Claims about `getInfoHash` -/

/-- **C1 (as amended).** For a buffer, shorter than `2^31` bytes, that is the encoding of a
dictionary whose first key `info` has the value `v` (any pairs before it without that key,
any pairs after it), and in which the pairs before `info` and the value `v` nest no deeper
than the call stack allows, `getInfoHash` returns the lowercase hex SHA-1 of the slice
`[valStart, valEnd)` of the buffer, and that slice is exactly the encoding of `v`. -/
theorem getInfoHash_hashes_info_span (sha1 : Buffer → List Nat)
    (before after : List (List Nat × BVal)) (v : BVal) (fuel stack : Nat)
    (hfirst : ∀ kv ∈ before, kv.1 ≠ infoKey)
    (hlen : (BVal.dict (before ++ (infoKey, v) :: after)).encode.length < 2 ^ 31)
    (hdb : depthPairs before ≤ stack) (hdv : v.depth ≤ stack)
    (hfuel : (BVal.dict (before ++ (infoKey, v) :: after)).encode.length ≤ fuel) :
    getInfoHash sha1 fuel stack (BVal.dict (before ++ (infoKey, v) :: after)).encode
      = some (.hash (hexEncode (sha1
          (slice (BVal.dict (before ++ (infoKey, v) :: after)).encode
            (.ofNat (1 + (encodePairs before).length + (encBytes infoKey).length))
            (.ofNat (1 + (encodePairs before).length + (encBytes infoKey).length
              + v.encode.length))))))
    ∧ slice (BVal.dict (before ++ (infoKey, v) :: after)).encode
        (.ofNat (1 + (encodePairs before).length + (encBytes infoKey).length))
        (.ofNat (1 + (encodePairs before).length + (encBytes infoKey).length + v.encode.length))
      = v.encode := by
  have hbuf : (BVal.dict (before ++ (infoKey, v) :: after)).encode
      = [100] ++ encodePairs before
          ++ (encBytes infoKey ++ v.encode ++ (encodePairs after ++ [101])) := by
    rw [encode_dict, encodePairs_append, encodePairs_cons]; simp
  have hbuf2 : (BVal.dict (before ++ (infoKey, v) :: after)).encode
      = ([100] ++ encodePairs before) ++ encBytes infoKey ++ v.encode
          ++ (encodePairs after ++ [101]) := by
    rw [hbuf]; simp
  have hbuf3 : (BVal.dict (before ++ (infoKey, v) :: after)).encode
      = ([100] ++ encodePairs before ++ encBytes infoKey) ++ v.encode
          ++ (encodePairs after ++ [101]) := by
    rw [hbuf]; simp
  have hslice : slice (BVal.dict (before ++ (infoKey, v) :: after)).encode
        (.ofNat (1 + (encodePairs before).length + (encBytes infoKey).length))
        (.ofNat (1 + (encodePairs before).length + (encBytes infoKey).length + v.encode.length))
      = v.encode := by
    have := slice_mid ([100] ++ encodePairs before ++ encBytes infoKey) v.encode
      (encodePairs after ++ [101])
    simp only [List.length_append, List.length_cons, List.length_nil] at this
    rw [hbuf3]
    simpa [Nat.add_comm, Nat.add_left_comm, Nat.add_assoc] using this
  refine ⟨?_, hslice⟩
  rw [hslice]
  have hk := encBytes_length_pos infoKey
  have hv := encode_length_pos v
  have hL : (BVal.dict (before ++ (infoKey, v) :: after)).encode.length
      = 1 + (encodePairs before).length + (encBytes infoKey).length + v.encode.length
        + ((encodePairs after).length + 1) := by
    rw [hbuf]; simp only [List.length_append, List.length_cons, List.length_nil]; omega
  obtain ⟨fuel', hm, hloop⟩ := infoLoop_skip_pairs sha1 stack before [100]
    (encBytes infoKey ++ v.encode ++ (encodePairs after ++ [101])) fuel
    ((encBytes infoKey).length + v.encode.length + 1) hfirst
    (by rw [← hbuf]; exact hlen) (by omega)
  rw [if_pos hdb] at hloop
  obtain ⟨f, rfl⟩ : ∃ f, fuel' = f + 1 := ⟨fuel' - 1, by omega⟩
  have hp := infoLoop_pair sha1 f stack ([100] ++ encodePairs before)
    (encodePairs after ++ [101]) infoKey v (by rw [← hbuf2]; exact hlen) (by omega) (by omega)
  rw [if_pos hdv, if_pos rfl] at hp
  have h0 : (BVal.dict (before ++ (infoKey, v) :: after)).encode
      = 100 :: (encodePairs before
          ++ (encBytes infoKey ++ v.encode ++ (encodePairs after ++ [101]))) := by
    rw [hbuf]; simp
  rw [h0, getInfoHash_of_dict, ← h0]
  have e1 : (JSNum.fin 1) = JSNum.ofNat ([100] : List Nat).length := rfl
  rw [e1]
  conv => lhs; rw [hbuf]
  rw [hloop]
  have e2 : ([100] : List Nat).length + (encodePairs before).length
      = ([100] ++ encodePairs before).length := by simp; omega
  rw [e2, ← hbuf, hbuf2, hp]

/-- Witness for C1: the buffer `d4:infod4:name4:test6:lengthi5eee` of the specification. -/
theorem getInfoHash_hashes_info_span_witness :
    getInfoHash (fun b => b) 40 10
        (BVal.dict [(infoKey, BVal.dict [([110, 97, 109, 101], .bytes [116, 101, 115, 116]),
          ([108, 101, 110, 103, 116, 104], .int 5)])]).encode
      = some (.hash (hexEncode
          [100, 52, 58, 110, 97, 109, 101, 52, 58, 116, 101, 115, 116, 54, 58, 108, 101, 110,
            103, 116, 104, 105, 53, 101, 101])) := by
  have h := (getInfoHash_hashes_info_span (fun b => b) [] []
    (BVal.dict [([110, 97, 109, 101], .bytes [116, 101, 115, 116]),
      ([108, 101, 110, 103, 116, 104], .int 5)]) 40 10
    (by intro kv h; cases h) (by decide) (by decide) (by decide) (by decide))
  rw [h.2] at h
  exact h.1

/-- Counterexample to C1 as stated: the well-formed dictionary `d1:allleee4:infoi1ee` has
the top-level key `info`, and with a call stack that allows two nested calls of `skipValue`
the three nested lists before `info` exhaust it: the `RangeError` is caught and the result
is `null`.  With a deeper stack the same buffer gives the hash of `i1e`. -/
theorem getInfoHash_unavailable_beyond_stack :
    (BVal.dict [([97], .list [.list [.list []]]), (infoKey, .int 1)]).encode
        = [100, 49, 58, 97, 108, 108, 108, 101, 101, 101, 52, 58, 105, 110, 102, 111,
            105, 49, 101, 101] ∧
      getInfoHash (fun b => b) 40 2
          (BVal.dict [([97], .list [.list [.list []]]), (infoKey, .int 1)]).encode
        = some .unavailable ∧
      getInfoHash (fun b => b) 40 10
          (BVal.dict [([97], .list [.list [.list []]]), (infoKey, .int 1)]).encode
        = some (.hash (hexEncode [105, 49, 101])) := by
  refine ⟨by decide, by decide, by decide⟩

/-- **C2.** `getInfoHash` returns `null` for every buffer whose first byte is not `d`
(the empty buffer included), and for every encoded dictionary none of whose top-level
keys is `info`, whatever its values contain and whatever the stack allows. -/
theorem getInfoHash_unavailable (sha1 : Buffer → List Nat) (fuel stack : Nat) :
    (∀ buf : Buffer, buf.head? ≠ some 100 → getInfoHash sha1 fuel stack buf = some .unavailable) ∧
    (∀ kvs : List (List Nat × BVal), (∀ kv ∈ kvs, kv.1 ≠ infoKey) →
      (BVal.dict kvs).encode.length < 2 ^ 31 → (BVal.dict kvs).encode.length ≤ fuel →
      getInfoHash sha1 fuel stack (BVal.dict kvs).encode = some .unavailable) := by
  constructor
  · intro buf h
    unfold getInfoHash
    rw [if_pos]
    cases buf with
    | nil => simp [bufAt, JSNum.toIndex?]
    | cons b bs =>
      simp only [List.head?_cons, ne_eq, Option.some.injEq] at h
      simpa [bufAt, JSNum.toIndex?] using h
  · intro kvs hk hlen hfuel
    have hbuf : (BVal.dict kvs).encode = [100] ++ encodePairs kvs ++ [101] := by
      rw [encode_dict]; simp
    have hL : (BVal.dict kvs).encode.length = (encodePairs kvs).length + 2 := by
      rw [hbuf]; simp only [List.length_append, List.length_cons, List.length_nil]; omega
    obtain ⟨fuel', hm, hloop⟩ := infoLoop_skip_pairs sha1 stack kvs [100] [101] fuel 1 hk
      (by rw [← hbuf]; exact hlen) (by omega)
    have h0 : (BVal.dict kvs).encode = 100 :: (encodePairs kvs ++ [101]) := by
      rw [hbuf]; simp
    rw [h0, getInfoHash_of_dict, ← h0]
    have e1 : (JSNum.fin 1) = JSNum.ofNat ([100] : List Nat).length := rfl
    rw [e1]
    conv => lhs; rw [hbuf]
    rw [hloop]
    by_cases hd : depthPairs kvs ≤ stack
    · rw [if_pos hd]
      obtain ⟨f, rfl⟩ : ∃ f, fuel' = f + 1 := ⟨fuel' - 1, by omega⟩
      have e2 : ([100] : List Nat).length + (encodePairs kvs).length
          = ([100] ++ encodePairs kvs).length := by simp; omega
      rw [infoLoop_succ, e2, bufAt_append]
      simp
    · rw [if_neg hd]

/-- Witness for C2: the buffer `i5e`, and the dictionary `d1:ad4:infoi1eee` whose only
`info` key is nested. -/
theorem getInfoHash_unavailable_witness :
    getInfoHash (fun b => b) 20 10 [105, 53, 101] = some .unavailable ∧
    getInfoHash (fun b => b) 20 10
        (BVal.dict [([97], BVal.dict [(infoKey, .int 1)])]).encode = some .unavailable :=
  ⟨(getInfoHash_unavailable (fun b => b) 20 10).1 [105, 53, 101] (by decide),
   (getInfoHash_unavailable (fun b => b) 20 10).2 [([97], BVal.dict [(infoKey, .int 1)])]
     (by intro kv h; simp only [List.mem_singleton] at h; subst h; decide)
     (by decide) (by decide)⟩

/-! ## Fuel and stack: monotonicity of the skipping walk -/

theorem skipValue_zero (stack : Nat) (buffer : Buffer) (start : JSNum) :
    skipValue 0 stack buffer start = .timeout := by
  rw [skipValue]

theorem skipListLoop_zero (stack : Nat) (buffer : Buffer) (p : JSNum) :
    skipListLoop 0 stack buffer p = .timeout := by
  rw [skipListLoop]

theorem skipDictLoop_zero (stack : Nat) (buffer : Buffer) (p : JSNum) :
    skipDictLoop 0 stack buffer p = .timeout := by
  rw [skipDictLoop]

theorem infoLoop_zero (sha1 : Buffer → List Nat) (stack : Nat) (buf : Buffer) (pos : JSNum) :
    infoLoop sha1 0 stack buf pos = .timeout := by
  rw [infoLoop]

/-- One more unit of fuel does not change a run that finished. -/
theorem skip_mono_aux (buffer : Buffer) (n : Nat) :
    (∀ k p, skipValue n k buffer p ≠ .timeout →
      skipValue (n + 1) k buffer p = skipValue n k buffer p) ∧
    (∀ k p, skipListLoop n k buffer p ≠ .timeout →
      skipListLoop (n + 1) k buffer p = skipListLoop n k buffer p) ∧
    (∀ k p, skipDictLoop n k buffer p ≠ .timeout →
      skipDictLoop (n + 1) k buffer p = skipDictLoop n k buffer p) := by
  induction n with
  | zero =>
    refine ⟨?_, ?_, ?_⟩
    · intro k p h; exact absurd (skipValue_zero _ _ _) h
    · intro k p h; exact absurd (skipListLoop_zero _ _ _) h
    · intro k p h; exact absurd (skipDictLoop_zero _ _ _) h
  | succ n ih =>
    obtain ⟨ihv, ihl, ihd⟩ := ih
    refine ⟨?_, ?_, ?_⟩
    · intro k p h
      cases k with
      | zero => rw [skipValue_no_stack, skipValue_no_stack]
      | succ k =>
        rw [skipValue_succ] at h ⊢
        rw [skipValue_succ n]
        cases hb : bufAt buffer p with
        | none => rfl
        | some c =>
          rw [hb] at h
          simp only at h ⊢
          by_cases h1 : c = 0x69
          · simp only [h1, if_true]
          · simp only [h1, if_false] at h ⊢
            by_cases h2 : 0x30 ≤ c ∧ c ≤ 0x39
            · simp only [h2, and_self, if_true]
            · simp only [h2, if_false] at h ⊢
              by_cases h3 : c = 0x6c
              · simp only [h3, if_true] at h ⊢
                exact ihl _ _ h
              · simp only [h3, if_false] at h ⊢
                by_cases h4 : c = 0x64
                · simp only [h4, if_true] at h ⊢
                  exact ihd _ _ h
                · simp only [h4, if_false]
    · intro k p h
      rw [skipListLoop_succ] at h ⊢
      rw [skipListLoop_succ n]
      by_cases he : bufAt buffer p = some 0x65
      · simp only [he, if_true]
      · simp only [he, if_false] at h ⊢
        cases hs : skipValue n k buffer p with
        | ok p1 =>
          rw [hs] at h
          simp only at h
          rw [ihv k p (by rw [hs]; simp), hs]
          simp only
          exact ihl _ _ h
        | throw e => rw [ihv k p (by rw [hs]; simp), hs]
        | timeout => rw [hs] at h; exact absurd rfl h
        | unsupported => rw [ihv k p (by rw [hs]; simp), hs]
    · intro k p h
      rw [skipDictLoop_succ] at h ⊢
      rw [skipDictLoop_succ n]
      by_cases he : bufAt buffer p = some 0x65
      · simp only [he, if_true]
      · simp only [he, if_false] at h ⊢
        cases hs : skipValue n k buffer p with
        | ok p1 =>
          rw [hs] at h
          simp only at h
          rw [ihv k p (by rw [hs]; simp), hs]
          simp only
          cases hs2 : skipValue n k buffer p1 with
          | ok p2 =>
            rw [hs2] at h
            simp only at h
            rw [ihv k p1 (by rw [hs2]; simp), hs2]
            simp only
            exact ihd _ _ h
          | throw e => rw [ihv k p1 (by rw [hs2]; simp), hs2]
          | timeout => rw [hs2] at h; exact absurd rfl h
          | unsupported => rw [ihv k p1 (by rw [hs2]; simp), hs2]
        | throw e => rw [ihv k p (by rw [hs]; simp), hs]
        | timeout => rw [hs] at h; exact absurd rfl h
        | unsupported => rw [ihv k p (by rw [hs]; simp), hs]

theorem skipValue_mono (buffer : Buffer) (k : Nat) (p : JSNum) (n m : Nat) (hnm : n ≤ m)
    (h : skipValue n k buffer p ≠ .timeout) :
    skipValue m k buffer p = skipValue n k buffer p := by
  induction m with
  | zero =>
    have : n = 0 := by omega
    rw [this]
  | succ m ih =>
    by_cases hn : n = m + 1
    · rw [hn]
    · have hle : n ≤ m := by omega
      rw [(skip_mono_aux buffer m).1 k p (by rw [ih hle]; exact h), ih hle]

theorem skipListLoop_mono (buffer : Buffer) (k : Nat) (p : JSNum) (n m : Nat) (hnm : n ≤ m)
    (h : skipListLoop n k buffer p ≠ .timeout) :
    skipListLoop m k buffer p = skipListLoop n k buffer p := by
  induction m with
  | zero =>
    have : n = 0 := by omega
    rw [this]
  | succ m ih =>
    by_cases hn : n = m + 1
    · rw [hn]
    · have hle : n ≤ m := by omega
      rw [(skip_mono_aux buffer m).2.1 k p (by rw [ih hle]; exact h), ih hle]

theorem skipDictLoop_mono (buffer : Buffer) (k : Nat) (p : JSNum) (n m : Nat) (hnm : n ≤ m)
    (h : skipDictLoop n k buffer p ≠ .timeout) :
    skipDictLoop m k buffer p = skipDictLoop n k buffer p := by
  induction m with
  | zero =>
    have : n = 0 := by omega
    rw [this]
  | succ m ih =>
    by_cases hn : n = m + 1
    · rw [hn]
    · have hle : n ≤ m := by omega
      rw [(skip_mono_aux buffer m).2.2 k p (by rw [ih hle]; exact h), ih hle]

theorem infoLoop_mono_step (sha1 : Buffer → List Nat) (buf : Buffer) (k : Nat) (n : Nat) :
    ∀ p, infoLoop sha1 n k buf p ≠ .timeout →
      infoLoop sha1 (n + 1) k buf p = infoLoop sha1 n k buf p := by
  induction n with
  | zero => intro p h; exact absurd (infoLoop_zero _ _ _ _) h
  | succ n ih =>
    intro p h
    rw [infoLoop_succ] at h ⊢
    rw [infoLoop_succ sha1 n]
    split
    · rename_i hc
      rw [if_pos hc] at h
      cases hs : skipValue n k buf p with
      | ok p1 =>
        rw [hs] at h
        simp only at h
        rw [(skip_mono_aux buf n).1 k p (by rw [hs]; simp), hs]
        simp only
        cases hs2 : skipValue n k buf p1 with
        | ok p2 =>
          rw [hs2] at h
          simp only at h
          rw [(skip_mono_aux buf n).1 k p1 (by rw [hs2]; simp), hs2]
          simp only
          split
          · rfl
          · rename_i hk
            rw [if_neg hk] at h
            exact ih _ h
        | throw e => rw [(skip_mono_aux buf n).1 k p1 (by rw [hs2]; simp), hs2]
        | timeout => rw [hs2] at h; exact absurd rfl h
        | unsupported => rw [(skip_mono_aux buf n).1 k p1 (by rw [hs2]; simp), hs2]
      | throw e => rw [(skip_mono_aux buf n).1 k p (by rw [hs]; simp), hs]
      | timeout => rw [hs] at h; exact absurd rfl h
      | unsupported => rw [(skip_mono_aux buf n).1 k p (by rw [hs]; simp), hs]
    · rfl

theorem infoLoop_mono (sha1 : Buffer → List Nat) (buf : Buffer) (k : Nat) (p : JSNum)
    (n m : Nat) (hnm : n ≤ m) (h : infoLoop sha1 n k buf p ≠ .timeout) :
    infoLoop sha1 m k buf p = infoLoop sha1 n k buf p := by
  induction m with
  | zero =>
    have : n = 0 := by omega
    rw [this]
  | succ m ih =>
    by_cases hn : n = m + 1
    · rw [hn]
    · have hle : n ≤ m := by omega
      rw [infoLoop_mono_step sha1 buf k m p (by rw [ih hle]; exact h), ih hle]

/-- The skipping walk never leaves the embedding. -/
theorem skip_supported_aux (buffer : Buffer) (n : Nat) :
    (∀ k p, skipValue n k buffer p ≠ .unsupported) ∧
    (∀ k p, skipListLoop n k buffer p ≠ .unsupported) ∧
    (∀ k p, skipDictLoop n k buffer p ≠ .unsupported) := by
  induction n with
  | zero =>
    refine ⟨?_, ?_, ?_⟩
    · intro k p; rw [skipValue_zero]; simp
    · intro k p; rw [skipListLoop_zero]; simp
    · intro k p; rw [skipDictLoop_zero]; simp
  | succ n ih =>
    obtain ⟨ihv, ihl, ihd⟩ := ih
    refine ⟨?_, ?_, ?_⟩
    · intro k p
      cases k with
      | zero => rw [skipValue_no_stack]; simp
      | succ k =>
        rw [skipValue_succ]
        split
        · simp
        · split
          · simp
          · split
            · simp
            · split
              · exact ihl _ _
              · split
                · exact ihd _ _
                · simp
    · intro k p
      rw [skipListLoop_succ]
      split
      · simp
      · cases hs : skipValue n k buffer p with
        | ok p1 => exact ihl _ _
        | throw e => simp
        | timeout => simp
        | unsupported => exact absurd hs (ihv _ _)
    · intro k p
      rw [skipDictLoop_succ]
      split
      · simp
      · cases hs : skipValue n k buffer p with
        | ok p1 =>
          simp only
          cases hs2 : skipValue n k buffer p1 with
          | ok p2 => exact ihd _ _
          | throw e => simp
          | timeout => simp
          | unsupported => exact absurd hs2 (ihv _ _)
        | throw e => simp
        | timeout => simp
        | unsupported => exact absurd hs (ihv _ _)

theorem infoLoop_supported (sha1 : Buffer → List Nat) (buf : Buffer) (k : Nat) (n : Nat) :
    ∀ p, infoLoop sha1 n k buf p ≠ .unsupported := by
  induction n with
  | zero => intro p; rw [infoLoop_zero]; simp
  | succ n ih =>
    intro p
    rw [infoLoop_succ]
    split
    · cases hs : skipValue n k buf p with
      | ok p1 =>
        simp only
        cases hs2 : skipValue n k buf p1 with
        | ok p2 =>
          simp only
          split
          · simp
          · exact ih _
        | throw e => simp
        | timeout => simp
        | unsupported => exact absurd hs2 ((skip_supported_aux buf n).1 _ _)
      | throw e => simp
      | timeout => simp
      | unsupported => exact absurd hs ((skip_supported_aux buf n).1 _ _)
    · simp

/-- A run that returned with one stack budget returns the same offset with any other
budget, unless the other budget is exhausted first. -/
theorem skip_stack_aux (buffer : Buffer) (n : Nat) :
    (∀ k k' p r, skipValue n k buffer p = .ok r →
      skipValue n k' buffer p = .ok r ∨ skipValue n k' buffer p = .throw .rangeError) ∧
    (∀ k k' p r, skipListLoop n k buffer p = .ok r →
      skipListLoop n k' buffer p = .ok r ∨ skipListLoop n k' buffer p = .throw .rangeError) ∧
    (∀ k k' p r, skipDictLoop n k buffer p = .ok r →
      skipDictLoop n k' buffer p = .ok r ∨ skipDictLoop n k' buffer p = .throw .rangeError) := by
  induction n with
  | zero =>
    refine ⟨?_, ?_, ?_⟩
    · intro k k' p r h; rw [skipValue_zero] at h; cases h
    · intro k k' p r h; rw [skipListLoop_zero] at h; cases h
    · intro k k' p r h; rw [skipDictLoop_zero] at h; cases h
  | succ n ih =>
    obtain ⟨ihv, ihl, ihd⟩ := ih
    refine ⟨?_, ?_, ?_⟩
    · intro k k' p r h
      cases k' with
      | zero => right; rw [skipValue_no_stack]
      | succ k' =>
        cases k with
        | zero => rw [skipValue_no_stack] at h; cases h
        | succ k =>
          rw [skipValue_succ] at h ⊢
          cases hb : bufAt buffer p with
          | none => rw [hb] at h; cases h
          | some c =>
            rw [hb] at h
            simp only at h ⊢
            by_cases h1 : c = 0x69
            · simp only [h1, if_true] at h ⊢; exact Or.inl h
            · simp only [h1, if_false] at h ⊢
              by_cases h2 : 0x30 ≤ c ∧ c ≤ 0x39
              · simp only [h2, and_self, if_true] at h ⊢; exact Or.inl h
              · simp only [h2, if_false] at h ⊢
                by_cases h3 : c = 0x6c
                · simp only [h3, if_true] at h ⊢
                  exact ihl _ _ _ _ h
                · simp only [h3, if_false] at h ⊢
                  by_cases h4 : c = 0x64
                  · simp only [h4, if_true] at h ⊢
                    exact ihd _ _ _ _ h
                  · simp only [h4, if_false] at h; cases h
    · intro k k' p r h
      rw [skipListLoop_succ] at h ⊢
      by_cases he : bufAt buffer p = some 0x65
      · simp only [he, if_true] at h ⊢; exact Or.inl h
      · simp only [he, if_false] at h ⊢
        cases hs : skipValue n k buffer p with
        | ok p1 =>
          rw [hs] at h
          simp only at h
          rcases ihv _ k' _ _ hs with h1 | h1
          · rw [h1]; exact ihl _ _ _ _ h
          · rw [h1]; exact Or.inr rfl
        | throw e => rw [hs] at h; cases h
        | timeout => rw [hs] at h; cases h
        | unsupported => rw [hs] at h; cases h
    · intro k k' p r h
      rw [skipDictLoop_succ] at h ⊢
      by_cases he : bufAt buffer p = some 0x65
      · simp only [he, if_true] at h ⊢; exact Or.inl h
      · simp only [he, if_false] at h ⊢
        cases hs : skipValue n k buffer p with
        | ok p1 =>
          rw [hs] at h
          simp only at h
          cases hs2 : skipValue n k buffer p1 with
          | ok p2 =>
            rw [hs2] at h
            simp only at h
            rcases ihv _ k' _ _ hs with h1 | h1
            · rw [h1]
              simp only
              rcases ihv _ k' _ _ hs2 with h2 | h2
              · rw [h2]; exact ihd _ _ _ _ h
              · rw [h2]; exact Or.inr rfl
            · rw [h1]; exact Or.inr rfl
          | throw e => rw [hs2] at h; cases h
          | timeout => rw [hs2] at h; cases h
          | unsupported => rw [hs2] at h; cases h
        | throw e => rw [hs] at h; cases h
        | timeout => rw [hs] at h; cases h
        | unsupported => rw [hs] at h; cases h

theorem bufAt_some (buffer : Buffer) (p : JSNum) (c : Nat) (h : bufAt buffer p = some c) :
    ∃ i, p = JSNum.ofNat i ∧ i < buffer.length ∧ buffer[i]? = some c := by
  unfold bufAt at h
  cases p with
  | nan => simp [JSNum.toIndex?] at h
  | pinf => simp [JSNum.toIndex?] at h
  | ninf => simp [JSNum.toIndex?] at h
  | fin i =>
    cases i with
    | ofNat m =>
      simp only [JSNum.toIndex?] at h
      refine ⟨m, rfl, ?_, h⟩
      by_contra hlt
      rw [List.getElem?_eq_none (by omega)] at h
      cases h
    | negSucc m => simp [JSNum.toIndex?] at h

/-- A call that returns was made at a byte of the buffer. -/
theorem skipValue_ok_bufAt (buffer : Buffer) (n k : Nat) (p r : JSNum)
    (h : skipValue n k buffer p = .ok r) : ∃ c, bufAt buffer p = some c := by
  cases n with
  | zero => rw [skipValue_zero] at h; cases h
  | succ n =>
    cases k with
    | zero => rw [skipValue_no_stack] at h; cases h
    | succ k =>
      rw [skipValue_succ] at h
      cases hb : bufAt buffer p with
      | none => rw [hb] at h; cases h
      | some c => exact ⟨c, rfl⟩

/-- If the dictionary walk from `q` returns with some stack budget, the main loop of
`getInfoHash` from `q` ends with every stack budget. -/
theorem infoLoop_of_skipDictLoop (sha1 : Buffer → List Nat) (buf : Buffer) (n : Nat) :
    ∀ (k0 k : Nat) (q r : JSNum), skipDictLoop n k0 buf q = .ok r →
      infoLoop sha1 n k buf q ≠ .timeout := by
  induction n with
  | zero => intro k0 k q r h; rw [skipDictLoop_zero] at h; cases h
  | succ n ih =>
    intro k0 k q r h
    rw [skipDictLoop_succ] at h
    rw [infoLoop_succ]
    by_cases he : bufAt buf q = some 0x65
    · simp [he]
    · simp only [he, if_false] at h
      cases hs : skipValue n k0 buf q with
      | ok p1 =>
        rw [hs] at h
        simp only at h
        cases hs2 : skipValue n k0 buf p1 with
        | ok p2 =>
          rw [hs2] at h
          simp only at h
          split
          · rcases (skip_stack_aux buf n).1 _ k _ _ hs with h1 | h1
            · rw [h1]
              simp only
              rcases (skip_stack_aux buf n).1 _ k _ _ hs2 with h2 | h2
              · rw [h2]
                simp only
                split
                · simp
                · exact ih _ _ _ _ h
              · rw [h2]; simp
            · rw [h1]; simp
          · simp
        | throw e => rw [hs2] at h; cases h
        | timeout => rw [hs2] at h; cases h
        | unsupported => rw [hs2] at h; cases h
      | throw e => rw [hs] at h; cases h
      | timeout => rw [hs] at h; cases h
      | unsupported => rw [hs] at h; cases h

/-! ## Where a call of the skipping walk can end -/

theorem roundShift_spec (f n : Nat) (hn : 2 ^ 53 ≤ n) (hf : 1 ≤ f) :
    1 ≤ roundShift f n ∧ 2 ^ 53 ≤ n / 2 ^ (roundShift f n - 1) := by
  induction f generalizing n with
  | zero => omega
  | succ f ih =>
    rw [roundShift, if_neg (by omega)]
    refine ⟨by omega, ?_⟩
    rw [Nat.add_sub_cancel]
    by_cases h : 1 ≤ f ∧ 2 ^ 53 ≤ n / 2
    · obtain ⟨_, h2⟩ := ih (n / 2) h.2 h.1
      rw [Nat.div_div_eq_div_mul, ← Nat.pow_succ'] at h2
      have e : (roundShift f (n / 2) - 1).succ = roundShift f (n / 2) := by
        have := (ih (n / 2) h.2 h.1).1; omega
      rw [e] at h2
      exact h2
    · have hz : roundShift f (n / 2) = 0 := by
        cases f with
        | zero => rfl
        | succ f => rw [roundShift, if_pos (by omega)]
      rw [hz]
      simpa using hn

theorem roundNat_ge (n : Nat) (hn : 2 ^ 53 < n) : 2 ^ 53 ≤ roundNat n := by
  obtain ⟨h1, h2⟩ := roundShift_spec n n (by omega) (by omega)
  unfold roundNat
  simp only
  generalize roundShift n n = s at h1 h2
  obtain ⟨t, rfl⟩ : ∃ t, s = t + 1 := ⟨s - 1, by omega⟩
  rw [Nat.add_sub_cancel] at h2
  have hq : 2 ^ 52 ≤ n / 2 ^ (t + 1) := by
    have e : n / 2 ^ (t + 1) = n / 2 ^ t / 2 := by
      rw [Nat.div_div_eq_div_mul, Nat.pow_succ]
    rw [e]
    omega
  have hp : 2 ≤ 2 ^ (t + 1) := by
    have : 2 ^ 1 ≤ 2 ^ (t + 1) := Nat.pow_le_pow_right (by omega) (by omega)
    simpa using this
  have hmul : 2 ^ 52 * 2 ≤ (n / 2 ^ (t + 1)) * 2 ^ (t + 1) := Nat.mul_le_mul hq hp
  split
  · calc 2 ^ 53 = 2 ^ 52 * 2 := by norm_num
      _ ≤ (n / 2 ^ (t + 1)) * 2 ^ (t + 1) := hmul
      _ ≤ (n / 2 ^ (t + 1) + 1) * 2 ^ (t + 1) := Nat.mul_le_mul_right _ (by omega)
  · calc 2 ^ 53 = 2 ^ 52 * 2 := by norm_num
      _ ≤ (n / 2 ^ (t + 1)) * 2 ^ (t + 1) := hmul

/-- The double nearest to a natural number is infinite or a natural number, equal to the
argument up to `2^53` and at least `2^53` beyond. -/
theorem toDouble_nat (x : Nat) :
    toDouble (x : Int) = .pinf ∨
      ∃ i : Nat, toDouble (x : Int) = JSNum.ofNat i ∧ (x ≤ 2 ^ 53 → i = x) ∧
        (2 ^ 53 < x → 2 ^ 53 ≤ i) := by
  unfold toDouble
  by_cases h : (x : Int).natAbs ≤ 2 ^ 53
  · rw [if_pos h]
    right
    exact ⟨x, rfl, fun _ => rfl, fun h' => by simp only [Int.natAbs_ofNat] at h; omega⟩
  · rw [if_neg h]
    simp only [Int.natAbs_ofNat] at h ⊢
    have hneg : ¬ ((x : Int) < 0) := by omega
    simp only [hneg, if_false]
    split
    · left; rfl
    · right
      exact ⟨roundNat x, rfl, fun h' => absurd h' h, fun h' => roundNat_ge x h'⟩

theorem findFrom_bounds (x : Nat) (l : List Nat) (k j : Nat) (h : findFrom x l k = some j) :
    k ≤ j ∧ j < k + l.length := by
  induction l generalizing k with
  | nil => simp [findFrom] at h
  | cons y ys ih =>
    rw [findFrom] at h
    split at h
    · simp only [Option.some.injEq] at h
      subst h
      simp
    · have := ih _ h
      simp only [List.length_cons]
      omega

theorem indexOf_cases (buffer : Buffer) (x p : Nat) (hp : p < buffer.length)
    (hlen : buffer.length < 2 ^ 31) :
    indexOf buffer x (JSNum.ofNat p) = .fin (-1) ∨
      ∃ j, indexOf buffer x (JSNum.ofNat p) = JSNum.ofNat j ∧ p ≤ j ∧ j < buffer.length := by
  rw [indexOf_ofNat _ _ _ hp (by omega)]
  cases h : findFrom x (List.drop p buffer) p with
  | none => left; rfl
  | some j =>
    right
    have := findFrom_bounds _ _ _ _ h
    rw [List.length_drop] at this
    exact ⟨j, rfl, by omega, by omega⟩

theorem parseInt_nil : parseInt [] = .nan := by decide

theorem parseInt_digit_head (c : Nat) (rest : List Nat) (h1 : 48 ≤ c) (h2 : c ≤ 57) :
    ∃ m : Nat, parseInt (asciiDecode (c :: rest)) = toDouble (m : Int) := by
  have hc : c % 128 = c := by omega
  have hw : isWhite c = false := by
    simp only [isWhite, Bool.or_eq_false_iff, decide_eq_false_iff_not]
    omega
  have hd : isDigit c = true := by simp [isDigit, h1, h2]
  have h45 : c ≠ 45 := by omega
  have h43 : c ≠ 43 := by omega
  refine ⟨digitsValue (c :: (List.map (· % 128) rest).takeWhile isDigit), ?_⟩
  unfold parseInt asciiDecode
  simp only [List.map_cons, hc, List.dropWhile_cons, hw, List.head?_cons, Option.some.injEq,
    h45, h43, or_self, if_false, decide_False, Bool.false_eq_true, List.takeWhile_cons, hd,
    if_true]
  rw [if_neg (by simp)]

theorem progress_add_nat (buffer : Buffer) (p j m : Nat) (hpj : p ≤ j)
    (hlen : buffer.length < 2 ^ 31) (hj : j < buffer.length) :
    Progress buffer p ((JSNum.ofNat (j + 1)).add (toDouble (m : Int))) := by
  rcases toDouble_nat m with h | ⟨i, h, _, _⟩
  · rw [h]
    right; left
    rfl
  · rw [h]
    simp only [JSNum.ofNat, JSNum.add]
    have e : ((j + 1 : Nat) : Int) + (i : Int) = ((j + 1 + i : Nat) : Int) := by push_cast; ring
    rw [e]
    rcases toDouble_nat (j + 1 + i) with h' | ⟨i', h', h1, h2⟩
    · rw [h']; right; left; rfl
    · rw [h']
      right; right
      refine ⟨i', rfl, ?_⟩
      by_cases hs : j + 1 + i ≤ 2 ^ 53
      · have := h1 hs; omega
      · have := h2 (by omega); omega

theorem toStringRange_neg (buffer : Buffer) (p : Nat) :
    toStringRange buffer (JSNum.ofNat p) (.fin (-1)) = [] := by
  unfold toStringRange
  simp only [JSNum.ofNat]
  have h1 : ¬ ((buffer.length : Int) < -1) := by omega
  simp only [h1, if_false]
  split
  · rfl
  · rename_i s hs
    rw [if_pos]
    split at hs
    · simp only [Option.some.injEq] at hs; omega
    · split at hs
      · cases hs
      · simp only [Option.some.injEq] at hs; omega

theorem fin_neg_one_add_one : (JSNum.fin (-1)).add (.fin 1) = .fin 0 := by decide

theorem add_nan (a : JSNum) : a.add .nan = .nan := by
  cases a <;> rfl

theorem bufAt_nan (buffer : Buffer) : bufAt buffer .nan = none := rfl

theorem skipValue_bad (buffer : Buffer) (hB : NoReturnAtZero buffer) (r1 : JSNum)
    (h : r1 = .fin 0 ∨ bufAt buffer r1 = none) (n k : Nat) (r : JSNum) :
    skipValue n k buffer r1 ≠ .ok r := by
  rcases h with h | h
  · rw [h]; exact hB.never n k r
  · intro hs
    obtain ⟨c, hc⟩ := skipValue_ok_bufAt _ _ _ _ _ hs
    rw [h] at hc
    cases hc

theorem bad_not_e (buffer : Buffer) (hB : NoReturnAtZero buffer) (r1 : JSNum)
    (h : r1 = .fin 0 ∨ bufAt buffer r1 = none) : bufAt buffer r1 ≠ some 0x65 := by
  rcases h with h | h
  · rw [h]; exact hB.first
  · rw [h]; simp

theorem skipListLoop_bad (buffer : Buffer) (hB : NoReturnAtZero buffer) (r1 : JSNum)
    (h : r1 = .fin 0 ∨ bufAt buffer r1 = none) (n k : Nat) (r : JSNum) :
    skipListLoop n k buffer r1 ≠ .ok r := by
  cases n with
  | zero => rw [skipListLoop_zero]; simp
  | succ n =>
    rw [skipListLoop_succ, if_neg (bad_not_e buffer hB r1 h)]
    cases hs : skipValue n k buffer r1 with
    | ok p1 => exact absurd hs (skipValue_bad buffer hB r1 h n k p1)
    | throw e => simp
    | timeout => simp
    | unsupported => simp

theorem skipDictLoop_bad (buffer : Buffer) (hB : NoReturnAtZero buffer) (r1 : JSNum)
    (h : r1 = .fin 0 ∨ bufAt buffer r1 = none) (n k : Nat) (r : JSNum) :
    skipDictLoop n k buffer r1 ≠ .ok r := by
  cases n with
  | zero => rw [skipDictLoop_zero]; simp
  | succ n =>
    rw [skipDictLoop_succ, if_neg (bad_not_e buffer hB r1 h)]
    cases hs : skipValue n k buffer r1 with
    | ok p1 => exact absurd hs (skipValue_bad buffer hB r1 h n k p1)
    | throw e => simp
    | timeout => simp
    | unsupported => simp

theorem drop_take_head (buffer : Buffer) (p m c : Nat) (h : buffer[p]? = some c) :
    (buffer.drop p).take m = [] ∨ ∃ rest, (buffer.drop p).take m = c :: rest := by
  cases m with
  | zero => left; simp
  | succ m =>
    right
    have hp : p < buffer.length := by
      by_contra hlt
      rw [List.getElem?_eq_none (by omega)] at h
      cases h
    have hc : buffer[p] = c := by
      rw [List.getElem?_eq_getElem hp] at h
      exact Option.some.inj h
    rw [List.drop_eq_getElem_cons hp, List.take_succ_cons, hc]
    exact ⟨_, rfl⟩

/-- In such a buffer every call that returns makes progress, and every loop that returns
ends behind the offset it started from. -/
theorem skip_progress_aux (buffer : Buffer) (hB : NoReturnAtZero buffer) (n : Nat) :
    (∀ k p r, skipValue n k buffer (JSNum.ofNat p) = .ok r → Progress buffer p r) ∧
    (∀ k q r, skipListLoop n k buffer (JSNum.ofNat q) = .ok r →
      ∃ i, r = JSNum.ofNat i ∧ q < i) ∧
    (∀ k q r, skipDictLoop n k buffer (JSNum.ofNat q) = .ok r →
      ∃ i, r = JSNum.ofNat i ∧ q < i) := by
  have hlen := hB.short
  induction n with
  | zero =>
    refine ⟨?_, ?_, ?_⟩
    · intro k p r h; rw [skipValue_zero] at h; cases h
    · intro k p r h; rw [skipListLoop_zero] at h; cases h
    · intro k p r h; rw [skipDictLoop_zero] at h; cases h
  | succ n ih =>
    obtain ⟨ihv, ihl, ihd⟩ := ih
    refine ⟨?_, ?_, ?_⟩
    · intro k p r h
      cases k with
      | zero => rw [skipValue_no_stack] at h; cases h
      | succ k =>
        rw [skipValue_succ] at h
        cases hb : bufAt buffer (JSNum.ofNat p) with
        | none => rw [hb] at h; cases h
        | some c =>
          rw [hb] at h
          simp only at h
          have hp : p < buffer.length := by
            by_contra hlt
            rw [bufAt_ofNat, List.getElem?_eq_none (by omega)] at hb
            cases hb
          by_cases h1 : c = 0x69
          · simp only [h1, if_true, Outcome.ok.injEq] at h
            rcases indexOf_cases buffer 101 p hp hlen with hi | ⟨j, hi, hpj, hj⟩
            · rw [hi, fin_neg_one_add_one] at h
              exact Or.inl h.symm
            · rw [hi, ofNat_add_one _ (by omega)] at h
              exact Or.inr (Or.inr ⟨j + 1, h.symm, by omega⟩)
          · simp only [h1, if_false] at h
            by_cases h2 : 0x30 ≤ c ∧ c ≤ 0x39
            · simp only [h2, and_self, if_true, Outcome.ok.injEq] at h
              rcases indexOf_cases buffer 58 p hp hlen with hi | ⟨j, hi, hpj, hj⟩
              · rw [hi, toStringRange_neg] at h
                have e : asciiDecode [] = [] := rfl
                rw [e, parseInt_nil, add_nan] at h
                exact Or.inr (Or.inl (by rw [← h]; rfl))
              · rw [hi, toStringRange_ofNat _ _ _ (by omega), ofNat_add_one _ (by omega)] at h
                rw [bufAt_ofNat] at hb
                rcases drop_take_head buffer p (j - p) c hb with he | ⟨rest, he⟩
                · rw [he] at h
                  have e : asciiDecode [] = [] := rfl
                  rw [e, parseInt_nil, add_nan] at h
                  exact Or.inr (Or.inl (by rw [← h]; rfl))
                · rw [he] at h
                  obtain ⟨m, hm⟩ := parseInt_digit_head c rest h2.1 h2.2
                  rw [hm] at h
                  rw [← h]
                  exact progress_add_nat buffer p j m hpj hlen hj
            · simp only [h2, if_false] at h
              by_cases h3 : c = 0x6c
              · simp only [h3, if_true] at h
                rw [ofNat_add_one _ (by omega)] at h
                obtain ⟨i, hi, hlt⟩ := ihl _ _ _ h
                exact Or.inr (Or.inr ⟨i, hi, by omega⟩)
              · simp only [h3, if_false] at h
                by_cases h4 : c = 0x64
                · simp only [h4, if_true] at h
                  rw [ofNat_add_one _ (by omega)] at h
                  obtain ⟨i, hi, hlt⟩ := ihd _ _ _ h
                  exact Or.inr (Or.inr ⟨i, hi, by omega⟩)
                · simp only [h4, if_false] at h; cases h
    · intro k q r h
      rw [skipListLoop_succ] at h
      by_cases he : bufAt buffer (JSNum.ofNat q) = some 0x65
      · simp only [he, if_true, Outcome.ok.injEq] at h
        have hq : q < buffer.length := by
          by_contra hlt
          rw [bufAt_ofNat, List.getElem?_eq_none (by omega)] at he
          cases he
        rw [ofNat_add_one _ (by omega)] at h
        exact ⟨q + 1, h.symm, by omega⟩
      · simp only [he, if_false] at h
        cases hs : skipValue n k buffer (JSNum.ofNat q) with
        | ok p1 =>
          rw [hs] at h
          simp only at h
          rcases ihv _ _ _ hs with hp | hp | ⟨i, hi, hlt⟩
          · exact absurd h (skipListLoop_bad buffer hB p1 (Or.inl hp) n k r)
          · exact absurd h (skipListLoop_bad buffer hB p1 (Or.inr hp) n k r)
          · rw [hi] at h
            obtain ⟨i', hi', hlt'⟩ := ihl _ _ _ h
            exact ⟨i', hi', by omega⟩
        | throw e => rw [hs] at h; cases h
        | timeout => rw [hs] at h; cases h
        | unsupported => rw [hs] at h; cases h
    · intro k q r h
      rw [skipDictLoop_succ] at h
      by_cases he : bufAt buffer (JSNum.ofNat q) = some 0x65
      · simp only [he, if_true, Outcome.ok.injEq] at h
        have hq : q < buffer.length := by
          by_contra hlt
          rw [bufAt_ofNat, List.getElem?_eq_none (by omega)] at he
          cases he
        rw [ofNat_add_one _ (by omega)] at h
        exact ⟨q + 1, h.symm, by omega⟩
      · simp only [he, if_false] at h
        cases hs : skipValue n k buffer (JSNum.ofNat q) with
        | ok p1 =>
          rw [hs] at h
          simp only at h
          cases hs2 : skipValue n k buffer p1 with
          | ok p2 =>
            rw [hs2] at h
            simp only at h
            rcases ihv _ _ _ hs with hp | hp | ⟨i, hi, hlt⟩
            · exact absurd hs2 (skipValue_bad buffer hB p1 (Or.inl hp) n k p2)
            · exact absurd hs2 (skipValue_bad buffer hB p1 (Or.inr hp) n k p2)
            · rw [hi] at hs2
              rcases ihv _ _ _ hs2 with hp | hp | ⟨i2, hi2, hlt2⟩
              · exact absurd h (skipDictLoop_bad buffer hB p2 (Or.inl hp) n k r)
              · exact absurd h (skipDictLoop_bad buffer hB p2 (Or.inr hp) n k r)
              · rw [hi2] at h
                obtain ⟨i', hi', hlt'⟩ := ihd _ _ _ h
                exact ⟨i', hi', by omega⟩
          | throw e => rw [hs2] at h; cases h
          | timeout => rw [hs2] at h; cases h
          | unsupported => rw [hs2] at h; cases h
        | throw e => rw [hs] at h; cases h
        | timeout => rw [hs] at h; cases h
        | unsupported => rw [hs] at h; cases h

/-! ## Termination of the skipping walk and of `getInfoHash` -/

theorem skipValue_at_none (buffer : Buffer) (k : Nat) (q : JSNum) (h : bufAt buffer q = none) :
    skipValue 1 k buffer q ≠ .timeout ∧ ∀ r, skipValue 1 k buffer q ≠ .ok r := by
  cases k with
  | zero => rw [skipValue_no_stack]; simp
  | succ k => rw [skipValue_succ, h]; simp

theorem skipListLoop_fail (buffer : Buffer) (n k : Nat) (q : JSNum)
    (he : bufAt buffer q ≠ some 0x65) (h1 : skipValue n k buffer q ≠ .timeout)
    (h2 : ∀ r, skipValue n k buffer q ≠ .ok r) :
    skipListLoop (n + 1) k buffer q ≠ .timeout := by
  rw [skipListLoop_succ, if_neg he]
  cases hs : skipValue n k buffer q with
  | ok p1 => exact absurd hs (h2 p1)
  | throw e => simp
  | timeout => exact absurd hs h1
  | unsupported => simp

theorem skipListLoop_step (buffer : Buffer) (n1 n2 k : Nat) (q r1 : JSNum)
    (he : bufAt buffer q ≠ some 0x65) (h1 : skipValue n1 k buffer q = .ok r1)
    (h2 : skipListLoop n2 k buffer r1 ≠ .timeout) :
    skipListLoop (max n1 n2 + 1) k buffer q ≠ .timeout := by
  rw [skipListLoop_succ, if_neg he,
    skipValue_mono buffer k q n1 (max n1 n2) (Nat.le_max_left _ _) (by rw [h1]; simp), h1]
  simp only
  rw [skipListLoop_mono buffer k r1 n2 (max n1 n2) (Nat.le_max_right _ _) h2]
  exact h2

theorem skipDictLoop_fail1 (buffer : Buffer) (n k : Nat) (q : JSNum)
    (he : bufAt buffer q ≠ some 0x65) (h1 : skipValue n k buffer q ≠ .timeout)
    (h2 : ∀ r, skipValue n k buffer q ≠ .ok r) :
    skipDictLoop (n + 1) k buffer q ≠ .timeout := by
  rw [skipDictLoop_succ, if_neg he]
  cases hs : skipValue n k buffer q with
  | ok p1 => exact absurd hs (h2 p1)
  | throw e => simp
  | timeout => exact absurd hs h1
  | unsupported => simp

theorem skipDictLoop_fail2 (buffer : Buffer) (n1 n2 k : Nat) (q r1 : JSNum)
    (he : bufAt buffer q ≠ some 0x65) (h1 : skipValue n1 k buffer q = .ok r1)
    (h2 : skipValue n2 k buffer r1 ≠ .timeout) (h3 : ∀ r, skipValue n2 k buffer r1 ≠ .ok r) :
    skipDictLoop (max n1 n2 + 1) k buffer q ≠ .timeout := by
  rw [skipDictLoop_succ, if_neg he,
    skipValue_mono buffer k q n1 (max n1 n2) (Nat.le_max_left _ _) (by rw [h1]; simp), h1]
  simp only
  rw [skipValue_mono buffer k r1 n2 (max n1 n2) (Nat.le_max_right _ _) h2]
  cases hs : skipValue n2 k buffer r1 with
  | ok p1 => exact absurd hs (h3 p1)
  | throw e => simp
  | timeout => exact absurd hs h2
  | unsupported => simp

theorem skipDictLoop_step (buffer : Buffer) (n1 n2 n3 k : Nat) (q r1 r2 : JSNum)
    (he : bufAt buffer q ≠ some 0x65) (h1 : skipValue n1 k buffer q = .ok r1)
    (h2 : skipValue n2 k buffer r1 = .ok r2) (h3 : skipDictLoop n3 k buffer r2 ≠ .timeout) :
    skipDictLoop (max n1 (max n2 n3) + 1) k buffer q ≠ .timeout := by
  rw [skipDictLoop_succ, if_neg he,
    skipValue_mono buffer k q n1 _ (Nat.le_max_left _ _) (by rw [h1]; simp), h1]
  simp only
  rw [skipValue_mono buffer k r1 n2 _
    (Nat.le_trans (Nat.le_max_left _ _) (Nat.le_max_right _ _)) (by rw [h2]; simp), h2]
  simp only
  rw [skipDictLoop_mono buffer k r2 n3 _
    (Nat.le_trans (Nat.le_max_right _ _) (Nat.le_max_right _ _)) h3]
  exact h3

theorem skipListLoop_ends_bad (buffer : Buffer) (hB : NoReturnAtZero buffer) (k : Nat)
    (hS : CallsEnd buffer k) (r1 : JSNum) (h : r1 = .fin 0 ∨ bufAt buffer r1 = none) :
    ∃ n, skipListLoop n k buffer r1 ≠ .timeout := by
  obtain ⟨n0, hn0⟩ := hS r1
  exact ⟨n0 + 1, skipListLoop_fail buffer n0 k r1 (bad_not_e buffer hB r1 h) hn0
    (fun r => skipValue_bad buffer hB r1 h n0 k r)⟩

theorem skipDictLoop_ends_bad (buffer : Buffer) (hB : NoReturnAtZero buffer) (k : Nat)
    (hS : CallsEnd buffer k) (r1 : JSNum) (h : r1 = .fin 0 ∨ bufAt buffer r1 = none) :
    ∃ n, skipDictLoop n k buffer r1 ≠ .timeout := by
  obtain ⟨n0, hn0⟩ := hS r1
  exact ⟨n0 + 1, skipDictLoop_fail1 buffer n0 k r1 (bad_not_e buffer hB r1 h) hn0
    (fun r => skipValue_bad buffer hB r1 h n0 k r)⟩

theorem skipListLoop_ends_index (buffer : Buffer) (hB : NoReturnAtZero buffer) (k : Nat)
    (hS : CallsEnd buffer k) (m : Nat) :
    ∀ q, buffer.length - q ≤ m → ∃ n, skipListLoop n k buffer (JSNum.ofNat q) ≠ .timeout := by
  induction m with
  | zero =>
    intro q hq
    exact skipListLoop_ends_bad buffer hB k hS _
      (Or.inr (by rw [bufAt_ofNat]; exact List.getElem?_eq_none (by omega)))
  | succ m ih =>
    intro q hq
    by_cases he : bufAt buffer (JSNum.ofNat q) = some 0x65
    · refine ⟨1, ?_⟩
      rw [skipListLoop_succ, if_pos he]; simp
    · obtain ⟨n1, hn1⟩ := hS (JSNum.ofNat q)
      cases hs : skipValue n1 k buffer (JSNum.ofNat q) with
      | ok r1 =>
        obtain ⟨c, hc⟩ := skipValue_ok_bufAt _ _ _ _ _ hs
        obtain ⟨q', hq', hlt, _⟩ := bufAt_some _ _ _ hc
        have hqq : q' = q := by
          simp only [JSNum.ofNat, JSNum.fin.injEq, Nat.cast_inj] at hq'; exact hq'.symm
        subst hqq
        have hnext : ∃ n2, skipListLoop n2 k buffer r1 ≠ .timeout := by
          rcases (skip_progress_aux buffer hB n1).1 _ _ _ hs with hp | hp | ⟨i, hi, hlt'⟩
          · exact skipListLoop_ends_bad buffer hB k hS _ (Or.inl hp)
          · exact skipListLoop_ends_bad buffer hB k hS _ (Or.inr hp)
          · rw [hi]; exact ih i (by omega)
        obtain ⟨n2, hn2⟩ := hnext
        exact ⟨_, skipListLoop_step buffer n1 n2 k _ r1 he hs hn2⟩
      | throw e =>
        exact ⟨n1 + 1, skipListLoop_fail buffer n1 k _ he hn1 (by rw [hs]; simp)⟩
      | timeout => exact absurd hs hn1
      | unsupported =>
        exact ⟨n1 + 1, skipListLoop_fail buffer n1 k _ he hn1 (by rw [hs]; simp)⟩

theorem skipDictLoop_ends_index (buffer : Buffer) (hB : NoReturnAtZero buffer) (k : Nat)
    (hS : CallsEnd buffer k) (m : Nat) :
    ∀ q, buffer.length - q ≤ m → ∃ n, skipDictLoop n k buffer (JSNum.ofNat q) ≠ .timeout := by
  induction m with
  | zero =>
    intro q hq
    exact skipDictLoop_ends_bad buffer hB k hS _
      (Or.inr (by rw [bufAt_ofNat]; exact List.getElem?_eq_none (by omega)))
  | succ m ih =>
    intro q hq
    by_cases he : bufAt buffer (JSNum.ofNat q) = some 0x65
    · refine ⟨1, ?_⟩
      rw [skipDictLoop_succ, if_pos he]; simp
    · obtain ⟨n1, hn1⟩ := hS (JSNum.ofNat q)
      cases hs : skipValue n1 k buffer (JSNum.ofNat q) with
      | ok r1 =>
        obtain ⟨c, hc⟩ := skipValue_ok_bufAt _ _ _ _ _ hs
        obtain ⟨q', hq', hlt, _⟩ := bufAt_some _ _ _ hc
        have hqq : q' = q := by
          simp only [JSNum.ofNat, JSNum.fin.injEq, Nat.cast_inj] at hq'; exact hq'.symm
        subst hqq
        obtain ⟨n2, hn2⟩ := hS r1
        cases hs2 : skipValue n2 k buffer r1 with
        | ok r2 =>
          rcases (skip_progress_aux buffer hB n1).1 _ _ _ hs with hp | hp | ⟨i, hi, hlt'⟩
          · exact absurd hs2 (skipValue_bad buffer hB r1 (Or.inl hp) n2 k r2)
          · exact absurd hs2 (skipValue_bad buffer hB r1 (Or.inr hp) n2 k r2)
          · rw [hi] at hs2
            have hnext : ∃ n3, skipDictLoop n3 k buffer r2 ≠ .timeout := by
              rcases (skip_progress_aux buffer hB n2).1 _ _ _ hs2 with hp | hp | ⟨i2, hi2, hlt2⟩
              · exact skipDictLoop_ends_bad buffer hB k hS _ (Or.inl hp)
              · exact skipDictLoop_ends_bad buffer hB k hS _ (Or.inr hp)
              · rw [hi2]; exact ih i2 (by omega)
            obtain ⟨n3, hn3⟩ := hnext
            rw [← hi] at hs2
            exact ⟨_, skipDictLoop_step buffer n1 n2 n3 k _ r1 r2 he hs hs2 hn3⟩
        | throw e =>
          exact ⟨_, skipDictLoop_fail2 buffer n1 n2 k _ r1 he hs hn2 (by rw [hs2]; simp)⟩
        | timeout => exact absurd hs2 hn2
        | unsupported =>
          exact ⟨_, skipDictLoop_fail2 buffer n1 n2 k _ r1 he hs hn2 (by rw [hs2]; simp)⟩
      | throw e =>
        exact ⟨n1 + 1, skipDictLoop_fail1 buffer n1 k _ he hn1 (by rw [hs]; simp)⟩
      | timeout => exact absurd hs hn1
      | unsupported =>
        exact ⟨n1 + 1, skipDictLoop_fail1 buffer n1 k _ he hn1 (by rw [hs]; simp)⟩

theorem loops_end (buffer : Buffer) (hB : NoReturnAtZero buffer) (k : Nat)
    (hS : CallsEnd buffer k) (q : JSNum) :
    (∃ n, skipListLoop n k buffer q ≠ .timeout) ∧ (∃ n, skipDictLoop n k buffer q ≠ .timeout) := by
  cases hb : bufAt buffer q with
  | none =>
    exact ⟨skipListLoop_ends_bad buffer hB k hS q (Or.inr hb),
      skipDictLoop_ends_bad buffer hB k hS q (Or.inr hb)⟩
  | some c =>
    obtain ⟨i, hi, _, _⟩ := bufAt_some _ _ _ hb
    rw [hi]
    exact ⟨skipListLoop_ends_index buffer hB k hS _ i (Nat.le_refl _),
      skipDictLoop_ends_index buffer hB k hS _ i (Nat.le_refl _)⟩

/-- In such a buffer every call of the walk ends, whatever the stack budget. -/
theorem calls_end (buffer : Buffer) (hB : NoReturnAtZero buffer) (k : Nat) :
    CallsEnd buffer k := by
  induction k with
  | zero =>
    intro p
    exact ⟨1, by rw [skipValue_no_stack]; simp⟩
  | succ k ih =>
    intro p
    cases hb : bufAt buffer p with
    | none => exact ⟨1, by rw [skipValue_succ, hb]; simp⟩
    | some c =>
      by_cases h1 : c = 0x69
      · exact ⟨1, by rw [skipValue_succ, hb]; simp [h1]⟩
      · by_cases h2 : 0x30 ≤ c ∧ c ≤ 0x39
        · exact ⟨1, by rw [skipValue_succ, hb]; simp [h1, h2]⟩
        · by_cases h3 : c = 0x6c
          · obtain ⟨n, hn⟩ := (loops_end buffer hB k ih (p.add (.fin 1))).1
            refine ⟨n + 1, ?_⟩
            rw [skipValue_succ, hb]
            simp only [h1, if_false, h2, h3, if_true]
            exact hn
          · by_cases h4 : c = 0x64
            · obtain ⟨n, hn⟩ := (loops_end buffer hB k ih (p.add (.fin 1))).2
              refine ⟨n + 1, ?_⟩
              rw [skipValue_succ, hb]
              simp only [h1, if_false, h2, h3, h4, if_true]
              exact hn
            · exact ⟨1, by rw [skipValue_succ, hb]; simp [h1, h2, h3, h4]⟩

theorem infoLoop_exit (sha1 : Buffer → List Nat) (buf : Buffer) (k : Nat) (q : JSNum)
    (hc : (q.lt (.ofNat buf.length) && decide (bufAt buf q ≠ some 0x65)) = false) :
    infoLoop sha1 1 k buf q = .ok .unavailable := by
  rw [infoLoop_succ, hc]
  simp

theorem infoLoop_fail1 (sha1 : Buffer → List Nat) (buf : Buffer) (n k : Nat) (q : JSNum)
    (h1 : skipValue n k buf q ≠ .timeout) (h2 : ∀ r, skipValue n k buf q ≠ .ok r) :
    infoLoop sha1 (n + 1) k buf q ≠ .timeout := by
  rw [infoLoop_succ]
  split
  · cases hs : skipValue n k buf q with
    | ok p1 => exact absurd hs (h2 p1)
    | throw e => simp
    | timeout => exact absurd hs h1
    | unsupported => simp
  · simp

theorem infoLoop_fail2 (sha1 : Buffer → List Nat) (buf : Buffer) (n1 n2 k : Nat) (q r1 : JSNum)
    (h1 : skipValue n1 k buf q = .ok r1)
    (h2 : skipValue n2 k buf r1 ≠ .timeout) (h3 : ∀ r, skipValue n2 k buf r1 ≠ .ok r) :
    infoLoop sha1 (max n1 n2 + 1) k buf q ≠ .timeout := by
  rw [infoLoop_succ]
  split
  · rw [skipValue_mono buf k q n1 (max n1 n2) (Nat.le_max_left _ _) (by rw [h1]; simp), h1]
    simp only
    rw [skipValue_mono buf k r1 n2 (max n1 n2) (Nat.le_max_right _ _) h2]
    cases hs : skipValue n2 k buf r1 with
    | ok p1 => exact absurd hs (h3 p1)
    | throw e => simp
    | timeout => exact absurd hs h2
    | unsupported => simp
  · simp

theorem infoLoop_step (sha1 : Buffer → List Nat) (buf : Buffer) (n1 n2 n3 k : Nat)
    (q r1 r2 : JSNum) (h1 : skipValue n1 k buf q = .ok r1)
    (h2 : skipValue n2 k buf r1 = .ok r2) (h3 : infoLoop sha1 n3 k buf r2 ≠ .timeout) :
    infoLoop sha1 (max n1 (max n2 n3) + 1) k buf q ≠ .timeout := by
  rw [infoLoop_succ]
  split
  · rw [skipValue_mono buf k q n1 _ (Nat.le_max_left _ _) (by rw [h1]; simp), h1]
    simp only
    rw [skipValue_mono buf k r1 n2 _
      (Nat.le_trans (Nat.le_max_left _ _) (Nat.le_max_right _ _)) (by rw [h2]; simp), h2]
    simp only
    split
    · simp
    · rw [infoLoop_mono sha1 buf k r2 n3 _
        (Nat.le_trans (Nat.le_max_right _ _) (Nat.le_max_right _ _)) h3]
      exact h3
  · simp

theorem infoLoop_ends_bad (sha1 : Buffer → List Nat) (buf : Buffer) (hB : NoReturnAtZero buf)
    (k : Nat) (r1 : JSNum) (h : r1 = .fin 0 ∨ bufAt buf r1 = none) :
    ∃ n, infoLoop sha1 n k buf r1 ≠ .timeout := by
  obtain ⟨n0, hn0⟩ := calls_end buf hB k r1
  exact ⟨n0 + 1, infoLoop_fail1 sha1 buf n0 k r1 hn0
    (fun r => skipValue_bad buf hB r1 h n0 k r)⟩

theorem infoLoop_ends_index (sha1 : Buffer → List Nat) (buf : Buffer) (hB : NoReturnAtZero buf)
    (k : Nat) (m : Nat) :
    ∀ q, buf.length - q ≤ m → ∃ n, infoLoop sha1 n k buf (JSNum.ofNat q) ≠ .timeout := by
  induction m with
  | zero =>
    intro q hq
    exact infoLoop_ends_bad sha1 buf hB k _
      (Or.inr (by rw [bufAt_ofNat]; exact List.getElem?_eq_none (by omega)))
  | succ m ih =>
    intro q hq
    obtain ⟨n1, hn1⟩ := calls_end buf hB k (JSNum.ofNat q)
    cases hs : skipValue n1 k buf (JSNum.ofNat q) with
    | ok r1 =>
      obtain ⟨c, hc⟩ := skipValue_ok_bufAt _ _ _ _ _ hs
      obtain ⟨q', hq', hlt, _⟩ := bufAt_some _ _ _ hc
      have hqq : q' = q := by
        simp only [JSNum.ofNat, JSNum.fin.injEq, Nat.cast_inj] at hq'; exact hq'.symm
      subst hqq
      obtain ⟨n2, hn2⟩ := calls_end buf hB k r1
      cases hs2 : skipValue n2 k buf r1 with
      | ok r2 =>
        rcases (skip_progress_aux buf hB n1).1 _ _ _ hs with hp | hp | ⟨i, hi, hlt'⟩
        · exact absurd hs2 (skipValue_bad buf hB r1 (Or.inl hp) n2 k r2)
        · exact absurd hs2 (skipValue_bad buf hB r1 (Or.inr hp) n2 k r2)
        · rw [hi] at hs2
          have hnext : ∃ n3, infoLoop sha1 n3 k buf r2 ≠ .timeout := by
            rcases (skip_progress_aux buf hB n2).1 _ _ _ hs2 with hp | hp | ⟨i2, hi2, hlt2⟩
            · exact infoLoop_ends_bad sha1 buf hB k _ (Or.inl hp)
            · exact infoLoop_ends_bad sha1 buf hB k _ (Or.inr hp)
            · rw [hi2]; exact ih i2 (by omega)
          obtain ⟨n3, hn3⟩ := hnext
          rw [← hi] at hs2
          exact ⟨_, infoLoop_step sha1 buf n1 n2 n3 k _ r1 r2 hs hs2 hn3⟩
      | throw e =>
        exact ⟨_, infoLoop_fail2 sha1 buf n1 n2 k _ r1 hs hn2 (by rw [hs2]; simp)⟩
      | timeout => exact absurd hs2 hn2
      | unsupported =>
        exact ⟨_, infoLoop_fail2 sha1 buf n1 n2 k _ r1 hs hn2 (by rw [hs2]; simp)⟩
    | throw e => exact ⟨n1 + 1, infoLoop_fail1 sha1 buf n1 k _ hn1 (by rw [hs]; simp)⟩
    | timeout => exact absurd hs hn1
    | unsupported => exact ⟨n1 + 1, infoLoop_fail1 sha1 buf n1 k _ hn1 (by rw [hs]; simp)⟩

/-- The main loop of `getInfoHash` ends on every buffer that starts with `d`. -/
theorem infoLoop_ends (sha1 : Buffer → List Nat) (buf : Buffer) (k : Nat)
    (hlen : buf.length < 2 ^ 31) (hd : bufAt buf (.fin 0) = some 0x64) :
    ∃ n, infoLoop sha1 n k buf (.fin 1) ≠ .timeout := by
  by_cases hZ : ∃ n k0 r, skipValue n k0 buf (.fin 0) = .ok r
  · obtain ⟨n, k0, r, h⟩ := hZ
    cases n with
    | zero => rw [skipValue_zero] at h; cases h
    | succ n =>
      cases k0 with
      | zero => rw [skipValue_no_stack] at h; cases h
      | succ k0 =>
        rw [skipValue_succ, hd] at h
        simp only [show ¬ (100 = 0x69) by decide, if_false,
          show ¬ (0x30 ≤ 100 ∧ 100 ≤ 0x39) by decide, show ¬ (100 = 0x6c) by decide,
          if_true] at h
        have e : (JSNum.fin 0).add (.fin 1) = .fin 1 := by decide
        rw [e] at h
        exact ⟨n, infoLoop_of_skipDictLoop sha1 buf n k0 k _ r h⟩
  · have hB : NoReturnAtZero buf :=
      ⟨hlen, by rw [hd]; decide, fun n k0 r h => hZ ⟨n, k0, r, h⟩⟩
    exact infoLoop_ends_index sha1 buf hB k buf.length 1 (by omega)

/-- **C3.** On every buffer (shorter than `2^31` bytes, the most `readFileSync` returns)
and with every stack budget, `getInfoHash` ends and returns `null` or a hash string, never
an exception; and whenever the scan raises (an invalid marker, a read past the end, an
exhausted stack) the result is `null`. -/
theorem getInfoHash_never_raises (sha1 : Buffer → List Nat) (buf : Buffer) (stack : Nat)
    (hlen : buf.length < 2 ^ 31) :
    (∃ n r, (r = .unavailable ∨ ∃ hex, r = .hash hex) ∧
      ∀ m, n ≤ m → getInfoHash sha1 m stack buf = some r) ∧
    (∀ fuel e, infoLoop sha1 fuel stack buf (.fin 1) = .throw e →
      getInfoHash sha1 fuel stack buf = some .unavailable) := by
  constructor
  · by_cases hd : bufAt buf (.fin 0) = some 0x64
    · obtain ⟨n, hn⟩ := infoLoop_ends sha1 buf stack hlen hd
      have hform : ∀ m, n ≤ m → getInfoHash sha1 m stack buf =
          match infoLoop sha1 n stack buf (.fin 1) with
          | .ok r => some r
          | .throw _ => some .unavailable
          | .timeout => none
          | .unsupported => none := by
        intro m hm
        unfold getInfoHash
        rw [if_neg (by rw [hd]; simp), infoLoop_mono sha1 buf stack _ n m hm hn]
      cases hr : infoLoop sha1 n stack buf (.fin 1) with
      | ok r =>
        refine ⟨n, r, ?_, fun m hm => by rw [hform m hm, hr]⟩
        cases r with
        | unavailable => exact Or.inl rfl
        | hash hex => exact Or.inr ⟨hex, rfl⟩
      | throw e => exact ⟨n, .unavailable, Or.inl rfl, fun m hm => by rw [hform m hm, hr]⟩
      | timeout => exact absurd hr hn
      | unsupported => exact absurd hr (infoLoop_supported sha1 buf stack n _)
    · refine ⟨0, .unavailable, Or.inl rfl, fun m _ => ?_⟩
      unfold getInfoHash
      rw [if_pos hd]
  · intro fuel e h
    unfold getInfoHash
    split
    · rfl
    · rw [h]

/-- Witness for C3: the truncated buffer `d1:ai5`, whose scan falls back to offset 0 and
exhausts the stack. -/
theorem getInfoHash_never_raises_witness :
    (∃ n r, (r = InfoHash.unavailable ∨ ∃ hex, r = InfoHash.hash hex) ∧
      ∀ m, n ≤ m → getInfoHash (fun b => b) m 5 [100, 49, 58, 97, 105, 53] = some r) ∧
    (∀ fuel e, infoLoop (fun b => b) fuel 5 [100, 49, 58, 97, 105, 53] (.fin 1) = .throw e →
      getInfoHash (fun b => b) fuel 5 [100, 49, 58, 97, 105, 53] = some .unavailable) :=
  getInfoHash_never_raises (fun b => b) [100, 49, 58, 97, 105, 53] 5 (by decide)

/-! ## `decode` on encodings -/

theorem decode_zero (stack : Nat) (buffer : Buffer) (start : JSNum) :
    decode 0 stack buffer start = .timeout := by
  rw [decode]

theorem decode_no_stack (fuel : Nat) (buffer : Buffer) (start : JSNum) :
    decode (fuel + 1) 0 buffer start = .throw .rangeError := by
  rw [decode]

theorem decode_succ (fuel stack : Nat) (buffer : Buffer) (start0 : JSNum) :
    decode (fuel + 1) (stack + 1) buffer start0 =
      match bufAt buffer (if start0.truthy then start0 else .fin 0) with
      | none => .throw (.invalidBencode (some (if start0.truthy then start0 else .fin 0)))
      | some c =>
        if c = 0x69 then
          .ok (.num (parseInt (asciiDecode (toStringRange buffer
              ((if start0.truthy then start0 else JSNum.fin 0).add (.fin 1))
              (indexOf buffer 0x65 (if start0.truthy then start0 else .fin 0))))),
            (indexOf buffer 0x65 (if start0.truthy then start0 else .fin 0)).add (.fin 1))
        else if 0x30 ≤ c ∧ c ≤ 0x39 then
          .ok (.buf (slice buffer
              ((indexOf buffer 0x3a (if start0.truthy then start0 else .fin 0)).add (.fin 1))
              (((indexOf buffer 0x3a (if start0.truthy then start0 else .fin 0)).add (.fin 1)).add
                (parseInt (asciiDecode (toStringRange buffer
                  (if start0.truthy then start0 else .fin 0)
                  (indexOf buffer 0x3a (if start0.truthy then start0 else .fin 0))))))),
            ((indexOf buffer 0x3a (if start0.truthy then start0 else .fin 0)).add (.fin 1)).add
              (parseInt (asciiDecode (toStringRange buffer
                (if start0.truthy then start0 else .fin 0)
                (indexOf buffer 0x3a (if start0.truthy then start0 else .fin 0))))))
        else if c = 0x6c then
          decodeListLoop fuel stack buffer
            ((if start0.truthy then start0 else JSNum.fin 0).add (.fin 1)) []
        else if c = 0x64 then
          decodeDictLoop fuel stack buffer
            ((if start0.truthy then start0 else JSNum.fin 0).add (.fin 1)) []
        else .throw (.invalidBencode (some (if start0.truthy then start0 else .fin 0))) := by
  rw [decode]

theorem decodeListLoop_zero (stack : Nat) (buffer : Buffer) (pos : JSNum) (list : List JSVal) :
    decodeListLoop 0 stack buffer pos list = .timeout := by
  rw [decodeListLoop]

theorem decodeListLoop_succ (fuel stack : Nat) (buffer : Buffer) (pos : JSNum)
    (list : List JSVal) :
    decodeListLoop (fuel + 1) stack buffer pos list =
      if bufAt buffer pos = some 0x65 then .ok (.arr list, pos.add (.fin 1))
      else
        match decode fuel stack buffer pos with
        | .ok r => decodeListLoop fuel stack buffer r.2 (list ++ [r.1])
        | .throw e => .throw e
        | .timeout => .timeout
        | .unsupported => .unsupported := by
  rw [decodeListLoop]

theorem decodeDictLoop_zero (stack : Nat) (buffer : Buffer) (pos : JSNum)
    (dict : List (String × JSVal)) :
    decodeDictLoop 0 stack buffer pos dict = .timeout := by
  rw [decodeDictLoop]

theorem decodeDictLoop_succ (fuel stack : Nat) (buffer : Buffer) (pos : JSNum)
    (dict : List (String × JSVal)) :
    decodeDictLoop (fuel + 1) stack buffer pos dict =
      if bufAt buffer pos = some 0x65 then .ok (.obj dict, pos.add (.fin 1))
      else
        match decode fuel stack buffer pos with
        | .ok k =>
          match decode fuel stack buffer k.2 with
          | .ok val =>
            match keyOf k.1 with
            | .ok key =>
              if key = "__proto__" then .unsupported
              else decodeDictLoop fuel stack buffer val.2 (setProp dict key val.1)
            | .throw e => .throw e
            | .timeout => .timeout
            | .unsupported => .unsupported
          | .throw e => .throw e
          | .timeout => .timeout
          | .unsupported => .unsupported
        | .throw e => .throw e
        | .timeout => .timeout
        | .unsupported => .unsupported := by
  rw [decodeDictLoop]

theorem truthy_ofNat (n : Nat) :
    (if (JSNum.ofNat n).truthy then JSNum.ofNat n else JSNum.fin 0) = JSNum.ofNat n := by
  cases n with
  | zero => rfl
  | succ n =>
    have : (JSNum.ofNat (n + 1)).truthy = true := by
      unfold JSNum.ofNat JSNum.truthy
      split
      · rename_i h; cases h
      · rename_i h
        simp only [JSNum.fin.injEq] at h
        omega
      · rfl
    rw [this]; rfl

theorem parseInt_intBody (i : Int) : parseInt (asciiDecode (intBody i)) = toDouble i := by
  unfold intBody
  by_cases h : i < 0
  · rw [if_pos h]
    have e : asciiDecode ([45] ++ decimal i.natAbs) = 45 :: decimal i.natAbs := by
      unfold asciiDecode
      rw [List.map_append]
      have := asciiDecode_allDigits (decimal_allDigits i.natAbs)
      unfold asciiDecode at this
      rw [this]
      rfl
    rw [e, parseInt_neg_digits (decimal_allDigits _) (decimal_ne_nil _), decimal_value]
    congr 1
    omega
  · rw [if_neg h, List.nil_append, parseInt_decimal]
    congr 1
    omega

/-- Decoding an encoded integer that sits at offset `pre.length`. -/
theorem decode_int (fuel stack : Nat) (pre post : List Nat) (i : Int)
    (hlen : (pre ++ encInt i ++ post).length < 2 ^ 31) :
    decode (fuel + 1) (stack + 1) (pre ++ encInt i ++ post) (JSNum.ofNat pre.length)
      = .ok (.num (toDouble i), JSNum.ofNat (pre.length + (encInt i).length)) := by
  have hb : bufAt (pre ++ encInt i ++ post) (JSNum.ofNat pre.length) = some 105 := by
    rw [encInt_eq, List.append_assoc]
    exact bufAt_append _ _ _
  have hl : pre.length + (intBody i).length + 2 + post.length < 2 ^ 31 := by
    simp only [List.length_append, encInt_eq, List.length_cons, List.length_nil] at hlen; omega
  have hform : pre ++ encInt i ++ post = pre ++ (105 :: intBody i) ++ 101 :: post := by
    rw [encInt_eq]; simp
  have hform2 : pre ++ encInt i ++ post = (pre ++ [105]) ++ intBody i ++ (101 :: post) := by
    rw [encInt_eq]; simp
  have hi : indexOf (pre ++ encInt i ++ post) 101 (JSNum.ofNat pre.length)
      = JSNum.ofNat (pre.length + 1 + (intBody i).length) := by
    rw [hform]
    have := indexOf_found pre (105 :: intBody i) post 101 (by
      intro h
      rcases List.mem_cons.mp h with h | h
      · exact absurd h (by decide)
      · exact intBody_no_e i h) (by omega)
    rw [this]
    congr 1
    simp only [List.length_cons]; omega
  have hr : toStringRange (pre ++ encInt i ++ post) (JSNum.ofNat (pre.length + 1))
      (JSNum.ofNat (pre.length + 1 + (intBody i).length)) = intBody i := by
    have := toStringRange_mid (pre ++ [105]) (intBody i) (101 :: post)
    simp only [List.length_append, List.length_cons, List.length_nil] at this
    rw [hform2]
    exact this
  rw [decode_succ, truthy_ofNat, hb]
  simp only [if_true]
  rw [hi, ofNat_add_one _ (by omega), hr, parseInt_intBody, ofNat_add_one _ (by omega)]
  congr 3
  simp only [encInt_eq, List.length_append, List.length_cons, List.length_nil]
  omega

/-- Decoding an encoded byte string that sits at offset `pre.length`. -/
theorem decode_bytes (fuel stack : Nat) (pre post b : List Nat)
    (hlen : (pre ++ encBytes b ++ post).length < 2 ^ 31) :
    decode (fuel + 1) (stack + 1) (pre ++ encBytes b ++ post) (JSNum.ofNat pre.length)
      = .ok (.buf b, JSNum.ofNat (pre.length + (encBytes b).length)) := by
  obtain ⟨d, rest, hd, hd1, hd2⟩ := encBytes_head b
  have hb : bufAt (pre ++ encBytes b ++ post) (JSNum.ofNat pre.length) = some d := by
    rw [hd, List.append_assoc]
    exact bufAt_append _ _ _
  have hl : pre.length + (decimal b.length).length + 1 + b.length + post.length < 2 ^ 31 := by
    simp only [List.length_append, encBytes, List.length_cons] at hlen; omega
  have hform : pre ++ encBytes b ++ post = pre ++ decimal b.length ++ 58 :: (b ++ post) := by
    simp [encBytes]
  have hform3 : pre ++ encBytes b ++ post = (pre ++ decimal b.length ++ [58]) ++ b ++ post := by
    simp [encBytes]
  have hi : indexOf (pre ++ encBytes b ++ post) 58 (JSNum.ofNat pre.length)
      = JSNum.ofNat (pre.length + (decimal b.length).length) := by
    rw [hform]
    exact indexOf_found _ _ _ _ ((decimal_allDigits _).not_mem 58 (by omega)) (by omega)
  have hr : toStringRange (pre ++ encBytes b ++ post) (JSNum.ofNat pre.length)
      (JSNum.ofNat (pre.length + (decimal b.length).length)) = decimal b.length := by
    rw [hform]
    exact toStringRange_mid _ _ _
  have hs : slice (pre ++ encBytes b ++ post)
      (JSNum.ofNat (pre.length + (decimal b.length).length + 1))
      (JSNum.ofNat (pre.length + (decimal b.length).length + 1 + b.length)) = b := by
    have := slice_mid (pre ++ decimal b.length ++ [58]) b post
    simp only [List.length_append, List.length_cons, List.length_nil] at this
    rw [hform3]
    exact this
  rw [decode_succ, truthy_ofNat, hb]
  have h69 : d ≠ 0x69 := by omega
  simp only [h69, if_false, hd1, hd2, and_self, if_true]
  rw [hi, hr, parseInt_decimal_small _ (by omega), ofNat_add_one _ (by omega),
    ofNat_add_ofNat _ _ (by omega), hs]
  congr 3
  simp only [encBytes, List.length_append, List.length_cons]
  omega

theorem setProp_new (acc : List (String × JSVal)) (key : String) (v : JSVal)
    (h : key ∉ acc.map Prod.fst) : setProp acc key v = acc ++ [(key, v)] := by
  induction acc with
  | nil => rfl
  | cons p acc ih =>
    obtain ⟨k, w⟩ := p
    simp only [List.map_cons, List.mem_cons, not_or] at h
    rw [setProp, if_neg (fun e => h.1 e.symm), ih h.2]
    rfl

theorem length_le_encodeList (xs : List BVal) : xs.length ≤ (encodeList xs).length := by
  induction xs with
  | nil => simp
  | cons x xs ih =>
    rw [encodeList_cons, List.length_append, List.length_cons]
    have := encode_length_pos x
    omega

theorem length_le_encodePairs (kvs : List (List Nat × BVal)) :
    kvs.length ≤ (encodePairs kvs).length := by
  induction kvs with
  | nil => simp
  | cons kv kvs ih =>
    rw [encodePairs_cons, List.length_append, List.length_append, List.length_cons]
    have := encode_length_pos kv.2
    omega

theorem toJS_int (i : Int) : (BVal.int i).toJS = .num (.fin i) := by simp only [BVal.toJS]
theorem toJS_bytes (b : List Nat) : (BVal.bytes b).toJS = .buf b := by simp only [BVal.toJS]
theorem toJS_list (xs : List BVal) : (BVal.list xs).toJS = .arr (toJSList xs) := by
  simp only [BVal.toJS]
theorem toJS_dict (kvs : List (List Nat × BVal)) :
    (BVal.dict kvs).toJS = .obj (toJSPairs kvs) := by simp only [BVal.toJS]
theorem toJSList_nil : toJSList [] = [] := by simp only [toJSList]
theorem toJSList_cons (x : BVal) (xs : List BVal) :
    toJSList (x :: xs) = x.toJS :: toJSList xs := by simp only [toJSList]
theorem toJSPairs_nil : toJSPairs [] = [] := by simp only [toJSPairs]
theorem toJSPairs_cons (kv : List Nat × BVal) (rest : List (List Nat × BVal)) :
    toJSPairs (kv :: rest) = (utf8Decode kv.1, kv.2.toJS) :: toJSPairs rest := by
  simp only [toJSPairs]

theorem representable_int (i : Int) : (BVal.int i).Representable ↔ i.natAbs ≤ 2 ^ 53 := by
  simp only [BVal.Representable]
theorem representable_list (xs : List BVal) :
    (BVal.list xs).Representable ↔ RepresentableList xs := by
  simp only [BVal.Representable]
theorem representable_dict (kvs : List (List Nat × BVal)) :
    (BVal.dict kvs).Representable ↔
      (RepresentablePairs kvs ∧ (keyTexts kvs).Nodup ∧ "__proto__" ∉ keyTexts kvs) := by
  simp only [BVal.Representable]
theorem representableList_cons (x : BVal) (xs : List BVal) :
    RepresentableList (x :: xs) ↔ (x.Representable ∧ RepresentableList xs) := by
  simp only [RepresentableList]
theorem representablePairs_cons (kv : List Nat × BVal) (rest : List (List Nat × BVal)) :
    RepresentablePairs (kv :: rest) ↔ (kv.2.Representable ∧ RepresentablePairs rest) := by
  simp only [RepresentablePairs]

/-- Decoding encoded values, and walking the loops over encoded elements and pairs, at
offset `pre.length`: a value gives its JavaScript value and the offset behind it; a loop
arrives behind the elements with their values appended to what it had collected. -/
theorem decode_encode_aux (fuel : Nat) :
    (∀ (v : BVal) (pre post : List Nat) (stack : Nat), v.Representable →
      (pre ++ v.encode ++ post).length < 2 ^ 31 → v.encode.length ≤ fuel → v.depth ≤ stack →
      decode fuel stack (pre ++ v.encode ++ post) (JSNum.ofNat pre.length)
        = .ok (v.toJS, JSNum.ofNat (pre.length + v.encode.length))) ∧
    (∀ (xs : List BVal) (pre tail : List Nat) (stack : Nat) (acc : List JSVal),
      RepresentableList xs → (pre ++ encodeList xs ++ tail).length < 2 ^ 31 →
      (encodeList xs).length + 1 ≤ fuel → depthList xs ≤ stack →
      decodeListLoop fuel stack (pre ++ encodeList xs ++ tail) (JSNum.ofNat pre.length) acc
        = decodeListLoop (fuel - xs.length) stack (pre ++ encodeList xs ++ tail)
            (JSNum.ofNat (pre.length + (encodeList xs).length)) (acc ++ toJSList xs)) ∧
    (∀ (kvs : List (List Nat × BVal)) (pre tail : List Nat) (stack : Nat)
      (acc : List (String × JSVal)),
      RepresentablePairs kvs → (acc.map Prod.fst ++ keyTexts kvs).Nodup →
      "__proto__" ∉ keyTexts kvs → (pre ++ encodePairs kvs ++ tail).length < 2 ^ 31 →
      (encodePairs kvs).length + 1 ≤ fuel → depthPairs kvs ≤ stack →
      decodeDictLoop fuel stack (pre ++ encodePairs kvs ++ tail) (JSNum.ofNat pre.length) acc
        = decodeDictLoop (fuel - kvs.length) stack (pre ++ encodePairs kvs ++ tail)
            (JSNum.ofNat (pre.length + (encodePairs kvs).length)) (acc ++ toJSPairs kvs)) := by
  induction fuel with
  | zero =>
    refine ⟨?_, ?_, ?_⟩
    · intro v pre post stack _ _ h _
      have := encode_length_pos v
      omega
    · intro xs pre tail stack acc _ _ h _
      omega
    · intro kvs pre tail stack acc _ _ _ _ h _
      omega
  | succ fuel ih =>
    obtain ⟨ihv, ihl, ihd⟩ := ih
    refine ⟨?_, ?_, ?_⟩
    · intro v pre post stack hrep hlen hfuel hdepth
      have hdp := depth_pos v
      obtain ⟨stack, rfl⟩ : ∃ s, stack = s + 1 := ⟨stack - 1, by omega⟩
      cases v with
      | int i =>
        rw [encode_int] at hlen ⊢
        rw [decode_int _ _ _ _ _ hlen, toJS_int,
          toDouble_small _ ((representable_int i).mp hrep)]
      | bytes b =>
        rw [encode_bytes] at hlen ⊢
        rw [decode_bytes _ _ _ _ _ hlen, toJS_bytes]
      | list xs =>
        rw [encode_list] at hlen hfuel ⊢
        rw [depth_list] at hdepth
        have hform : pre ++ (108 :: encodeList xs ++ [101]) ++ post
            = (pre ++ [108]) ++ encodeList xs ++ 101 :: post := by simp
        have hb : bufAt (pre ++ (108 :: encodeList xs ++ [101]) ++ post)
            (JSNum.ofNat pre.length) = some 108 := by
          have : pre ++ (108 :: encodeList xs ++ [101]) ++ post
            = pre ++ 108 :: (encodeList xs ++ [101] ++ post) := by simp
          rw [this]; exact bufAt_append _ _ _
        have hl : pre.length + (encodeList xs).length + 2 + post.length < 2 ^ 31 := by
          simp only [List.length_append, List.length_cons, List.length_nil] at hlen; omega
        have hf : (encodeList xs).length + 1 ≤ fuel := by
          simp only [List.length_append, List.length_cons, List.length_nil] at hfuel; omega
        have hxs := length_le_encodeList xs
        rw [decode_succ, truthy_ofNat, hb]
        simp only [show ¬ (108 = 0x69) by decide, if_false,
          show ¬ (0x30 ≤ 108 ∧ 108 ≤ 0x39) by decide, if_true]
        rw [ofNat_add_one _ (by omega), hform]
        have := ihl xs (pre ++ [108]) (101 :: post) stack []
          ((representable_list xs).mp hrep) (by rw [← hform]; exact hlen) hf (by omega)
        simp only [List.length_append, List.length_cons, List.length_nil, List.nil_append]
          at this
        rw [this]
        obtain ⟨g, hg⟩ : ∃ g, fuel - xs.length = g + 1 := ⟨fuel - xs.length - 1, by omega⟩
        rw [hg, decodeListLoop_succ]
        have hb2 : bufAt (pre ++ [108] ++ encodeList xs ++ 101 :: post)
            (JSNum.ofNat (pre.length + 1 + (encodeList xs).length)) = some 101 := by
          have := bufAt_append (pre ++ [108] ++ encodeList xs) 101 post
          simp only [List.length_append, List.length_cons, List.length_nil] at this
          exact this
        rw [hb2, if_pos rfl, ofNat_add_one _ (by omega), toJS_list]
        congr 3
        simp only [List.length_append, List.length_cons, List.length_nil]
        omega
      | dict kvs =>
        rw [encode_dict] at hlen hfuel ⊢
        rw [depth_dict] at hdepth
        obtain ⟨hr1, hr2, hr3⟩ := (representable_dict kvs).mp hrep
        have hform : pre ++ (100 :: encodePairs kvs ++ [101]) ++ post
            = (pre ++ [100]) ++ encodePairs kvs ++ 101 :: post := by simp
        have hb : bufAt (pre ++ (100 :: encodePairs kvs ++ [101]) ++ post)
            (JSNum.ofNat pre.length) = some 100 := by
          have : pre ++ (100 :: encodePairs kvs ++ [101]) ++ post
            = pre ++ 100 :: (encodePairs kvs ++ [101] ++ post) := by simp
          rw [this]; exact bufAt_append _ _ _
        have hl : pre.length + (encodePairs kvs).length + 2 + post.length < 2 ^ 31 := by
          simp only [List.length_append, List.length_cons, List.length_nil] at hlen; omega
        have hf : (encodePairs kvs).length + 1 ≤ fuel := by
          simp only [List.length_append, List.length_cons, List.length_nil] at hfuel; omega
        have hxs := length_le_encodePairs kvs
        rw [decode_succ, truthy_ofNat, hb]
        simp only [show ¬ (100 = 0x69) by decide, if_false,
          show ¬ (0x30 ≤ 100 ∧ 100 ≤ 0x39) by decide, show ¬ (100 = 0x6c) by decide, if_true]
        rw [ofNat_add_one _ (by omega), hform]
        have := ihd kvs (pre ++ [100]) (101 :: post) stack [] hr1 (by simpa using hr2) hr3
          (by rw [← hform]; exact hlen) hf (by omega)
        simp only [List.length_append, List.length_cons, List.length_nil, List.nil_append]
          at this
        rw [this]
        obtain ⟨g, hg⟩ : ∃ g, fuel - kvs.length = g + 1 := ⟨fuel - kvs.length - 1, by omega⟩
        rw [hg, decodeDictLoop_succ]
        have hb2 : bufAt (pre ++ [100] ++ encodePairs kvs ++ 101 :: post)
            (JSNum.ofNat (pre.length + 1 + (encodePairs kvs).length)) = some 101 := by
          have := bufAt_append (pre ++ [100] ++ encodePairs kvs) 101 post
          simp only [List.length_append, List.length_cons, List.length_nil] at this
          exact this
        rw [hb2, if_pos rfl, ofNat_add_one _ (by omega), toJS_dict]
        congr 3
        simp only [List.length_append, List.length_cons, List.length_nil]
        omega
    · intro xs pre tail stack acc hrep hlen hfuel hdepth
      cases xs with
      | nil =>
        rw [encodeList_nil, toJSList_nil]
        simp
      | cons x xs =>
        rw [encodeList_cons] at hlen hfuel ⊢
        rw [depthList_cons] at hdepth
        obtain ⟨hrx, hrxs⟩ := (representableList_cons x xs).mp hrep
        obtain ⟨c, rest, hc, hne, _⟩ := encode_head x
        have hx := encode_length_pos x
        have hl : pre.length + x.encode.length + (encodeList xs).length + tail.length
            < 2 ^ 31 := by
          simp only [List.length_append] at hlen; omega
        have hf : x.encode.length + (encodeList xs).length + 1 ≤ fuel + 1 := by
          simp only [List.length_append] at hfuel; omega
        have hb : bufAt (pre ++ (x.encode ++ encodeList xs) ++ tail)
            (JSNum.ofNat pre.length) = some c := by
          have : pre ++ (x.encode ++ encodeList xs) ++ tail
              = pre ++ c :: (rest ++ encodeList xs ++ tail) := by simp [hc]
          rw [this]; exact bufAt_append _ _ _
        have hform : pre ++ (x.encode ++ encodeList xs) ++ tail
            = pre ++ x.encode ++ (encodeList xs ++ tail) := by simp
        have hform2 : pre ++ (x.encode ++ encodeList xs) ++ tail
            = (pre ++ x.encode) ++ encodeList xs ++ tail := by simp
        rw [decodeListLoop_succ, hb, if_neg (by simpa using hne)]
        have hv := ihv x pre (encodeList xs ++ tail) stack hrx
          (by rw [← hform]; exact hlen) (by omega) (by omega)
        have hrest := ihl xs (pre ++ x.encode) tail stack (acc ++ [x.toJS]) hrxs
          (by rw [← hform2]; exact hlen) (by omega) (by omega)
        rw [← hform] at hv
        rw [← hform2, List.length_append] at hrest
        rw [hv]
        simp only
        rw [hrest, toJSList_cons]
        simp only [List.length_cons, List.length_append, List.append_assoc, List.singleton_append,
          Nat.add_sub_add_right, Nat.add_assoc]
    · intro kvs pre tail stack acc hrep hnd hproto hlen hfuel hdepth
      cases kvs with
      | nil =>
        rw [encodePairs_nil, toJSPairs_nil]
        simp
      | cons kv kvs =>
        rw [encodePairs_cons] at hlen hfuel ⊢
        rw [depthPairs_cons] at hdepth
        obtain ⟨hrx, hrxs⟩ := (representablePairs_cons kv kvs).mp hrep
        obtain ⟨c, rest, hc, hc1, hc2⟩ := encBytes_head kv.1
        have hk := encBytes_length_pos kv.1
        have hx := encode_length_pos kv.2
        have hl : pre.length + (encBytes kv.1).length + kv.2.encode.length
            + (encodePairs kvs).length + tail.length < 2 ^ 31 := by
          simp only [List.length_append] at hlen; omega
        have hf : (encBytes kv.1).length + kv.2.encode.length + (encodePairs kvs).length + 1
            ≤ fuel + 1 := by
          simp only [List.length_append] at hfuel; omega
        have hb : bufAt (pre ++ (encBytes kv.1 ++ kv.2.encode ++ encodePairs kvs) ++ tail)
            (JSNum.ofNat pre.length) = some c := by
          have : pre ++ (encBytes kv.1 ++ kv.2.encode ++ encodePairs kvs) ++ tail
              = pre ++ c :: (rest ++ kv.2.encode ++ encodePairs kvs ++ tail) := by
            simp [hc]
          rw [this]; exact bufAt_append _ _ _
        have hform : pre ++ (encBytes kv.1 ++ kv.2.encode ++ encodePairs kvs) ++ tail
            = pre ++ (BVal.bytes kv.1).encode ++ (kv.2.encode ++ encodePairs kvs ++ tail) := by
          rw [encode_bytes]; simp
        have hform1 : pre ++ (encBytes kv.1 ++ kv.2.encode ++ encodePairs kvs) ++ tail
            = (pre ++ encBytes kv.1) ++ kv.2.encode ++ (encodePairs kvs ++ tail) := by simp
        have hform2 : pre ++ (encBytes kv.1 ++ kv.2.encode ++ encodePairs kvs) ++ tail
            = (pre ++ encBytes kv.1 ++ kv.2.encode) ++ encodePairs kvs ++ tail := by simp
        have hkeyText : keyTexts (kv :: kvs) = utf8Decode kv.1 :: keyTexts kvs := rfl
        rw [hkeyText] at hnd hproto
        have hnew : utf8Decode kv.1 ∉ acc.map Prod.fst := by
          intro hmem
          have := (List.nodup_append.mp hnd).2.2
          exact this hmem (List.mem_cons_self _ _)
        have hnp : utf8Decode kv.1 ≠ "__proto__" := by
          intro e
          exact hproto (by rw [e]; exact List.mem_cons_self _ _)
        have hkey := ihv (.bytes kv.1) pre (kv.2.encode ++ encodePairs kvs ++ tail) stack
          (by simp only [BVal.Representable]) (by rw [← hform]; exact hlen)
          (by rw [encode_bytes]; omega) (by rw [depth_bytes]; omega)
        have hval := ihv kv.2 (pre ++ encBytes kv.1) (encodePairs kvs ++ tail) stack hrx
          (by rw [← hform1]; exact hlen) (by omega) (by omega)
        have hrest := ihd kvs (pre ++ encBytes kv.1 ++ kv.2.encode) tail stack
          (acc ++ [(utf8Decode kv.1, kv.2.toJS)]) hrxs
          (by simpa [List.map_append] using hnd)
          (fun h => hproto (List.mem_cons_of_mem _ h))
          (by rw [← hform2]; exact hlen) (by omega) (by omega)
        rw [← hform, toJS_bytes, encode_bytes] at hkey
        rw [← hform1, List.length_append] at hval
        rw [← hform2, List.length_append, List.length_append] at hrest
        rw [decodeDictLoop_succ, hb, if_neg (by simp; omega), hkey]
        simp only
        rw [hval]
        simp only [keyOf]
        rw [if_neg hnp, setProp_new _ _ _ hnew, hrest, toJSPairs_cons]
        simp only [List.length_cons, List.length_append, List.append_assoc, List.singleton_append,
          Nat.add_sub_add_right, Nat.add_assoc]

/-! ## What `decode` returns on every encoding -/

theorem decoded_int (i : Int) : (BVal.int i).decoded = .num (toDouble i) := by
  simp only [BVal.decoded]
theorem decoded_bytes (b : List Nat) : (BVal.bytes b).decoded = .buf b := by
  simp only [BVal.decoded]
theorem decoded_list (xs : List BVal) : (BVal.list xs).decoded = .arr (decodedList xs) := by
  simp only [BVal.decoded]
theorem decoded_dict (kvs : List (List Nat × BVal)) :
    (BVal.dict kvs).decoded = .obj (decodedPairs kvs []) := by simp only [BVal.decoded]
theorem decodedList_nil : decodedList [] = [] := by simp only [decodedList]
theorem decodedList_cons (x : BVal) (xs : List BVal) :
    decodedList (x :: xs) = x.decoded :: decodedList xs := by simp only [decodedList]
theorem decodedPairs_nil (acc : List (String × JSVal)) : decodedPairs [] acc = acc := by
  simp only [decodedPairs]
theorem decodedPairs_cons (kv : List Nat × BVal) (rest : List (List Nat × BVal))
    (acc : List (String × JSVal)) :
    decodedPairs (kv :: rest) acc
      = decodedPairs rest (setProp acc (utf8Decode kv.1) kv.2.decoded) := by
  simp only [decodedPairs]

theorem noProto_list (xs : List BVal) : (BVal.list xs).NoProto ↔ NoProtoList xs := by
  simp only [BVal.NoProto]
theorem noProto_dict (kvs : List (List Nat × BVal)) :
    (BVal.dict kvs).NoProto ↔ NoProtoPairs kvs := by simp only [BVal.NoProto]
theorem noProtoList_cons (x : BVal) (xs : List BVal) :
    NoProtoList (x :: xs) ↔ (x.NoProto ∧ NoProtoList xs) := by simp only [NoProtoList]
theorem noProtoPairs_cons (kv : List Nat × BVal) (rest : List (List Nat × BVal)) :
    NoProtoPairs (kv :: rest) ↔
      (utf8Decode kv.1 ≠ "__proto__" ∧ kv.2.NoProto ∧ NoProtoPairs rest) := by
  simp only [NoProtoPairs]

/-- Decoding the encoding of any value without a key `__proto__`, and walking the loops
over encoded elements and pairs, at offset `pre.length`: a value gives its decoded value and
the offset behind it; a loop arrives behind the elements with their values collected. -/
theorem decode_value_aux (fuel : Nat) :
    (∀ (v : BVal) (pre post : List Nat) (stack : Nat), v.NoProto →
      (pre ++ v.encode ++ post).length < 2 ^ 31 → v.encode.length ≤ fuel → v.depth ≤ stack →
      decode fuel stack (pre ++ v.encode ++ post) (JSNum.ofNat pre.length)
        = .ok (v.decoded, JSNum.ofNat (pre.length + v.encode.length))) ∧
    (∀ (xs : List BVal) (pre tail : List Nat) (stack : Nat) (acc : List JSVal),
      NoProtoList xs → (pre ++ encodeList xs ++ tail).length < 2 ^ 31 →
      (encodeList xs).length + 1 ≤ fuel → depthList xs ≤ stack →
      decodeListLoop fuel stack (pre ++ encodeList xs ++ tail) (JSNum.ofNat pre.length) acc
        = decodeListLoop (fuel - xs.length) stack (pre ++ encodeList xs ++ tail)
            (JSNum.ofNat (pre.length + (encodeList xs).length)) (acc ++ decodedList xs)) ∧
    (∀ (kvs : List (List Nat × BVal)) (pre tail : List Nat) (stack : Nat)
      (acc : List (String × JSVal)),
      NoProtoPairs kvs → (pre ++ encodePairs kvs ++ tail).length < 2 ^ 31 →
      (encodePairs kvs).length + 1 ≤ fuel → depthPairs kvs ≤ stack →
      decodeDictLoop fuel stack (pre ++ encodePairs kvs ++ tail) (JSNum.ofNat pre.length) acc
        = decodeDictLoop (fuel - kvs.length) stack (pre ++ encodePairs kvs ++ tail)
            (JSNum.ofNat (pre.length + (encodePairs kvs).length)) (decodedPairs kvs acc)) := by
  induction fuel with
  | zero =>
    refine ⟨?_, ?_, ?_⟩
    · intro v pre post stack _ _ h _
      have := encode_length_pos v
      omega
    · intro xs pre tail stack acc _ _ h _
      omega
    · intro kvs pre tail stack acc _ _ h _
      omega
  | succ fuel ih =>
    obtain ⟨ihv, ihl, ihd⟩ := ih
    refine ⟨?_, ?_, ?_⟩
    · intro v pre post stack hrep hlen hfuel hdepth
      have hdp := depth_pos v
      obtain ⟨stack, rfl⟩ : ∃ s, stack = s + 1 := ⟨stack - 1, by omega⟩
      cases v with
      | int i =>
        rw [encode_int] at hlen ⊢
        rw [decode_int _ _ _ _ _ hlen, decoded_int]
      | bytes b =>
        rw [encode_bytes] at hlen ⊢
        rw [decode_bytes _ _ _ _ _ hlen, decoded_bytes]
      | list xs =>
        rw [encode_list] at hlen hfuel ⊢
        rw [depth_list] at hdepth
        have hform : pre ++ (108 :: encodeList xs ++ [101]) ++ post
            = (pre ++ [108]) ++ encodeList xs ++ 101 :: post := by simp
        have hb : bufAt (pre ++ (108 :: encodeList xs ++ [101]) ++ post)
            (JSNum.ofNat pre.length) = some 108 := by
          have : pre ++ (108 :: encodeList xs ++ [101]) ++ post
            = pre ++ 108 :: (encodeList xs ++ [101] ++ post) := by simp
          rw [this]; exact bufAt_append _ _ _
        have hl : pre.length + (encodeList xs).length + 2 + post.length < 2 ^ 31 := by
          simp only [List.length_append, List.length_cons, List.length_nil] at hlen; omega
        have hf : (encodeList xs).length + 1 ≤ fuel := by
          simp only [List.length_append, List.length_cons, List.length_nil] at hfuel; omega
        have hxs := length_le_encodeList xs
        rw [decode_succ, truthy_ofNat, hb]
        simp only [show ¬ (108 = 0x69) by decide, if_false,
          show ¬ (0x30 ≤ 108 ∧ 108 ≤ 0x39) by decide, if_true]
        rw [ofNat_add_one _ (by omega), hform]
        have := ihl xs (pre ++ [108]) (101 :: post) stack []
          ((noProto_list xs).mp hrep) (by rw [← hform]; exact hlen) hf (by omega)
        simp only [List.length_append, List.length_cons, List.length_nil, List.nil_append]
          at this
        rw [this]
        obtain ⟨g, hg⟩ : ∃ g, fuel - xs.length = g + 1 := ⟨fuel - xs.length - 1, by omega⟩
        rw [hg, decodeListLoop_succ]
        have hb2 : bufAt (pre ++ [108] ++ encodeList xs ++ 101 :: post)
            (JSNum.ofNat (pre.length + 1 + (encodeList xs).length)) = some 101 := by
          have := bufAt_append (pre ++ [108] ++ encodeList xs) 101 post
          simp only [List.length_append, List.length_cons, List.length_nil] at this
          exact this
        rw [hb2, if_pos rfl, ofNat_add_one _ (by omega), decoded_list]
        congr 3
        simp only [List.length_append, List.length_cons, List.length_nil]
        omega
      | dict kvs =>
        rw [encode_dict] at hlen hfuel ⊢
        rw [depth_dict] at hdepth
        have hr1 := (noProto_dict kvs).mp hrep
        have hform : pre ++ (100 :: encodePairs kvs ++ [101]) ++ post
            = (pre ++ [100]) ++ encodePairs kvs ++ 101 :: post := by simp
        have hb : bufAt (pre ++ (100 :: encodePairs kvs ++ [101]) ++ post)
            (JSNum.ofNat pre.length) = some 100 := by
          have : pre ++ (100 :: encodePairs kvs ++ [101]) ++ post
            = pre ++ 100 :: (encodePairs kvs ++ [101] ++ post) := by simp
          rw [this]; exact bufAt_append _ _ _
        have hl : pre.length + (encodePairs kvs).length + 2 + post.length < 2 ^ 31 := by
          simp only [List.length_append, List.length_cons, List.length_nil] at hlen; omega
        have hf : (encodePairs kvs).length + 1 ≤ fuel := by
          simp only [List.length_append, List.length_cons, List.length_nil] at hfuel; omega
        have hxs := length_le_encodePairs kvs
        rw [decode_succ, truthy_ofNat, hb]
        simp only [show ¬ (100 = 0x69) by decide, if_false,
          show ¬ (0x30 ≤ 100 ∧ 100 ≤ 0x39) by decide, show ¬ (100 = 0x6c) by decide, if_true]
        rw [ofNat_add_one _ (by omega), hform]
        have := ihd kvs (pre ++ [100]) (101 :: post) stack [] hr1
          (by rw [← hform]; exact hlen) hf (by omega)
        simp only [List.length_append, List.length_cons, List.length_nil, List.nil_append]
          at this
        rw [this]
        obtain ⟨g, hg⟩ : ∃ g, fuel - kvs.length = g + 1 := ⟨fuel - kvs.length - 1, by omega⟩
        rw [hg, decodeDictLoop_succ]
        have hb2 : bufAt (pre ++ [100] ++ encodePairs kvs ++ 101 :: post)
            (JSNum.ofNat (pre.length + 1 + (encodePairs kvs).length)) = some 101 := by
          have := bufAt_append (pre ++ [100] ++ encodePairs kvs) 101 post
          simp only [List.length_append, List.length_cons, List.length_nil] at this
          exact this
        rw [hb2, if_pos rfl, ofNat_add_one _ (by omega), decoded_dict]
        congr 3
        simp only [List.length_append, List.length_cons, List.length_nil]
        omega
    · intro xs pre tail stack acc hrep hlen hfuel hdepth
      cases xs with
      | nil =>
        rw [encodeList_nil, decodedList_nil]
        simp
      | cons x xs =>
        rw [encodeList_cons] at hlen hfuel ⊢
        rw [depthList_cons] at hdepth
        obtain ⟨hrx, hrxs⟩ := (noProtoList_cons x xs).mp hrep
        obtain ⟨c, rest, hc, hne, _⟩ := encode_head x
        have hx := encode_length_pos x
        have hl : pre.length + x.encode.length + (encodeList xs).length + tail.length
            < 2 ^ 31 := by
          simp only [List.length_append] at hlen; omega
        have hf : x.encode.length + (encodeList xs).length + 1 ≤ fuel + 1 := by
          simp only [List.length_append] at hfuel; omega
        have hb : bufAt (pre ++ (x.encode ++ encodeList xs) ++ tail)
            (JSNum.ofNat pre.length) = some c := by
          have : pre ++ (x.encode ++ encodeList xs) ++ tail
              = pre ++ c :: (rest ++ encodeList xs ++ tail) := by simp [hc]
          rw [this]; exact bufAt_append _ _ _
        have hform : pre ++ (x.encode ++ encodeList xs) ++ tail
            = pre ++ x.encode ++ (encodeList xs ++ tail) := by simp
        have hform2 : pre ++ (x.encode ++ encodeList xs) ++ tail
            = (pre ++ x.encode) ++ encodeList xs ++ tail := by simp
        rw [decodeListLoop_succ, hb, if_neg (by simpa using hne)]
        have hv := ihv x pre (encodeList xs ++ tail) stack hrx
          (by rw [← hform]; exact hlen) (by omega) (by omega)
        have hrest := ihl xs (pre ++ x.encode) tail stack (acc ++ [x.decoded]) hrxs
          (by rw [← hform2]; exact hlen) (by omega) (by omega)
        rw [← hform] at hv
        rw [← hform2, List.length_append] at hrest
        rw [hv]
        simp only
        rw [hrest, decodedList_cons]
        simp only [List.length_cons, List.length_append, List.append_assoc, List.singleton_append,
          Nat.add_sub_add_right, Nat.add_assoc]
    · intro kvs pre tail stack acc hrep hlen hfuel hdepth
      cases kvs with
      | nil =>
        rw [encodePairs_nil, decodedPairs_nil]
        simp
      | cons kv kvs =>
        rw [encodePairs_cons] at hlen hfuel ⊢
        rw [depthPairs_cons] at hdepth
        obtain ⟨hnp, hrx, hrxs⟩ := (noProtoPairs_cons kv kvs).mp hrep
        obtain ⟨c, rest, hc, hc1, hc2⟩ := encBytes_head kv.1
        have hk := encBytes_length_pos kv.1
        have hx := encode_length_pos kv.2
        have hl : pre.length + (encBytes kv.1).length + kv.2.encode.length
            + (encodePairs kvs).length + tail.length < 2 ^ 31 := by
          simp only [List.length_append] at hlen; omega
        have hf : (encBytes kv.1).length + kv.2.encode.length + (encodePairs kvs).length + 1
            ≤ fuel + 1 := by
          simp only [List.length_append] at hfuel; omega
        have hb : bufAt (pre ++ (encBytes kv.1 ++ kv.2.encode ++ encodePairs kvs) ++ tail)
            (JSNum.ofNat pre.length) = some c := by
          have : pre ++ (encBytes kv.1 ++ kv.2.encode ++ encodePairs kvs) ++ tail
              = pre ++ c :: (rest ++ kv.2.encode ++ encodePairs kvs ++ tail) := by
            simp [hc]
          rw [this]; exact bufAt_append _ _ _
        have hform : pre ++ (encBytes kv.1 ++ kv.2.encode ++ encodePairs kvs) ++ tail
            = pre ++ (BVal.bytes kv.1).encode ++ (kv.2.encode ++ encodePairs kvs ++ tail) := by
          rw [encode_bytes]; simp
        have hform1 : pre ++ (encBytes kv.1 ++ kv.2.encode ++ encodePairs kvs) ++ tail
            = (pre ++ encBytes kv.1) ++ kv.2.encode ++ (encodePairs kvs ++ tail) := by simp
        have hform2 : pre ++ (encBytes kv.1 ++ kv.2.encode ++ encodePairs kvs) ++ tail
            = (pre ++ encBytes kv.1 ++ kv.2.encode) ++ encodePairs kvs ++ tail := by simp
        have hkey := ihv (.bytes kv.1) pre (kv.2.encode ++ encodePairs kvs ++ tail) stack
          (by simp only [BVal.NoProto]) (by rw [← hform]; exact hlen)
          (by rw [encode_bytes]; omega) (by rw [depth_bytes]; omega)
        have hval := ihv kv.2 (pre ++ encBytes kv.1) (encodePairs kvs ++ tail) stack hrx
          (by rw [← hform1]; exact hlen) (by omega) (by omega)
        have hrest := ihd kvs (pre ++ encBytes kv.1 ++ kv.2.encode) tail stack
          (setProp acc (utf8Decode kv.1) kv.2.decoded) hrxs
          (by rw [← hform2]; exact hlen) (by omega) (by omega)
        rw [← hform, decoded_bytes, encode_bytes] at hkey
        rw [← hform1, List.length_append] at hval
        rw [← hform2, List.length_append, List.length_append] at hrest
        rw [decodeDictLoop_succ, hb, if_neg (by simp; omega), hkey]
        simp only
        rw [hval]
        simp only [keyOf]
        rw [if_neg hnp, hrest, decodedPairs_cons]
        simp only [List.length_cons, List.length_append, List.append_assoc, List.singleton_append,
          Nat.add_sub_add_right, Nat.add_assoc]


/-! ## Claims about `decode` -/

/-- **C4 (as amended).** `decode` round-trips on the representable values: for every value
built from integers of magnitude at most `2^53`, byte strings, lists and dictionaries whose
key texts are pairwise different and are not `__proto__`, decoding the canonical encoding
returns the value, and the end offset is the length of the encoding.  (The encoding is
shorter than `2^31` bytes and nests no deeper than the stack allows.) -/
theorem decode_roundtrip (v : BVal) (fuel stack : Nat) (hrep : v.Representable)
    (hlen : v.encode.length < 2 ^ 31) (hfuel : v.encode.length ≤ fuel)
    (hstack : v.depth ≤ stack) :
    decode fuel stack v.encode (.fin 0) = .ok (v.toJS, JSNum.ofNat v.encode.length) ∧
      bencodeDecode fuel stack v.encode = .ok v.toJS := by
  have h := (decode_encode_aux fuel).1 v [] [] stack hrep (by simpa using hlen) hfuel hstack
  simp only [List.nil_append, List.append_nil, List.length_nil, Nat.zero_add] at h
  have e : JSNum.ofNat 0 = .fin 0 := rfl
  rw [e] at h
  refine ⟨h, ?_⟩
  unfold bencodeDecode
  rw [h]

/-- Witness for C4: the dictionary `d1:ali-3e2:xyee`. -/
theorem decode_roundtrip_witness :
    decode 20 5 (BVal.dict [([97], .list [.int (-3), .bytes [120, 121]])]).encode (.fin 0)
        = .ok ((BVal.dict [([97], .list [.int (-3), .bytes [120, 121]])]).toJS,
            JSNum.ofNat (BVal.dict [([97], .list [.int (-3), .bytes [120, 121]])]).encode.length) ∧
      bencodeDecode 20 5 (BVal.dict [([97], .list [.int (-3), .bytes [120, 121]])]).encode
        = .ok (BVal.dict [([97], .list [.int (-3), .bytes [120, 121]])]).toJS :=
  decode_roundtrip (BVal.dict [([97], .list [.int (-3), .bytes [120, 121]])]) 20 5
    (by
      simp only [BVal.Representable, RepresentablePairs, RepresentableList, keyTexts,
        List.map_cons, List.map_nil, List.nodup_cons, List.not_mem_nil, not_false_eq_true,
        List.nodup_nil, List.mem_singleton, and_self, and_true, true_and]
      decide)
    (by decide) (by decide) (by decide)

theorem toDouble_two_pow_53_succ : toDouble 9007199254740993 = .fin 9007199254740992 := by
  unfold toDouble
  rw [if_neg (by decide)]
  have e : roundNat (9007199254740993 : Int).natAbs = 9007199254740992 := by decide
  simp only [e]
  rw [if_neg (by
    have : (9007199254740992 : Nat) < doubleLimit := by
      unfold doubleLimit
      exact Nat.lt_of_lt_of_le (by decide : (9007199254740992 : Nat) < 2 ^ 54)
        (Nat.pow_le_pow_right (by decide) (by decide))
    omega)]
  rfl

/-- Counterexample to C4 as stated: the integer `2^53 + 1` is encoded as
`i9007199254740993e` and decoded as `9007199254740992`. -/
theorem decode_roundtrip_fails_above_two_pow_53 :
    decode 30 5 (BVal.int 9007199254740993).encode (.fin 0)
        = .ok (.num (.fin 9007199254740992), .fin 18) ∧
      JSVal.num (.fin 9007199254740992) ≠ (BVal.int 9007199254740993).toJS := by
  constructor
  · have h := decode_int 29 4 [] [] 9007199254740993 (by decide)
    rw [toDouble_two_pow_53_succ] at h
    rw [encode_int]
    exact h
  · rw [toJS_int]
    intro h
    injection h with h
    injection h with h
    exact absurd h (by decide)

/-- **C5 (as amended).** `decode` raises `Invalid bencode at <offset>` where the offset it
has to decode holds no value marker, not on a truncated integer or byte string.  From
offset 0: the empty buffer and a first byte that is none of `i`, a digit, `l`, `d` raise at
offset 0; a list or dictionary without its closing `e`, whose elements are complete
encodings of values (integers, byte strings, lists, dictionaries with byte-string keys
other than `__proto__`) nested within the call stack, in a buffer shorter than `2^31`
bytes, raises at the end of the buffer.  A first byte `i` or a digit never raises: an
integer with no `e` anywhere behind the `i` returns `NaN` with end offset 0, and a byte
string whose declared length `n` (at most `2^52`) exceeds the bytes behind the colon
returns the bytes that are there, with end offset `n` behind the colon. -/
theorem decode_raises_on_missing_marker (fuel stack : Nat) :
    decode (fuel + 1) (stack + 1) [] (.fin 0) = .throw (.invalidBencode (some (.fin 0))) ∧
    (∀ (c : Nat) (rest : List Nat), c ≠ 0x69 → ¬ (0x30 ≤ c ∧ c ≤ 0x39) → c ≠ 0x6c → c ≠ 0x64 →
      decode (fuel + 1) (stack + 1) (c :: rest) (.fin 0)
        = .throw (.invalidBencode (some (.fin 0)))) ∧
    (∀ xs : List BVal, NoProtoList xs → (108 :: encodeList xs).length < 2 ^ 31 →
      (encodeList xs).length + 4 ≤ fuel + 1 → depthList xs ≤ stack → 1 ≤ stack →
      decode (fuel + 1) (stack + 1) (108 :: encodeList xs) (.fin 0)
        = .throw (.invalidBencode (some (JSNum.ofNat (108 :: encodeList xs).length)))) ∧
    (∀ kvs : List (List Nat × BVal), NoProtoPairs kvs →
      (100 :: encodePairs kvs).length < 2 ^ 31 →
      (encodePairs kvs).length + 4 ≤ fuel + 1 → depthPairs kvs ≤ stack → 1 ≤ stack →
      decode (fuel + 1) (stack + 1) (100 :: encodePairs kvs) (.fin 0)
        = .throw (.invalidBencode (some (JSNum.ofNat (100 :: encodePairs kvs).length)))) ∧
    (∀ (c : Nat) (rest : List Nat), c = 0x69 ∨ (0x30 ≤ c ∧ c ≤ 0x39) →
      ∃ r, decode (fuel + 1) (stack + 1) (c :: rest) (.fin 0) = .ok r) ∧
    (∀ rest : List Nat, 101 ∉ rest → (105 :: rest).length < 2 ^ 31 →
      decode (fuel + 1) (stack + 1) (105 :: rest) (.fin 0) = .ok (.num .nan, .fin 0)) ∧
    (∀ (n : Nat) (b : List Nat), b.length < n → n ≤ 2 ^ 52 →
      (decimal n ++ 58 :: b).length < 2 ^ 31 →
      decode (fuel + 1) (stack + 1) (decimal n ++ 58 :: b) (.fin 0)
        = .ok (.buf b, JSNum.ofNat ((decimal n).length + 1 + n))) := by
  have hz : (if (JSNum.fin 0).truthy then JSNum.fin 0 else JSNum.fin 0) = JSNum.fin 0 := rfl
  have h01 : (JSNum.fin 0).add (.fin 1) = JSNum.ofNat 1 := by decide
  have e0 : JSNum.fin 0 = JSNum.ofNat 0 := rfl
  refine ⟨?_, ?_, ?_, ?_, ?_, ?_, ?_⟩
  · rw [decode_succ, hz]
    rfl
  · intro c rest h1 h2 h3 h4
    rw [decode_succ, hz]
    have : bufAt (c :: rest) (.fin 0) = some c := by simp [bufAt, JSNum.toIndex?]
    rw [this]
    simp only [h1, h2, h3, h4, if_false]
  · intro xs hrep hlen hfuel hdepth hs
    have hl : (encodeList xs).length + 1 < 2 ^ 31 := by
      simp only [List.length_cons] at hlen; omega
    have hxs := length_le_encodeList xs
    rw [decode_succ, hz]
    have : bufAt (108 :: encodeList xs) (.fin 0) = some 108 := by simp [bufAt, JSNum.toIndex?]
    rw [this]
    simp only [show ¬ (108 = 0x69) by decide, if_false,
      show ¬ (0x30 ≤ 108 ∧ 108 ≤ 0x39) by decide, if_true]
    rw [h01]
    have hform : 108 :: encodeList xs = [108] ++ encodeList xs ++ [] := by simp
    have h := (decode_value_aux fuel).2.1 xs [108] [] stack [] hrep
      (by rw [← hform]; exact hlen) (by omega) hdepth
    rw [← hform] at h
    simp only [List.length_cons, List.length_nil, List.nil_append, Nat.zero_add] at h
    rw [h]
    obtain ⟨g, hg⟩ : ∃ g, fuel - xs.length = g + 2 := ⟨fuel - xs.length - 2, by omega⟩
    obtain ⟨s, hs'⟩ : ∃ s, stack = s + 1 := ⟨stack - 1, by omega⟩
    have hend : bufAt (108 :: encodeList xs) (JSNum.ofNat (1 + (encodeList xs).length))
        = none := by
      have := bufAt_end (108 :: encodeList xs)
      simp only [List.length_cons] at this
      rw [Nat.add_comm]
      exact this
    rw [hg, decodeListLoop_succ, hend, if_neg (by simp), hs', decode_succ, truthy_ofNat, hend]
    simp only [List.length_cons]
    rw [Nat.add_comm]
  · intro kvs hrep hlen hfuel hdepth hs
    have hl : (encodePairs kvs).length + 1 < 2 ^ 31 := by
      simp only [List.length_cons] at hlen; omega
    have hxs := length_le_encodePairs kvs
    rw [decode_succ, hz]
    have : bufAt (100 :: encodePairs kvs) (.fin 0) = some 100 := by
      simp [bufAt, JSNum.toIndex?]
    rw [this]
    simp only [show ¬ (100 = 0x69) by decide, if_false,
      show ¬ (0x30 ≤ 100 ∧ 100 ≤ 0x39) by decide, show ¬ (100 = 0x6c) by decide, if_true]
    rw [h01]
    have hform : 100 :: encodePairs kvs = [100] ++ encodePairs kvs ++ [] := by simp
    have h := (decode_value_aux fuel).2.2 kvs [100] [] stack [] hrep
      (by rw [← hform]; exact hlen) (by omega) hdepth
    rw [← hform] at h
    simp only [List.length_cons, List.length_nil, List.nil_append, Nat.zero_add] at h
    rw [h]
    obtain ⟨g, hg⟩ : ∃ g, fuel - kvs.length = g + 2 := ⟨fuel - kvs.length - 2, by omega⟩
    obtain ⟨s, hs'⟩ : ∃ s, stack = s + 1 := ⟨stack - 1, by omega⟩
    have hend : bufAt (100 :: encodePairs kvs) (JSNum.ofNat (1 + (encodePairs kvs).length))
        = none := by
      have := bufAt_end (100 :: encodePairs kvs)
      simp only [List.length_cons] at this
      rw [Nat.add_comm]
      exact this
    rw [hg, decodeDictLoop_succ, hend, if_neg (by simp), hs', decode_succ, truthy_ofNat, hend]
    simp only [List.length_cons]
    rw [Nat.add_comm]
  · intro c rest hc
    rw [decode_succ, hz]
    have : bufAt (c :: rest) (.fin 0) = some c := by simp [bufAt, JSNum.toIndex?]
    rw [this]
    rcases hc with hc | hc
    · simp only [hc, if_true]
      exact ⟨_, rfl⟩
    · have h69 : c ≠ 0x69 := by omega
      simp only [h69, if_false, hc, and_self, if_true]
      exact ⟨_, rfl⟩
  · intro rest hrest hlen
    rw [decode_succ, hz]
    have : bufAt (105 :: rest) (.fin 0) = some 105 := by simp [bufAt, JSNum.toIndex?]
    rw [this]
    simp only [if_true]
    have hi : indexOf (105 :: rest) 101 (.fin 0) = .fin (-1) := by
      have h := indexOf_missing [] (105 :: rest) 101 (by
        intro h
        rcases List.mem_cons.mp h with h | h
        · exact absurd h (by decide)
        · exact hrest h) (by simp) (by simp)
      simpa using h
    rw [hi, h01, toStringRange_neg]
    rfl
  · intro n b hb hn hlen
    obtain ⟨d, ds, hd, hd1, hd2⟩ := decimal_head n
    have hl : (decimal n).length + 1 + b.length < 2 ^ 31 := by
      simp only [List.length_append, List.length_cons] at hlen; omega
    rw [decode_succ, hz]
    have hb0 : bufAt (decimal n ++ 58 :: b) (.fin 0) = some d := by
      rw [hd]; simp [bufAt, JSNum.toIndex?]
    rw [hb0]
    have h69 : d ≠ 0x69 := by omega
    simp only [h69, if_false, hd1, hd2, and_self, if_true]
    have hi : indexOf (decimal n ++ 58 :: b) 58 (.fin 0)
        = JSNum.ofNat (decimal n).length := by
      have h := indexOf_found [] (decimal n) b 58
        ((decimal_allDigits _).not_mem 58 (by omega)) (by simp)
      simpa using h
    have hr : toStringRange (decimal n ++ 58 :: b) (.fin 0)
        (JSNum.ofNat (decimal n).length) = decimal n := by
      have h := toStringRange_mid [] (decimal n) (58 :: b)
      simpa using h
    have hs : slice (decimal n ++ 58 :: b) (JSNum.ofNat ((decimal n).length + 1))
        (JSNum.ofNat ((decimal n).length + 1 + n)) = b := by
      rw [slice_ofNat]
      have e1 : (decimal n ++ 58 :: b).drop ((decimal n).length + 1) = b := by
        have : decimal n ++ 58 :: b = (decimal n ++ [58]) ++ b := by simp
        rw [this]
        have h2 : (decimal n).length + 1 = (decimal n ++ [58]).length := by simp
        rw [h2, List.drop_left]
      rw [e1]
      have e2 : min ((decimal n).length + 1 + n) (decimal n ++ 58 :: b).length
          - ((decimal n).length + 1) = b.length := by
        simp only [List.length_append, List.length_cons]
        omega
      rw [e2, List.take_length]
    rw [hi, hr, parseInt_decimal_small _ (by omega), ofNat_add_one _ (by omega),
      ofNat_add_ofNat _ _ (by omega), hs]

/-- Witness for C5: the byte `x`, the unterminated list `li5e3:abc`, the unterminated
dictionary `d1:ai5e`, the digit-led buffer `1x:a`, the unterminated integer `i5` and the
byte string `5:ab` cut short. -/
theorem decode_raises_on_missing_marker_witness :
    decode 20 5 [120] (.fin 0) = .throw (.invalidBencode (some (.fin 0))) ∧
    decode 20 5 (108 :: encodeList [.int 5, .bytes [97, 98, 99]]) (.fin 0)
      = .throw (.invalidBencode (some (JSNum.ofNat
          (108 :: encodeList [.int 5, .bytes [97, 98, 99]]).length))) ∧
    decode 20 5 (100 :: encodePairs [([97], .int 5)]) (.fin 0)
      = .throw (.invalidBencode (some (JSNum.ofNat
          (100 :: encodePairs [([97], .int 5)]).length))) ∧
    (∃ r, decode 20 5 [49, 120, 58, 97] (.fin 0) = .ok r) ∧
    decode 20 5 [105, 53] (.fin 0) = .ok (.num .nan, .fin 0) ∧
    decode 20 5 (decimal 5 ++ 58 :: [97, 98]) (.fin 0)
      = .ok (.buf [97, 98], JSNum.ofNat ((decimal 5).length + 1 + 5)) :=
  ⟨(decode_raises_on_missing_marker 19 4).2.1 120 [] (by decide) (by decide) (by decide)
      (by decide),
   (decode_raises_on_missing_marker 19 4).2.2.1 [.int 5, .bytes [97, 98, 99]]
      (by simp only [NoProtoList, BVal.NoProto, and_self])
      (by decide) (by decide) (by decide) (by decide),
   (decode_raises_on_missing_marker 19 4).2.2.2.1 [([97], .int 5)]
      (by simp only [NoProtoPairs, BVal.NoProto, and_true]; decide)
      (by decide) (by decide) (by decide) (by decide),
   (decode_raises_on_missing_marker 19 4).2.2.2.2.1 49 [120, 58, 97] (Or.inr (by decide)),
   (decode_raises_on_missing_marker 19 4).2.2.2.2.2.1 [53] (by decide) (by decide),
   (decode_raises_on_missing_marker 19 4).2.2.2.2.2.2 5 [97, 98] (by decide) (by decide)
      (by decide)⟩

/-- Counterexample to C5 as stated: `5:ab` (a byte string cut short) decodes to the two
bytes that are there, `i5` (an integer without `e`) decodes to `NaN`, and `1x:a` (a
non-digit in the length) decodes to the one byte `a`; none raises. -/
theorem decode_returns_on_truncated_input :
    decode 10 5 [53, 58, 97, 98] (.fin 0) = .ok (.buf [97, 98], .fin 7) ∧
    decode 10 5 [105, 53] (.fin 0) = .ok (.num .nan, .fin 0) ∧
    decode 10 5 [49, 120, 58, 97] (.fin 0) = .ok (.buf [97], .fin 4) :=
  ⟨rfl, rfl, rfl⟩


/-! ## Claims about `parseTorrentFile` -/

theorem bind_ok {α β : Type} (a : α) (f : α → Outcome β) : (Outcome.ok a).bind f = f a := rfl

theorem bind_throw {α β : Type} (e : JSErr) (f : α → Outcome β) :
    (Outcome.throw e : Outcome α).bind f = .throw e := rfl

theorem toDouble_nat_falsy (n : Nat) (h : (toDouble (n : Int)).truthy = false) :
    toDouble (n : Int) = .fin 0 := by
  rcases toDouble_nat n with h1 | ⟨i, h1, _, _⟩
  · rw [h1] at h; cases h
  · rw [h1] at h ⊢
    unfold JSNum.ofNat at h ⊢
    unfold JSNum.truthy at h
    split at h
    · rename_i h2; cases h2
    · rename_i h2; exact h2
    · cases h

/-- The metadata of a root that is not a dictionary: the fallback names and one entry. -/
theorem extractMetadata_non_dictionary (v : JSVal) (hroot : ∀ props, v ≠ .obj props) :
    extractMetadata v
      = .ok ⟨"torrent", [⟨0, "file", fallbackLength v⟩], fallbackLength v⟩ := by
  cases v with
  | undefined => rfl
  | num n => rfl
  | str s => rfl
  | buf b => rfl
  | arr xs =>
    have hinfo : (get (.arr xs) "info").orElse (.arr xs) = .arr xs := rfl
    have hfiles : get (.arr xs) "files" = .undefined := rfl
    have hname : get (.arr xs) "name" = .undefined := rfl
    have hlength : get (.arr xs) "length" = .num (toDouble xs.length) := rfl
    have hnum : toNumber ((get (.arr xs) "length").orElse (.num (.fin 0)))
        = .ok (toDouble xs.length) := by
      rw [hlength]
      unfold JSVal.orElse
      by_cases ht : (JSVal.num (toDouble xs.length)).truthy = true
      · rw [if_pos ht]; rfl
      · rw [if_neg ht]
        have : (toDouble (xs.length : Int)).truthy = false := by
          simpa [JSVal.truthy] using ht
        rw [toDouble_nat_falsy _ this]
        rfl
    unfold extractMetadata
    simp only [hinfo, hfiles, hname, hnum, bind_ok]
    rfl
  | obj props => exact absurd rfl (hroot props)

/-- **C9 (as amended).** `parseTorrentFile` fails with the error of `decode` whenever
`decode` fails.  When the decoded root is not a dictionary (an integer, a byte string, a
list) it does not fail: it returns the fallback metadata, named `torrent`, with the single
file entry of index 0 and path `file` whose length is also the total size; that length is
the number of elements of a list root, and 0 for an integer or a byte string.  A root that
is a dictionary can still fail after decoding: the file `d4:named8:toStringi1eee` decodes
and raises a `TypeError` when the name is converted to a string. -/
theorem parseTorrentFile_non_dictionary_root (fuel stack : Nat) (buf : Buffer) :
    (∀ e, bencodeDecode fuel stack buf = .throw e →
      parseTorrentFile fuel stack buf = .throw e) ∧
    (∀ v, bencodeDecode fuel stack buf = .ok v → (∀ props, v ≠ .obj props) →
      parseTorrentFile fuel stack buf
        = .ok ⟨"torrent", [⟨0, "file", fallbackLength v⟩], fallbackLength v⟩) ∧
    ((∃ v, bencodeDecode 30 5 [100, 52, 58, 110, 97, 109, 101, 100, 56, 58, 116, 111, 83,
        116, 114, 105, 110, 103, 105, 49, 101, 101, 101] = .ok v) ∧
      parseTorrentFile 30 5 [100, 52, 58, 110, 97, 109, 101, 100, 56, 58, 116, 111, 83,
        116, 114, 105, 110, 103, 105, 49, 101, 101, 101] = .throw .typeError) := by
  refine ⟨?_, ?_, ⟨_, rfl⟩, rfl⟩
  · intro e h
    unfold parseTorrentFile
    rw [h, bind_throw]
  · intro v h hroot
    unfold parseTorrentFile
    rw [h, bind_ok]
    exact extractMetadata_non_dictionary v hroot

/-- Witness for C9: the empty file fails as `decode` does, and the file `li5ei6ee` (a
list of two elements) yields the fallback metadata with length 2. -/
theorem parseTorrentFile_non_dictionary_root_witness :
    parseTorrentFile 10 5 [] = .throw (.invalidBencode (some (.fin 0))) ∧
    parseTorrentFile 10 5 [108, 105, 53, 101, 105, 54, 101, 101]
      = .ok ⟨"torrent",
          [⟨0, "file", fallbackLength (.arr [.num (.fin 5), .num (.fin 6)])⟩],
          fallbackLength (.arr [.num (.fin 5), .num (.fin 6)])⟩ :=
  ⟨(parseTorrentFile_non_dictionary_root 10 5 []).1 _ rfl,
   (parseTorrentFile_non_dictionary_root 10 5 [108, 105, 53, 101, 105, 54, 101, 101]).2.1
     (.arr [.num (.fin 5), .num (.fin 6)]) rfl (by intro props h; cases h)⟩

/-- Counterexample to C9 as stated: the files `i5e` (an integer), `3:abc` (a byte string)
and `li5ei6ee` (a list) are parsed without error. -/
theorem parseTorrentFile_returns_for_non_dictionary :
    parseTorrentFile 10 5 [105, 53, 101] = .ok ⟨"torrent", [⟨0, "file", .fin 0⟩], .fin 0⟩ ∧
    parseTorrentFile 10 5 [51, 58, 97, 98, 99]
      = .ok ⟨"torrent", [⟨0, "file", .fin 0⟩], .fin 0⟩ ∧
    parseTorrentFile 10 5 [108, 105, 53, 101, 105, 54, 101, 101]
      = .ok ⟨"torrent", [⟨0, "file", .fin 2⟩], .fin 2⟩ := by
  refine ⟨by decide, by decide, by decide⟩

theorem toStrList_bufs (comps : List (List Nat)) :
    collect (toStrList (comps.map JSVal.buf)) = .ok (comps.map utf8Decode) := by
  induction comps with
  | nil => simp [toStrList, collect]
  | cons c cs ih =>
    simp only [List.map_cons, toStrList, toStr, collect]
    rw [ih]

theorem orElse_fin (n : Int) :
    toNumber ((JSVal.num (.fin n)).orElse (.num (.fin 0))) = .ok (.fin n) := by
  unfold JSVal.orElse
  by_cases h : (JSVal.num (.fin n)).truthy = true
  · rw [if_pos h]; rfl
  · rw [if_neg h]
    have : n = 0 := by
      simp only [JSVal.truthy, JSNum.truthy] at h
      split at h
      · rename_i h2; cases h2
      · rename_i h2; injection h2
      · exact absurd rfl h
    rw [this]; rfl

/-- The callback of `map` on a file entry with a list of byte-string path components and
an integer length. -/
theorem fileEntry_of_path_length (f : JSVal) (i : Nat) (comps : List (List Nat)) (n : Int)
    (hpath : get f "path" = .arr (comps.map JSVal.buf))
    (hlength : get f "length" = .num (.fin n)) :
    fileEntry f i = .ok ⟨i, joinWith "/" (comps.map utf8Decode), .fin n⟩ := by
  unfold fileEntry
  simp only [hpath, hlength, toStrList_bufs, orElse_fin, bind_ok]

theorem mapFiles_entries (fs : List JSVal) (entries : List (List (List Nat) × Int))
    (h : List.Forall₂ (fun f e => get f "path" = .arr (e.1.map JSVal.buf) ∧
      get f "length" = .num (.fin e.2)) fs entries) (i : Nat) (total : JSNum) :
    mapFiles fs i total = .ok (expectedFiles entries i,
      (expectedFiles entries i).foldl (fun a f => a.add f.length) total) := by
  induction h generalizing i total with
  | nil => rfl
  | @cons f e fs' es' hfe _ ih =>
    rw [mapFiles, fileEntry_of_path_length f i e.1 e.2 hfe.1 hfe.2, bind_ok, ih, bind_ok]
    rfl

theorem expectedFiles_getElem? (entries : List (List (List Nat) × Int)) (i j : Nat) :
    (expectedFiles entries i)[j]? =
      entries[j]?.map
        (fun e => (⟨i + j, joinWith "/" (e.1.map utf8Decode), .fin e.2⟩ : FileEntry)) := by
  induction entries generalizing i j with
  | nil => simp [expectedFiles]
  | cons e es ih =>
    cases j with
    | zero => simp [expectedFiles]
    | succ j =>
      simp only [expectedFiles, List.getElem?_cons_succ]
      rw [ih]
      congr 1
      funext e'
      congr 1
      omega

/-- **C7.** In the multi-file case (the info structure, which is the `info` property of
the decoded root or the root itself, has a `files` list whose entries carry a `path` list
of byte strings and an integer `length`), `parseTorrentFile` returns one entry per list
entry in the same order: entry `j` has index `j`, the path components decoded as UTF-8
and joined with `/`, and the entry's length; `totalSize` is the sum of the lengths. -/
theorem parseTorrentFile_multi_file (fuel stack : Nat) (buf : Buffer) (decoded : JSVal)
    (fs : List JSVal) (entries : List (List (List Nat) × Int)) (name : String)
    (hdec : bencodeDecode fuel stack buf = .ok decoded)
    (hfiles : get ((get decoded "info").orElse decoded) "files" = .arr fs)
    (hentries : List.Forall₂ (fun f e => get f "path" = .arr (e.1.map JSVal.buf) ∧
      get f "length" = .num (.fin e.2)) fs entries)
    (hname : toStr ((get ((get decoded "info").orElse decoded) "name").orElse (.str "torrent"))
      = .ok name) :
    parseTorrentFile fuel stack buf
        = .ok ⟨name, expectedFiles entries 0, sumLengths (expectedFiles entries 0)⟩ ∧
      (expectedFiles entries 0).length = fs.length ∧
      ∀ (j : Nat) (e : List (List Nat) × Int), entries[j]? = some e →
        (expectedFiles entries 0)[j]?
          = some (⟨j, joinWith "/" (e.1.map utf8Decode), .fin e.2⟩ : FileEntry) := by
  refine ⟨?_, ?_, ?_⟩
  · unfold parseTorrentFile
    rw [hdec, bind_ok]
    unfold extractMetadata
    simp only [hfiles, hname, mapFiles_entries fs entries hentries, bind_ok]
    rfl
  · have h1 : ∀ (es : List (List (List Nat) × Int)) (i : Nat),
        (expectedFiles es i).length = es.length := by
      intro es
      induction es with
      | nil => intro i; rfl
      | cons e es ih => intro i; simp [expectedFiles, ih]
    rw [h1, hentries.length_eq]
  · intro j e he
    rw [expectedFiles_getElem?, he]
    simp

theorem bencodeDecode_encode (v : BVal) (fuel stack : Nat) (hrep : v.Representable)
    (hlen : v.encode.length < 2 ^ 31) (hfuel : v.encode.length ≤ fuel)
    (hstack : v.depth ≤ stack) : bencodeDecode fuel stack v.encode = .ok v.toJS := by
  have h := (decode_encode_aux fuel).1 v [] [] stack hrep (by simpa using hlen) hfuel hstack
  simp only [List.nil_append, List.append_nil, List.length_nil, Nat.zero_add] at h
  have e : JSNum.ofNat 0 = .fin 0 := rfl
  rw [e] at h
  unfold bencodeDecode
  rw [h]

theorem packExample_representable : packExample.Representable := by
  simp only [packExample, packFileA, packFileB, BVal.Representable, RepresentablePairs,
    RepresentableList, keyTexts, List.map_cons, List.map_nil, List.nodup_cons,
    List.mem_cons, List.mem_singleton, List.not_mem_nil, List.nodup_nil, and_true, true_and,
    not_or, not_false_eq_true]
  decide

/-- Witness for C7: the two-file structure of the specification,
`{name: "pack", files: [{path: ["a.txt"], length: 10}, {path: ["b", "c.txt"], length: 20}]}`. -/
theorem parseTorrentFile_multi_file_witness :
    parseTorrentFile 100 10 packExample.encode
      = .ok ⟨"pack", [⟨0, "a.txt", .fin 10⟩, ⟨1, "b/c.txt", .fin 20⟩], .fin 30⟩ :=
  (parseTorrentFile_multi_file 100 10 packExample.encode packExample.toJS
    [packFileA.toJS, packFileB.toJS]
    [([[97, 46, 116, 120, 116]], 10), ([[98], [99, 46, 116, 120, 116]], 20)]
    "pack"
    (bencodeDecode_encode packExample 100 10 packExample_representable (by decide) (by decide)
      (by decide))
    rfl
    (List.Forall₂.cons ⟨rfl, rfl⟩ (List.Forall₂.cons ⟨rfl, rfl⟩ List.Forall₂.nil))
    rfl).1

/-! ## Numbers produced by `decode` are doubles -/

theorem roundShift_upper (f : Nat) : ∀ n, n < 2 ^ 53 * 2 ^ f → n / 2 ^ roundShift f n < 2 ^ 53 := by
  induction f with
  | zero => intro n h; simpa [roundShift] using h
  | succ f ih =>
    intro n h
    rw [roundShift]
    split
    · simpa using ‹n < 2 ^ 53›
    · rw [Nat.pow_succ', ← Nat.div_div_eq_div_mul]
      apply ih
      rw [Nat.pow_succ] at h
      omega

theorem roundShift_exact (t : Nat) :
    ∀ f n, t ≤ f → 2 ^ 52 * 2 ^ t ≤ n → n < 2 ^ 53 * 2 ^ t → 1 ≤ t → roundShift f n = t := by
  induction t with
  | zero => intro f n _ _ _ h; omega
  | succ t ih =>
    intro f n hf h1 h2 _
    obtain ⟨f', rfl⟩ : ∃ f', f = f' + 1 := ⟨f - 1, by omega⟩
    have hp : 0 < 2 ^ t := Nat.two_pow_pos _
    have e : (2 : Nat) ^ (t + 1) = 2 ^ t * 2 := Nat.pow_succ _ _
    rw [e] at h1 h2
    rw [roundShift, if_neg (by omega)]
    congr 1
    by_cases ht : t = 0
    · subst ht
      have e0 : (2 : Nat) ^ 0 = 1 := rfl
      rw [e0] at h1 h2 hp
      cases f' with
      | zero => rfl
      | succ f'' => rw [roundShift, if_pos (by omega)]
    · exact ih f' (n / 2) (by omega) (by omega) (by omega) (by omega)

theorem roundNat_fixed (q t : Nat) (hq1 : 2 ^ 52 ≤ q) (hq2 : q < 2 ^ 53) (ht : 1 ≤ t) :
    roundNat (q * 2 ^ t) = q * 2 ^ t := by
  have hp : 0 < 2 ^ t := Nat.two_pow_pos _
  have hfuel : t ≤ q * 2 ^ t := by
    have h1 : t < 2 ^ t := Nat.lt_two_pow t
    have h2 : 1 * 2 ^ t ≤ q * 2 ^ t := Nat.mul_le_mul_right _ (by omega)
    omega
  have hs : roundShift (q * 2 ^ t) (q * 2 ^ t) = t :=
    roundShift_exact t _ _ hfuel (Nat.mul_le_mul_right _ hq1)
      (Nat.mul_lt_mul_of_lt_of_le hq2 (Nat.le_refl _) hp) ht
  unfold roundNat
  simp only [hs, Nat.mul_div_cancel _ hp, Nat.mul_mod_left]
  have hhalf : 1 ≤ 2 ^ t / 2 := by
    obtain ⟨u, rfl⟩ : ∃ u, t = u + 1 := ⟨t - 1, by omega⟩
    rw [Nat.pow_succ, Nat.mul_div_cancel _ (by decide)]
    exact Nat.two_pow_pos _
  rw [if_neg]
  intro h
  rcases h with h | h
  · omega
  · omega

theorem roundNat_form (n : Nat) (hn : 2 ^ 53 < n) :
    ∃ q t, 2 ^ 52 ≤ q ∧ q < 2 ^ 53 ∧ 1 ≤ t ∧ roundNat n = q * 2 ^ t := by
  obtain ⟨h1, h2⟩ := roundShift_spec n n (by omega) (by omega)
  have h3 := roundShift_upper n n (by
    have : n < 2 ^ n := Nat.lt_two_pow n
    have : 1 * 2 ^ n ≤ 2 ^ 53 * 2 ^ n := Nat.mul_le_mul_right _ (by norm_num)
    omega)
  unfold roundNat
  simp only
  generalize roundShift n n = s at h1 h2 h3
  obtain ⟨t, rfl⟩ : ∃ t, s = t + 1 := ⟨s - 1, by omega⟩
  rw [Nat.add_sub_cancel] at h2
  have hq : 2 ^ 52 ≤ n / 2 ^ (t + 1) := by
    have e : n / 2 ^ (t + 1) = n / 2 ^ t / 2 := by
      rw [Nat.div_div_eq_div_mul, Nat.pow_succ]
    rw [e]
    omega
  split
  · by_cases hlt : n / 2 ^ (t + 1) + 1 < 2 ^ 53
    · exact ⟨n / 2 ^ (t + 1) + 1, t + 1, by omega, hlt, by omega, rfl⟩
    · refine ⟨2 ^ 52, t + 2, by omega, by norm_num, by omega, ?_⟩
      have : n / 2 ^ (t + 1) + 1 = 2 ^ 52 * 2 := by omega
      rw [this, Nat.pow_succ _ (t + 1)]
      ring
  · exact ⟨n / 2 ^ (t + 1), t + 1, hq, h3, by omega, rfl⟩

theorem roundNat_idem (n : Nat) (hn : 2 ^ 53 < n) : roundNat (roundNat n) = roundNat n := by
  obtain ⟨q, t, h1, h2, h3, h4⟩ := roundNat_form n hn
  rw [h4, roundNat_fixed q t h1 h2 h3]

/-- Rounding to a double is idempotent. -/
theorem isDouble_toDouble (i : Int) : (toDouble i).IsDouble := by
  by_cases hs : i.natAbs ≤ 2 ^ 53
  · rw [toDouble_small i hs]
    exact toDouble_small i hs
  · unfold toDouble
    rw [if_neg hs]
    simp only
    have hge := roundNat_ge i.natAbs (by omega)
    have hid := roundNat_idem i.natAbs (by omega)
    generalize roundNat i.natAbs = m at hge hid ⊢
    rcases Nat.lt_or_ge m doubleLimit with hlt | hbig
    swap
    · rw [if_pos hbig]
      split <;> exact trivial
    · have hbig : ¬ doubleLimit ≤ m := by omega
      rw [if_neg hbig]
      by_cases hm : m ≤ 2 ^ 53
      · apply toDouble_small
        split <;> omega
      · have hm' : 2 ^ 53 < m := by omega
        have hrm : roundNat m = m := hid
        show toDouble _ = _
        by_cases hneg : i < 0
        · simp only [hneg, if_true]
          unfold toDouble
          have e1 : (-(m : Int)).natAbs = m := by omega
          rw [e1, if_neg hm]
          simp only [hrm]
          rw [if_neg hbig, if_pos (by omega)]
        · simp only [hneg, if_false]
          unfold toDouble
          have e1 : ((m : Int)).natAbs = m := by omega
          rw [e1, if_neg hm]
          simp only [hrm]
          rw [if_neg hbig, if_neg (by omega)]

theorem isDouble_parseInt (s : List Nat) : (parseInt s).IsDouble := by
  unfold parseInt
  simp only
  split_ifs <;> first | exact trivial | exact isDouble_toDouble _

theorem zero_add_of_isDouble (x : JSNum) (h : x.IsDouble) : (JSNum.fin 0).add x = x := by
  cases x with
  | nan => rfl
  | pinf => rfl
  | ninf => rfl
  | fin i =>
    simp only [JSNum.add, Int.zero_add]
    exact h

theorem numsOK_num (n : JSNum) : (JSVal.num n).NumsOK ↔ n.IsDouble := by
  simp only [JSVal.NumsOK]
theorem numsOK_arr (xs : List JSVal) : (JSVal.arr xs).NumsOK ↔ NumsOKList xs := by
  simp only [JSVal.NumsOK]
theorem numsOK_obj (ps : List (String × JSVal)) : (JSVal.obj ps).NumsOK ↔ NumsOKProps ps := by
  simp only [JSVal.NumsOK]
theorem numsOK_buf (b : Buffer) : (JSVal.buf b).NumsOK := by simp only [JSVal.NumsOK]
theorem numsOK_undefined : JSVal.undefined.NumsOK := by simp only [JSVal.NumsOK]
theorem numsOKList_nil : NumsOKList [] := by simp only [NumsOKList]
theorem numsOKList_cons (x : JSVal) (xs : List JSVal) :
    NumsOKList (x :: xs) ↔ (x.NumsOK ∧ NumsOKList xs) := by simp only [NumsOKList]
theorem numsOKProps_nil : NumsOKProps [] := by simp only [NumsOKProps]
theorem numsOKProps_cons (p : String × JSVal) (ps : List (String × JSVal)) :
    NumsOKProps (p :: ps) ↔ (p.2.NumsOK ∧ NumsOKProps ps) := by simp only [NumsOKProps]

theorem numsOKList_snoc (acc : List JSVal) (v : JSVal) (h1 : NumsOKList acc) (h2 : v.NumsOK) :
    NumsOKList (acc ++ [v]) := by
  induction acc with
  | nil => exact (numsOKList_cons _ _).mpr ⟨h2, numsOKList_nil⟩
  | cons a acc ih =>
    obtain ⟨ha, hacc⟩ := (numsOKList_cons _ _).mp h1
    exact (numsOKList_cons _ _).mpr ⟨ha, ih hacc⟩

theorem numsOKProps_setProp (acc : List (String × JSVal)) (key : String) (v : JSVal)
    (h1 : NumsOKProps acc) (h2 : v.NumsOK) : NumsOKProps (setProp acc key v) := by
  induction acc with
  | nil => exact (numsOKProps_cons _ _).mpr ⟨h2, numsOKProps_nil⟩
  | cons p acc ih =>
    obtain ⟨k, w⟩ := p
    obtain ⟨hp, hacc⟩ := (numsOKProps_cons _ _).mp h1
    rw [setProp]
    split
    · exact (numsOKProps_cons _ _).mpr ⟨h2, hacc⟩
    · exact (numsOKProps_cons _ _).mpr ⟨hp, ih hacc⟩

/-- Every number in a value that `decode` returns is a double. -/
theorem decode_numsOK_aux (buffer : Buffer) (n : Nat) :
    (∀ k p r, decode n k buffer p = .ok r → r.1.NumsOK) ∧
    (∀ k p acc r, NumsOKList acc → decodeListLoop n k buffer p acc = .ok r → r.1.NumsOK) ∧
    (∀ k p acc r, NumsOKProps acc → decodeDictLoop n k buffer p acc = .ok r → r.1.NumsOK) := by
  induction n with
  | zero =>
    refine ⟨?_, ?_, ?_⟩
    · intro k p r h; rw [decode_zero] at h; cases h
    · intro k p acc r _ h; rw [decodeListLoop_zero] at h; cases h
    · intro k p acc r _ h; rw [decodeDictLoop_zero] at h; cases h
  | succ n ih =>
    obtain ⟨ihv, ihl, ihd⟩ := ih
    refine ⟨?_, ?_, ?_⟩
    · intro k p r h
      cases k with
      | zero => rw [decode_no_stack] at h; cases h
      | succ k =>
        rw [decode_succ] at h
        split at h
        · cases h
        · rename_i c hc
          by_cases h1 : c = 0x69
          · simp only [h1, if_true, Outcome.ok.injEq] at h
            rw [← h]
            exact (numsOK_num _).mpr (isDouble_parseInt _)
          · simp only [h1, if_false] at h
            by_cases h2 : 0x30 ≤ c ∧ c ≤ 0x39
            · simp only [h2, and_self, if_true, Outcome.ok.injEq] at h
              rw [← h]
              exact numsOK_buf _
            · simp only [h2, if_false] at h
              by_cases h3 : c = 0x6c
              · simp only [h3, if_true] at h
                exact ihl _ _ _ _ numsOKList_nil h
              · simp only [h3, if_false] at h
                by_cases h4 : c = 0x64
                · simp only [h4, if_true] at h
                  exact ihd _ _ _ _ numsOKProps_nil h
                · simp only [h4, if_false] at h; cases h
    · intro k p acc r hacc h
      rw [decodeListLoop_succ] at h
      split at h
      · simp only [Outcome.ok.injEq] at h
        rw [← h]
        exact (numsOK_arr _).mpr hacc
      · cases hs : decode n k buffer p with
        | ok r1 =>
          rw [hs] at h
          simp only at h
          exact ihl _ _ _ _ (numsOKList_snoc _ _ hacc (ihv _ _ _ hs)) h
        | throw e => rw [hs] at h; cases h
        | timeout => rw [hs] at h; cases h
        | unsupported => rw [hs] at h; cases h
    · intro k p acc r hacc h
      rw [decodeDictLoop_succ] at h
      split at h
      · simp only [Outcome.ok.injEq] at h
        rw [← h]
        exact (numsOK_obj _).mpr hacc
      · cases hs : decode n k buffer p with
        | ok r1 =>
          rw [hs] at h
          simp only at h
          cases hs2 : decode n k buffer r1.2 with
          | ok r2 =>
            rw [hs2] at h
            simp only at h
            cases hk : keyOf r1.1 with
            | ok key =>
              rw [hk] at h
              simp only at h
              split at h
              · cases h
              · exact ihd _ _ _ _ (numsOKProps_setProp _ _ _ hacc (ihv _ _ _ hs2)) h
            | throw e => rw [hk] at h; cases h
            | timeout => rw [hk] at h; cases h
            | unsupported => rw [hk] at h; cases h
          | throw e => rw [hs2] at h; cases h
          | timeout => rw [hs2] at h; cases h
          | unsupported => rw [hs2] at h; cases h
        | throw e => rw [hs] at h; cases h
        | timeout => rw [hs] at h; cases h
        | unsupported => rw [hs] at h; cases h

theorem lookup_numsOK (props : List (String × JSVal)) (key : String) (v : JSVal)
    (h : NumsOKProps props) (hl : props.lookup key = some v) : v.NumsOK := by
  induction props with
  | nil => simp at hl
  | cons p ps ih =>
    obtain ⟨k, w⟩ := p
    obtain ⟨hp, hps⟩ := (numsOKProps_cons _ _).mp h
    rw [List.lookup_cons] at hl
    split at hl
    · simp only [Option.some.injEq] at hl
      rw [← hl]; exact hp
    · exact ih hps hl

theorem get_numsOK (v : JSVal) (key : String) (h : v.NumsOK) : (get v key).NumsOK := by
  cases v with
  | undefined => exact numsOK_undefined
  | num n => exact numsOK_undefined
  | str s => exact numsOK_undefined
  | buf b => exact numsOK_undefined
  | arr xs =>
    unfold get
    simp only
    split
    · exact (numsOK_num _).mpr (isDouble_toDouble _)
    · exact numsOK_undefined
  | obj props =>
    unfold get
    simp only
    cases hl : props.lookup key with
    | none => exact numsOK_undefined
    | some w => exact lookup_numsOK props key w ((numsOK_obj _).mp h) hl

theorem orElse_numsOK (a b : JSVal) (ha : a.NumsOK) (hb : b.NumsOK) : (a.orElse b).NumsOK := by
  unfold JSVal.orElse
  split
  · exact ha
  · exact hb

theorem toNumber_isDouble (v : JSVal) (h : v.NumsOK) (n : JSNum) (hn : toNumber v = .ok n) :
    n.IsDouble := by
  cases v with
  | undefined => simp only [toNumber, Outcome.ok.injEq] at hn; rw [← hn]; exact trivial
  | num m => simp only [toNumber, Outcome.ok.injEq] at hn; rw [← hn]; exact (numsOK_num _).mp h
  | str s => simp only [toNumber] at hn; cases hn
  | buf b => simp only [toNumber] at hn; cases hn
  | arr xs => simp only [toNumber] at hn; cases hn
  | obj props =>
    simp only [toNumber] at hn
    split at hn
    · cases hn
    · simp only [Outcome.ok.injEq] at hn; rw [← hn]; exact trivial

theorem bind_eq_ok {α β : Type} (x : Outcome α) (f : α → Outcome β) (b : β)
    (h : x.bind f = .ok b) : ∃ a, x = .ok a ∧ f a = .ok b := by
  cases x with
  | ok a => exact ⟨a, rfl, h⟩
  | throw e => cases h
  | timeout => cases h
  | unsupported => cases h

theorem mapFiles_total (fs : List JSVal) :
    ∀ (i : Nat) (total : JSNum) (r : List FileEntry × JSNum), mapFiles fs i total = .ok r →
      r.2 = r.1.foldl (fun a f => a.add f.length) total := by
  induction fs with
  | nil =>
    intro i total r h
    simp only [mapFiles, Outcome.ok.injEq] at h
    rw [← h]; rfl
  | cons f fs ih =>
    intro i total r h
    rw [mapFiles] at h
    obtain ⟨e, _, h⟩ := bind_eq_ok _ _ _ h
    obtain ⟨r', hr', h⟩ := bind_eq_ok _ _ _ h
    simp only [Outcome.ok.injEq] at h
    rw [← h]
    simp only [List.foldl_cons]
    exact ih _ _ _ hr'

/-- The invariant of the result of `extractMetadata` on a value whose numbers are doubles. -/
theorem extractMetadata_total (decoded : JSVal) (hd : decoded.NumsOK) (m : TorrentMetadata)
    (h : extractMetadata decoded = .ok m) : m.totalSize = sumLengths m.files := by
  unfold extractMetadata at h
  simp only at h
  have hinfo : ((get decoded "info").orElse decoded).NumsOK :=
    orElse_numsOK _ _ (get_numsOK _ _ hd) hd
  generalize (get decoded "info").orElse decoded = info at h hinfo
  obtain ⟨r, hr, h⟩ := bind_eq_ok _ _ _ h
  obtain ⟨name, _, h⟩ := bind_eq_ok _ _ _ h
  simp only [Outcome.ok.injEq] at h
  rw [← h]
  simp only
  have hsingle : (toNumber ((get info "length").orElse (.num (.fin 0)))).bind (fun len =>
      (toStr ((get info "name").orElse (.str "file"))).bind fun name =>
        (.ok ([⟨0, name, len⟩], len) : Outcome (List FileEntry × JSNum))) = .ok r →
      r.2 = sumLengths r.1 := by
    intro hr
    obtain ⟨len, hlen, hr⟩ := bind_eq_ok _ _ _ hr
    obtain ⟨nm, _, hr⟩ := bind_eq_ok _ _ _ hr
    simp only [Outcome.ok.injEq] at hr
    rw [← hr]
    simp only [sumLengths, List.foldl_cons, List.foldl_nil]
    have hx : ((get info "length").orElse (.num (.fin 0))).NumsOK :=
      orElse_numsOK _ _ (get_numsOK _ _ hinfo) ((numsOK_num _).mpr (toDouble_small 0 (by decide)))
    exact (zero_add_of_isDouble len (toNumber_isDouble _ hx len hlen)).symm
  cases hfi : get info "files" with
  | arr fs =>
    rw [hfi] at hr
    simp only at hr
    exact mapFiles_total fs 0 (.fin 0) r hr
  | undefined => rw [hfi] at hr; exact hsingle hr
  | num n => rw [hfi] at hr; exact hsingle hr
  | str s => rw [hfi] at hr; exact hsingle hr
  | buf b => rw [hfi] at hr; exact hsingle hr
  | obj ps => rw [hfi] at hr; exact hsingle hr

/-- **C8 (as amended).** For every input on which `parseTorrentFile` succeeds (multi-file
or single-file, with or without an `info` sub-dictionary), `totalSize` is the sum of the
lengths of the listed files, added up from 0 in file order with JavaScript addition.  The
statement covers the files this embedding follows to the end: those without a dictionary
key `__proto__` whose `length` fields are integers, dictionaries or absent (`Number` of a
byte string or list is not described).  Nothing is said on the sign of the lengths: they
are not checked. -/
theorem parseTorrentFile_totalSize (fuel stack : Nat) (buf : Buffer) (m : TorrentMetadata)
    (h : parseTorrentFile fuel stack buf = .ok m) : m.totalSize = sumLengths m.files := by
  unfold parseTorrentFile at h
  obtain ⟨decoded, hdec, h⟩ := bind_eq_ok _ _ _ h
  have hd : decoded.NumsOK := by
    unfold bencodeDecode at hdec
    cases hr : decode fuel stack buf (.fin 0) with
    | ok r =>
      rw [hr] at hdec
      simp only [Outcome.ok.injEq] at hdec
      rw [← hdec]
      exact (decode_numsOK_aux buf fuel).1 _ _ _ hr
    | throw e => rw [hr] at hdec; cases hdec
    | timeout => rw [hr] at hdec; cases hdec
    | unsupported => rw [hr] at hdec; cases hdec
  exact extractMetadata_total decoded hd m h

/-- Witness for C8: the file `d6:lengthi-5ee`. -/
theorem parseTorrentFile_totalSize_witness :
    parseTorrentFile 20 5 [100, 54, 58, 108, 101, 110, 103, 116, 104, 105, 45, 53, 101, 101]
        = .ok ⟨"torrent", [⟨0, "file", .fin (-5)⟩], .fin (-5)⟩ ∧
      (⟨"torrent", [⟨0, "file", .fin (-5)⟩], .fin (-5)⟩ : TorrentMetadata).totalSize
        = sumLengths
            (⟨"torrent", [⟨0, "file", .fin (-5)⟩], .fin (-5)⟩ : TorrentMetadata).files :=
  ⟨by decide,
   parseTorrentFile_totalSize 20 5
    [100, 54, 58, 108, 101, 110, 103, 116, 104, 105, 45, 53, 101, 101]
    ⟨"torrent", [⟨0, "file", .fin (-5)⟩], .fin (-5)⟩ (by decide)⟩

/-- Counterexample to C8 as stated: the file `d6:lengthi-5ee` is parsed successfully with
the negative length and total size `-5`. -/
theorem parseTorrentFile_negative_length :
    parseTorrentFile 20 5 [100, 54, 58, 108, 101, 110, 103, 116, 104, 105, 45, 53, 101, 101]
      = .ok ⟨"torrent", [⟨0, "file", .fin (-5)⟩], .fin (-5)⟩ := by
  decide

/-! ## Claims about `checkTorrentExists` -/

/-- The fail-open part of `checkTorrentExists`: a failed or rejected login, and an error or
timeout of the direct request when the in-page request is not used or was rejected, give
`false`; `true` needs an in-page answer with `resp.ok` or a direct answer with status 200. -/
theorem checkTorrentExists_fail_open (env : CheckEnv) :
    (env.hasUser = true → env.login ≠ .resolved true → checkTorrentExists env = false) ∧
    ((env.windowAlive && env.pageOnOrigin) = false → env.direct = .error ∨ env.direct = .timedOut →
      checkTorrentExists env = false) ∧
    (env.page = .fetchRaised → env.direct = .error ∨ env.direct = .timedOut →
      checkTorrentExists env = false) ∧
    (checkTorrentExists env = true →
      (∃ status, env.page = .answered status ∧ respOk status = true) ∨
        env.direct = .response 200) := by
  obtain ⟨infoHash, hasBaseUrl, userDisconnected, hasUser, login, windowAlive, pageOnOrigin,
    page, direct⟩ := env
  refine ⟨?_, ?_, ?_, ?_⟩
  · intro h1 h2
    simp only at h1 h2
    unfold checkTorrentExists
    simp only
    cases infoHash with
    | unavailable => rfl
    | hash hex =>
      simp only
      split_ifs <;> simp_all
  · intro h1 h2
    simp only at h1 h2
    unfold checkTorrentExists
    simp only
    cases infoHash with
    | unavailable => rfl
    | hash hex =>
      simp only
      rcases h2 with h2 | h2 <;> subst h2 <;> split_ifs <;> simp_all
  · intro h1 h2
    simp only at h1 h2
    unfold checkTorrentExists
    simp only
    cases infoHash with
    | unavailable => rfl
    | hash hex =>
      simp only
      subst h1
      rcases h2 with h2 | h2 <;> subst h2 <;> split_ifs <;> simp_all
  · intro h
    unfold checkTorrentExists at h
    simp only at h ⊢
    cases infoHash with
    | unavailable => simp at h
    | hash hex =>
      simp only at h
      split_ifs at h
      all_goals (cases page <;> cases direct <;> simp_all)

/-- **C10 (the code at the failing input).** With the in-page strategy in use and the
properties lookup answered with status 204, `checkTorrentExists` resolves to `true`: the
page script returns `resp.ok`, which holds for every status from 200 to 299, whereas the
direct strategy tests `res.statusCode === 200`. -/
theorem checkTorrentExists_page_accepts_204 :
    checkTorrentExists
        { infoHash := .hash "0123456789abcdef0123456789abcdef01234567", hasBaseUrl := true,
          userDisconnected := false, hasUser := false, login := .resolved true,
          windowAlive := true, pageOnOrigin := true, page := .answered 204,
          direct := .response 404 } = true ∧
      checkTorrentExists
        { infoHash := .hash "0123456789abcdef0123456789abcdef01234567", hasBaseUrl := true,
          userDisconnected := false, hasUser := false, login := .resolved true,
          windowAlive := false, pageOnOrigin := false, page := .fetchRaised,
          direct := .response 204 } = false := by
  constructor <;> decide


/-! ## Fuel and stack: monotonicity of `decode` -/

/-- One more unit of fuel does not change a run of `decode` that finished. -/
theorem decode_mono_aux (buffer : Buffer) (n : Nat) :
    (∀ k p, decode n k buffer p ≠ .timeout →
      decode (n + 1) k buffer p = decode n k buffer p) ∧
    (∀ k p acc, decodeListLoop n k buffer p acc ≠ .timeout →
      decodeListLoop (n + 1) k buffer p acc = decodeListLoop n k buffer p acc) ∧
    (∀ k p acc, decodeDictLoop n k buffer p acc ≠ .timeout →
      decodeDictLoop (n + 1) k buffer p acc = decodeDictLoop n k buffer p acc) := by
  induction n with
  | zero =>
    refine ⟨?_, ?_, ?_⟩
    · intro k p h; exact absurd (decode_zero _ _ _) h
    · intro k p acc h; exact absurd (decodeListLoop_zero _ _ _ _) h
    · intro k p acc h; exact absurd (decodeDictLoop_zero _ _ _ _) h
  | succ n ih =>
    obtain ⟨ihv, ihl, ihd⟩ := ih
    refine ⟨?_, ?_, ?_⟩
    · intro k p h
      cases k with
      | zero => rw [decode_no_stack, decode_no_stack]
      | succ k =>
        rw [decode_succ] at h ⊢
        rw [decode_succ n]
        generalize (if p.truthy then p else JSNum.fin 0) = s at h ⊢
        cases hb : bufAt buffer s with
        | none => rfl
        | some c =>
          rw [hb] at h
          simp only at h ⊢
          by_cases h1 : c = 0x69
          · simp only [h1, if_true]
          · simp only [h1, if_false] at h ⊢
            by_cases h2 : 0x30 ≤ c ∧ c ≤ 0x39
            · simp only [h2, and_self, if_true]
            · simp only [h2, if_false] at h ⊢
              by_cases h3 : c = 0x6c
              · simp only [h3, if_true] at h ⊢
                exact ihl _ _ _ h
              · simp only [h3, if_false] at h ⊢
                by_cases h4 : c = 0x64
                · simp only [h4, if_true] at h ⊢
                  exact ihd _ _ _ h
                · simp only [h4, if_false]
    · intro k p acc h
      rw [decodeListLoop_succ] at h ⊢
      rw [decodeListLoop_succ n]
      by_cases he : bufAt buffer p = some 0x65
      · simp only [he, if_true]
      · simp only [he, if_false] at h ⊢
        cases hs : decode n k buffer p with
        | ok r =>
          rw [hs] at h
          simp only at h
          rw [ihv k p (by rw [hs]; simp), hs]
          simp only
          exact ihl _ _ _ h
        | throw e => rw [ihv k p (by rw [hs]; simp), hs]
        | timeout => rw [hs] at h; exact absurd rfl h
        | unsupported => rw [ihv k p (by rw [hs]; simp), hs]
    · intro k p acc h
      rw [decodeDictLoop_succ] at h ⊢
      rw [decodeDictLoop_succ n]
      by_cases he : bufAt buffer p = some 0x65
      · simp only [he, if_true]
      · simp only [he, if_false] at h ⊢
        cases hs : decode n k buffer p with
        | ok r1 =>
          rw [hs] at h
          simp only at h
          rw [ihv k p (by rw [hs]; simp), hs]
          simp only
          cases hs2 : decode n k buffer r1.2 with
          | ok r2 =>
            rw [hs2] at h
            simp only at h
            rw [ihv k r1.2 (by rw [hs2]; simp), hs2]
            simp only
            cases hk : keyOf r1.1 with
            | ok key =>
              rw [hk] at h
              simp only at h ⊢
              by_cases hp : key = "__proto__"
              · simp only [hp, if_true]
              · simp only [hp, if_false] at h ⊢
                exact ihd _ _ _ h
            | throw e => rfl
            | timeout => rfl
            | unsupported => rfl
          | throw e => rw [ihv k r1.2 (by rw [hs2]; simp), hs2]
          | timeout => rw [hs2] at h; exact absurd rfl h
          | unsupported => rw [ihv k r1.2 (by rw [hs2]; simp), hs2]
        | throw e => rw [ihv k p (by rw [hs]; simp), hs]
        | timeout => rw [hs] at h; exact absurd rfl h
        | unsupported => rw [ihv k p (by rw [hs]; simp), hs]

theorem decode_mono (buffer : Buffer) (k : Nat) (p : JSNum) (n m : Nat) (hnm : n ≤ m)
    (h : decode n k buffer p ≠ .timeout) :
    decode m k buffer p = decode n k buffer p := by
  induction m with
  | zero =>
    have : n = 0 := by omega
    rw [this]
  | succ m ih =>
    by_cases hn : n = m + 1
    · rw [hn]
    · have hle : n ≤ m := by omega
      rw [(decode_mono_aux buffer m).1 k p (by rw [ih hle]; exact h), ih hle]

theorem decodeListLoop_mono (buffer : Buffer) (k : Nat) (p : JSNum) (acc : List JSVal)
    (n m : Nat) (hnm : n ≤ m) (h : decodeListLoop n k buffer p acc ≠ .timeout) :
    decodeListLoop m k buffer p acc = decodeListLoop n k buffer p acc := by
  induction m with
  | zero =>
    have : n = 0 := by omega
    rw [this]
  | succ m ih =>
    by_cases hn : n = m + 1
    · rw [hn]
    · have hle : n ≤ m := by omega
      rw [(decode_mono_aux buffer m).2.1 k p acc (by rw [ih hle]; exact h), ih hle]

theorem decodeDictLoop_mono (buffer : Buffer) (k : Nat) (p : JSNum)
    (acc : List (String × JSVal)) (n m : Nat) (hnm : n ≤ m)
    (h : decodeDictLoop n k buffer p acc ≠ .timeout) :
    decodeDictLoop m k buffer p acc = decodeDictLoop n k buffer p acc := by
  induction m with
  | zero =>
    have : n = 0 := by omega
    rw [this]
  | succ m ih =>
    by_cases hn : n = m + 1
    · rw [hn]
    · have hle : n ≤ m := by omega
      rw [(decode_mono_aux buffer m).2.2 k p acc (by rw [ih hle]; exact h), ih hle]

/-- A call of `decode` that returns with one stack budget returns the same with any other,
unless the other budget is exhausted. -/
theorem decode_stack_aux (buffer : Buffer) (n : Nat) :
    (∀ k k' p r, decode n k buffer p = .ok r →
      decode n k' buffer p = .ok r ∨ decode n k' buffer p = .throw .rangeError) ∧
    (∀ k k' p acc r, decodeListLoop n k buffer p acc = .ok r →
      decodeListLoop n k' buffer p acc = .ok r ∨
        decodeListLoop n k' buffer p acc = .throw .rangeError) ∧
    (∀ k k' p acc r, decodeDictLoop n k buffer p acc = .ok r →
      decodeDictLoop n k' buffer p acc = .ok r ∨
        decodeDictLoop n k' buffer p acc = .throw .rangeError) := by
  induction n with
  | zero =>
    refine ⟨?_, ?_, ?_⟩
    · intro k k' p r h; rw [decode_zero] at h; cases h
    · intro k k' p acc r h; rw [decodeListLoop_zero] at h; cases h
    · intro k k' p acc r h; rw [decodeDictLoop_zero] at h; cases h
  | succ n ih =>
    obtain ⟨ihv, ihl, ihd⟩ := ih
    refine ⟨?_, ?_, ?_⟩
    · intro k k' p r h
      cases k' with
      | zero => right; rw [decode_no_stack]
      | succ k' =>
        cases k with
        | zero => rw [decode_no_stack] at h; cases h
        | succ k =>
          rw [decode_succ] at h ⊢
          generalize (if p.truthy then p else JSNum.fin 0) = s at h ⊢
          cases hb : bufAt buffer s with
          | none => rw [hb] at h; cases h
          | some c =>
            rw [hb] at h
            simp only at h ⊢
            by_cases h1 : c = 0x69
            · simp only [h1, if_true] at h ⊢; exact Or.inl h
            · simp only [h1, if_false] at h ⊢
              by_cases h2 : 0x30 ≤ c ∧ c ≤ 0x39
              · simp only [h2, and_self, if_true] at h ⊢; exact Or.inl h
              · simp only [h2, if_false] at h ⊢
                by_cases h3 : c = 0x6c
                · simp only [h3, if_true] at h ⊢
                  exact ihl _ _ _ _ _ h
                · simp only [h3, if_false] at h ⊢
                  by_cases h4 : c = 0x64
                  · simp only [h4, if_true] at h ⊢
                    exact ihd _ _ _ _ _ h
                  · simp only [h4, if_false] at h; cases h
    · intro k k' p acc r h
      rw [decodeListLoop_succ] at h ⊢
      by_cases he : bufAt buffer p = some 0x65
      · simp only [he, if_true] at h ⊢; exact Or.inl h
      · simp only [he, if_false] at h ⊢
        cases hs : decode n k buffer p with
        | ok r1 =>
          rw [hs] at h
          simp only at h
          rcases ihv _ k' _ _ hs with h1 | h1
          · rw [h1]; exact ihl _ _ _ _ _ h
          · rw [h1]; exact Or.inr rfl
        | throw e => rw [hs] at h; cases h
        | timeout => rw [hs] at h; cases h
        | unsupported => rw [hs] at h; cases h
    · intro k k' p acc r h
      rw [decodeDictLoop_succ] at h ⊢
      by_cases he : bufAt buffer p = some 0x65
      · simp only [he, if_true] at h ⊢; exact Or.inl h
      · simp only [he, if_false] at h ⊢
        cases hs : decode n k buffer p with
        | ok r1 =>
          rw [hs] at h
          simp only at h
          cases hs2 : decode n k buffer r1.2 with
          | ok r2 =>
            rw [hs2] at h
            simp only at h
            rcases ihv _ k' _ _ hs with h1 | h1
            · rw [h1]
              simp only
              rcases ihv _ k' _ _ hs2 with h2 | h2
              · rw [h2]
                simp only
                cases hk : keyOf r1.1 with
                | ok key =>
                  rw [hk] at h
                  simp only at h ⊢
                  by_cases hp : key = "__proto__"
                  · simp only [hp, if_true] at h; cases h
                  · simp only [hp, if_false] at h ⊢
                    exact ihd _ _ _ _ _ h
                | throw e => rw [hk] at h; cases h
                | timeout => rw [hk] at h; cases h
                | unsupported => rw [hk] at h; cases h
              · rw [h2]; exact Or.inr rfl
            · rw [h1]; exact Or.inr rfl
          | throw e => rw [hs2] at h; cases h
          | timeout => rw [hs2] at h; cases h
          | unsupported => rw [hs2] at h; cases h
        | throw e => rw [hs] at h; cases h
        | timeout => rw [hs] at h; cases h
        | unsupported => rw [hs] at h; cases h

/-! ## Where a call of `decode` can end -/

theorem truthy_false_cases (p : JSNum) (h : p.truthy = false) : p = .nan ∨ p = .fin 0 := by
  cases p with
  | nan => exact Or.inl rfl
  | pinf => simp [JSNum.truthy] at h
  | ninf => simp [JSNum.truthy] at h
  | fin i =>
    right
    by_cases hi : i = 0
    · rw [hi]
    · exfalso
      unfold JSNum.truthy at h
      split at h
      · rename_i h'; cases h'
      · rename_i h'
        simp only [JSNum.fin.injEq] at h'
        exact hi h'
      · cases h

/-- A falsy start offset (`NaN` or 0) is read as offset 0: `start = start || 0`. -/
theorem decode_falsy (buffer : Buffer) (n k : Nat) (p : JSNum) (h : p.truthy = false) :
    decode n k buffer p = decode n k buffer (.fin 0) := by
  rcases truthy_false_cases p h with hp | hp
  · rw [hp]
    cases n with
    | zero => rw [decode_zero, decode_zero]
    | succ n =>
      cases k with
      | zero => rw [decode_no_stack, decode_no_stack]
      | succ k =>
        rw [decode_succ, decode_succ]
        rfl
  · rw [hp]

/-- A call of `decode` that returns was made at a byte of the buffer. -/
theorem decode_ok_bufAt (buffer : Buffer) (n k : Nat) (p : JSNum) (r : JSVal × JSNum)
    (h : decode n k buffer p = .ok r) :
    ∃ c, bufAt buffer (if p.truthy then p else .fin 0) = some c := by
  cases n with
  | zero => rw [decode_zero] at h; cases h
  | succ n =>
    cases k with
    | zero => rw [decode_no_stack] at h; cases h
    | succ k =>
      rw [decode_succ] at h
      cases hb : bufAt buffer (if p.truthy then p else .fin 0) with
      | none => rw [hb] at h; cases h
      | some c => exact ⟨c, rfl⟩

theorem decode_bad (buffer : Buffer) (hB : NoDecodeAtZero buffer) (r1 : JSNum)
    (h : r1 = .fin 0 ∨ bufAt buffer r1 = none) (n k : Nat) (r : JSVal × JSNum) :
    decode n k buffer r1 ≠ .ok r := by
  rcases h with h | h
  · rw [h]; exact hB.never n k r
  · cases ht : r1.truthy with
    | false => rw [decode_falsy buffer n k r1 ht]; exact hB.never n k r
    | true =>
      intro hs
      obtain ⟨c, hc⟩ := decode_ok_bufAt _ _ _ _ _ hs
      rw [ht, if_pos rfl, h] at hc
      cases hc

theorem decode_bad_not_e (buffer : Buffer) (hB : NoDecodeAtZero buffer) (r1 : JSNum)
    (h : r1 = .fin 0 ∨ bufAt buffer r1 = none) : bufAt buffer r1 ≠ some 0x65 := by
  rcases h with h | h
  · rw [h]; exact hB.first
  · rw [h]; simp

theorem decodeListLoop_bad (buffer : Buffer) (hB : NoDecodeAtZero buffer) (r1 : JSNum)
    (h : r1 = .fin 0 ∨ bufAt buffer r1 = none) (n k : Nat) (acc : List JSVal)
    (r : JSVal × JSNum) : decodeListLoop n k buffer r1 acc ≠ .ok r := by
  cases n with
  | zero => rw [decodeListLoop_zero]; simp
  | succ n =>
    rw [decodeListLoop_succ, if_neg (decode_bad_not_e buffer hB r1 h)]
    cases hs : decode n k buffer r1 with
    | ok p1 => exact absurd hs (decode_bad buffer hB r1 h n k p1)
    | throw e => simp
    | timeout => simp
    | unsupported => simp

theorem decodeDictLoop_bad (buffer : Buffer) (hB : NoDecodeAtZero buffer) (r1 : JSNum)
    (h : r1 = .fin 0 ∨ bufAt buffer r1 = none) (n k : Nat) (acc : List (String × JSVal))
    (r : JSVal × JSNum) : decodeDictLoop n k buffer r1 acc ≠ .ok r := by
  cases n with
  | zero => rw [decodeDictLoop_zero]; simp
  | succ n =>
    rw [decodeDictLoop_succ, if_neg (decode_bad_not_e buffer hB r1 h)]
    cases hs : decode n k buffer r1 with
    | ok p1 => exact absurd hs (decode_bad buffer hB r1 h n k p1)
    | throw e => simp
    | timeout => simp
    | unsupported => simp

/-- In such a buffer every call of `decode` that returns makes progress, and every loop
that returns ends behind the offset it started from. -/
theorem decode_progress_aux (buffer : Buffer) (hB : NoDecodeAtZero buffer) (n : Nat) :
    (∀ k p r, decode n k buffer (JSNum.ofNat p) = .ok r → Progress buffer p r.2) ∧
    (∀ k q acc r, decodeListLoop n k buffer (JSNum.ofNat q) acc = .ok r →
      ∃ i, r.2 = JSNum.ofNat i ∧ q < i) ∧
    (∀ k q acc r, decodeDictLoop n k buffer (JSNum.ofNat q) acc = .ok r →
      ∃ i, r.2 = JSNum.ofNat i ∧ q < i) := by
  have hlen := hB.short
  induction n with
  | zero =>
    refine ⟨?_, ?_, ?_⟩
    · intro k p r h; rw [decode_zero] at h; cases h
    · intro k p acc r h; rw [decodeListLoop_zero] at h; cases h
    · intro k p acc r h; rw [decodeDictLoop_zero] at h; cases h
  | succ n ih =>
    obtain ⟨ihv, ihl, ihd⟩ := ih
    refine ⟨?_, ?_, ?_⟩
    · intro k p r h
      cases k with
      | zero => rw [decode_no_stack] at h; cases h
      | succ k =>
        rw [decode_succ, truthy_ofNat] at h
        cases hb : bufAt buffer (JSNum.ofNat p) with
        | none => rw [hb] at h; cases h
        | some c =>
          rw [hb] at h
          simp only at h
          have hp : p < buffer.length := by
            by_contra hlt
            rw [bufAt_ofNat, List.getElem?_eq_none (by omega)] at hb
            cases hb
          by_cases h1 : c = 0x69
          · simp only [h1, if_true, Outcome.ok.injEq] at h
            rw [← h]
            simp only
            rcases indexOf_cases buffer 101 p hp hlen with hi | ⟨j, hi, hpj, hj⟩
            · rw [hi, fin_neg_one_add_one]
              exact Or.inl rfl
            · rw [hi, ofNat_add_one _ (by omega)]
              exact Or.inr (Or.inr ⟨j + 1, rfl, by omega⟩)
          · simp only [h1, if_false] at h
            by_cases h2 : 0x30 ≤ c ∧ c ≤ 0x39
            · simp only [h2, and_self, if_true, Outcome.ok.injEq] at h
              rw [← h]
              simp only
              rcases indexOf_cases buffer 58 p hp hlen with hi | ⟨j, hi, hpj, hj⟩
              · rw [hi, toStringRange_neg]
                have e : asciiDecode [] = [] := rfl
                rw [e, parseInt_nil, add_nan]
                exact Or.inr (Or.inl rfl)
              · rw [hi, toStringRange_ofNat _ _ _ (by omega), ofNat_add_one _ (by omega)]
                rw [bufAt_ofNat] at hb
                rcases drop_take_head buffer p (j - p) c hb with he | ⟨rest, he⟩
                · rw [he]
                  have e : asciiDecode [] = [] := rfl
                  rw [e, parseInt_nil, add_nan]
                  exact Or.inr (Or.inl rfl)
                · rw [he]
                  obtain ⟨m, hm⟩ := parseInt_digit_head c rest h2.1 h2.2
                  rw [hm]
                  exact progress_add_nat buffer p j m hpj hlen hj
            · simp only [h2, if_false] at h
              by_cases h3 : c = 0x6c
              · simp only [h3, if_true] at h
                rw [ofNat_add_one _ (by omega)] at h
                obtain ⟨i, hi, hlt⟩ := ihl _ _ _ _ h
                exact Or.inr (Or.inr ⟨i, hi, by omega⟩)
              · simp only [h3, if_false] at h
                by_cases h4 : c = 0x64
                · simp only [h4, if_true] at h
                  rw [ofNat_add_one _ (by omega)] at h
                  obtain ⟨i, hi, hlt⟩ := ihd _ _ _ _ h
                  exact Or.inr (Or.inr ⟨i, hi, by omega⟩)
                · simp only [h4, if_false] at h; cases h
    · intro k q acc r h
      rw [decodeListLoop_succ] at h
      by_cases he : bufAt buffer (JSNum.ofNat q) = some 0x65
      · simp only [he, if_true, Outcome.ok.injEq] at h
        have hq : q < buffer.length := by
          by_contra hlt
          rw [bufAt_ofNat, List.getElem?_eq_none (by omega)] at he
          cases he
        rw [ofNat_add_one _ (by omega)] at h
        rw [← h]
        exact ⟨q + 1, rfl, by omega⟩
      · simp only [he, if_false] at h
        cases hs : decode n k buffer (JSNum.ofNat q) with
        | ok p1 =>
          rw [hs] at h
          simp only at h
          rcases ihv _ _ _ hs with hp | hp | ⟨i, hi, hlt⟩
          · exact absurd h (decodeListLoop_bad buffer hB p1.2 (Or.inl hp) n k _ r)
          · exact absurd h (decodeListLoop_bad buffer hB p1.2 (Or.inr hp) n k _ r)
          · rw [hi] at h
            obtain ⟨i', hi', hlt'⟩ := ihl _ _ _ _ h
            exact ⟨i', hi', by omega⟩
        | throw e => rw [hs] at h; cases h
        | timeout => rw [hs] at h; cases h
        | unsupported => rw [hs] at h; cases h
    · intro k q acc r h
      rw [decodeDictLoop_succ] at h
      by_cases he : bufAt buffer (JSNum.ofNat q) = some 0x65
      · simp only [he, if_true, Outcome.ok.injEq] at h
        have hq : q < buffer.length := by
          by_contra hlt
          rw [bufAt_ofNat, List.getElem?_eq_none (by omega)] at he
          cases he
        rw [ofNat_add_one _ (by omega)] at h
        rw [← h]
        exact ⟨q + 1, rfl, by omega⟩
      · simp only [he, if_false] at h
        cases hs : decode n k buffer (JSNum.ofNat q) with
        | ok p1 =>
          rw [hs] at h
          simp only at h
          cases hs2 : decode n k buffer p1.2 with
          | ok p2 =>
            rw [hs2] at h
            simp only at h
            rcases ihv _ _ _ hs with hp | hp | ⟨i, hi, hlt⟩
            · exact absurd hs2 (decode_bad buffer hB p1.2 (Or.inl hp) n k p2)
            · exact absurd hs2 (decode_bad buffer hB p1.2 (Or.inr hp) n k p2)
            · rw [hi] at hs2
              cases hk : keyOf p1.1 with
              | ok key =>
                rw [hk] at h
                simp only at h
                by_cases hpr : key = "__proto__"
                · simp only [hpr, if_true] at h; cases h
                · simp only [hpr, if_false] at h
                  rcases ihv _ _ _ hs2 with hp | hp | ⟨i2, hi2, hlt2⟩
                  · exact absurd h (decodeDictLoop_bad buffer hB p2.2 (Or.inl hp) n k _ r)
                  · exact absurd h (decodeDictLoop_bad buffer hB p2.2 (Or.inr hp) n k _ r)
                  · rw [hi2] at h
                    obtain ⟨i', hi', hlt'⟩ := ihd _ _ _ _ h
                    exact ⟨i', hi', by omega⟩
              | throw e => rw [hk] at h; cases h
              | timeout => rw [hk] at h; cases h
              | unsupported => rw [hk] at h; cases h
          | throw e => rw [hs2] at h; cases h
          | timeout => rw [hs2] at h; cases h
          | unsupported => rw [hs2] at h; cases h
        | throw e => rw [hs] at h; cases h
        | timeout => rw [hs] at h; cases h
        | unsupported => rw [hs] at h; cases h

/-! ## Termination of `decode` from offset 0 -/

theorem collect_ne_timeout {α : Type} (l : List (Outcome α)) (h : ∀ x ∈ l, x ≠ .timeout) :
    collect l ≠ .timeout := by
  induction l with
  | nil => simp [collect]
  | cons x xs ih =>
    have hx := h x (List.mem_cons_self _ _)
    have hxs := ih (fun y hy => h y (List.mem_cons_of_mem _ hy))
    cases x with
    | ok a =>
      rw [collect]
      cases hc : collect xs with
      | ok as => simp
      | throw e => simp
      | timeout => exact absurd hc hxs
      | unsupported => simp
    | throw e => simp [collect]
    | timeout => exact absurd rfl hx
    | unsupported => simp [collect]

mutual
theorem jsString_ne_timeout : ∀ v : JSVal, jsString v ≠ .timeout
  | .undefined => by simp [jsString]
  | .num n => by
    rw [jsString]
    split <;> simp
  | .str s => by simp [jsString]
  | .buf b => by simp [jsString]
  | .arr xs => by
    rw [jsString]
    have h := collect_ne_timeout (jsStringList xs) (jsStringList_ne_timeout xs)
    cases hc : collect (jsStringList xs) with
    | ok ss => simp
    | throw e => simp
    | timeout => exact absurd hc h
    | unsupported => simp
  | .obj props => by
    rw [jsString]
    split <;> simp
theorem jsStringList_ne_timeout : ∀ (xs : List JSVal), ∀ x ∈ jsStringList xs, x ≠ .timeout
  | [] => by simp [jsStringList]
  | y :: ys => by
    intro x hx
    rw [jsStringList, List.mem_cons] at hx
    rcases hx with hx | hx
    · rw [hx]; exact jsString_ne_timeout y
    · exact jsStringList_ne_timeout ys x hx
end

theorem keyOf_ne_timeout (v : JSVal) : keyOf v ≠ .timeout := by
  unfold keyOf
  split
  · simp
  · exact jsString_ne_timeout _

theorem decodeListLoop_fail (buffer : Buffer) (n k : Nat) (q : JSNum) (acc : List JSVal)
    (he : bufAt buffer q ≠ some 0x65) (h1 : decode n k buffer q ≠ .timeout)
    (h2 : ∀ r, decode n k buffer q ≠ .ok r) :
    decodeListLoop (n + 1) k buffer q acc ≠ .timeout := by
  rw [decodeListLoop_succ, if_neg he]
  cases hs : decode n k buffer q with
  | ok p1 => exact absurd hs (h2 p1)
  | throw e => simp
  | timeout => exact absurd hs h1
  | unsupported => simp

theorem decodeListLoop_step (buffer : Buffer) (n1 n2 k : Nat) (q : JSNum)
    (r1 : JSVal × JSNum) (acc : List JSVal)
    (he : bufAt buffer q ≠ some 0x65) (h1 : decode n1 k buffer q = .ok r1)
    (h2 : decodeListLoop n2 k buffer r1.2 (acc ++ [r1.1]) ≠ .timeout) :
    decodeListLoop (max n1 n2 + 1) k buffer q acc ≠ .timeout := by
  rw [decodeListLoop_succ, if_neg he,
    decode_mono buffer k q n1 (max n1 n2) (Nat.le_max_left _ _) (by rw [h1]; simp), h1]
  simp only
  rw [decodeListLoop_mono buffer k r1.2 _ n2 (max n1 n2) (Nat.le_max_right _ _) h2]
  exact h2

theorem decodeDictLoop_fail1 (buffer : Buffer) (n k : Nat) (q : JSNum)
    (acc : List (String × JSVal))
    (he : bufAt buffer q ≠ some 0x65) (h1 : decode n k buffer q ≠ .timeout)
    (h2 : ∀ r, decode n k buffer q ≠ .ok r) :
    decodeDictLoop (n + 1) k buffer q acc ≠ .timeout := by
  rw [decodeDictLoop_succ, if_neg he]
  cases hs : decode n k buffer q with
  | ok p1 => exact absurd hs (h2 p1)
  | throw e => simp
  | timeout => exact absurd hs h1
  | unsupported => simp

theorem decodeDictLoop_fail2 (buffer : Buffer) (n1 n2 k : Nat) (q : JSNum)
    (r1 : JSVal × JSNum) (acc : List (String × JSVal))
    (he : bufAt buffer q ≠ some 0x65) (h1 : decode n1 k buffer q = .ok r1)
    (h2 : decode n2 k buffer r1.2 ≠ .timeout) (h3 : ∀ r, decode n2 k buffer r1.2 ≠ .ok r) :
    decodeDictLoop (max n1 n2 + 1) k buffer q acc ≠ .timeout := by
  rw [decodeDictLoop_succ, if_neg he,
    decode_mono buffer k q n1 (max n1 n2) (Nat.le_max_left _ _) (by rw [h1]; simp), h1]
  simp only
  rw [decode_mono buffer k r1.2 n2 (max n1 n2) (Nat.le_max_right _ _) h2]
  cases hs : decode n2 k buffer r1.2 with
  | ok p1 => exact absurd hs (h3 p1)
  | throw e => simp
  | timeout => exact absurd hs h2
  | unsupported => simp

theorem decodeDictLoop_step (buffer : Buffer) (n1 n2 n3 k : Nat) (q : JSNum)
    (r1 r2 : JSVal × JSNum) (acc : List (String × JSVal))
    (he : bufAt buffer q ≠ some 0x65) (h1 : decode n1 k buffer q = .ok r1)
    (h2 : decode n2 k buffer r1.2 = .ok r2)
    (h3 : ∀ key, keyOf r1.1 = .ok key → key ≠ "__proto__" →
      decodeDictLoop n3 k buffer r2.2 (setProp acc key r2.1) ≠ .timeout) :
    decodeDictLoop (max n1 (max n2 n3) + 1) k buffer q acc ≠ .timeout := by
  rw [decodeDictLoop_succ, if_neg he,
    decode_mono buffer k q n1 _ (Nat.le_max_left _ _) (by rw [h1]; simp), h1]
  simp only
  rw [decode_mono buffer k r1.2 n2 _
    (Nat.le_trans (Nat.le_max_left _ _) (Nat.le_max_right _ _)) (by rw [h2]; simp), h2]
  simp only
  cases hk : keyOf r1.1 with
  | ok key =>
    simp only
    by_cases hp : key = "__proto__"
    · simp [hp]
    · simp only [hp, if_false]
      rw [decodeDictLoop_mono buffer k r2.2 _ n3 _
        (Nat.le_trans (Nat.le_max_right _ _) (Nat.le_max_right _ _)) (h3 key hk hp)]
      exact h3 key hk hp
  | throw e => simp
  | timeout => exact absurd hk (keyOf_ne_timeout _)
  | unsupported => simp

theorem decodeListLoop_ends_bad (buffer : Buffer) (hB : NoDecodeAtZero buffer) (k : Nat)
    (hS : DecodeCallsEnd buffer k) (r1 : JSNum) (h : r1 = .fin 0 ∨ bufAt buffer r1 = none)
    (acc : List JSVal) : ∃ n, decodeListLoop n k buffer r1 acc ≠ .timeout := by
  obtain ⟨n0, hn0⟩ := hS r1
  exact ⟨n0 + 1, decodeListLoop_fail buffer n0 k r1 acc (decode_bad_not_e buffer hB r1 h) hn0
    (fun r => decode_bad buffer hB r1 h n0 k r)⟩

theorem decodeDictLoop_ends_bad (buffer : Buffer) (hB : NoDecodeAtZero buffer) (k : Nat)
    (hS : DecodeCallsEnd buffer k) (r1 : JSNum) (h : r1 = .fin 0 ∨ bufAt buffer r1 = none)
    (acc : List (String × JSVal)) : ∃ n, decodeDictLoop n k buffer r1 acc ≠ .timeout := by
  obtain ⟨n0, hn0⟩ := hS r1
  exact ⟨n0 + 1, decodeDictLoop_fail1 buffer n0 k r1 acc (decode_bad_not_e buffer hB r1 h) hn0
    (fun r => decode_bad buffer hB r1 h n0 k r)⟩

theorem decodeListLoop_ends_index (buffer : Buffer) (hB : NoDecodeAtZero buffer) (k : Nat)
    (hS : DecodeCallsEnd buffer k) (m : Nat) :
    ∀ q acc, buffer.length - q ≤ m →
      ∃ n, decodeListLoop n k buffer (JSNum.ofNat q) acc ≠ .timeout := by
  induction m with
  | zero =>
    intro q acc hq
    exact decodeListLoop_ends_bad buffer hB k hS _
      (Or.inr (by rw [bufAt_ofNat]; exact List.getElem?_eq_none (by omega))) acc
  | succ m ih =>
    intro q acc hq
    by_cases he : bufAt buffer (JSNum.ofNat q) = some 0x65
    · refine ⟨1, ?_⟩
      rw [decodeListLoop_succ, if_pos he]; simp
    · obtain ⟨n1, hn1⟩ := hS (JSNum.ofNat q)
      cases hs : decode n1 k buffer (JSNum.ofNat q) with
      | ok r1 =>
        have hnext : ∃ n2, decodeListLoop n2 k buffer r1.2 (acc ++ [r1.1]) ≠ .timeout := by
          rcases (decode_progress_aux buffer hB n1).1 _ _ _ hs with hp | hp | ⟨i, hi, hlt'⟩
          · exact decodeListLoop_ends_bad buffer hB k hS _ (Or.inl hp) _
          · exact decodeListLoop_ends_bad buffer hB k hS _ (Or.inr hp) _
          · rw [hi]; exact ih i _ (by omega)
        obtain ⟨n2, hn2⟩ := hnext
        exact ⟨_, decodeListLoop_step buffer n1 n2 k _ r1 acc he hs hn2⟩
      | throw e =>
        exact ⟨n1 + 1, decodeListLoop_fail buffer n1 k _ acc he hn1 (by rw [hs]; simp)⟩
      | timeout => exact absurd hs hn1
      | unsupported =>
        exact ⟨n1 + 1, decodeListLoop_fail buffer n1 k _ acc he hn1 (by rw [hs]; simp)⟩

theorem decodeDictLoop_ends_index (buffer : Buffer) (hB : NoDecodeAtZero buffer) (k : Nat)
    (hS : DecodeCallsEnd buffer k) (m : Nat) :
    ∀ q acc, buffer.length - q ≤ m →
      ∃ n, decodeDictLoop n k buffer (JSNum.ofNat q) acc ≠ .timeout := by
  induction m with
  | zero =>
    intro q acc hq
    exact decodeDictLoop_ends_bad buffer hB k hS _
      (Or.inr (by rw [bufAt_ofNat]; exact List.getElem?_eq_none (by omega))) acc
  | succ m ih =>
    intro q acc hq
    by_cases he : bufAt buffer (JSNum.ofNat q) = some 0x65
    · refine ⟨1, ?_⟩
      rw [decodeDictLoop_succ, if_pos he]; simp
    · obtain ⟨n1, hn1⟩ := hS (JSNum.ofNat q)
      cases hs : decode n1 k buffer (JSNum.ofNat q) with
      | ok r1 =>
        obtain ⟨n2, hn2⟩ := hS r1.2
        cases hs2 : decode n2 k buffer r1.2 with
        | ok r2 =>
          rcases (decode_progress_aux buffer hB n1).1 _ _ _ hs with hp | hp | ⟨i, hi, hlt'⟩
          · exact absurd hs2 (decode_bad buffer hB r1.2 (Or.inl hp) n2 k r2)
          · exact absurd hs2 (decode_bad buffer hB r1.2 (Or.inr hp) n2 k r2)
          · have hs2' := hs2
            rw [hi] at hs2'
            cases hk : keyOf r1.1 with
            | ok key =>
              have hnext : ∃ n3, decodeDictLoop n3 k buffer r2.2 (setProp acc key r2.1)
                  ≠ .timeout := by
                rcases (decode_progress_aux buffer hB n2).1 _ _ _ hs2' with
                  hp | hp | ⟨i2, hi2, hlt2⟩
                · exact decodeDictLoop_ends_bad buffer hB k hS _ (Or.inl hp) _
                · exact decodeDictLoop_ends_bad buffer hB k hS _ (Or.inr hp) _
                · rw [hi2]; exact ih i2 _ (by omega)
              obtain ⟨n3, hn3⟩ := hnext
              refine ⟨_, decodeDictLoop_step buffer n1 n2 n3 k _ r1 r2 acc he hs hs2 ?_⟩
              intro key' hk' _
              rw [hk] at hk'
              cases hk'
              exact hn3
            | throw e =>
              refine ⟨_, decodeDictLoop_step buffer n1 n2 0 k _ r1 r2 acc he hs hs2 ?_⟩
              intro key' hk' _
              rw [hk] at hk'
              cases hk'
            | timeout => exact absurd hk (keyOf_ne_timeout _)
            | unsupported =>
              refine ⟨_, decodeDictLoop_step buffer n1 n2 0 k _ r1 r2 acc he hs hs2 ?_⟩
              intro key' hk' _
              rw [hk] at hk'
              cases hk'
        | throw e =>
          exact ⟨_, decodeDictLoop_fail2 buffer n1 n2 k _ r1 acc he hs hn2 (by rw [hs2]; simp)⟩
        | timeout => exact absurd hs2 hn2
        | unsupported =>
          exact ⟨_, decodeDictLoop_fail2 buffer n1 n2 k _ r1 acc he hs hn2 (by rw [hs2]; simp)⟩
      | throw e =>
        exact ⟨n1 + 1, decodeDictLoop_fail1 buffer n1 k _ acc he hn1 (by rw [hs]; simp)⟩
      | timeout => exact absurd hs hn1
      | unsupported =>
        exact ⟨n1 + 1, decodeDictLoop_fail1 buffer n1 k _ acc he hn1 (by rw [hs]; simp)⟩

theorem decode_loops_end (buffer : Buffer) (hB : NoDecodeAtZero buffer) (k : Nat)
    (hS : DecodeCallsEnd buffer k) (q : JSNum) :
    (∀ acc, ∃ n, decodeListLoop n k buffer q acc ≠ .timeout) ∧
      (∀ acc, ∃ n, decodeDictLoop n k buffer q acc ≠ .timeout) := by
  cases hb : bufAt buffer q with
  | none =>
    exact ⟨fun acc => decodeListLoop_ends_bad buffer hB k hS q (Or.inr hb) acc,
      fun acc => decodeDictLoop_ends_bad buffer hB k hS q (Or.inr hb) acc⟩
  | some c =>
    obtain ⟨i, hi, _, _⟩ := bufAt_some _ _ _ hb
    rw [hi]
    exact ⟨fun acc => decodeListLoop_ends_index buffer hB k hS _ i acc (Nat.le_refl _),
      fun acc => decodeDictLoop_ends_index buffer hB k hS _ i acc (Nat.le_refl _)⟩

/-- In such a buffer every call of `decode` ends, whatever the stack budget. -/
theorem decode_calls_end (buffer : Buffer) (hB : NoDecodeAtZero buffer) (k : Nat) :
    DecodeCallsEnd buffer k := by
  induction k with
  | zero =>
    intro p
    exact ⟨1, by rw [decode_no_stack]; simp⟩
  | succ k ih =>
    intro p
    generalize hs : (if p.truthy then p else JSNum.fin 0) = s
    cases hb : bufAt buffer s with
    | none => exact ⟨1, by rw [decode_succ, hs, hb]; simp⟩
    | some c =>
      by_cases h1 : c = 0x69
      · exact ⟨1, by rw [decode_succ, hs, hb]; simp [h1]⟩
      · by_cases h2 : 0x30 ≤ c ∧ c ≤ 0x39
        · exact ⟨1, by rw [decode_succ, hs, hb]; simp [h1, h2]⟩
        · by_cases h3 : c = 0x6c
          · obtain ⟨n, hn⟩ := (decode_loops_end buffer hB k ih (s.add (.fin 1))).1 []
            refine ⟨n + 1, ?_⟩
            rw [decode_succ, hs, hb]
            simp only [h1, if_false, h2, h3, if_true]
            exact hn
          · by_cases h4 : c = 0x64
            · obtain ⟨n, hn⟩ := (decode_loops_end buffer hB k ih (s.add (.fin 1))).2 []
              refine ⟨n + 1, ?_⟩
              rw [decode_succ, hs, hb]
              simp only [h1, if_false, h2, h3, h4, if_true]
              exact hn
            · exact ⟨1, by rw [decode_succ, hs, hb]; simp [h1, h2, h3, h4]⟩

/-- From offset 0 every run of `decode` ends: either some call at offset 0 returns, and
then the run with the given stack returns the same or exhausts the stack, or none does,
and then every fall-back to offset 0 ends in an exception. -/
theorem decode_ends (buffer : Buffer) (k : Nat) (hlen : buffer.length < 2 ^ 31) :
    ∃ n, decode n k buffer (.fin 0) ≠ .timeout := by
  by_cases hZ : ∃ n k0 r, decode n k0 buffer (.fin 0) = .ok r
  · obtain ⟨n, k0, r, h⟩ := hZ
    refine ⟨n, ?_⟩
    rcases (decode_stack_aux buffer n).1 k0 k _ r h with h1 | h1
    · rw [h1]; simp
    · rw [h1]; simp
  · by_cases he : bufAt buffer (.fin 0) = some 0x65
    · refine ⟨1, ?_⟩
      cases k with
      | zero => rw [decode_no_stack]; simp
      | succ k =>
        rw [decode_succ]
        have e : (if (JSNum.fin 0).truthy then JSNum.fin 0 else JSNum.fin 0) = .fin 0 := rfl
        rw [e, he]
        simp
    · have hB : NoDecodeAtZero buffer := ⟨hlen, he, fun n k0 r h => hZ ⟨n, k0, r, h⟩⟩
      exact decode_calls_end buffer hB k (.fin 0)

/-! ## Claim about the termination of `decode` -/

theorem cyclingBuffer_at_5 (g : Nat) :
    decode (g + 1) 2 cyclingBuffer (.fin 5) = .ok (.num .nan, .fin 0) := by
  rw [decode_succ]; rfl

theorem cyclingBuffer_at_0 (g : Nat) :
    decode (g + 1) 2 cyclingBuffer (.fin 0) = .ok (.num .nan, .fin 2) := by
  rw [decode_succ]; rfl

theorem cyclingBuffer_at_2 (g : Nat) :
    decode (g + 1) 2 cyclingBuffer (.fin 2) = .ok (.buf [108], .fin 5) := by
  rw [decode_succ]; rfl

/-- The list loop entered at offset 5 of `ie1:li` never ends: it goes from 5 to 0, to 2,
and back to 5, pushing three elements each round. -/
theorem cyclingBuffer_loop (n : Nat) :
    ∀ fuel, fuel ≤ n → ∀ acc, decodeListLoop fuel 2 cyclingBuffer (.fin 5) acc = .timeout := by
  induction n with
  | zero =>
    intro fuel h acc
    have : fuel = 0 := by omega
    rw [this, decodeListLoop_zero]
  | succ n ih =>
    intro fuel h acc
    cases fuel with
    | zero => rw [decodeListLoop_zero]
    | succ f =>
      rw [decodeListLoop_succ, if_neg (by decide)]
      cases f with
      | zero => rw [decode_zero]
      | succ g =>
        rw [cyclingBuffer_at_5]
        simp only
        rw [decodeListLoop_succ, if_neg (by decide)]
        cases g with
        | zero => rw [decode_zero]
        | succ h' =>
          rw [cyclingBuffer_at_0]
          simp only
          rw [decodeListLoop_succ, if_neg (by decide)]
          cases h' with
          | zero => rw [decode_zero]
          | succ j =>
            rw [cyclingBuffer_at_2]
            simp only
            exact ih (j + 1) (by omega) _

/-- A run that ends without meeting a `__proto__` key does so with every number of
steps. -/
theorem decode_follows (buffer : Buffer) (stack : Nat) (p : JSNum) (k : Nat)
    (hk : decode k stack buffer p ≠ .timeout) (hu : decode k stack buffer p ≠ .unsupported) :
    ∀ n, decode n stack buffer p ≠ .unsupported := by
  intro n h
  rcases Nat.le_total n k with hnk | hkn
  · have := decode_mono buffer stack p n k hnk (by rw [h]; exact fun e => Outcome.noConfusion e)
    exact hu (this.trans h)
  · have := decode_mono buffer stack p k n hkn hk
    exact hu (this.symm.trans h)

/-- **C6 (as amended).** The exported `decode` starts at offset 0, and from there it ends
on every buffer shorter than `2^31` bytes, with every stack budget, provided the run
assigns no key `__proto__`: with enough steps the run returns or raises (`Invalid bencode`,
the `TypeError` of a key that cannot be converted to a string, or `RangeError` once the
nesting or a fall-back to offset 0 has used up the stack), and more steps do not change the
outcome.  On the encoding of a value it is a forward pass: the encoding of a value without
a key `__proto__`, nested within the stack budget, at any offset of the buffer, is decoded
to the end offset start plus length of the encoding, which is greater than the start. -/
theorem decode_ends_from_zero (buffer : Buffer) (stack : Nat) (hlen : buffer.length < 2 ^ 31)
    (hfollow : ∀ n, decode n stack buffer (.fin 0) ≠ .unsupported) :
    (∃ n, ((∃ r, decode n stack buffer (.fin 0) = .ok r) ∨
          (∃ e, decode n stack buffer (.fin 0) = .throw e)) ∧
      ∀ m, n ≤ m → decode m stack buffer (.fin 0) = decode n stack buffer (.fin 0) ∧
        bencodeDecode m stack buffer = bencodeDecode n stack buffer) ∧
    (∀ (v : BVal) (pre post : List Nat) (fuel : Nat), buffer = pre ++ v.encode ++ post →
      v.NoProto → v.encode.length ≤ fuel → v.depth ≤ stack →
      decode fuel stack buffer (JSNum.ofNat pre.length)
          = .ok (v.decoded, JSNum.ofNat (pre.length + v.encode.length)) ∧
        pre.length < pre.length + v.encode.length) := by
  constructor
  · obtain ⟨n, hn⟩ := decode_ends buffer stack hlen
    refine ⟨n, ?_, fun m hm => ?_⟩
    · have hu := hfollow n
      cases h : decode n stack buffer (.fin 0) with
      | ok r => exact Or.inl ⟨r, rfl⟩
      | throw e => exact Or.inr ⟨e, rfl⟩
      | timeout => exact absurd h hn
      | unsupported => exact absurd h hu
    · have h := decode_mono buffer stack (.fin 0) n m hm hn
      refine ⟨h, ?_⟩
      unfold bencodeDecode
      rw [h]
  · intro v pre post fuel hb hrep hfuel hstack
    subst hb
    refine ⟨(decode_value_aux fuel).1 v pre post stack hrep hlen hfuel hstack, ?_⟩
    have := encode_length_pos v
    omega

/-- Witness for C6: the buffer `li5`, whose unterminated integer sends the list loop back
to offset 0. -/
theorem decode_ends_from_zero_witness :
    (∃ n, ((∃ r, decode n 5 [108, 105, 53] (.fin 0) = .ok r) ∨
          (∃ e, decode n 5 [108, 105, 53] (.fin 0) = .throw e)) ∧
      ∀ m, n ≤ m → decode m 5 [108, 105, 53] (.fin 0) = decode n 5 [108, 105, 53] (.fin 0) ∧
        bencodeDecode m 5 [108, 105, 53] = bencodeDecode n 5 [108, 105, 53]) ∧
    (∀ (v : BVal) (pre post : List Nat) (fuel : Nat), [108, 105, 53] = pre ++ v.encode ++ post →
      v.NoProto → v.encode.length ≤ fuel → v.depth ≤ 5 →
      decode fuel 5 [108, 105, 53] (JSNum.ofNat pre.length)
          = .ok (v.decoded, JSNum.ofNat (pre.length + v.encode.length)) ∧
        pre.length < pre.length + v.encode.length) :=
  decode_ends_from_zero [108, 105, 53] 5 (by decide)
    (decode_follows [108, 105, 53] 5 (.fin 0) 20
      (by rw [show decode 20 5 [108, 105, 53] (.fin 0) = .throw .rangeError from rfl]
          exact fun e => Outcome.noConfusion e)
      (by rw [show decode 20 5 [108, 105, 53] (.fin 0) = .throw .rangeError from rfl]
          exact fun e => Outcome.noConfusion e))

/-- Counterexample to C6 as stated: the unterminated integer `i5` decoded at offset 0
returns the end offset 0, which is not greater than the start; the buffer `li5` falls back
to offset 0 and recurses until the stack is used up; and `decode` of `ie1:li` from offset 4
does not end, with any number of steps. -/
theorem decode_end_not_after_start :
    decode 10 5 [105, 53] (.fin 0) = .ok (.num .nan, .fin 0) ∧
      decode 20 5 [108, 105, 53] (.fin 0) = .throw .rangeError ∧
      ∀ fuel, decode fuel 3 cyclingBuffer (.fin 4) = .timeout := by
  refine ⟨rfl, rfl, fun fuel => ?_⟩
  cases fuel with
  | zero => rw [decode_zero]
  | succ f =>
    rw [decode_succ]
    exact cyclingBuffer_loop f f (Nat.le_refl _) []

/-! ## Classification of add-request responses -/

theorem jsTrim_empty : jsTrim "" = "" := by decide

theorem jsTrim_ok : jsTrim "Ok." = "Ok." := by decide

theorem jsTrim_fails : jsTrim "Fails." = "Fails." := by decide

theorem ne_empty_of_jsTrim (b t : String) (ht : t ≠ "") (h : jsTrim b = t) : b ≠ "" := by
  intro hb
  rw [hb, jsTrim_empty] at h
  exact ht h.symm

theorem classifyPage_ok_iff (status : Nat) (body : String) :
    classifyPage status body = .ok ↔ status = 200 ∧ jsTrim body = "Ok." := by
  by_cases hc : status = 200 ∧ (body = "Ok." ∨ (body ≠ "" ∧ jsTrim body = "Ok."))
  · rw [classifyPage, if_pos hc]
    refine ⟨fun _ => ⟨hc.1, ?_⟩, fun _ => rfl⟩
    rcases hc.2 with h | h
    · rw [h]; exact jsTrim_ok
    · exact h.2
  · rw [classifyPage, if_neg hc]
    constructor
    · intro h
      split_ifs at h
    · intro h
      exact absurd ⟨h.1, Or.inr ⟨ne_empty_of_jsTrim body "Ok." (by decide) h.2, h.2⟩⟩ hc

theorem classifyDirect_ok_iff (statusCode : Nat) (statusMessage body : String) :
    classifyDirect statusCode statusMessage body = .ok ↔
      statusCode = 200 ∧ jsTrim body = "Ok." := by
  by_cases hc : statusCode = 200 ∧ (body = "Ok." ∨ jsTrim body = "Ok.")
  · rw [classifyDirect, if_pos hc]
    refine ⟨fun _ => ⟨hc.1, ?_⟩, fun _ => rfl⟩
    rcases hc.2 with h | h
    · rw [h]; exact jsTrim_ok
    · exact h
  · rw [classifyDirect, if_neg hc]
    constructor
    · intro h
      split_ifs at h
    · intro h
      exact absurd ⟨h.1, Or.inr h.2⟩ hc

/-- The handler resolves to `{ ok: true }` only from a completed response that one of the
two strategies classified as a success. -/
theorem addTorrentHandler_ok (o : AddOptions) (env : AddEnv) (store : Store)
    (h : (addTorrentHandler o env store).result = .ok) :
    (∃ status body, env.page = .completed status body ∧ classifyPage status body = .ok) ∨
      (∃ statusCode statusMessage body, env.direct = .response statusCode statusMessage body ∧
        classifyDirect statusCode statusMessage body = .ok) := by
  have hd : ∀ before, (submitDirect o env store before).result = .ok →
      ∃ statusCode statusMessage body, env.direct = .response statusCode statusMessage body ∧
        classifyDirect statusCode statusMessage body = .ok := by
    intro before hb
    unfold submitDirect at hb
    cases hdir : env.direct with
    | response statusCode statusMessage body =>
      rw [hdir] at hb
      simp only at hb
      cases hc : classifyDirect statusCode statusMessage body with
      | ok => exact ⟨_, _, _, rfl, hc⟩
      | error m => rw [hc] at hb; simp at hb
    | error message => rw [hdir] at hb; simp at hb
    | timedOut => rw [hdir] at hb; simp at hb
  unfold addTorrentHandler at h
  split_ifs at h
  · cases hp : env.page with
    | completed status body =>
      rw [hp] at h
      simp only at h
      cases hc : classifyPage status body with
      | ok => exact Or.inl ⟨_, _, rfl, hc⟩
      | error m => rw [hc] at h; simp at h
    | raised =>
      rw [hp] at h
      exact Or.inr (hd _ h)
  · exact Or.inr (hd _ h)

/-- **C12 (as amended).** In both strategies a completed response is a success exactly when
the status is 200 and the body, with surrounding white space trimmed, is `Ok.`; the handler
resolves to `{ ok: true }` only from such a response; and a 200 response with body `Fails.`
gives the server-rejection message, not a success. -/
theorem add_success_iff (status : Nat) (statusMessage body : String) :
    (classifyPage status body = .ok ↔ status = 200 ∧ jsTrim body = "Ok.") ∧
    (classifyDirect status statusMessage body = .ok ↔ status = 200 ∧ jsTrim body = "Ok.") ∧
    (∀ (o : AddOptions) (env : AddEnv) (store : Store),
      (addTorrentHandler o env store).result = .ok →
        (∃ b, env.page = .completed 200 b ∧ jsTrim b = "Ok.") ∨
          (∃ m b, env.direct = .response 200 m b ∧ jsTrim b = "Ok.")) ∧
    classifyPage 200 "Fails." = .error rejectedMessagePage ∧
    classifyDirect 200 statusMessage "Fails." = .error rejectedMessageDirect := by
  refine ⟨classifyPage_ok_iff _ _, classifyDirect_ok_iff _ _ _, ?_, by decide, ?_⟩
  · intro o env store h
    rcases addTorrentHandler_ok o env store h with ⟨s, b, he, hc⟩ | ⟨s, m, b, he, hc⟩
    · obtain ⟨h1, h2⟩ := (classifyPage_ok_iff _ _).1 hc
      subst h1
      exact Or.inl ⟨b, he, h2⟩
    · obtain ⟨h1, h2⟩ := (classifyDirect_ok_iff _ _ _).1 hc
      subst h1
      exact Or.inr ⟨m, b, he, h2⟩
  · rw [classifyDirect, if_neg (by decide), if_neg (by decide), if_neg (by decide),
      if_pos (by decide)]

/-- Witness for C12: a 200 response whose body is `Ok.` between white space. -/
theorem add_success_iff_witness :
    classifyPage 200 " Ok.\n" = .ok ∧ classifyDirect 200 "OK" " Ok.\n" = .ok :=
  ⟨(add_success_iff 200 "OK" " Ok.\n").1.2 ⟨rfl, by decide⟩,
    (add_success_iff 200 "OK" " Ok.\n").2.1.2 ⟨rfl, by decide⟩⟩

/-- Counterexample to C12 as stated: the body `Ok.` followed by a line feed is not the
literal text `Ok.`, and with status 200 both strategies take it for a success; the handler
resolves to `{ ok: true }` and records the save path. -/
theorem add_success_with_padded_body :
    ("Ok.\n" ≠ "Ok.") ∧ classifyPage 200 "Ok.\n" = .ok ∧
      classifyDirect 200 "OK" "Ok.\n" = .ok ∧
      addTorrentHandler ⟨"a.torrent", some "/x", none, false, none, none, none⟩
          ⟨true, true, false, false, .resolved true, "", true, false, true,
            .completed 200 "Ok.\n", .timedOut⟩ ⟨none, none⟩
        = ⟨.ok, [.page], ⟨some ["/x"], none⟩⟩ := by
  refine ⟨by decide, by decide, by decide, by decide⟩

/-- **C13 (as amended).** A completed response that is not a success: status 403 gives the
access-denied message and status 415 the format message, whatever the body; otherwise a body
that is `Fails.` once trimmed gives the server-rejection message of the strategy; every other
response gives the raw body, or, when the body is empty, the text `HTTP <status>` in
strategy A and the reason phrase of the response in strategy B. -/
theorem add_error_classification (status : Nat) (statusMessage body : String) :
    classifyPage 403 body = .error accessDeniedMessage ∧
    classifyDirect 403 statusMessage body = .error accessDeniedMessage ∧
    classifyPage 415 body = .error badFormatMessage ∧
    classifyDirect 415 statusMessage body = .error badFormatMessage ∧
    (status ≠ 403 → status ≠ 415 → ¬ (status = 200 ∧ jsTrim body = "Ok.") →
      (jsTrim body = "Fails." →
        classifyPage status body = .error rejectedMessagePage ∧
        classifyDirect status statusMessage body = .error rejectedMessageDirect) ∧
      (jsTrim body ≠ "Fails." →
        classifyPage status body
            = .error (if body ≠ "" then body else "HTTP " ++ natText status) ∧
        classifyDirect status statusMessage body
            = .error (if body ≠ "" then body else statusMessage))) := by
  refine ⟨?_, ?_, ?_, ?_, ?_⟩
  · rw [classifyPage, if_neg (fun h => absurd h.1 (by decide)), if_pos rfl]
  · rw [classifyDirect, if_neg (fun h => absurd h.1 (by decide)), if_pos rfl]
  · rw [classifyPage, if_neg (fun h => absurd h.1 (by decide)), if_neg (by decide), if_pos rfl]
  · rw [classifyDirect, if_neg (fun h => absurd h.1 (by decide)), if_neg (by decide),
      if_pos rfl]
  · intro h403 h415 hok
    have hA : ¬ (status = 200 ∧ (body = "Ok." ∨ (body ≠ "" ∧ jsTrim body = "Ok."))) := by
      rintro ⟨h1, h2 | h2⟩
      · exact hok ⟨h1, by rw [h2]; exact jsTrim_ok⟩
      · exact hok ⟨h1, h2.2⟩
    have hB : ¬ (status = 200 ∧ (body = "Ok." ∨ jsTrim body = "Ok.")) := by
      rintro ⟨h1, h2 | h2⟩
      · exact hok ⟨h1, by rw [h2]; exact jsTrim_ok⟩
      · exact hok ⟨h1, h2⟩
    constructor
    · intro hf
      have hne : body ≠ "" := ne_empty_of_jsTrim body "Fails." (by decide) hf
      constructor
      · rw [classifyPage, if_neg hA, if_neg h403, if_neg h415, if_pos ⟨hne, hf⟩]
      · rw [classifyDirect, if_neg hB, if_neg h403, if_neg h415, if_pos ⟨hne, hf⟩]
    · intro hf
      constructor
      · rw [classifyPage, if_neg hA, if_neg h403, if_neg h415, if_neg (fun h => hf h.2)]
      · rw [classifyDirect, if_neg hB, if_neg h403, if_neg h415, if_neg (fun h => hf h.2)]

/-- Witness for C13: a 500 response with the body `boom`, and one with an empty body. -/
theorem add_error_classification_witness :
    classifyPage 500 "boom" = .error "boom" ∧
      classifyDirect 500 "Internal Server Error" "boom" = .error "boom" ∧
      classifyPage 500 "" = .error "HTTP 500" :=
  ⟨((add_error_classification 500 "Internal Server Error" "boom").2.2.2.2
      (by decide) (by decide) (by decide)).2 (by decide) |>.1,
    ((add_error_classification 500 "Internal Server Error" "boom").2.2.2.2
      (by decide) (by decide) (by decide)).2 (by decide) |>.2,
    ((add_error_classification 500 "Internal Server Error" "").2.2.2.2
      (by decide) (by decide) (by decide)).2 (by decide) |>.1⟩

/-- Counterexample to C13 as stated: the body `Fails.` followed by a line feed is another
body than `Fails.`, yet the error is the server-rejection message and not the raw body; and
in strategy B an empty body gives the reason phrase (here an empty one), not the status. -/
theorem add_error_not_raw_body :
    ("Fails.\n" ≠ "Fails.") ∧
      classifyPage 200 "Fails.\n" = .error rejectedMessagePage ∧
      classifyDirect 200 "OK" "Fails.\n" = .error rejectedMessageDirect ∧
      classifyDirect 500 "" "" = .error "" ∧
      classifyDirect 500 "Internal Server Error" "" = .error "Internal Server Error" := by
  refine ⟨by decide, by decide, by decide, by decide, by decide⟩

/-! ## The fallback between the two strategies -/

theorem submitDirect_attempts (o : AddOptions) (env : AddEnv) (store : Store)
    (before : List Strategy) :
    (submitDirect o env store before).attempts = before ++ [.direct] := by
  unfold submitDirect
  cases env.direct with
  | response statusCode statusMessage body =>
    simp only
    cases classifyDirect statusCode statusMessage body <;> rfl
  | error message => rfl
  | timedOut => rfl

theorem addTorrentHandler_submit (o : AddOptions) (env : AddEnv) (store : Store)
    (hsub : reachesSubmit o env) :
    addTorrentHandler o env store =
      if env.windowAlive = true ∧ env.getUrlRaises = false ∧ env.pageOnOrigin = true then
        match env.page with
        | .completed status body =>
          match classifyPage status body with
          | .ok => ⟨.ok, [.page], recordSavePath o.savepath store⟩
          | .error m => ⟨.error m, [.page], store⟩
        | .raised => submitDirect o env store [.page]
      else submitDirect o env store [] := by
  obtain ⟨h1, h2, h3, h4, h5⟩ := hsub
  unfold addTorrentHandler
  rw [if_neg (by rw [h2]; simp [h1]), if_neg (by rw [h3]; simp), if_neg (by rw [h4]; simp),
    if_neg (fun h => by have := h5 h.1; rw [h.2] at this; cases this),
    if_neg (fun h => by have := h5 h.1; rw [h.2] at this; cases this)]

/-- **C14.** When the handler goes on to submit, the direct request (strategy B) is made
exactly when strategy A is not available or its call raised; when strategy A completed
with a response, the classification of that response is returned and only strategy A was
used; and a run makes at most one request per strategy, the direct one last. -/
theorem fallback_only_on_transport_failure (o : AddOptions) (env : AddEnv) (store : Store)
    (hsub : reachesSubmit o env) :
    (Strategy.direct ∈ (addTorrentHandler o env store).attempts ↔
      ¬ pageAvailable env ∨ env.page = .raised) ∧
    (∀ status body, pageAvailable env → env.page = .completed status body →
      (addTorrentHandler o env store).result = classifyPage status body ∧
        (addTorrentHandler o env store).attempts = [.page]) ∧
    ((addTorrentHandler o env store).attempts = [.page] ∨
      (addTorrentHandler o env store).attempts = [.direct] ∨
      (addTorrentHandler o env store).attempts = [.page, .direct]) := by
  rw [addTorrentHandler_submit o env store hsub]
  by_cases hA : env.windowAlive = true ∧ env.getUrlRaises = false ∧ env.pageOnOrigin = true
  · rw [if_pos hA]
    have hA' : pageAvailable env := hA
    cases hp : env.page with
    | completed status body =>
      simp only
      cases hc : classifyPage status body with
      | ok =>
        refine ⟨?_, ?_, Or.inl rfl⟩
        · simp [hA']
        · intro s b _ he
          injection he with h1 h2
          subst h1; subst h2
          exact ⟨hc.symm, rfl⟩
      | error m =>
        refine ⟨?_, ?_, Or.inl rfl⟩
        · simp [hA']
        · intro s b _ he
          injection he with h1 h2
          subst h1; subst h2
          exact ⟨hc.symm, rfl⟩
    | raised =>
      simp only
      rw [submitDirect_attempts]
      refine ⟨by simp, ?_, Or.inr (Or.inr rfl)⟩
      intro s b _ he
      cases he
  · rw [if_neg hA, submitDirect_attempts]
    have hA' : ¬ pageAvailable env := hA
    refine ⟨by simp [hA'], ?_, Or.inr (Or.inl rfl)⟩
    intro s b h _
    exact absurd h hA'

/-- Witness for C14: strategy A completed with status 415, and the direct request would
have succeeded. -/
theorem fallback_only_on_transport_failure_witness :
    (addTorrentHandler ⟨"a.torrent", none, none, false, none, none, none⟩
        ⟨true, true, false, false, .resolved true, "", true, false, true,
          .completed 415 "", .response 200 "OK" "Ok."⟩ ⟨none, none⟩).result
        = .error badFormatMessage ∧
      (addTorrentHandler ⟨"a.torrent", none, none, false, none, none, none⟩
        ⟨true, true, false, false, .resolved true, "", true, false, true,
          .completed 415 "", .response 200 "OK" "Ok."⟩ ⟨none, none⟩).attempts = [.page] :=
  (fallback_only_on_transport_failure ⟨"a.torrent", none, none, false, none, none, none⟩
    ⟨true, true, false, false, .resolved true, "", true, false, true,
      .completed 415 "", .response 200 "OK" "Ok."⟩ ⟨none, none⟩
    (by unfold reachesSubmit; decide)).2.1 415 "" (by unfold pageAvailable; decide) rfl

/-! ## The duplicate check before the add-torrent window -/

/-- **C11.** When the duplicate check reports that the torrent exists, `openAddTorrentFlow`
shows the duplicate error and does nothing else: no add-torrent window is opened, no add
request is issued and the store (with the recent save paths) is unchanged; with no
add-torrent window open, no `addtorrent-add` request reaches the handler afterwards. -/
theorem duplicate_stops_flow (st : AppState) (torrentPath : String) (check : CheckEnv)
    (hpath : torrentPath ≠ "") (hdup : checkTorrentExists check = true) :
    (openAddTorrentFlow st torrentPath true check).errorBoxes
        = st.errorBoxes ++ ["Такой торрент уже есть в списке загрузок."] ∧
      (openAddTorrentFlow st torrentPath true check).addTorrentWindow = st.addTorrentWindow ∧
      (openAddTorrentFlow st torrentPath true check).addRequests = st.addRequests ∧
      (openAddTorrentFlow st torrentPath true check).store = st.store ∧
      (st.addTorrentWindow = none → ∀ o env,
        handleAdd (openAddTorrentFlow st torrentPath true check) o env
          = (openAddTorrentFlow st torrentPath true check, none)) := by
  have e : openAddTorrentFlow st torrentPath true check =
      { st with errorBoxes := st.errorBoxes ++ ["Такой торрент уже есть в списке загрузок."] } := by
    unfold openAddTorrentFlow
    rw [if_neg (by simp [hpath]), if_pos hdup]
  rw [e]
  refine ⟨rfl, rfl, rfl, rfl, ?_⟩
  intro hw o env
  unfold handleAdd
  simp only [hw]

/-- Witness for C11: the direct properties lookup answered 200. -/
theorem duplicate_stops_flow_witness :
    (openAddTorrentFlow ⟨none, [], [], ⟨some ["/x"], none⟩⟩ "a.torrent" true
        ⟨.hash "0123456789abcdef0123456789abcdef01234567", true, false, false,
          .resolved true, false, false, .fetchRaised, .response 200⟩).errorBoxes
        = [] ++ ["Такой торрент уже есть в списке загрузок."] :=
  (duplicate_stops_flow ⟨none, [], [], ⟨some ["/x"], none⟩⟩ "a.torrent"
    ⟨.hash "0123456789abcdef0123456789abcdef01234567", true, false, false,
      .resolved true, false, false, .fetchRaised, .response 200⟩ (by decide) (by decide)).1

theorem openAddTorrentFlow_new (st : AppState) (torrentPath : String) (check : CheckEnv)
    (hpath : torrentPath ≠ "") (hnew : checkTorrentExists check = false) :
    openAddTorrentFlow st torrentPath true check
      = { st with addTorrentWindow := some torrentPath } := by
  unfold openAddTorrentFlow createAddTorrentWindow
  rw [if_neg (by simp [hpath]), if_neg (by rw [hnew]; simp), if_neg (by simp [hpath])]

/-! ## Recent save paths -/

theorem nodup_filter_ne (l : List String) (t : String) (h : l.Nodup) :
    (t :: l.filter (fun x => decide (x ≠ t))).Nodup := by
  rw [List.nodup_cons]
  refine ⟨?_, h.filter _⟩
  intro hm
  have := (List.mem_filter.1 hm).2
  simp at this

theorem addSavePathToRecent_stored (L : List String) (legacy : Option String) (p : String)
    (hp : jsTrim p ≠ "") :
    addSavePathToRecent p ⟨some L, legacy⟩
      = ⟨some ((jsTrim p :: (L.filter (fun x => decide (x ≠ ""))).filter
          (fun x => decide (x ≠ jsTrim p))).take 30), legacy⟩ := by
  have hne : p ≠ "" := ne_empty_of_jsTrim p (jsTrim p) hp rfl
  unfold addSavePathToRecent
  rw [if_neg hne]
  simp only
  rw [if_neg hp]
  rfl

/-- The list `getRecentSavePaths` returns has no empty entry, and no duplicates when the
stored list has none. -/
theorem getRecentSavePaths_clean (store : Store)
    (h : ∀ L, store.savePaths = some L → L.Nodup) :
    "" ∉ (getRecentSavePaths store).1 ∧ (getRecentSavePaths store).1.Nodup := by
  unfold getRecentSavePaths
  cases hs : store.savePaths with
  | none =>
    cases hl : store.legacyPath with
    | none => simp
    | some legacy =>
      simp only
      by_cases hne : legacy ≠ ""
      · rw [if_pos hne]
        simp only [List.filter_cons, List.filter_nil]
        rw [if_pos (by simpa using hne)]
        refine ⟨?_, List.nodup_singleton _⟩
        intro hm
        exact hne (List.mem_singleton.1 hm).symm
      · rw [if_neg hne]
        simp
  | some paths =>
    simp only
    refine ⟨?_, (h paths hs).filter _⟩
    intro hm
    have := (List.mem_filter.1 hm).2
    simp at this

/-- The lists this code stores have no empty entry and no duplicates. -/
theorem written_clean (store : Store) (hw : Written store) :
    ∀ L, store.savePaths = some L → "" ∉ L ∧ L.Nodup := by
  induction hw with
  | fresh legacy => intro L h; cases h
  | read store _ ih =>
    intro L h
    unfold getRecentSavePaths at h
    cases hs : store.savePaths with
    | none =>
      rw [hs] at h
      cases hl : store.legacyPath with
      | none =>
        rw [hl] at h
        simp only at h
        rw [hs] at h
        cases h
      | some legacy =>
        rw [hl] at h
        simp only at h
        by_cases hne : legacy ≠ ""
        · rw [if_pos hne] at h
          simp only [Option.some.injEq] at h
          rw [← h]
          refine ⟨?_, List.nodup_singleton _⟩
          intro hm
          exact hne (List.mem_singleton.1 hm).symm
        · rw [if_neg hne] at h
          simp only at h
          rw [hs] at h
          cases h
    | some paths =>
      rw [hs] at h
      simp only at h
      exact ih L h
  | add p store _ ih =>
    intro L h
    unfold addSavePathToRecent at h
    by_cases hp : p = ""
    · rw [if_pos hp] at h
      exact ih L h
    · rw [if_neg hp] at h
      simp only at h
      by_cases ht : jsTrim p = ""
      · rw [if_pos ht] at h
        exact ih L h
      · rw [if_neg ht] at h
        simp only [Option.some.injEq] at h
        obtain ⟨h1, h2⟩ := getRecentSavePaths_clean store (fun L hL => (ih L hL).2)
        have h3 : (jsTrim p :: (getRecentSavePaths store).1.filter
            (fun x => decide (x ≠ jsTrim p))).Nodup := nodup_filter_ne _ _ h2
        rw [← h]
        constructor
        · intro hm
          have hm2 := List.mem_of_mem_take hm
          rcases List.mem_cons.1 hm2 with h0 | h0
          · exact ht h0.symm
          · exact h1 (List.mem_filter.1 h0).1
        · exact h3.sublist (List.take_sublist _ _)

/-- **C15.** For every list `L` of recent save paths this code has stored (such a list has
no duplicates and no empty entry) and every path `p` that is not blank after trimming,
`addSavePathToRecent(p)` stores `trim(p)` followed by the entries of `L` other than
`trim(p)` in their previous order, truncated to 30 entries; the stored list has `trim(p)`
first, no duplicates and at most 30 entries.  Adding `/x`, `/y`, `/x` to the empty list of
a new store leaves `/x`, `/y`. -/
theorem addSavePathToRecent_moves_to_front (store : Store) (L : List String) (p : String)
    (hw : Written store) (hL : store.savePaths = some L) (hp : jsTrim p ≠ "") :
    L.Nodup ∧
    (addSavePathToRecent p store).savePaths
        = some ((jsTrim p :: L.filter (fun x => decide (x ≠ jsTrim p))).take 30) ∧
    (∃ rest, (addSavePathToRecent p store).savePaths = some (jsTrim p :: rest) ∧
        (jsTrim p :: rest).Nodup ∧ (jsTrim p :: rest).length ≤ 30) ∧
    (getRecentSavePaths ⟨none, none⟩).1 = [] ∧
    (addSavePathToRecent "/x" (addSavePathToRecent "/y" (addSavePathToRecent "/x"
        ⟨none, none⟩))).savePaths = some ["/x", "/y"] := by
  obtain ⟨hempty, hnd⟩ := written_clean store hw L hL
  have e : L.filter (fun x => decide (x ≠ "")) = L := by
    rw [List.filter_eq_self]
    intro a ha
    simp only [ne_eq, decide_not, Bool.not_eq_true', decide_eq_false_iff_not]
    intro h0
    exact hempty (h0 ▸ ha)
  have hst : store = ⟨some L, store.legacyPath⟩ := by
    cases store with
    | mk sp lp =>
      simp only at hL
      rw [hL]
  have hstored : (addSavePathToRecent p store).savePaths
      = some ((jsTrim p :: L.filter (fun x => decide (x ≠ jsTrim p))).take 30) := by
    rw [hst, addSavePathToRecent_stored L _ p hp, e]
  have h1 : (jsTrim p :: L.filter (fun x => decide (x ≠ jsTrim p))).Nodup :=
    nodup_filter_ne _ _ hnd
  refine ⟨hnd, hstored, ?_, by decide, by decide⟩
  refine ⟨(L.filter (fun x => decide (x ≠ jsTrim p))).take 29, ?_, ?_, ?_⟩
  · rw [hstored]
    simp only [List.take_succ_cons]
  · have := h1.sublist (List.take_sublist 30 _)
    simpa only [List.take_succ_cons] using this
  · simp only [List.length_cons, List.length_take]
    omega

/-- Witness for C15: the path `/y` with a blank after it, added to the list `/x`, `/y`
that two earlier additions to a new store left. -/
theorem addSavePathToRecent_moves_to_front_witness :
    (addSavePathToRecent "/y " (addSavePathToRecent "/x" (addSavePathToRecent "/y"
        ⟨none, none⟩))).savePaths = some ["/y", "/x"] :=
  (addSavePathToRecent_moves_to_front
    (addSavePathToRecent "/x" (addSavePathToRecent "/y" ⟨none, none⟩)) ["/x", "/y"] "/y "
    (Written.add "/x" _ (Written.add "/y" _ (Written.fresh none))) (by decide)
    (by decide)).2.1.trans (by decide)

/-- A list with an empty entry, which this code never stores, would lose that entry when
it is read: with the entries empty string and `/a` in the store, adding `/b` stores `/b`,
`/a`. -/
theorem addSavePathToRecent_drops_empty_entries :
    ["", "/a"].Nodup ∧ jsTrim "/b" = "/b" ∧
      (addSavePathToRecent "/b" ⟨some ["", "/a"], none⟩).savePaths = some ["/b", "/a"] ∧
      ("/b" :: ["", "/a"].filter (fun x => decide (x ≠ "/b"))).take 30 = ["/b", "", "/a"] := by
  refine ⟨by decide, by decide, by decide, by decide⟩


/-! ## `doLogin` -/

/-- **C16 (as amended).** `doLogin` resolves to `true` if and only if the request ends in a
response with status 200 and at least one `Set-Cookie` line and the session's store accepts
every cookie taken from the lines (a line without `=` is skipped and sets none); the store
then holds, in addition, the name/value pairs of those lines.  It resolves to `false` if
and only if the request ends in a response with another status, without `Set-Cookie`
header or with an empty one, and then nothing is written to the store.  In every other
case (a cookie the store refuses, a request error, the timeout) the promise rejects. -/
theorem doLogin_success_iff (accepts : String → String → Bool) (exchange : LoginExchange)
    (jar : List (String × String)) :
    ((doLogin accepts exchange jar).1 = .resolved true ↔
      ∃ res c cs, exchange = .response res ∧ res.statusCode = 200 ∧
        res.setCookie = some (c :: cs) ∧
        ∀ nv ∈ (c :: cs).filterMap cookiePair, accepts nv.1 nv.2 = true) ∧
    (∀ res c cs, exchange = .response res → res.statusCode = 200 →
      res.setCookie = some (c :: cs) →
      (∀ nv ∈ (c :: cs).filterMap cookiePair, accepts nv.1 nv.2 = true) →
      doLogin accepts exchange jar
        = (.resolved true, jar ++ (c :: cs).filterMap cookiePair)) ∧
    ((doLogin accepts exchange jar).1 = .resolved false ↔
      ∃ res, exchange = .response res ∧
        (res.statusCode ≠ 200 ∨ res.setCookie = none ∨ res.setCookie = some [])) ∧
    ((doLogin accepts exchange jar).1 = .resolved false →
      (doLogin accepts exchange jar).2 = jar) := by
  have key : ∀ (statusCode : Nat) (c : String) (cs : List String), statusCode = 200 →
      (∀ nv ∈ (c :: cs).filterMap cookiePair, accepts nv.1 nv.2 = true) →
      doLogin accepts (.response ⟨statusCode, some (c :: cs)⟩) jar
        = (.resolved true, jar ++ (c :: cs).filterMap cookiePair) := by
    intro statusCode c cs hs hacc
    unfold doLogin
    simp only
    rw [if_pos hs]
    have hall : ((c :: cs).filterMap cookiePair).all (fun nv => accepts nv.1 nv.2) = true := by
      rw [List.all_eq_true]
      exact hacc
    rw [if_pos hall]
    have hf : ((c :: cs).filterMap cookiePair).filter (fun nv => accepts nv.1 nv.2)
        = (c :: cs).filterMap cookiePair := by
      rw [List.filter_eq_self]
      exact hacc
    rw [hf]
  cases exchange with
  | error =>
    refine ⟨⟨fun h => ?_, fun h => ?_⟩, ?_, ⟨fun h => ?_, fun h => ?_⟩, fun h => ?_⟩
    · simp [doLogin] at h
    · obtain ⟨res, c, cs, h, _⟩ := h; cases h
    · intro res c cs h; cases h
    · simp [doLogin] at h
    · obtain ⟨res, h, _⟩ := h; cases h
    · simp [doLogin] at h
  | timedOut =>
    refine ⟨⟨fun h => ?_, fun h => ?_⟩, ?_, ⟨fun h => ?_, fun h => ?_⟩, fun h => ?_⟩
    · simp [doLogin] at h
    · obtain ⟨res, c, cs, h, _⟩ := h; cases h
    · intro res c cs h; cases h
    · simp [doLogin] at h
    · obtain ⟨res, h, _⟩ := h; cases h
    · simp [doLogin] at h
  | response res =>
    obtain ⟨statusCode, setCookie⟩ := res
    cases setCookie with
    | none =>
      refine ⟨⟨fun h => ?_, fun h => ?_⟩, ?_, ⟨fun _ => ?_, fun _ => rfl⟩, fun _ => rfl⟩
      · exact absurd h (by simp [doLogin])
      · obtain ⟨res, c, cs, h, _, h2, _⟩ := h
        injection h with h
        subst h
        cases h2
      · intro res c cs h _ h2
        injection h with h
        subst h
        cases h2
      · exact ⟨_, rfl, Or.inr (Or.inl rfl)⟩
    | some l =>
      cases l with
      | nil =>
        refine ⟨⟨fun h => ?_, fun h => ?_⟩, ?_, ⟨fun _ => ?_, fun _ => rfl⟩, fun _ => rfl⟩
        · exact absurd h (by simp [doLogin])
        · obtain ⟨res, c, cs, h, _, h2, _⟩ := h
          injection h with h
          subst h
          cases h2
        · intro res c cs h _ h2
          injection h with h
          subst h
          cases h2
        · exact ⟨_, rfl, Or.inr (Or.inr rfl)⟩
      | cons c cs =>
        by_cases hs : statusCode = 200
        · by_cases hall : ((c :: cs).filterMap cookiePair).all
              (fun nv => accepts nv.1 nv.2) = true
          · have hacc : ∀ nv ∈ (c :: cs).filterMap cookiePair, accepts nv.1 nv.2 = true :=
              List.all_eq_true.1 hall
            have hk := key statusCode c cs hs hacc
            refine ⟨⟨fun _ => ⟨_, c, cs, rfl, hs, rfl, hacc⟩, fun _ => by rw [hk]⟩, ?_,
              ⟨fun h => ?_, fun h => ?_⟩, fun h => ?_⟩
            · intro res c' cs' h h1 h2 h3
              injection h with h
              subst h
              simp only [Option.some.injEq] at h2
              rw [← h2]
              exact hk
            · rw [hk] at h
              simp at h
            · obtain ⟨res, h, h2⟩ := h
              injection h with h
              subst h
              rcases h2 with h2 | h2 | h2
              · exact absurd hs h2
              · cases h2
              · cases h2
            · rw [hk] at h
              simp at h
          · have hk : doLogin accepts (.response ⟨statusCode, some (c :: cs)⟩) jar
                = (.rejected, jar ++ ((c :: cs).filterMap cookiePair).filter
                    (fun nv => accepts nv.1 nv.2)) := by
              unfold doLogin
              simp only
              rw [if_pos hs, if_neg hall]
            refine ⟨⟨fun h => ?_, fun h => ?_⟩, ?_, ⟨fun h => ?_, fun h => ?_⟩, fun h => ?_⟩
            · rw [hk] at h
              simp at h
            · obtain ⟨res, c', cs', h, _, h2, h3⟩ := h
              injection h with h
              subst h
              simp only [Option.some.injEq] at h2
              rw [← h2] at h3
              exact absurd (List.all_eq_true.2 h3) hall
            · intro res c' cs' h _ h2 h3
              injection h with h
              subst h
              simp only [Option.some.injEq] at h2
              rw [← h2] at h3
              exact absurd (List.all_eq_true.2 h3) hall
            · rw [hk] at h
              simp at h
            · obtain ⟨res, h, h2⟩ := h
              injection h with h
              subst h
              rcases h2 with h2 | h2 | h2
              · exact absurd hs h2
              · cases h2
              · cases h2
            · rw [hk] at h
              simp at h
        · have hk : doLogin accepts (.response ⟨statusCode, some (c :: cs)⟩) jar
              = (.resolved false, jar) := by
            unfold doLogin
            simp only
            rw [if_neg hs]
          refine ⟨⟨fun h => ?_, fun h => ?_⟩, ?_, ⟨fun _ => ?_, fun _ => by rw [hk]⟩,
            fun _ => by rw [hk]⟩
          · rw [hk] at h
            simp at h
          · obtain ⟨res, c', cs', h, h1, _⟩ := h
            injection h with h
            subst h
            exact absurd h1 hs
          · intro res c' cs' h h1
            injection h with h
            subst h
            exact absurd h1 hs
          · exact ⟨_, rfl, Or.inl hs⟩

/-- Witness for C16: a 200 response that sets the cookie `SID`. -/
theorem doLogin_success_iff_witness :
    doLogin (fun _ _ => true) (.response ⟨200, some ["SID=abc123; HttpOnly; path=/"]⟩) []
      = (.resolved true, [("SID", "abc123")]) :=
  ((doLogin_success_iff (fun _ _ => true)
      (.response ⟨200, some ["SID=abc123; HttpOnly; path=/"]⟩) []).2.1
    ⟨200, some ["SID=abc123; HttpOnly; path=/"]⟩ "SID=abc123; HttpOnly; path=/" [] rfl rfl rfl
    (fun _ _ => rfl)).trans (by decide)

/-- Counterexample to C16 as stated: a response with status 200 and the line `SID=abc123`
in its `Set-Cookie` header whose cookie the session's store refuses does not resolve to
`true`: the promise rejects. -/
theorem doLogin_store_refuses :
    (⟨200, some ["SID=abc123"]⟩ : LoginResponse).statusCode = 200 ∧
      (⟨200, some ["SID=abc123"]⟩ : LoginResponse).setCookie = some ["SID=abc123"] ∧
      cookiePair "SID=abc123" = some ("SID", "abc123") ∧
      doLogin (fun _ _ => false) (.response ⟨200, some ["SID=abc123"]⟩) []
        = (.rejected, []) := by
  refine ⟨rfl, rfl, by decide, by decide⟩


/-! ## The fields of the add request -/

theorem numberText_small (i : Int) (h : i.natAbs ≤ 2 ^ 53) : numberText i = .ok (intText i) := by
  unfold numberText numToString
  simp only [h, if_true]
  rfl

theorem collect_numberText (ps : List Int) (h : ∀ p ∈ ps, p.natAbs ≤ 2 ^ 53) :
    collect (ps.map numberText) = .ok (ps.map intText) := by
  induction ps with
  | nil => rfl
  | cons p ps ih =>
    rw [List.map_cons, numberText_small p (h p (List.mem_cons_self _ _)), collect,
      ih (fun q hq => h q (List.mem_cons_of_mem _ hq))]
    rfl

theorem prioritiesText_small (ps : List Int) (h : ∀ p ∈ ps, p.natAbs ≤ 2 ^ 53) :
    prioritiesText ps = .ok (joinWith "|" (ps.map intText)) := by
  unfold prioritiesText
  rw [collect_numberText ps h]
  rfl

theorem intText_ne_empty (i : Int) : intText i ≠ "" := by
  intro h
  have h1 : (intText i).data = [] := by rw [h]
  unfold intText intBody at h1
  simp only [List.map_append, List.append_eq_nil, List.map_eq_nil_iff] at h1
  exact decimal_ne_nil _ h1.2

theorem string_append_ne_empty (a b : String) (h : a ≠ "") : a ++ b ≠ "" := by
  intro hab
  apply h
  have h1 : (a ++ b).data = [] := by rw [hab]
  rw [String.data_append, List.append_eq_nil] at h1
  exact String.ext h1.1

theorem joinWith_ne_empty (sep s : String) (rest : List String) (h : s ≠ "") :
    joinWith sep (s :: rest) ≠ "" := by
  cases rest with
  | nil => simpa [joinWith] using h
  | cons t rest =>
    rw [joinWith, String.append_assoc]
    exact string_append_ne_empty _ _ h

theorem connectionFields_small (peerLimit : Option Int)
    (h : ∀ n, peerLimit = some n → n.natAbs ≤ 2 ^ 53) :
    connectionFields peerLimit = .ok (manualConnection peerLimit) := by
  unfold connectionFields manualConnection
  cases peerLimit with
  | none => rfl
  | some n =>
    simp only
    split
    · rw [numberText_small n (h n rfl)]; rfl
    · rfl

theorem mem_optionalField (name n : String) (x : Option String) (v : FormValue)
    (h : (n, v) ∈ optionalField name x) : n = name := by
  unfold optionalField at h
  cases x with
  | none => simp at h
  | some s =>
    simp only at h
    split at h
    · simp only [List.mem_singleton, Prod.mk.injEq] at h
      exact h.1
    · simp at h

theorem mem_trimmedCategory (n : String) (x : Option String) (v : FormValue)
    (h : (n, v) ∈ trimmedCategory x) : n = "category" := by
  unfold trimmedCategory at h
  cases x with
  | none => simp at h
  | some s =>
    simp only at h
    split at h
    · simp only [List.mem_singleton, Prod.mk.injEq] at h
      exact h.1
    · simp at h

/-- The fields of the claim in a list made of the common parts of the two forms. -/
theorem hasRequestFields_parts (o : AddOptions)
    (pre mid : List (String × FormValue))
    (hpre : ∀ n v, (n, v) ∈ pre → n = "torrents" ∨ n = "savepath" ∨ n = "rename" ∨ n = "category")
    (hmid : ∀ n v, (n, v) ∈ mid → n = "category") :
    HasRequestFields o (pre ++ pausedFields o.startPaused ++ mid ++
      manualConnection o.peerLimit ++
      prioritiesList o.filePriorities) := by
  have hconn : ∀ n v, (n, v) ∈ manualConnection o.peerLimit ↔
      ∃ k, o.peerLimit = some k ∧ k > 0 ∧
        ((n = "connection" ∧ v = .text "manual") ∨
          (n = "max-connections" ∧ v = .text (intText k))) := by
    intro n v
    unfold manualConnection
    cases o.peerLimit with
    | none => simp
    | some k =>
      simp only
      split
      · rename_i hk
        simp [hk]
      · rename_i hk
        simp [hk]
  have hfp : ∀ n v, (n, v) ∈ prioritiesList o.filePriorities ↔
      ∃ p ps, o.filePriorities = some (p :: ps) ∧ n = "filePriorities" ∧
        v = .text (joinWith "|" ((p :: ps).map intText)) := by
    intro n v
    unfold prioritiesList
    cases o.filePriorities with
    | none => simp
    | some l =>
      cases l with
      | nil => simp
      | cons p ps =>
        simp only [List.mem_singleton, Prod.mk.injEq, Option.some.injEq, List.cons.injEq]
        constructor
        · rintro ⟨h1, h2⟩
          exact ⟨p, ps, ⟨rfl, rfl⟩, h1, h2⟩
        · rintro ⟨p', ps', ⟨h1, h2⟩, h3, h4⟩
          subst h1; subst h2
          exact ⟨h3, h4⟩
  have hpaused : ∀ n v, (n, v) ∈ pausedFields o.startPaused ↔
      (n = "paused" ∧ v = .text (if o.startPaused then "true" else "false")) ∨
        (n = "root_folder" ∧ v = .text "false") := by
    intro n v
    simp [pausedFields]
  have hmem : ∀ n v, (n, v) ∈ (pre ++ pausedFields o.startPaused ++ mid ++
      manualConnection o.peerLimit ++
      prioritiesList o.filePriorities) ↔
      ((n = "torrents" ∨ n = "savepath" ∨ n = "rename" ∨ n = "category") ∧
          ((n, v) ∈ pre ∨ (n, v) ∈ mid)) ∨
        (n = "paused" ∧ v = .text (if o.startPaused then "true" else "false")) ∨
        (n = "root_folder" ∧ v = .text "false") ∨
        (∃ k, o.peerLimit = some k ∧ k > 0 ∧
          ((n = "connection" ∧ v = .text "manual") ∨
            (n = "max-connections" ∧ v = .text (intText k)))) ∨
        (∃ p ps, o.filePriorities = some (p :: ps) ∧ n = "filePriorities" ∧
          v = .text (joinWith "|" ((p :: ps).map intText))) := by
    intro n v
    simp only [List.mem_append, hconn, hfp, hpaused]
    constructor
    · rintro ((((h | h) | h) | h) | h)
      · exact Or.inl ⟨hpre n v h, Or.inl h⟩
      · exact Or.inr (h.elim Or.inl (fun h' => Or.inr (Or.inl h')))
      · exact Or.inl ⟨Or.inr (Or.inr (Or.inr (hmid n v h))), Or.inr h⟩
      · exact Or.inr (Or.inr (Or.inr (Or.inl h)))
      · exact Or.inr (Or.inr (Or.inr (Or.inr h)))
    · rintro (⟨_, h | h⟩ | h | h | h | h)
      · exact Or.inl (Or.inl (Or.inl (Or.inl h)))
      · exact Or.inl (Or.inl (Or.inr h))
      · exact Or.inl (Or.inl (Or.inl (Or.inr (Or.inl h))))
      · exact Or.inl (Or.inl (Or.inl (Or.inr (Or.inr h))))
      · exact Or.inl (Or.inr h)
      · exact Or.inr h
  refine ⟨?_, ?_, ?_, ?_, ?_⟩
  · intro v
    rw [hmem]
    constructor
    · rintro (⟨h | h | h | h, _⟩ | ⟨_, hv⟩ | ⟨h, _⟩ | ⟨_, _, _, (⟨h, _⟩ | ⟨h, _⟩)⟩ |
        ⟨_, _, _, h, _⟩)
      · exact absurd h (by decide)
      · exact absurd h (by decide)
      · exact absurd h (by decide)
      · exact absurd h (by decide)
      · exact hv
      · exact absurd h (by decide)
      · exact absurd h (by decide)
      · exact absurd h (by decide)
      · exact absurd h (by decide)
    · intro hv
      exact Or.inr (Or.inl ⟨rfl, hv⟩)
  · intro v
    rw [hmem]
    constructor
    · rintro (⟨h | h | h | h, _⟩ | ⟨h, _⟩ | ⟨_, hv⟩ | ⟨_, _, _, (⟨h, _⟩ | ⟨h, _⟩)⟩ |
        ⟨_, _, _, h, _⟩)
      · exact absurd h (by decide)
      · exact absurd h (by decide)
      · exact absurd h (by decide)
      · exact absurd h (by decide)
      · exact absurd h (by decide)
      · exact hv
      · exact absurd h (by decide)
      · exact absurd h (by decide)
      · exact absurd h (by decide)
    · intro hv
      exact Or.inr (Or.inr (Or.inl ⟨rfl, hv⟩))
  · intro v
    rw [hmem]
    constructor
    · rintro (⟨h | h | h | h, _⟩ | ⟨h, _⟩ | ⟨h, _⟩ | ⟨k, hk, hpos, (⟨_, hv⟩ | ⟨h, _⟩)⟩ |
        ⟨_, _, _, h, _⟩)
      · exact absurd h (by decide)
      · exact absurd h (by decide)
      · exact absurd h (by decide)
      · exact absurd h (by decide)
      · exact absurd h (by decide)
      · exact absurd h (by decide)
      · exact ⟨hv, k, hk, hpos⟩
      · exact absurd h (by decide)
      · exact absurd h (by decide)
    · rintro ⟨hv, k, hk, hpos⟩
      exact Or.inr (Or.inr (Or.inr (Or.inl ⟨k, hk, hpos, Or.inl ⟨rfl, hv⟩⟩)))
  · intro v
    rw [hmem]
    constructor
    · rintro (⟨h | h | h | h, _⟩ | ⟨h, _⟩ | ⟨h, _⟩ | ⟨k, hk, hpos, (⟨h, _⟩ | ⟨_, hv⟩)⟩ |
        ⟨_, _, _, h, _⟩)
      · exact absurd h (by decide)
      · exact absurd h (by decide)
      · exact absurd h (by decide)
      · exact absurd h (by decide)
      · exact absurd h (by decide)
      · exact absurd h (by decide)
      · exact absurd h (by decide)
      · exact ⟨k, hk, hpos, hv⟩
      · exact absurd h (by decide)
    · rintro ⟨k, hk, hpos, hv⟩
      exact Or.inr (Or.inr (Or.inr (Or.inl ⟨k, hk, hpos, Or.inr ⟨rfl, hv⟩⟩)))
  · intro v
    rw [hmem]
    constructor
    · rintro (⟨h | h | h | h, _⟩ | ⟨h, _⟩ | ⟨h, _⟩ | ⟨_, _, _, (⟨h, _⟩ | ⟨h, _⟩)⟩ |
        ⟨p, ps, hp, _, hv⟩)
      · exact absurd h (by decide)
      · exact absurd h (by decide)
      · exact absurd h (by decide)
      · exact absurd h (by decide)
      · exact absurd h (by decide)
      · exact absurd h (by decide)
      · exact absurd h (by decide)
      · exact absurd h (by decide)
      · exact ⟨p, ps, hp, hv⟩
    · rintro ⟨p, ps, hp, hv⟩
      exact Or.inr (Or.inr (Or.inr (Or.inr ⟨p, ps, hp, rfl, hv⟩)))

theorem webUIForm_small (torrentBuffer : Buffer) (filename : String) (o : AddOptions)
    (hpeer : ∀ n, o.peerLimit = some n → n.natAbs ≤ 2 ^ 53)
    (hprio : ∀ ps, o.filePriorities = some ps → ∀ p ∈ ps, p.natAbs ≤ 2 ^ 53) :
    webUIForm torrentBuffer filename o = .ok
      (torrentField torrentBuffer filename ++ optionalField "savepath" o.savepath
        ++ optionalField "rename" o.rename ++ pausedFields o.startPaused
        ++ optionalField "category" o.category ++
      manualConnection o.peerLimit ++
      prioritiesList o.filePriorities) := by
  unfold webUIForm
  rw [connectionFields_small o.peerLimit hpeer, bind_ok]
  cases hfp : o.filePriorities with
  | none => rfl
  | some l =>
    cases l with
    | nil => rfl
    | cons p ps =>
      simp only [prioritiesOrEmpty, prioritiesList]
      rw [prioritiesText_small (p :: ps) (hprio _ hfp), bind_ok,
        if_pos (by
          rw [List.map_cons]
          exact joinWith_ne_empty "|" (intText p) (ps.map intText) (intText_ne_empty p))]

theorem directForm_small (torrentBuffer : Buffer) (filename : String) (o : AddOptions)
    (hpeer : ∀ n, o.peerLimit = some n → n.natAbs ≤ 2 ^ 53)
    (hprio : ∀ ps, o.filePriorities = some ps → ∀ p ∈ ps, p.natAbs ≤ 2 ^ 53) :
    directForm torrentBuffer filename o = .ok
      (torrentField torrentBuffer filename ++ optionalField "savepath" o.savepath
        ++ optionalField "rename" o.rename ++ trimmedCategory o.category
        ++ pausedFields o.startPaused ++
      manualConnection o.peerLimit ++
      prioritiesList o.filePriorities) := by
  unfold directForm
  rw [connectionFields_small o.peerLimit hpeer, bind_ok]
  cases hfp : o.filePriorities with
  | none => rfl
  | some l =>
    cases l with
    | nil => rfl
    | cons p ps =>
      simp only [prioritiesField, prioritiesList]
      rw [prioritiesText_small (p :: ps) (hprio _ hfp), bind_ok, bind_ok]

theorem mem_torrentField (torrentBuffer : Buffer) (filename n : String) (v : FormValue)
    (h : (n, v) ∈ torrentField torrentBuffer filename) : n = "torrents" := by
  unfold torrentField at h
  simp only [List.mem_singleton, Prod.mk.injEq] at h
  exact h.1

/-- **C17 (as amended).** For every request whose peer limit and priorities are integers of
magnitude at most `2^53` (where `String(n)` is the decimal numeral) both strategies build a
field list in which `paused` occurs exactly with the value `true` or `false` according to
`startPaused`, `root_folder` exactly with `false`, `connection` (with `manual`) and
`max-connections` (with the decimal `peerLimit`) exactly when `peerLimit > 0`, and
`filePriorities` exactly when the sequence is not empty, with its integers in decimal
joined by `|` in order. -/
theorem request_fields (torrentBuffer : Buffer) (filename : String) (o : AddOptions)
    (hpeer : ∀ n, o.peerLimit = some n → n.natAbs ≤ 2 ^ 53)
    (hprio : ∀ ps, o.filePriorities = some ps → ∀ p ∈ ps, p.natAbs ≤ 2 ^ 53) :
    ∃ fa fb, webUIForm torrentBuffer filename o = .ok fa ∧
      directForm torrentBuffer filename o = .ok fb ∧
      HasRequestFields o fa ∧ HasRequestFields o fb := by
  refine ⟨_, _, webUIForm_small torrentBuffer filename o hpeer hprio,
    directForm_small torrentBuffer filename o hpeer hprio, ?_, ?_⟩
  · apply hasRequestFields_parts o
      (torrentField torrentBuffer filename ++ optionalField "savepath" o.savepath
        ++ optionalField "rename" o.rename) (optionalField "category" o.category)
    · intro n v h
      simp only [List.mem_append] at h
      rcases h with (h | h) | h
      · exact Or.inl (mem_torrentField _ _ _ _ h)
      · exact Or.inr (Or.inl (mem_optionalField _ _ _ _ h))
      · exact Or.inr (Or.inr (Or.inl (mem_optionalField _ _ _ _ h)))
    · intro n v h
      exact mem_optionalField _ _ _ _ h
  · have h := hasRequestFields_parts o
      (torrentField torrentBuffer filename ++ optionalField "savepath" o.savepath
        ++ optionalField "rename" o.rename ++ trimmedCategory o.category) []
      (by
        intro n v h
        simp only [List.mem_append] at h
        rcases h with ((h | h) | h) | h
        · exact Or.inl (mem_torrentField _ _ _ _ h)
        · exact Or.inr (Or.inl (mem_optionalField _ _ _ _ h))
        · exact Or.inr (Or.inr (Or.inl (mem_optionalField _ _ _ _ h)))
        · exact Or.inr (Or.inr (Or.inr (mem_trimmedCategory _ _ _ h))))
      (by intro n v h; simp at h)
    rw [List.append_nil] at h
    exact h

/-- Witness for C17: a paused request with a peer limit of 50 and three priorities. -/
theorem request_fields_witness :
    ∃ fa fb,
      webUIForm [100, 101] "a.torrent"
          ⟨"a.torrent", some "/x", none, true, some 50, some [1, 0, 7], none⟩ = .ok fa ∧
        directForm [100, 101] "a.torrent"
          ⟨"a.torrent", some "/x", none, true, some 50, some [1, 0, 7], none⟩ = .ok fb ∧
        HasRequestFields ⟨"a.torrent", some "/x", none, true, some 50, some [1, 0, 7], none⟩ fa ∧
        HasRequestFields ⟨"a.torrent", some "/x", none, true, some 50, some [1, 0, 7], none⟩ fb :=
  request_fields [100, 101] "a.torrent"
    ⟨"a.torrent", some "/x", none, true, some 50, some [1, 0, 7], none⟩
    (by intro n h; cases h; decide)
    (by
      intro ps h p hp
      cases h
      simp only [List.mem_cons, List.mem_singleton, List.not_mem_nil, or_false] at hp
      rcases hp with h | h | h <;> subst h <;> decide)

/-- The fields of that request, as the two strategies list them. -/
theorem request_fields_example :
    webUIForm [100, 101] "a.torrent"
        ⟨"a.torrent", some "/x", none, true, some 50, some [1, 0, 7], none⟩
      = .ok [("torrents", .file [100, 101] "a.torrent" "application/x-bittorrent"),
          ("savepath", .text "/x"), ("paused", .text "true"), ("root_folder", .text "false"),
          ("connection", .text "manual"), ("max-connections", .text "50"),
          ("filePriorities", .text "1|0|7")] := by
  decide

/-! ## `String(n)` beyond `2^53` -/

theorem toDouble_big (n : Nat) (h1 : 2 ^ 53 < n) (h2 : roundNat n < 2 ^ 200) :
    toDouble (Int.ofNat n) = .fin (Int.ofNat (roundNat n)) := by
  unfold toDouble
  have e : (Int.ofNat n).natAbs = n := rfl
  rw [e, if_neg (by omega)]
  simp only
  rw [if_neg (by
    have : (2 : Nat) ^ 200 ≤ doubleLimit := by
      unfold doubleLimit
      exact Nat.pow_le_pow_right (by decide) (by decide)
    omega)]
  rw [if_neg (by exact Int.not_lt.mpr (Int.ofNat_nonneg n))]
  rfl

theorem toDouble_big_ne (n m : Nat) (h1 : 2 ^ 53 < n) (h2 : roundNat n < 2 ^ 200)
    (h3 : roundNat n ≠ m) : toDouble (Int.ofNat n) ≠ .fin (Int.ofNat m) := by
  rw [toDouble_big n h1 h2]
  intro h
  injection h with h
  exact h3 (Int.ofNat.inj h)

theorem shortestFrom_skip (m D f k : Nat)
    (hlo : toDouble (Int.ofNat (m / 10 ^ (D - k) * 10 ^ (D - k))) ≠ .fin (Int.ofNat m))
    (hhi : toDouble (Int.ofNat (m / 10 ^ (D - k) * 10 ^ (D - k) + 10 ^ (D - k)))
      ≠ .fin (Int.ofNat m)) :
    shortestFrom m D (f + 1) k = shortestFrom m D f (k + 1) := by
  rw [shortestFrom]
  simp only [decide_eq_false hlo, decide_eq_false hhi, Bool.false_and, Bool.false_eq_true,
    if_false]

theorem shortestFrom_hi (m D f k : Nat)
    (hlo : toDouble (Int.ofNat (m / 10 ^ (D - k) * 10 ^ (D - k))) ≠ .fin (Int.ofNat m))
    (hhi : toDouble (Int.ofNat (m / 10 ^ (D - k) * 10 ^ (D - k) + 10 ^ (D - k)))
      = .fin (Int.ofNat m)) :
    shortestFrom m D (f + 1) k = m / 10 ^ (D - k) * 10 ^ (D - k) + 10 ^ (D - k) := by
  rw [shortestFrom]
  simp only [decide_eq_false hlo, decide_eq_true hhi, Bool.false_and, Bool.false_eq_true,
    if_false, if_true]

theorem shortestFrom_lo (m D f k : Nat)
    (hlo : toDouble (Int.ofNat (m / 10 ^ (D - k) * 10 ^ (D - k))) = .fin (Int.ofNat m))
    (hhi : toDouble (Int.ofNat (m / 10 ^ (D - k) * 10 ^ (D - k) + 10 ^ (D - k)))
      ≠ .fin (Int.ofNat m)) :
    shortestFrom m D (f + 1) k = m / 10 ^ (D - k) * 10 ^ (D - k) := by
  rw [shortestFrom]
  simp only [decide_eq_true hlo, decide_eq_false hhi, Bool.true_and, Bool.false_eq_true,
    if_false, if_true]

theorem toDouble_big_eq (n m : Nat) (h1 : 2 ^ 53 < n) (h2 : roundNat n < 2 ^ 200)
    (h3 : roundNat n = m) : toDouble (Int.ofNat n) = .fin (Int.ofNat m) := by
  rw [toDouble_big n h1 h2, h3]

theorem numToString_big (n : Nat) (h1 : 2 ^ 53 < n)
    (h2 : toDouble (Int.ofNat n) = .fin (Int.ofNat n)) :
    numToString (.fin (Int.ofNat n))
      = some (String.mk ((shortestText n).map Char.ofNat)) := by
  unfold numToString
  simp only
  have e : (Int.ofNat n).natAbs = n := rfl
  rw [e, if_neg (by omega), if_pos h2]
  rw [if_neg (by exact Int.not_lt.mpr (Int.ofNat_nonneg n))]
  rfl

/-- The shortest digits that read back as `2^60` are `1152921504606847`, followed by three
zeros. -/
theorem shortest_two_pow_60 : shortest 1152921504606846976 = 1152921504606847000 := by
  have hD : (decimal 1152921504606846976).length = 19 := by decide
  unfold shortest
  rw [hD]
  calc shortestFrom 1152921504606846976 19 19 1
        = shortestFrom 1152921504606846976 19 18 2 :=
        shortestFrom_skip 1152921504606846976 19 18 1
          (toDouble_big_ne _ _ (by decide) (by decide) (by decide))
          (toDouble_big_ne _ _ (by decide) (by decide) (by decide))
      _ = shortestFrom 1152921504606846976 19 17 3 :=
        shortestFrom_skip 1152921504606846976 19 17 2
          (toDouble_big_ne _ _ (by decide) (by decide) (by decide))
          (toDouble_big_ne _ _ (by decide) (by decide) (by decide))
      _ = shortestFrom 1152921504606846976 19 16 4 :=
        shortestFrom_skip 1152921504606846976 19 16 3
          (toDouble_big_ne _ _ (by decide) (by decide) (by decide))
          (toDouble_big_ne _ _ (by decide) (by decide) (by decide))
      _ = shortestFrom 1152921504606846976 19 15 5 :=
        shortestFrom_skip 1152921504606846976 19 15 4
          (toDouble_big_ne _ _ (by decide) (by decide) (by decide))
          (toDouble_big_ne _ _ (by decide) (by decide) (by decide))
      _ = shortestFrom 1152921504606846976 19 14 6 :=
        shortestFrom_skip 1152921504606846976 19 14 5
          (toDouble_big_ne _ _ (by decide) (by decide) (by decide))
          (toDouble_big_ne _ _ (by decide) (by decide) (by decide))
      _ = shortestFrom 1152921504606846976 19 13 7 :=
        shortestFrom_skip 1152921504606846976 19 13 6
          (toDouble_big_ne _ _ (by decide) (by decide) (by decide))
          (toDouble_big_ne _ _ (by decide) (by decide) (by decide))
      _ = shortestFrom 1152921504606846976 19 12 8 :=
        shortestFrom_skip 1152921504606846976 19 12 7
          (toDouble_big_ne _ _ (by decide) (by decide) (by decide))
          (toDouble_big_ne _ _ (by decide) (by decide) (by decide))
      _ = shortestFrom 1152921504606846976 19 11 9 :=
        shortestFrom_skip 1152921504606846976 19 11 8
          (toDouble_big_ne _ _ (by decide) (by decide) (by decide))
          (toDouble_big_ne _ _ (by decide) (by decide) (by decide))
      _ = shortestFrom 1152921504606846976 19 10 10 :=
        shortestFrom_skip 1152921504606846976 19 10 9
          (toDouble_big_ne _ _ (by decide) (by decide) (by decide))
          (toDouble_big_ne _ _ (by decide) (by decide) (by decide))
      _ = shortestFrom 1152921504606846976 19 9 11 :=
        shortestFrom_skip 1152921504606846976 19 9 10
          (toDouble_big_ne _ _ (by decide) (by decide) (by decide))
          (toDouble_big_ne _ _ (by decide) (by decide) (by decide))
      _ = shortestFrom 1152921504606846976 19 8 12 :=
        shortestFrom_skip 1152921504606846976 19 8 11
          (toDouble_big_ne _ _ (by decide) (by decide) (by decide))
          (toDouble_big_ne _ _ (by decide) (by decide) (by decide))
      _ = shortestFrom 1152921504606846976 19 7 13 :=
        shortestFrom_skip 1152921504606846976 19 7 12
          (toDouble_big_ne _ _ (by decide) (by decide) (by decide))
          (toDouble_big_ne _ _ (by decide) (by decide) (by decide))
      _ = shortestFrom 1152921504606846976 19 6 14 :=
        shortestFrom_skip 1152921504606846976 19 6 13
          (toDouble_big_ne _ _ (by decide) (by decide) (by decide))
          (toDouble_big_ne _ _ (by decide) (by decide) (by decide))
      _ = shortestFrom 1152921504606846976 19 5 15 :=
        shortestFrom_skip 1152921504606846976 19 5 14
          (toDouble_big_ne _ _ (by decide) (by decide) (by decide))
          (toDouble_big_ne _ _ (by decide) (by decide) (by decide))
      _ = shortestFrom 1152921504606846976 19 4 16 :=
        shortestFrom_skip 1152921504606846976 19 4 15
          (toDouble_big_ne _ _ (by decide) (by decide) (by decide))
          (toDouble_big_ne _ _ (by decide) (by decide) (by decide))
      _ = 1152921504606847000 :=
        shortestFrom_hi 1152921504606846976 19 3 16
          (toDouble_big_ne _ _ (by decide) (by decide) (by decide))
          (toDouble_big_eq _ _ (by decide) (by decide) (by decide))

theorem numberText_two_pow_60 :
    numberText 1152921504606846976 = .ok "1152921504606847000" := by
  unfold numberText
  have h := numToString_big 1152921504606846976 (by decide)
    (toDouble_big_eq _ _ (by decide) (by decide) (by decide))
  have e : shortestText 1152921504606846976 = decimal 1152921504606847000 := by
    unfold shortestText
    rw [shortest_two_pow_60, if_pos (by decide)]
  rw [e] at h
  have h2 : numToString (.fin 1152921504606846976) = some "1152921504606847000" :=
    h.trans (by decide)
  rw [h2]

theorem shortest_ten_pow_21 : shortest 1000000000000000000000 = 1000000000000000000000 := by
  have hD : (decimal 1000000000000000000000).length = 22 := by decide
  unfold shortest
  rw [hD]
  exact shortestFrom_lo 1000000000000000000000 22 21 1
    (toDouble_big_eq _ _ (by decide) (by decide) (by decide))
    (toDouble_big_ne _ _ (by decide) (by decide) (by decide))

theorem numberText_ten_pow_21 : numberText 1000000000000000000000 = .ok "1e+21" := by
  unfold numberText
  have h := numToString_big 1000000000000000000000 (by decide)
    (toDouble_big_eq _ _ (by decide) (by decide) (by decide))
  have e : shortestText 1000000000000000000000 = exponentText 1000000000000000000000 := by
    unfold shortestText
    rw [shortest_ten_pow_21, if_neg (by decide)]
  rw [e] at h
  have h2 : numToString (.fin 1000000000000000000000) = some "1e+21" :=
    h.trans (by decide)
  rw [h2]

/-- Counterexample to C17 as stated: for the peer limit `2^60` both strategies send
`max-connections` with the text `1152921504606847000`, the shortest digits that read back
as the same double, and not the decimal numeral `1152921504606846976` of the limit; for the
peer limit `10^21` they send `1e+21`. -/
theorem request_fields_beyond_two_pow_53 :
    webUIForm [100, 101] "a.torrent"
        ⟨"a.torrent", none, none, false, some 1152921504606846976, none, none⟩
      = .ok [("torrents", .file [100, 101] "a.torrent" "application/x-bittorrent"),
          ("paused", .text "false"), ("root_folder", .text "false"),
          ("connection", .text "manual"),
          ("max-connections", .text "1152921504606847000")] ∧
    directForm [100, 101] "a.torrent"
        ⟨"a.torrent", none, none, false, some 1152921504606846976, none, none⟩
      = .ok [("torrents", .file [100, 101] "a.torrent" "application/x-bittorrent"),
          ("paused", .text "false"), ("root_folder", .text "false"),
          ("connection", .text "manual"),
          ("max-connections", .text "1152921504606847000")] ∧
    intText 1152921504606846976 = "1152921504606846976" ∧
    connectionFields (some 1000000000000000000000)
      = .ok [("connection", .text "manual"), ("max-connections", .text "1e+21")] := by
  have hc : connectionFields (some 1152921504606846976)
      = .ok [("connection", .text "manual"),
          ("max-connections", .text "1152921504606847000")] := by
    unfold connectionFields
    simp only
    rw [if_pos (by decide), numberText_two_pow_60]
    rfl
  refine ⟨?_, ?_, by decide, ?_⟩
  · unfold webUIForm
    simp only
    rw [hc]
    rfl
  · unfold directForm
    simp only
    rw [hc]
    rfl
  · unfold connectionFields
    simp only
    rw [if_pos (by decide), numberText_ten_pow_21]
    rfl

/-! ## The two strategies build the same request, up to the category -/

theorem category_fields_eq (category : Option String)
    (hcat : category = none ∨ category = some "" ∨
      ∃ c, category = some c ∧ jsTrim c = c ∧ c ≠ "") :
    trimmedCategory category = optionalField "category" category := by
  rcases hcat with h | h | ⟨c, h, h1, h2⟩
  · rw [h]; rfl
  · rw [h]; rfl
  · rw [h]
    unfold trimmedCategory optionalField
    simp only
    rw [if_pos ⟨h2, by rw [h1]; exact h2⟩, if_pos h2, h1]

/-- With a category that is absent, empty, or not blank and without surrounding white
space, the two strategies send the same fields, in another order. -/
theorem forms_agree (torrentBuffer : Buffer) (filename : String) (o : AddOptions)
    (hpeer : ∀ n, o.peerLimit = some n → n.natAbs ≤ 2 ^ 53)
    (hprio : ∀ ps, o.filePriorities = some ps → ∀ p ∈ ps, p.natAbs ≤ 2 ^ 53)
    (hcat : o.category = none ∨ o.category = some "" ∨
      ∃ c, o.category = some c ∧ jsTrim c = c ∧ c ≠ "") :
    ∃ fa fb, webUIForm torrentBuffer filename o = .ok fa ∧
      directForm torrentBuffer filename o = .ok fb ∧ fa.Perm fb := by
  refine ⟨_, _, webUIForm_small torrentBuffer filename o hpeer hprio,
    directForm_small torrentBuffer filename o hpeer hprio, ?_⟩
  rw [category_fields_eq o.category hcat]
  apply List.Perm.append_right
  apply List.Perm.append_right
  rw [List.append_assoc, List.append_assoc _ (optionalField "category" o.category)]
  exact List.Perm.append_left _ List.perm_append_comm

/-- **C19 (the code at the failing input).** For a category with surrounding blanks the two
strategies send different `category` fields: the page script of `addTorrentViaWebUI` sends
the category as given, the direct form sends it trimmed; and for a blank category the page
script sends the blanks while the direct form has no `category` field. -/
theorem forms_differ_on_category :
    webUIForm [100, 101] "a.torrent"
        ⟨"a.torrent", none, none, false, none, none, some " movies "⟩
      = .ok [("torrents", .file [100, 101] "a.torrent" "application/x-bittorrent"),
          ("paused", .text "false"), ("root_folder", .text "false"),
          ("category", .text " movies ")] ∧
    directForm [100, 101] "a.torrent"
        ⟨"a.torrent", none, none, false, none, none, some " movies "⟩
      = .ok [("torrents", .file [100, 101] "a.torrent" "application/x-bittorrent"),
          ("category", .text "movies"),
          ("paused", .text "false"), ("root_folder", .text "false")] ∧
    webUIForm [100, 101] "a.torrent"
        ⟨"a.torrent", none, none, false, none, none, some "  "⟩
      = .ok [("torrents", .file [100, 101] "a.torrent" "application/x-bittorrent"),
          ("paused", .text "false"), ("root_folder", .text "false"),
          ("category", .text "  ")] ∧
    directForm [100, 101] "a.torrent"
        ⟨"a.torrent", none, none, false, none, none, some "  "⟩
      = .ok [("torrents", .file [100, 101] "a.torrent" "application/x-bittorrent"),
          ("paused", .text "false"), ("root_folder", .text "false")] := by
  refine ⟨by decide, by decide, by decide, by decide⟩


/-! ## `skipValue` and `decode` side by side -/

theorem collect_throw {α : Type} (l : List (Outcome α)) (e : JSErr)
    (h : ∀ x ∈ l, ∀ e', x = .throw e' → e' = .typeError) (hc : collect l = .throw e) :
    e = .typeError := by
  induction l generalizing e with
  | nil => simp [collect] at hc
  | cons x xs ih =>
    cases x with
    | ok a =>
      rw [collect] at hc
      cases hx : collect xs with
      | ok as => rw [hx] at hc; simp at hc
      | throw e' =>
        rw [hx] at hc
        simp only [Outcome.throw.injEq] at hc
        rw [← hc]
        exact ih e' (fun y hy => h y (List.mem_cons_of_mem _ hy)) hx
      | timeout => rw [hx] at hc; simp at hc
      | unsupported => rw [hx] at hc; simp at hc
    | throw e' =>
      rw [collect] at hc
      simp only [Outcome.throw.injEq] at hc
      rw [← hc]
      exact h _ (List.mem_cons_self _ _) e' rfl
    | timeout => simp [collect] at hc
    | unsupported => simp [collect] at hc

mutual
theorem jsString_throw : ∀ (v : JSVal) (e : JSErr), jsString v = .throw e → e = .typeError
  | .undefined, e => by simp [jsString]
  | .num n, e => by
    rw [jsString]
    split <;> simp
  | .str s, e => by simp [jsString]
  | .buf b, e => by simp [jsString]
  | .arr xs, e => by
    rw [jsString]
    intro h
    cases hc : collect (jsStringList xs) with
    | ok ss => rw [hc] at h; simp at h
    | throw e' =>
      rw [hc] at h
      simp only [Outcome.throw.injEq] at h
      rw [← h]
      exact collect_throw _ _ (jsStringList_throw xs) hc
    | timeout => rw [hc] at h; simp at h
    | unsupported => rw [hc] at h; simp at h
  | .obj props, e => by
    rw [jsString]
    split
    · intro h
      simp only [Outcome.throw.injEq] at h
      exact h.symm
    · simp
theorem jsStringList_throw : ∀ (xs : List JSVal), ∀ x ∈ jsStringList xs,
    ∀ e, x = .throw e → e = .typeError
  | [] => by simp [jsStringList]
  | y :: ys => by
    intro x hx e he
    rw [jsStringList, List.mem_cons] at hx
    rcases hx with hx | hx
    · rw [hx] at he; exact jsString_throw y e he
    · exact jsStringList_throw ys x hx e he
end

theorem keyOf_throw (v : JSVal) (e : JSErr) (h : keyOf v = .throw e) : e = .typeError := by
  unfold keyOf at h
  split at h
  · simp at h
  · exact jsString_throw _ _ h

/-- Where `skipValue` returns, `decode` returns the same end offset, unless converting a
key raises or the run reaches a `__proto__` key. -/
theorem skip_to_decode_aux (buffer : Buffer) (n : Nat) :
    (∀ k p r, skipValue n k buffer p = .ok r →
      (∃ v, decode n k buffer p = .ok (v, r)) ∨ decode n k buffer p = .throw .typeError ∨
        decode n k buffer p = .unsupported) ∧
    (∀ k p acc r, skipListLoop n k buffer p = .ok r →
      (∃ v, decodeListLoop n k buffer p acc = .ok (v, r)) ∨
        decodeListLoop n k buffer p acc = .throw .typeError ∨
        decodeListLoop n k buffer p acc = .unsupported) ∧
    (∀ k p acc r, skipDictLoop n k buffer p = .ok r →
      (∃ v, decodeDictLoop n k buffer p acc = .ok (v, r)) ∨
        decodeDictLoop n k buffer p acc = .throw .typeError ∨
        decodeDictLoop n k buffer p acc = .unsupported) := by
  induction n with
  | zero =>
    refine ⟨?_, ?_, ?_⟩
    · intro k p r h; rw [skipValue_zero] at h; cases h
    · intro k p acc r h; rw [skipListLoop_zero] at h; cases h
    · intro k p acc r h; rw [skipDictLoop_zero] at h; cases h
  | succ n ih =>
    obtain ⟨ihv, ihl, ihd⟩ := ih
    refine ⟨?_, ?_, ?_⟩
    · intro k p r h
      cases k with
      | zero => rw [skipValue_no_stack] at h; cases h
      | succ k =>
        rw [skipValue_succ] at h
        cases hb : bufAt buffer p with
        | none => rw [hb] at h; cases h
        | some c =>
          obtain ⟨i, hi, _, _⟩ := bufAt_some _ _ _ hb
          subst hi
          rw [hb] at h
          rw [decode_succ, truthy_ofNat, hb]
          simp only at h ⊢
          by_cases h1 : c = 0x69
          · simp only [h1, if_true, Outcome.ok.injEq] at h ⊢
            exact Or.inl ⟨_, by rw [h]⟩
          · simp only [h1, if_false] at h ⊢
            by_cases h2 : 0x30 ≤ c ∧ c ≤ 0x39
            · simp only [h2, and_self, if_true, Outcome.ok.injEq] at h ⊢
              exact Or.inl ⟨_, by rw [h]⟩
            · simp only [h2, if_false] at h ⊢
              by_cases h3 : c = 0x6c
              · simp only [h3, if_true] at h ⊢
                exact ihl _ _ _ _ h
              · simp only [h3, if_false] at h ⊢
                by_cases h4 : c = 0x64
                · simp only [h4, if_true] at h ⊢
                  exact ihd _ _ _ _ h
                · simp only [h4, if_false] at h; cases h
    · intro k p acc r h
      rw [skipListLoop_succ] at h
      rw [decodeListLoop_succ]
      by_cases he : bufAt buffer p = some 0x65
      · simp only [he, if_true, Outcome.ok.injEq] at h ⊢
        exact Or.inl ⟨_, by rw [h]⟩
      · simp only [he, if_false] at h ⊢
        cases hs : skipValue n k buffer p with
        | ok p1 =>
          rw [hs] at h
          simp only at h
          rcases ihv k p p1 hs with ⟨v, hd⟩ | hd | hd
          · rw [hd]
            exact ihl _ _ _ _ h
          · rw [hd]; exact Or.inr (Or.inl rfl)
          · rw [hd]; exact Or.inr (Or.inr rfl)
        | throw e => rw [hs] at h; cases h
        | timeout => rw [hs] at h; cases h
        | unsupported => rw [hs] at h; cases h
    · intro k p acc r h
      rw [skipDictLoop_succ] at h
      rw [decodeDictLoop_succ]
      by_cases he : bufAt buffer p = some 0x65
      · simp only [he, if_true, Outcome.ok.injEq] at h ⊢
        exact Or.inl ⟨_, by rw [h]⟩
      · simp only [he, if_false] at h ⊢
        cases hs : skipValue n k buffer p with
        | ok p1 =>
          rw [hs] at h
          simp only at h
          cases hs2 : skipValue n k buffer p1 with
          | ok p2 =>
            rw [hs2] at h
            simp only at h
            rcases ihv k p p1 hs with ⟨v1, hd⟩ | hd | hd
            · rw [hd]
              simp only
              rcases ihv k p1 p2 hs2 with ⟨v2, hd2⟩ | hd2 | hd2
              · rw [hd2]
                simp only
                cases hk : keyOf v1 with
                | ok key =>
                  simp only
                  by_cases hp : key = "__proto__"
                  · rw [if_pos hp]; exact Or.inr (Or.inr rfl)
                  · rw [if_neg hp]
                    exact ihd _ _ _ _ h
                | throw e =>
                  simp only
                  rw [keyOf_throw v1 e hk]
                  exact Or.inr (Or.inl rfl)
                | timeout => exact absurd hk (keyOf_ne_timeout _)
                | unsupported => exact Or.inr (Or.inr rfl)
              · rw [hd2]; exact Or.inr (Or.inl rfl)
              · rw [hd2]; exact Or.inr (Or.inr rfl)
            · rw [hd]; exact Or.inr (Or.inl rfl)
            · rw [hd]; exact Or.inr (Or.inr rfl)
          | throw e => rw [hs2] at h; cases h
          | timeout => rw [hs2] at h; cases h
          | unsupported => rw [hs2] at h; cases h
        | throw e => rw [hs] at h; cases h
        | timeout => rw [hs] at h; cases h
        | unsupported => rw [hs] at h; cases h

/-- Where `decode` returns, `skipValue` returns the same end offset, unless it raises
`Invalid bencode` (at an offset `NaN`, which `decode` reads as 0). -/
theorem decode_to_skip_aux (buffer : Buffer) (n : Nat) :
    (∀ k p r, decode n k buffer p = .ok r →
      skipValue n k buffer p = .ok r.2 ∨
        skipValue n k buffer p = .throw (.invalidBencode none)) ∧
    (∀ k p acc r, decodeListLoop n k buffer p acc = .ok r →
      skipListLoop n k buffer p = .ok r.2 ∨
        skipListLoop n k buffer p = .throw (.invalidBencode none)) ∧
    (∀ k p acc r, decodeDictLoop n k buffer p acc = .ok r →
      skipDictLoop n k buffer p = .ok r.2 ∨
        skipDictLoop n k buffer p = .throw (.invalidBencode none)) := by
  induction n with
  | zero =>
    refine ⟨?_, ?_, ?_⟩
    · intro k p r h; rw [decode_zero] at h; cases h
    · intro k p acc r h; rw [decodeListLoop_zero] at h; cases h
    · intro k p acc r h; rw [decodeDictLoop_zero] at h; cases h
  | succ n ih =>
    obtain ⟨ihv, ihl, ihd⟩ := ih
    refine ⟨?_, ?_, ?_⟩
    · intro k p r h
      cases k with
      | zero => rw [decode_no_stack] at h; cases h
      | succ k =>
        rw [skipValue_succ]
        cases hb : bufAt buffer p with
        | none => exact Or.inr rfl
        | some c =>
          obtain ⟨i, hi, _, _⟩ := bufAt_some _ _ _ hb
          subst hi
          rw [decode_succ, truthy_ofNat, hb] at h
          simp only at h ⊢
          by_cases h1 : c = 0x69
          · simp only [h1, if_true, Outcome.ok.injEq] at h ⊢
            rw [← h]
            exact Or.inl rfl
          · simp only [h1, if_false] at h ⊢
            by_cases h2 : 0x30 ≤ c ∧ c ≤ 0x39
            · simp only [h2, and_self, if_true, Outcome.ok.injEq] at h ⊢
              rw [← h]
              exact Or.inl rfl
            · simp only [h2, if_false] at h ⊢
              by_cases h3 : c = 0x6c
              · simp only [h3, if_true] at h ⊢
                exact ihl _ _ _ _ h
              · simp only [h3, if_false] at h ⊢
                by_cases h4 : c = 0x64
                · simp only [h4, if_true] at h ⊢
                  exact ihd _ _ _ _ h
                · simp only [h4, if_false] at h; cases h
    · intro k p acc r h
      rw [decodeListLoop_succ] at h
      rw [skipListLoop_succ]
      by_cases he : bufAt buffer p = some 0x65
      · simp only [he, if_true, Outcome.ok.injEq] at h ⊢
        rw [← h]
        exact Or.inl rfl
      · simp only [he, if_false] at h ⊢
        cases hs : decode n k buffer p with
        | ok r1 =>
          rw [hs] at h
          simp only at h
          rcases ihv k p r1 hs with hd | hd
          · rw [hd]
            exact ihl _ _ _ _ h
          · rw [hd]; exact Or.inr rfl
        | throw e => rw [hs] at h; cases h
        | timeout => rw [hs] at h; cases h
        | unsupported => rw [hs] at h; cases h
    · intro k p acc r h
      rw [decodeDictLoop_succ] at h
      rw [skipDictLoop_succ]
      by_cases he : bufAt buffer p = some 0x65
      · simp only [he, if_true, Outcome.ok.injEq] at h ⊢
        rw [← h]
        exact Or.inl rfl
      · simp only [he, if_false] at h ⊢
        cases hs : decode n k buffer p with
        | ok r1 =>
          rw [hs] at h
          simp only at h
          cases hs2 : decode n k buffer r1.2 with
          | ok r2 =>
            rw [hs2] at h
            simp only at h
            rcases ihv k p r1 hs with hd | hd
            · rw [hd]
              simp only
              rcases ihv k r1.2 r2 hs2 with hd2 | hd2
              · rw [hd2]
                simp only
                cases hk : keyOf r1.1 with
                | ok key =>
                  rw [hk] at h
                  simp only at h
                  by_cases hp : key = "__proto__"
                  · rw [if_pos hp] at h; cases h
                  · rw [if_neg hp] at h
                    exact ihd _ _ _ _ h
                | throw e => rw [hk] at h; cases h
                | timeout => rw [hk] at h; cases h
                | unsupported => rw [hk] at h; cases h
              · rw [hd2]; exact Or.inr rfl
            · rw [hd]; exact Or.inr rfl
          | throw e => rw [hs2] at h; cases h
          | timeout => rw [hs2] at h; cases h
          | unsupported => rw [hs2] at h; cases h
        | throw e => rw [hs] at h; cases h
        | timeout => rw [hs] at h; cases h
        | unsupported => rw [hs] at h; cases h

/-- Two runs of the skipping walk that differ only in the stack budget end the same way,
unless one of them exhausts its budget. -/
theorem skip_stack_gen (buffer : Buffer) (n : Nat) :
    (∀ k k' p, skipValue n k' buffer p = skipValue n k buffer p ∨
      skipValue n k' buffer p = .throw .rangeError ∨
      skipValue n k buffer p = .throw .rangeError) ∧
    (∀ k k' p, skipListLoop n k' buffer p = skipListLoop n k buffer p ∨
      skipListLoop n k' buffer p = .throw .rangeError ∨
      skipListLoop n k buffer p = .throw .rangeError) ∧
    (∀ k k' p, skipDictLoop n k' buffer p = skipDictLoop n k buffer p ∨
      skipDictLoop n k' buffer p = .throw .rangeError ∨
      skipDictLoop n k buffer p = .throw .rangeError) := by
  induction n with
  | zero =>
    refine ⟨?_, ?_, ?_⟩
    · intro k k' p; left; rw [skipValue_zero, skipValue_zero]
    · intro k k' p; left; rw [skipListLoop_zero, skipListLoop_zero]
    · intro k k' p; left; rw [skipDictLoop_zero, skipDictLoop_zero]
  | succ n ih =>
    obtain ⟨ihv, ihl, ihd⟩ := ih
    refine ⟨?_, ?_, ?_⟩
    · intro k k' p
      cases k' with
      | zero => right; left; rw [skipValue_no_stack]
      | succ k' =>
        cases k with
        | zero => right; right; rw [skipValue_no_stack]
        | succ k =>
          rw [skipValue_succ, skipValue_succ]
          cases hb : bufAt buffer p with
          | none => exact Or.inl rfl
          | some c =>
            simp only
            by_cases h1 : c = 0x69
            · simp only [h1, if_true]; exact Or.inl trivial
            · simp only [h1, if_false]
              by_cases h2 : 0x30 ≤ c ∧ c ≤ 0x39
              · simp only [h2, and_self, if_true]; exact Or.inl trivial
              · simp only [h2, if_false]
                by_cases h3 : c = 0x6c
                · simp only [h3, if_true]
                  exact ihl _ _ _
                · simp only [h3, if_false]
                  by_cases h4 : c = 0x64
                  · simp only [h4, if_true]
                    exact ihd _ _ _
                  · simp only [h4, if_false]; exact Or.inl trivial
    · intro k k' p
      rw [skipListLoop_succ, skipListLoop_succ]
      by_cases he : bufAt buffer p = some 0x65
      · rw [if_pos he, if_pos he]; exact Or.inl rfl
      · rw [if_neg he, if_neg he]
        rcases ihv k k' p with h | h | h
        · rw [h]
          cases hs : skipValue n k buffer p with
          | ok p1 => exact ihl _ _ _
          | throw e => exact Or.inl rfl
          | timeout => exact Or.inl rfl
          | unsupported => exact Or.inl rfl
        · rw [h]; exact Or.inr (Or.inl rfl)
        · rw [h]; exact Or.inr (Or.inr rfl)
    · intro k k' p
      rw [skipDictLoop_succ, skipDictLoop_succ]
      by_cases he : bufAt buffer p = some 0x65
      · rw [if_pos he, if_pos he]; exact Or.inl rfl
      · rw [if_neg he, if_neg he]
        rcases ihv k k' p with h | h | h
        · rw [h]
          cases hs : skipValue n k buffer p with
          | ok p1 =>
            simp only
            rcases ihv k k' p1 with h2 | h2 | h2
            · rw [h2]
              cases hs2 : skipValue n k buffer p1 with
              | ok p2 => exact ihd _ _ _
              | throw e => exact Or.inl rfl
              | timeout => exact Or.inl rfl
              | unsupported => exact Or.inl rfl
            · rw [h2]; exact Or.inr (Or.inl rfl)
            · rw [h2]; exact Or.inr (Or.inr rfl)
          | throw e => exact Or.inl rfl
          | timeout => exact Or.inl rfl
          | unsupported => exact Or.inl rfl
        · rw [h]; exact Or.inr (Or.inl rfl)
        · rw [h]; exact Or.inr (Or.inr rfl)

/-- Two runs of `decode` that differ only in the stack budget end the same way, unless one
of them exhausts its budget. -/
theorem decode_stack_gen (buffer : Buffer) (n : Nat) :
    (∀ k k' p, decode n k' buffer p = decode n k buffer p ∨
      decode n k' buffer p = .throw .rangeError ∨
      decode n k buffer p = .throw .rangeError) ∧
    (∀ k k' p acc, decodeListLoop n k' buffer p acc = decodeListLoop n k buffer p acc ∨
      decodeListLoop n k' buffer p acc = .throw .rangeError ∨
      decodeListLoop n k buffer p acc = .throw .rangeError) ∧
    (∀ k k' p acc, decodeDictLoop n k' buffer p acc = decodeDictLoop n k buffer p acc ∨
      decodeDictLoop n k' buffer p acc = .throw .rangeError ∨
      decodeDictLoop n k buffer p acc = .throw .rangeError) := by
  induction n with
  | zero =>
    refine ⟨?_, ?_, ?_⟩
    · intro k k' p; left; rw [decode_zero, decode_zero]
    · intro k k' p acc; left; rw [decodeListLoop_zero, decodeListLoop_zero]
    · intro k k' p acc; left; rw [decodeDictLoop_zero, decodeDictLoop_zero]
  | succ n ih =>
    obtain ⟨ihv, ihl, ihd⟩ := ih
    refine ⟨?_, ?_, ?_⟩
    · intro k k' p
      cases k' with
      | zero => right; left; rw [decode_no_stack]
      | succ k' =>
        cases k with
        | zero => right; right; rw [decode_no_stack]
        | succ k =>
          rw [decode_succ, decode_succ]
          cases hb : bufAt buffer (if p.truthy then p else .fin 0) with
          | none => exact Or.inl rfl
          | some c =>
            simp only
            by_cases h1 : c = 0x69
            · simp only [h1, if_true]; exact Or.inl trivial
            · simp only [h1, if_false]
              by_cases h2 : 0x30 ≤ c ∧ c ≤ 0x39
              · simp only [h2, and_self, if_true]; exact Or.inl trivial
              · simp only [h2, if_false]
                by_cases h3 : c = 0x6c
                · simp only [h3, if_true]
                  exact ihl _ _ _ _
                · simp only [h3, if_false]
                  by_cases h4 : c = 0x64
                  · simp only [h4, if_true]
                    exact ihd _ _ _ _
                  · simp only [h4, if_false]; exact Or.inl trivial
    · intro k k' p acc
      rw [decodeListLoop_succ, decodeListLoop_succ]
      by_cases he : bufAt buffer p = some 0x65
      · rw [if_pos he, if_pos he]; exact Or.inl rfl
      · rw [if_neg he, if_neg he]
        rcases ihv k k' p with h | h | h
        · rw [h]
          cases hs : decode n k buffer p with
          | ok p1 => exact ihl _ _ _ _
          | throw e => exact Or.inl rfl
          | timeout => exact Or.inl rfl
          | unsupported => exact Or.inl rfl
        · rw [h]; exact Or.inr (Or.inl rfl)
        · rw [h]; exact Or.inr (Or.inr rfl)
    · intro k k' p acc
      rw [decodeDictLoop_succ, decodeDictLoop_succ]
      by_cases he : bufAt buffer p = some 0x65
      · rw [if_pos he, if_pos he]; exact Or.inl rfl
      · rw [if_neg he, if_neg he]
        rcases ihv k k' p with h | h | h
        · rw [h]
          cases hs : decode n k buffer p with
          | ok p1 =>
            simp only
            rcases ihv k k' p1.2 with h2 | h2 | h2
            · rw [h2]
              cases hs2 : decode n k buffer p1.2 with
              | ok p2 =>
                simp only
                cases hk : keyOf p1.1 with
                | ok key =>
                  simp only
                  by_cases hp : key = "__proto__"
                  · rw [if_pos hp, if_pos hp]; exact Or.inl rfl
                  · rw [if_neg hp, if_neg hp]; exact ihd _ _ _ _
                | throw e => exact Or.inl rfl
                | timeout => exact Or.inl rfl
                | unsupported => exact Or.inl rfl
              | throw e => exact Or.inl rfl
              | timeout => exact Or.inl rfl
              | unsupported => exact Or.inl rfl
            · rw [h2]; exact Or.inr (Or.inl rfl)
            · rw [h2]; exact Or.inr (Or.inr rfl)
          | throw e => exact Or.inl rfl
          | timeout => exact Or.inl rfl
          | unsupported => exact Or.inl rfl
        · rw [h]; exact Or.inr (Or.inl rfl)
        · rw [h]; exact Or.inr (Or.inr rfl)

/-- **C18 (as amended).** `skipValue` and `decode` at the same buffer and start offset, each
with a stack budget of its own.  Where `skipValue` returns, a run of `decode` that assigns
no key `__proto__` returns the same end offset, or raises the `TypeError` of a key that
cannot be converted to a string, or the `RangeError` of its exhausted stack.  Where
`decode` returns, `skipValue` returns the same end offset, or raises `Invalid bencode` or
the `RangeError` of its exhausted stack.  Two returned end offsets never differ.  On the
encoding of a value without a key `__proto__`, nested within both stack budgets, at any
offset of a buffer shorter than `2^31` bytes, both return the offset just behind the
encoding. -/
theorem skipValue_agrees_with_decode (buffer : Buffer) (fuel fuel' stack stack' : Nat)
    (start : JSNum) :
    (∀ r, skipValue fuel stack buffer start = .ok r → fuel ≤ fuel' →
      decode fuel' stack' buffer start ≠ .unsupported →
      (∃ v, decode fuel' stack' buffer start = .ok (v, r)) ∨
        decode fuel' stack' buffer start = .throw .typeError ∨
        decode fuel' stack' buffer start = .throw .rangeError) ∧
    (∀ v r, decode fuel' stack' buffer start = .ok (v, r) → fuel' ≤ fuel →
      skipValue fuel stack buffer start = .ok r ∨
        skipValue fuel stack buffer start = .throw (.invalidBencode none) ∨
        skipValue fuel stack buffer start = .throw .rangeError) ∧
    (∀ v r r', decode fuel' stack' buffer start = .ok (v, r) →
      skipValue fuel stack buffer start = .ok r' → r' = r) ∧
    (∀ (x : BVal) (pre post : List Nat), buffer = pre ++ x.encode ++ post →
      start = JSNum.ofNat pre.length → x.NoProto → buffer.length < 2 ^ 31 →
      x.encode.length ≤ fuel → x.encode.length ≤ fuel' → x.depth ≤ stack → x.depth ≤ stack' →
      skipValue fuel stack buffer start = .ok (JSNum.ofNat (pre.length + x.encode.length)) ∧
        decode fuel' stack' buffer start
          = .ok (x.decoded, JSNum.ofNat (pre.length + x.encode.length))) := by
  refine ⟨?_, ?_, ?_, ?_⟩
  · intro r hs hf hu
    have hs' : skipValue fuel' stack buffer start = .ok r := by
      rw [skipValue_mono buffer stack start fuel fuel' hf (by rw [hs]; simp), hs]
    have hd := (skip_to_decode_aux buffer fuel').1 stack start r hs'
    rcases (decode_stack_gen buffer fuel').1 stack stack' start with h | h | h
    · rw [h]
      rcases hd with hd | hd | hd
      · exact Or.inl hd
      · exact Or.inr (Or.inl hd)
      · exact absurd (h.trans hd) hu
    · exact Or.inr (Or.inr h)
    · rw [h] at hd
      rcases hd with ⟨v, hd⟩ | hd | hd
      · cases hd
      · cases hd
      · cases hd
  · intro v r hd hf
    have hd' : decode fuel stack' buffer start = .ok (v, r) := by
      rw [decode_mono buffer stack' start fuel' fuel hf (by rw [hd]; simp), hd]
    have hs := (decode_to_skip_aux buffer fuel).1 stack' start (v, r) hd'
    rcases (skip_stack_gen buffer fuel).1 stack' stack start with h | h | h
    · rw [h]
      rcases hs with hs | hs
      · exact Or.inl hs
      · exact Or.inr (Or.inl hs)
    · exact Or.inr (Or.inr h)
    · rw [h] at hs
      rcases hs with hs | hs
      · cases hs
      · cases hs
  · intro v r r' hd hs
    have hd' : decode (max fuel fuel') stack' buffer start = .ok (v, r) := by
      rw [decode_mono buffer stack' start fuel' _ (Nat.le_max_right _ _) (by rw [hd]; simp), hd]
    have hs' : skipValue (max fuel fuel') stack buffer start = .ok r' := by
      rw [skipValue_mono buffer stack start fuel _ (Nat.le_max_left _ _) (by rw [hs]; simp), hs]
    have h1 := (decode_to_skip_aux buffer (max fuel fuel')).1 stack' start (v, r) hd'
    rcases (skip_stack_aux buffer (max fuel fuel')).1 stack stack' start r' hs' with h2 | h2
    · rw [h2] at h1
      rcases h1 with h1 | h1
      · injection h1
      · cases h1
    · rw [h2] at h1
      rcases h1 with h1 | h1
      · cases h1
      · cases h1
  · intro x pre post hb hs hrep hlen hfuel hfuel' hstack hstack'
    subst hb
    subst hs
    refine ⟨?_, (decode_value_aux fuel').1 x pre post stack' hrep hlen hfuel' hstack'⟩
    rw [skipValue_encode x pre post fuel stack hlen hfuel, if_pos hstack]

/-- Witness for C18: the dictionary `d1:ali-3e2:xyee` read from offset 0, `skipValue` with
a stack budget of 5 and `decode` with one of 7. -/
theorem skipValue_agrees_with_decode_witness :
    ((∃ v, decode 25 7 ([] ++ (BVal.dict [([97], .list [.int (-3), .bytes [120, 121]])]).encode
          ++ []) (.fin 0) = .ok (v, .fin 15)) ∨
      decode 25 7 ([] ++ (BVal.dict [([97], .list [.int (-3), .bytes [120, 121]])]).encode
          ++ []) (.fin 0) = .throw .typeError ∨
      decode 25 7 ([] ++ (BVal.dict [([97], .list [.int (-3), .bytes [120, 121]])]).encode
          ++ []) (.fin 0) = .throw .rangeError) ∧
    (skipValue 20 5 ([] ++ (BVal.dict [([97], .list [.int (-3), .bytes [120, 121]])]).encode ++ [])
        (.fin 0)
        = .ok (JSNum.ofNat (([] : List Nat).length +
            (BVal.dict [([97], .list [.int (-3), .bytes [120, 121]])]).encode.length)) ∧
      decode 25 7 ([] ++ (BVal.dict [([97], .list [.int (-3), .bytes [120, 121]])]).encode ++ [])
        (.fin 0)
        = .ok ((BVal.dict [([97], .list [.int (-3), .bytes [120, 121]])]).decoded,
            JSNum.ofNat (([] : List Nat).length +
              (BVal.dict [([97], .list [.int (-3), .bytes [120, 121]])]).encode.length))) :=
  ⟨(skipValue_agrees_with_decode
      ([] ++ (BVal.dict [([97], .list [.int (-3), .bytes [120, 121]])]).encode ++ []) 20 25 5 7
      (.fin 0)).1 (.fin 15) rfl (by decide)
      (by
        rw [show decode 25 7
          ([] ++ (BVal.dict [([97], .list [.int (-3), .bytes [120, 121]])]).encode ++ [])
          (.fin 0) = .ok (.obj [("a", .arr [.num (.fin (-3)), .buf [120, 121]])], .fin 15)
          from rfl]
        exact fun e => Outcome.noConfusion e),
   (skipValue_agrees_with_decode
      ([] ++ (BVal.dict [([97], .list [.int (-3), .bytes [120, 121]])]).encode ++ []) 20 25 5 7
      (.fin 0)).2.2.2 (BVal.dict [([97], .list [.int (-3), .bytes [120, 121]])]) [] [] rfl rfl
      (by simp only [BVal.NoProto, NoProtoPairs, NoProtoList, and_self, and_true]; decide)
      (by decide) (by decide) (by decide) (by decide) (by decide)⟩

/-- Counterexample to C18 as stated: on `i1eel5` from offset 4 the length prefix without
`:` ends at offset `NaN`; `decode` goes on at offset 0 and returns the end offset 4, while
`skipValue` raises.  On `dd8:toStringi1eei1ee` from offset 0 `skipValue` returns 20, while
`decode` raises a `TypeError` for the key that is a dictionary with a `toString` entry. -/
theorem skipValue_differs_from_decode :
    decode 10 5 [105, 49, 101, 101, 108, 53] (.fin 4)
        = .ok (.arr [.buf [], .num (.fin 1)], .fin 4) ∧
      skipValue 10 5 [105, 49, 101, 101, 108, 53] (.fin 4) = .throw (.invalidBencode none) ∧
      skipValue 10 5
          [100, 100, 56, 58, 116, 111, 83, 116, 114, 105, 110, 103, 105, 49, 101, 101,
            105, 49, 101, 101] (.fin 0) = .ok (.fin 20) ∧
      decode 10 5
          [100, 100, 56, 58, 116, 111, 83, 116, 114, 105, 110, 103, 105, 49, 101, 101,
            105, 49, 101, 101] (.fin 0) = .throw .typeError := by
  refine ⟨rfl, rfl, rfl, rfl⟩

end QbitRemote
